import Mathlib

/-!
# MST weight minimisation: a verification development

Shallow embedding of `mst_solver.cpp`.

* C++ `int` / `long long` values are modelled by `Int` (weights, capacities, flows,
  levels, value indices) and by `Nat` where the program only ever stores
  non-negative indices (node ids, edge ids, adjacency positions).  The arithmetic of
  the program stays far inside the 64-bit range on every input it is meant for, so no
  wrap-around is modelled.
* `std::vector` is modelled by `List`; an out-of-range read (undefined behaviour in
  C++) returns a default value and an out-of-range write is ignored.
* Loops whose number of iterations is not bounded by the length of a list they walk
  take a fuel argument and return `none` when it runs out.  Termination theorems
  show that enough fuel always yields `some` result.
-/

namespace MstSolver

/-! ## Data model -/

/-- The constant `INF = 1e18`. -/
def INF : Int := 1000000000000000000

/-- Input graph edge `struct Edge`. -/
structure Edge where
  u : Nat
  v : Nat
  w : Int
  id : Nat
deriving DecidableEq

/-- Residual-network edge `struct FlowEdge` (the field `to` is written `to_`). -/
structure FlowEdge where
  to_ : Nat
  capacity : Int
  flow : Int
  rev : Nat
deriving DecidableEq

/-- Value returned for an out-of-range adjacency read. -/
def FlowEdge.zero : FlowEdge := ⟨0, 0, 0, 0⟩

/-- The fields of `class Dinic`. -/
structure Dinic where
  n : Nat
  adj : List (List FlowEdge)
  level : List Int
  ptr : List Nat

/-! ## Dinic's algorithm -/

/-- Constructor `Dinic(int n)`. -/
def Dinic.init (n : Nat) : Dinic :=
  ⟨n, List.replicate n [], List.replicate n 0, List.replicate n 0⟩

/-- `Dinic::add_edge(from, to, capacity)`. -/
def Dinic.add_edge (d : Dinic) (frm to_ : Nat) (capacity : Int) : Dinic :=
  let forward : FlowEdge := ⟨to_, capacity, 0, (d.adj.getD to_ []).length⟩
  let backward : FlowEdge := ⟨frm, 0, 0, (d.adj.getD frm []).length⟩
  let adj1 := d.adj.set frm (d.adj.getD frm [] ++ [forward])
  let adj2 := adj1.set to_ (adj1.getD to_ [] ++ [backward])
  { d with adj := adj2 }

/-- The `for (const auto& edge : adj[v])` loop inside `Dinic::bfs`, acting on
`(level, q)`. -/
def bfsScan (v : Nat) : List FlowEdge → List Int × List Nat → List Int × List Nat
  | [], st => st
  | e :: es, (level, q) =>
    if e.capacity - e.flow > 0 ∧ level.getD e.to_ 0 = -1 then
      bfsScan v es (level.set e.to_ (level.getD v 0 + 1), q ++ [e.to_])
    else
      bfsScan v es (level, q)

/-- The `while (!q.empty())` loop of `Dinic::bfs`. -/
def bfsLoop (adj : List (List FlowEdge)) : Nat → List Int → List Nat → Option (List Int)
  | _, level, [] => some level
  | 0, _, _ :: _ => none
  | fuel + 1, level, v :: q =>
    let st := bfsScan v (adj.getD v []) (level, q)
    bfsLoop adj fuel st.1 st.2

/-- `Dinic::bfs(s, t)`: the returned flag is `level[t] != -1`. -/
def Dinic.bfs (fuel : Nat) (d : Dinic) (s t : Nat) : Option (Bool × Dinic) :=
  match bfsLoop d.adj fuel ((List.replicate d.level.length (-1 : Int)).set s 0) [s] with
  | none => none
  | some level => some (decide (level.getD t 0 ≠ -1), { d with level := level })

/-- Read access `adj[v]`. -/
def Dinic.edges (d : Dinic) (v : Nat) : List FlowEdge := d.adj.getD v []

/-- Read access `adj[v][i]`. -/
def Dinic.entry (d : Dinic) (v i : Nat) : FlowEdge := (d.edges v).getD i FlowEdge.zero

/-- Read access `level[v]`. -/
def Dinic.lvl (d : Dinic) (v : Nat) : Int := d.level.getD v 0

/-- Read access `ptr[v]`. -/
def Dinic.cur (d : Dinic) (v : Nat) : Nat := d.ptr.getD v 0

/-- The effect of `++cid` where `cid` is a reference to `ptr[v]`. -/
def Dinic.incPtr (d : Dinic) (v : Nat) : Dinic :=
  { d with ptr := d.ptr.set v (d.cur v + 1) }

/-- The effect of `adj[v][i].flow += x`. -/
def Dinic.addFlow (d : Dinic) (v i : Nat) (x : Int) : Dinic :=
  { d with adj := d.adj.set v ((d.edges v).set i { d.entry v i with flow := (d.entry v i).flow + x }) }

/-- The `for (int& cid = ptr[v]; cid < adj[v].size(); ++cid)` loop of `Dinic::dfs`;
`rcall d tr pushed` stands for the recursive call `dfs(tr, t, pushed)`. -/
def dfsLoop (rcall : Dinic → Nat → Int → Option (Int × Dinic)) (v : Nat) (pushed : Int) :
    Nat → Dinic → Option (Int × Dinic)
  | 0, _ => none
  | k + 1, d =>
    if d.cur v < (d.edges v).length then
      if d.lvl v + 1 ≠ d.lvl (d.entry v (d.cur v)).to_ ∨
          (d.entry v (d.cur v)).capacity - (d.entry v (d.cur v)).flow = 0 then
        dfsLoop rcall v pushed k (d.incPtr v)
      else
        match rcall d (d.entry v (d.cur v)).to_
            (min pushed ((d.entry v (d.cur v)).capacity - (d.entry v (d.cur v)).flow)) with
        | none => none
        | some (tr_pushed, d1) =>
          if tr_pushed = 0 then
            dfsLoop rcall v pushed k (d1.incPtr v)
          else
            some (tr_pushed,
              (d1.addFlow v (d.cur v) tr_pushed).addFlow (d.entry v (d.cur v)).to_
                ((d1.addFlow v (d.cur v) tr_pushed).entry v (d.cur v)).rev (-tr_pushed))
    else
      some (0, d)

/-- `Dinic::dfs(v, t, pushed)`. -/
def Dinic.dfs : Nat → Dinic → Nat → Nat → Int → Option (Int × Dinic)
  | 0, _, _, _, _ => none
  | fuel + 1, d, v, t, pushed =>
    if pushed = 0 then some (0, d)
    else if v = t then some (pushed, d)
    else dfsLoop (fun d1 tr p => Dinic.dfs fuel d1 tr t p) v pushed (fuel + 1) d

/-- The inner loop `while (long long pushed = dfs(s, t, INF)) flow += pushed;`.  The
accumulator `flow` is a `long long`; the sum is taken in the integers, which is the value
the code computes as long as it stays within `long long`. -/
def augmentLoop (fuel : Nat) (s t : Nat) : Nat → Dinic → Int → Option (Int × Dinic)
  | 0, _, _ => none
  | k + 1, d, flow =>
    match d.dfs fuel s t INF with
    | none => none
    | some (pushed, d1) =>
      if pushed = 0 then some (flow, d1) else augmentLoop fuel s t k d1 (flow + pushed)

/-- The outer loop `while (bfs(s, t)) { fill(ptr, 0); ... }` of `Dinic::max_flow`. -/
def phaseLoop (fuel : Nat) (s t : Nat) : Nat → Dinic → Int → Option (Int × Dinic)
  | 0, _, _ => none
  | k + 1, d, flow =>
    match d.bfs fuel s t with
    | none => none
    | some (false, d1) => some (flow, d1)
    | some (true, d1) =>
      match augmentLoop fuel s t fuel { d1 with ptr := List.replicate d1.ptr.length 0 } flow with
      | none => none
      | some (flow1, d2) => phaseLoop fuel s t k d2 flow1

/-- `Dinic::max_flow(s, t)`: the returned flow value and the network afterwards. -/
def Dinic.max_flow (fuel : Nat) (d : Dinic) (s t : Nat) : Option (Int × Dinic) :=
  phaseLoop fuel s t fuel d 0

/-- The `for (const auto& edge : adj[v])` loop inside `Dinic::get_cut`. -/
def cutScan : List FlowEdge → List Bool × List Nat → List Bool × List Nat
  | [], st => st
  | e :: es, (visited, q) =>
    if e.capacity - e.flow > 0 ∧ visited.getD e.to_ false = false then
      cutScan es (visited.set e.to_ true, q ++ [e.to_])
    else
      cutScan es (visited, q)

/-- The `while (!q.empty())` loop of `Dinic::get_cut`. -/
def cutLoop (adj : List (List FlowEdge)) : Nat → List Bool → List Nat → Option (List Bool)
  | _, visited, [] => some visited
  | 0, _, _ :: _ => none
  | fuel + 1, visited, v :: q =>
    let st := cutScan (adj.getD v []) (visited, q)
    cutLoop adj fuel st.1 st.2

/-- `Dinic::get_cut(s)`. -/
def Dinic.get_cut (fuel : Nat) (d : Dinic) (s : Nat) : Option (List Bool) :=
  cutLoop d.adj fuel ((List.replicate d.n false).set s true) [s]

/-! ## Tree path finder -/

/-- The `for (auto& edge : tree_adj[u])` loop of `get_path`; `rcall v path` stands for
the recursive call `get_path(v, target, u, path_edges)`. -/
def get_path_loop (rcall : Nat → List Nat → Option (Bool × List Nat)) (p : Int) :
    List (Nat × Nat) → List Nat → Option (Bool × List Nat)
  | [], path => some (false, path)
  | (v, idx) :: rest, path =>
    if (v : Int) ≠ p then
      match rcall v (path ++ [idx]) with
      | none => none
      | some (true, path1) => some (true, path1)
      | some (false, path1) => get_path_loop rcall p rest path1.dropLast
    else
      get_path_loop rcall p rest path

/-- `get_path(u, target, p, path_edges)`: the returned flag and `path_edges` afterwards. -/
def get_path (tree_adj : List (List (Nat × Nat))) :
    Nat → Nat → Nat → Int → List Nat → Option (Bool × List Nat)
  | 0, _, _, _, _ => none
  | fuel + 1, u, target, p, path =>
    if u = target then some (true, path)
    else
      get_path_loop (fun v path1 => get_path tree_adj fuel v target (u : Int) path1) p
        (tree_adj.getD u []) path

/-! ## Divide and conquer -/

/-- The global data read by `solve`. -/
structure Globals where
  all_edges : List Edge
  distinct_weights : List Int
  constraints : List (Nat × Nat)

/-- Value returned for an out-of-range read of `all_edges`. -/
def Edge.zero : Edge := ⟨0, 0, 0, 0⟩

/-- The local `map<int,int> node_map` of `solve` after
`for (i) node_map[nodes[i]] = i`, as an association list (latest binding first). -/
def build_node_map (nodes : List Nat) : List (Nat × Nat) :=
  (List.range nodes.length).foldl (fun m i => (nodes.getD i 0, i) :: m) []

/-- `node_map.count(u) != 0`. -/
def map_count (m : List (Nat × Nat)) (u : Nat) : Bool :=
  (m.find? (fun kv => kv.1 = u)).isSome

/-- `node_map[u]` (a missing key reads as `0`). -/
def map_get (m : List (Nat × Nat)) (u : Nat) : Nat :=
  match m.find? (fun kv => kv.1 = u) with
  | some kv => kv.2
  | none => 0

/-- The flow network built by `solve` for the active edge list `nodes` and the split
value `val`: preference edges of capacity 1, then constraint edges of capacity `INF`. -/
def build_network (g : Globals) (nodes : List Nat) (val : Int) : Dinic :=
  let num_active := nodes.length
  let node_map := build_node_map nodes
  let S := num_active
  let T := num_active + 1
  let d1 := (List.range num_active).foldl (fun d i =>
      let id := nodes.getD i 0
      let w := (g.all_edges.getD id Edge.zero).w
      if w > val then d.add_edge S i 1 else d.add_edge i T 1) (Dinic.init (T + 1))
  g.constraints.foldl (fun d p =>
      if map_count node_map p.1 ∧ map_count node_map p.2 then
        d.add_edge (map_get node_map p.1) (map_get node_map p.2) INF
      else d) d1

/-- The partition loop of `solve`: `(left_nodes, right_nodes)` from `cut`. -/
def split_nodes (nodes : List Nat) (cut : List Bool) : List Nat × List Nat :=
  (List.range nodes.length).foldl (fun lr i =>
      let id := nodes.getD i 0
      if cut.getD i false then (lr.1, lr.2 ++ [id]) else (lr.1 ++ [id], lr.2)) ([], [])

/-- The split step of `solve` (network construction, `max_flow`, `get_cut`, partition):
returns the flow value and `(left_nodes, right_nodes)`. -/
def solve_split (fuel : Nat) (g : Globals) (nodes : List Nat) (val : Int) :
    Option (Int × List Nat × List Nat) :=
  let S := nodes.length
  let T := nodes.length + 1
  match (build_network g nodes val).max_flow fuel S T with
  | none => none
  | some (flow, d) =>
    match d.get_cut fuel S with
    | none => none
    | some cut => some (flow, split_nodes nodes cut)

/-- The state threaded through `solve`: the global `final_weights`, and a ghost log
`writes` of the edge ids written so far (in order), which the program does not keep. -/
structure SolveState where
  final_weights : List Int
  writes : List Nat

/-- The base case loop `for (int id : nodes) final_weights[id] = distinct_weights[L_idx]`. -/
def assign_all (x : Int) : List Nat → SolveState → SolveState
  | [], st => st
  | id :: rest, st => assign_all x rest ⟨st.final_weights.set id x, st.writes ++ [id]⟩

/-- `solve(nodes, L_idx, R_idx)`. -/
def solve (g : Globals) : Nat → List Nat → Int → Int → SolveState → Option SolveState
  | 0, _, _, _, _ => none
  | fuel + 1, nodes, L_idx, R_idx, st =>
    if nodes.isEmpty then some st
    else if L_idx = R_idx then
      some (assign_all (g.distinct_weights.getD L_idx.toNat 0) nodes st)
    else
      let mid_idx := Int.tdiv (L_idx + R_idx) 2
      let val := g.distinct_weights.getD mid_idx.toNat 0
      match solve_split (fuel + 1) g nodes val with
      | none => none
      | some (_, left_nodes, right_nodes) =>
        match solve g fuel left_nodes L_idx mid_idx st with
        | none => none
        | some st1 => solve g fuel right_nodes (mid_idx + 1) R_idx st1

/-! ## The driver -/

/-- The input stream: `N`, the `M` edge triples `u v w`, and the tree pairs `u v`. -/
structure Input where
  N : Nat
  edges : List (Nat × Nat × Int)
  tree : List (Nat × Nat)

/-- `std::unique` on a list: keeps the first element of every run of equal elements. -/
def unique : List Int → List Int
  | [] => []
  | [a] => [a]
  | a :: b :: rest => if a = b then unique (b :: rest) else a :: unique (b :: rest)

/-- `all_edges` after the reading loop. -/
def read_edges (edges : List (Nat × Nat × Int)) : List Edge :=
  (List.range edges.length).map (fun i =>
    let e := edges.getD i (0, 0, 0)
    ⟨e.1, e.2.1, e.2.2, i⟩)

/-- `distinct_weights` after `sort` and `erase(unique(...))`. -/
def make_distinct_weights (all_edges : List Edge) : List Int :=
  unique ((all_edges.map (fun e => e.w)).insertionSort (fun a b => a ≤ b))

/-- The pair `{u, v}` after `if (u > v) swap(u, v)`. -/
def norm_pair (u v : Nat) : Nat × Nat := if u > v then (v, u) else (u, v)

/-- The `map<pair<int,int>,int> edge_map` after its filling loop, as an association
list (latest binding first). -/
def build_edge_map (all_edges : List Edge) : List ((Nat × Nat) × Nat) :=
  (List.range all_edges.length).foldl (fun m i =>
    let e := all_edges.getD i Edge.zero
    (norm_pair e.u e.v, i) :: m) []

/-- `edge_map[{u, v}]`: `operator[]` value-initialises a missing key, so it reads `0`. -/
def edge_map_get (m : List ((Nat × Nat) × Nat)) (k : Nat × Nat) : Nat :=
  match m.find? (fun kv => kv.1 = k) with
  | some kv => kv.2
  | none => 0

/-- The variables written by the tree identification loop of `main`. -/
structure TreeState where
  is_tree : List Bool
  tree_edge_indices : List Nat
  tree_adj : List (List (Nat × Nat))

/-- One iteration of the tree identification loop, for the pair `(u, v)` read.  The write
`is_tree[idx] = true` is in bounds when `idx < is_tree.size()`; the list update describes
it in that case only. -/
def tree_step (edge_map : List ((Nat × Nat) × Nat)) (ts : TreeState) (uv : Nat × Nat) :
    TreeState :=
  let k := norm_pair uv.1 uv.2
  let u := k.1
  let v := k.2
  let idx := edge_map_get edge_map k
  let adj1 := ts.tree_adj.set u (ts.tree_adj.getD u [] ++ [(v, idx)])
  let adj2 := adj1.set v (adj1.getD v [] ++ [(u, idx)])
  ⟨ts.is_tree.set idx true, ts.tree_edge_indices ++ [idx], adj2⟩

/-- The tree identification loop of `main` (`N - 1` iterations). -/
def identify_tree (inp : Input) (all_edges : List Edge) : TreeState :=
  (inp.tree.take (inp.N - 1)).foldl (tree_step (build_edge_map all_edges))
    ⟨List.replicate all_edges.length false, [], List.replicate (inp.N + 1) []⟩

/-- `non_tree_edge_indices` after its filling loop. -/
def make_non_tree (is_tree : List Bool) : List Nat :=
  (List.range is_tree.length).filter (fun i => is_tree.getD i false = false)

/-- The constraint building loop of `main` over the non-tree edges `fs`. -/
def build_constraints (fuel : Nat) (all_edges : List Edge) (tree_adj : List (List (Nat × Nat))) :
    List Nat → List (Nat × Nat) → Option (List (Nat × Nat))
  | [], constraints => some constraints
  | f_idx :: fs, constraints =>
    let e := all_edges.getD f_idx Edge.zero
    match get_path tree_adj fuel e.u e.v (-1) [] with
    | none => none
    | some (_, path_edges) =>
      build_constraints fuel all_edges tree_adj fs
        (constraints ++ path_edges.map (fun e_idx => (e_idx, f_idx)))

/-- The globals of the program when `solve` is called from `main`. -/
def setup (fuel : Nat) (inp : Input) : Option (Globals × TreeState) :=
  let all_edges := read_edges inp.edges
  let ts := identify_tree inp all_edges
  match build_constraints fuel all_edges ts.tree_adj (make_non_tree ts.is_tree) [] with
  | none => none
  | some constraints => some (⟨all_edges, make_distinct_weights all_edges, constraints⟩, ts)

/-- The accumulation loop `total_cost += abs(final_weights[i] - all_edges[i].w)`. -/
def total_cost (all_edges : List Edge) (final_weights : List Int) : Int :=
  (List.range all_edges.length).foldl (fun acc i =>
    acc + |final_weights.getD i 0 - (all_edges.getD i Edge.zero).w|) 0

/-- The state of `final_weights` (and the ghost write log) after the top-level call
`solve(initial_nodes, 0, distinct_weights.size() - 1)` made by `main`. -/
def run (fuel : Nat) (inp : Input) : Option (Globals × SolveState) :=
  match setup fuel inp with
  | none => none
  | some (g, _) =>
    let M := g.all_edges.length
    match solve g fuel (List.range M) 0 ((g.distinct_weights.length : Int) - 1)
        ⟨List.replicate M 0, []⟩ with
    | none => none
    | some st => some (g, st)

/-- The integer printed by `main`. -/
def main (fuel : Nat) (inp : Input) : Option Int :=
  match run fuel inp with
  | none => none
  | some (g, st) => some (total_cost g.all_edges st.final_weights)

/-! ## Specification vocabulary for the flow engine -/

/-- Structural well-formedness of a residual network: the vectors have `n` entries,
every edge points to a node, and the `rev` index of an edge between two different
nodes names an edge pointing back. -/
structure Dinic.WF (d : Dinic) : Prop where
  adj_len : d.adj.length = d.n
  level_len : d.level.length = d.n
  ptr_len : d.ptr.length = d.n
  to_lt : ∀ v i, i < (d.edges v).length → (d.entry v i).to_ < d.n
  pair : ∀ v i, i < (d.edges v).length → (d.entry v i).to_ ≠ v →
    (d.entry v i).rev < (d.edges (d.entry v i).to_).length ∧
      (d.entry (d.entry v i).to_ (d.entry v i).rev).to_ = v

/-- Capacity feasibility: `flow <= capacity` on every adjacency entry. -/
def Dinic.CapOK (d : Dinic) : Prop :=
  ∀ v i, i < (d.edges v).length → (d.entry v i).flow ≤ (d.entry v i).capacity

/-- Two networks have the same edges (`to`, `capacity`, `rev`); only flows, levels and
cursors may differ. -/
def Dinic.SameShape (d d' : Dinic) : Prop :=
  d'.n = d.n ∧ d'.adj.length = d.adj.length ∧
    ∀ v, (d'.edges v).length = (d.edges v).length ∧
      ∀ i, (d'.entry v i).to_ = (d.entry v i).to_ ∧
        (d'.entry v i).capacity = (d.entry v i).capacity ∧
        (d'.entry v i).rev = (d.entry v i).rev

/-- Sum of `g v e` over all adjacency entries `e` of all nodes `v`. -/
def Dinic.esum (d : Dinic) (g : Nat → FlowEdge → Int) : Int :=
  ((List.range d.adj.length).map (fun v => ((d.edges v).map (g v)).sum)).sum

/-- Sum of the flows weighted by a coefficient `c from to`. -/
def Dinic.wsum (d : Dinic) (c : Nat → Nat → Int) : Int :=
  d.esum (fun v e => c v e.to_ * e.flow)

/-- Sum of the capacities weighted by a coefficient `c from to`. -/
def Dinic.capSum (d : Dinic) (c : Nat → Nat → Int) : Int :=
  d.esum (fun v e => c v e.to_ * e.capacity)

/-- Indicator of the edges leaving the node set `A`. -/
def cutCoef (A : Nat → Bool) (u w : Nat) : Int := if A u = true ∧ A w = false then 1 else 0

/-- Indicator of a node set. -/
def indic (A : Nat → Bool) (u : Nat) : Int := if A u = true then 1 else 0

/-- Residual edge `u → w`: some adjacency entry of `u` towards `w` has
`capacity - flow > 0`. -/
def Dinic.Res (d : Dinic) (u w : Nat) : Prop :=
  ∃ i, i < (d.edges u).length ∧ (d.entry u i).to_ = w ∧
    (d.entry u i).capacity - (d.entry u i).flow > 0

/-- Residual reachability. -/
def Dinic.Reach (d : Dinic) (s v : Nat) : Prop := Relation.ReflTransGen d.Res s v

/-- The adjacency entry `i` of `u` is usable by `dfs`: it is not skipped by the test
`level[v] + 1 != level[tr] || capacity - flow == 0`. -/
def Dinic.Usable (d : Dinic) (u i : Nat) : Prop :=
  d.lvl u + 1 = d.lvl (d.entry u i).to_ ∧ (d.entry u i).capacity - (d.entry u i).flow ≠ 0

/-- Level-graph edge `u → w`. -/
def Dinic.Adm (d : Dinic) (u w : Nat) : Prop :=
  ∃ i, i < (d.edges u).length ∧ (d.entry u i).to_ = w ∧ d.Usable u i

/-- Reachability in the level graph. -/
def Dinic.CanReach (d : Dinic) (v t : Nat) : Prop := Relation.ReflTransGen d.Adm v t

/-- Every adjacency entry already passed by a cursor `ptr[u]` cannot start a level-graph
path to `t`. -/
def Dinic.Dead (d : Dinic) (t : Nat) : Prop :=
  ∀ u i, i < d.cur u → i < (d.edges u).length →
    ¬ (d.Usable u i ∧ d.CanReach (d.entry u i).to_ t)

/-- The flow carried by the network has value `val` from `s` to `t`: for every
coefficient `c` that is a potential difference (`c u w - c w u = φ u - φ w`), the
weighted flow sum is `val * (φ s - φ t)`.  With `φ` the indicator of one node this is
flow conservation; with `φ` the indicator of a cut it is the net flow across the cut. -/
def Dinic.Track (d : Dinic) (s t : Nat) (val : Int) : Prop :=
  ∀ (c : Nat → Nat → Int) (φ : Nat → Int),
    (∀ u w, c u w - c w u = φ u - φ w) → d.wsum c = val * (φ s - φ t)

/-- The network obtained from `Dinic(n)` by `add_edge` on each triple `(from, to, capacity)`
of `es` in order. -/
def build (n : Nat) (es : List (Nat × Nat × Int)) : Dinic :=
  es.foldl (fun d e => d.add_edge e.1 e.2.1 e.2.2) (Dinic.init n)

/-- Capacity of the cut `A`: the sum of the capacities of the added edges going from `A`
to its complement. -/
def cut_capacity (es : List (Nat × Nat × Int)) (A : Nat → Bool) : Int :=
  (es.map (fun e => if A e.1 = true ∧ A e.2.1 = false then e.2.2 else 0)).sum

/-- The added edges of `es` are valid for a network on `n` nodes: node indices in range,
capacities non-negative. -/
def ValidEdges (n : Nat) (es : List (Nat × Nat × Int)) : Prop :=
  ∀ e ∈ es, e.1 < n ∧ e.2.1 < n ∧ 0 ≤ e.2.2

/-- Indicator of the single node `s`, as a node set. -/
def onlyNode (s : Nat) (u : Nat) : Bool := decide (u = s)

/-- Number of adjacency entries of the network. -/
def Dinic.size (d : Dinic) : Nat := (d.adj.map List.length).sum

/-- Fuel that suffices for `max_flow(s, t)` and `get_cut(s)` on `d`. -/
def Dinic.fuelBound (d : Dinic) (s : Nat) : Nat :=
  d.n + d.size + (d.capSum (cutCoef (onlyNode s))).toNat + 3

/-! ## Specification vocabulary for the breadth-first searches -/

/-- Residual edge `u → w` of an adjacency structure. -/
def resEdge (adj : List (List FlowEdge)) (u w : Nat) : Prop :=
  ∃ e ∈ adj.getD u [], e.to_ = w ∧ e.capacity - e.flow > 0

/-- Residual edge `u → w` between two labelled nodes whose levels differ by one. -/
def lvlStep (adj : List (List FlowEdge)) (level : List Int) (u w : Nat) : Prop :=
  ∃ e ∈ adj.getD u [], e.to_ = w ∧ e.capacity - e.flow > 0 ∧
    level.getD u 0 ≠ -1 ∧ level.getD w 0 ≠ -1 ∧ level.getD u 0 + 1 = level.getD w 0

/-- Loop invariant of the `while (!q.empty())` loop of `Dinic::bfs`, for the level vector
`level` and the pending nodes `q`. -/
structure BfsInv (adj : List (List FlowEdge)) (n s : Nat) (level : List Int) (q : List Nat) :
    Prop where
  len : level.length = n
  s_lt : s < n
  lo : ∀ u, u < n → -1 ≤ level.getD u 0
  hi : ∀ u, u < n → level.getD u 0 + 1 + level.count (-1) ≤ n
  src : level.getD s 0 = 0
  qmark : ∀ v ∈ q, v < n ∧ level.getD v 0 ≠ -1
  closed : ∀ u, u < n → level.getD u 0 ≠ -1 →
    u ∈ q ∨ ∀ w, resEdge adj u w → level.getD w 0 ≠ -1
  path : ∀ u, u < n → level.getD u 0 ≠ -1 → Relation.ReflTransGen (lvlStep adj level) s u

/-- The `visited` flag that corresponds to a `level` entry. -/
def isMarked (x : Int) : Bool := decide (x ≠ -1)

/-- Bounds used for the fuel of `dfs`: levels of nodes are at most `B`, adjacency lists
have at most `D` entries. -/
def Dinic.Bounds (d : Dinic) (B D : Nat) : Prop :=
  (∀ u, u < d.n → d.lvl u ≤ (B : Int)) ∧ ∀ u, (d.edges u).length ≤ D

/-- Postcondition of a call `dfs(v, t, pushed)` that starts in `d`, ends in `d1` and
returns `f`. -/
structure DfsPost (d d1 : Dinic) (v t : Nat) (pushed f : Int) : Prop where
  f_nonneg : 0 ≤ f
  f_le : f ≤ pushed
  wf : d1.WF
  cap : d1.CapOK
  shape : d.SameShape d1
  level_eq : d1.level = d.level
  ptr_mono : ∀ u, d.cur u ≤ d1.cur u
  local_edges : ∀ u, d.lvl u < d.lvl v → d1.edges u = d.edges u
  local_cur : ∀ u, d.lvl u < d.lvl v → d1.cur u = d.cur u
  zero_adj : f = 0 → d1.adj = d.adj
  track : ∀ (c : Nat → Nat → Int) (φ : Nat → Int), (∀ u w, c u w - c w u = φ u - φ w) →
    d1.wsum c = d.wsum c + f * (φ v - φ t)
  dead : 0 < pushed → d.Dead t → f = 0 → d1.Dead t ∧ ¬ d.CanReach v t

/-- A change of the cursors only, as made by the skipped iterations of the `dfs` loop at
`v`. -/
structure PtrStep (d d1 : Dinic) (v t : Nat) : Prop where
  n_eq : d1.n = d.n
  adj_eq : d1.adj = d.adj
  level_eq : d1.level = d.level
  ptr_mono : ∀ u, d.cur u ≤ d1.cur u
  local_cur : ∀ u, d.lvl u < d.lvl v → d1.cur u = d.cur u
  dead : d.Dead t → d1.Dead t

/-- A network that carries no flow yet and whose capacities are non-negative. -/
def Dinic.ZeroFlow (d : Dinic) : Prop :=
  ∀ v i, i < (d.edges v).length → (d.entry v i).flow = 0 ∧ 0 ≤ (d.entry v i).capacity

/-- Node `v` can be reached from `s` along added edges of positive capacity. -/
def PosReach (es : List (Nat × Nat × Int)) (s v : Nat) : Prop :=
  Relation.ReflTransGen (fun u w => ∃ e ∈ es, e.1 = u ∧ e.2.1 = w ∧ 0 < e.2.2) s v

/-! ## Auxiliary notions for fuel and the concrete scenario -/

/-- One `rcall` refines another when every result of the first is a result of the second. -/
def RcallLe (rc rc' : Dinic → Nat → Int → Option (Int × Dinic)) : Prop :=
  ∀ d tr p r, rc d tr p = some r → rc' d tr p = some r

/-- One `rcall` of `get_path_loop` refines another. -/
def PathRcallLe (rc rc' : Nat → List Nat → Option (Bool × List Nat)) : Prop :=
  ∀ v path r, rc v path = some r → rc' v path = some r

/-- The concrete scenario of the specification: `N = 4`, edges `(1-2, 5)`, `(2-3, 3)`,
`(3-4, 8)`, `(1-4, 1)`, spanning tree `(1-2)`, `(2-3)`, `(3-4)`. -/
def scenario : Input := ⟨4, [(1, 2, 5), (2, 3, 3), (3, 4, 8), (1, 4, 1)], [(1, 2), (2, 3), (3, 4)]⟩

/-! ## Specification vocabulary for the divide and conquer -/

/-- The preference edge that `solve` adds for position `i` of `nodes`. -/
def pref_edge (g : Globals) (nodes : List Nat) (val : Int) (i : Nat) : Nat × Nat × Int :=
  if (g.all_edges.getD (nodes.getD i 0) Edge.zero).w > val then (nodes.length, i, 1)
  else (i, nodes.length + 1, 1)

/-- The constraint edge that `solve` adds for the constraint `p`, if both its edges are
active. -/
def cons_edge (nodes : List Nat) (p : Nat × Nat) : Option (Nat × Nat × Int) :=
  if map_count (build_node_map nodes) p.1 ∧ map_count (build_node_map nodes) p.2 then
    some (map_get (build_node_map nodes) p.1, map_get (build_node_map nodes) p.2, INF)
  else none

/-- All edges that `solve` adds to its flow network, in order. -/
def network_edges (g : Globals) (nodes : List Nat) (val : Int) : List (Nat × Nat × Int) :=
  (List.range nodes.length).map (pref_edge g nodes val) ++ g.constraints.filterMap (cons_edge nodes)

/-- Original weight of edge `id`. -/
def Globals.weight (g : Globals) (id : Nat) : Int := (g.all_edges.getD id Edge.zero).w

/-- Edge `id` is mispriced by the partition `hi` at split value `val`: it wants the high
side (`w > val`) and is low, or wants the low side and is high. -/
def mispriced (g : Globals) (val : Int) (hi : Nat → Bool) (id : Nat) : Int :=
  if (g.weight id > val ∧ hi id = false) ∨ (g.weight id ≤ val ∧ hi id = true) then 1 else 0

/-- Number of mispriced edges of `nodes` under the partition `hi`. -/
def mispricing (g : Globals) (nodes : List Nat) (val : Int) (hi : Nat → Bool) : Int :=
  (nodes.map (mispriced g val hi)).sum

/-- The partition `hi` respects every constraint between two active edges: never `e` high
and `f` low. -/
def RespectsConstraints (g : Globals) (nodes : List Nat) (hi : Nat → Bool) : Prop :=
  ∀ p ∈ g.constraints, p.1 ∈ nodes → p.2 ∈ nodes → hi p.1 = true → hi p.2 = true

/-- The cut of the split network induced by a partition `hi` of the active edges: node
`i < num_active` is on the source side iff `hi nodes[i]`; `S` is on the source side and
`T` is not. -/
def cut_of (nodes : List Nat) (hi : Nat → Bool) (i : Nat) : Bool :=
  if i < nodes.length then hi (nodes.getD i 0) else decide (i = nodes.length)

/-- Number of constraints between active edges that the partition `hi` violates. -/
def violations (g : Globals) (nodes : List Nat) (hi : Nat → Bool) : Int :=
  (g.constraints.map (fun p =>
    if p.1 ∈ nodes ∧ p.2 ∈ nodes ∧ hi p.1 = true ∧ hi p.2 = false then (1 : Int) else 0)).sum

/-- Value of `t` on an optional edge, `0` when there is none. -/
def optTerm {β : Type} (t : β → Int) : Option β → Int
  | some e => t e
  | none => 0

/-- Hypotheses on the globals under which `solve` is analysed: `distinct_weights` is
strictly increasing, contains the weight of every edge, and the number of edges fits an
`int`. -/
structure Globals.Good (g : Globals) : Prop where
  sorted : g.distinct_weights.Sorted (fun a b => a < b)
  weight_mem : ∀ id, id < g.all_edges.length → g.weight id ∈ g.distinct_weights
  size : g.all_edges.length < 2 ^ 31

/-- Read access `distinct_weights[k]`. -/
def Globals.dw (g : Globals) (k : Nat) : Int := g.distinct_weights.getD k 0

/-- Total deviation of the edges `nodes` when edge `id` gets the value of index `y id`. -/
def costIdx (g : Globals) (y : Nat → Nat) (nodes : List Nat) : Int :=
  (nodes.map (fun id => |g.dw (y id) - g.weight id|)).sum

/-- Total deviation of the edges `nodes` under the weights `fw`. -/
def costFw (g : Globals) (fw : List Int) (nodes : List Nat) : Int :=
  (nodes.map (fun id => |fw.getD id 0 - g.weight id|)).sum

/-- The index assignment `y` is admissible for the call `solve(nodes, L, R)`: indices in
`[L, R]` and every constraint between two edges of `nodes` respected. -/
def Feasible (g : Globals) (nodes : List Nat) (L R : Nat) (y : Nat → Nat) : Prop :=
  (∀ id ∈ nodes, L ≤ y id ∧ y id ≤ R) ∧
    ∀ p ∈ g.constraints, p.1 ∈ nodes → p.2 ∈ nodes → y p.1 ≤ y p.2

/-- Postcondition of `solve(nodes, L, R)` started in `st` and finished in `st1`. -/
structure SolvePost (g : Globals) (nodes : List Nat) (L R : Nat) (st st1 : SolveState) :
    Prop where
  len : st1.final_weights.length = st.final_weights.length
  range : ∀ id ∈ nodes, ∃ k, L ≤ k ∧ k ≤ R ∧ st1.final_weights.getD id 0 = g.dw k
  frame : ∀ j, j ∉ nodes → st1.final_weights.getD j 0 = st.final_weights.getD j 0
  writes : ∃ ws, st1.writes = st.writes ++ ws ∧ ws.Perm nodes
  respects : ∀ p ∈ g.constraints, p.1 ∈ nodes → p.2 ∈ nodes →
    st1.final_weights.getD p.1 0 ≤ st1.final_weights.getD p.2 0
  optimal : ∀ y, Feasible g nodes L R y → costFw g st1.final_weights nodes ≤ costIdx g y nodes

/-- The calls of `solve` that the recursion started by `main` makes: the top-level call,
and for every call that splits, the two recursive calls on the partition computed by its
split step. -/
inductive SolveCall (g : Globals) : List Nat → Int → Int → Prop
  | top : SolveCall g (List.range g.all_edges.length) 0 ((g.distinct_weights.length : Int) - 1)
  | left (nodes : List Nat) (L R : Int) (fuel : Nat) (flow : Int) (l r : List Nat) :
      SolveCall g nodes L R → nodes ≠ [] → L ≠ R →
      solve_split fuel g nodes (g.distinct_weights.getD (Int.tdiv (L + R) 2).toNat 0) =
        some (flow, l, r) →
      SolveCall g l L (Int.tdiv (L + R) 2)
  | right (nodes : List Nat) (L R : Int) (fuel : Nat) (flow : Int) (l r : List Nat) :
      SolveCall g nodes L R → nodes ≠ [] → L ≠ R →
      solve_split fuel g nodes (g.distinct_weights.getD (Int.tdiv (L + R) 2).toNat 0) =
        some (flow, l, r) →
      SolveCall g r (Int.tdiv (L + R) 2 + 1) R

/-- The globals of the concrete scenario when `solve` is called. -/
def scenario_globals : Globals :=
  ⟨read_edges scenario.edges, make_distinct_weights (read_edges scenario.edges),
    [(0, 3), (1, 3), (2, 3)]⟩

/-! ## Specification vocabulary for the tree path finder -/

/-- Node `v` is a neighbour of node `u` in the adjacency structure. -/
def TAdj (adj : List (List (Nat × Nat))) (u v : Nat) : Prop := ∃ idx, (v, idx) ∈ adj.getD u []

/-- The vertex sequence `ρ` is a simple path from `a` to `b` for the edge relation `R`. -/
structure SimplePath (R : Nat → Nat → Prop) (a b : Nat) (ρ : List Nat) : Prop where
  head : ρ.head? = some a
  last : ρ.getLast? = some b
  chain : ρ.Chain' R
  nodup : ρ.Nodup

/-- The vertex sequence `c` is a simple cycle for the edge relation `R`: at least three
distinct vertices, consecutive ones adjacent, and the last adjacent to the first. -/
def IsCycle (R : Nat → Nat → Prop) (c : List Nat) : Prop :=
  3 ≤ c.length ∧ c.Nodup ∧ c.Chain' R ∧
    ∃ a b, c.head? = some a ∧ c.getLast? = some b ∧ R b a

/-- The edge id stored in `adj[u]` for the neighbour `v`. -/
def edge_id (adj : List (List (Nat × Nat))) (u v : Nat) : Nat :=
  match (adj.getD u []).find? (fun e => e.1 = v) with
  | some e => e.2
  | none => 0

/-- The edge ids along a vertex sequence, in order. -/
def path_ids (adj : List (List (Nat × Nat))) : List Nat → List Nat
  | a :: b :: rest => edge_id adj a b :: path_ids adj (b :: rest)
  | _ => []

/-- The adjacency structure `adj` is the adjacency of a tree on the nodes `1..N`: it is
symmetric, without self-loops and multi-edges, connected and acyclic. -/
structure IsTreeAdj (adj : List (List (Nat × Nat))) (N : Nat) : Prop where
  verts : ∀ u v idx, (v, idx) ∈ adj.getD u [] → 1 ≤ u ∧ u ≤ N ∧ 1 ≤ v ∧ v ≤ N
  symm : ∀ u v idx, (v, idx) ∈ adj.getD u [] → (u, idx) ∈ adj.getD v []
  irrefl : ∀ u idx, (u, idx) ∉ adj.getD u []
  simple : ∀ u, ((adj.getD u []).map Prod.fst).Nodup
  connected : ∀ u v, 1 ≤ u → u ≤ N → 1 ≤ v → v ≤ N → Relation.ReflTransGen (TAdj adj) u v
  acyclic : ∀ c, ¬ IsCycle (TAdj adj) c

/-- The recursion stack of `get_path`: the current node `u` on top of the nodes `rest`
visited before it, and the parent argument `p` of the current call. -/
structure DfsStack (adj : List (List (Nat × Nat))) (N : Nat) (u : Nat) (rest : List Nat)
    (p : Int) : Prop where
  chain : (u :: rest).Chain' (TAdj adj)
  nodup : (u :: rest).Nodup
  verts : ∀ x ∈ u :: rest, 1 ≤ x ∧ x ≤ N
  parent : p = match rest with
    | [] => -1
    | q :: _ => (q : Int)

/-- A simple path from `u` to `target` that avoids the nodes `rest` of the stack. -/
def PathExt (adj : List (List (Nat × Nat))) (rest : List Nat) (u target : Nat)
    (ρ : List Nat) : Prop :=
  SimplePath (TAdj adj) u target ρ ∧ ∀ x ∈ ρ, x ∉ rest

/-! ## Specification vocabulary for the input of `main` -/

/-- The nodes `u` and `v` are joined by one of the pairs of the list `tree`. -/
@[reducible] def PairAdj (tree : List (Nat × Nat)) (u v : Nat) : Prop :=
  (u, v) ∈ tree ∨ (v, u) ∈ tree

/-- The normalised endpoint pair of an input edge `(u, v, w)`. -/
def edge_key (e : Nat × Nat × Int) : Nat × Nat := norm_pair e.1 e.2.1

/-- The input is a well-formed instance: endpoints in `1..N`, no self-loops, no
multi-edges, and the `N - 1` tree pairs name distinct input edges that form a spanning
tree (connected and acyclic) of the nodes `1..N`.  The first three fields keep the
instance inside the range where the `int` arithmetic of the program is exact: fewer than
`2^30` edges (so `L_idx + R_idx` fits), weights that fit an `int`, and any two weights
less than `2^31` apart (so `final_weights[i] - all_edges[i].w` fits). -/
structure WellFormed (inp : Input) : Prop where
  size : inp.edges.length < 2 ^ 30
  weights : ∀ e ∈ inp.edges, -2 ^ 31 ≤ e.2.2 ∧ e.2.2 < 2 ^ 31
  spread : ∀ e ∈ inp.edges, ∀ e' ∈ inp.edges, e.2.2 - e'.2.2 < 2 ^ 31
  edges_range : ∀ e ∈ inp.edges, 1 ≤ e.1 ∧ e.1 ≤ inp.N ∧ 1 ≤ e.2.1 ∧ e.2.1 ≤ inp.N
  no_loops : ∀ e ∈ inp.edges, e.1 ≠ e.2.1
  no_multi : (inp.edges.map edge_key).Nodup
  tree_len : inp.tree.length = inp.N - 1
  tree_edges : ∀ p ∈ inp.tree, norm_pair p.1 p.2 ∈ inp.edges.map edge_key
  tree_distinct : (inp.tree.map (fun p => norm_pair p.1 p.2)).Nodup
  connected : ∀ u v, 1 ≤ u → u ≤ inp.N → 1 ≤ v → v ≤ inp.N →
    Relation.ReflTransGen (PairAdj inp.tree) u v
  acyclic : ∀ c, ¬ IsCycle (PairAdj inp.tree) c

/-- The entries appended to `tree_adj[u]` by the tree identification loop over `pairs`. -/
def adj_entries (em : List ((Nat × Nat) × Nat)) (pairs : List (Nat × Nat)) (u : Nat) :
    List (Nat × Nat) :=
  pairs.flatMap (fun p =>
    (if (norm_pair p.1 p.2).1 = u then
        [((norm_pair p.1 p.2).2, edge_map_get em (norm_pair p.1 p.2))] else []) ++
      (if (norm_pair p.1 p.2).2 = u then
        [((norm_pair p.1 p.2).1, edge_map_get em (norm_pair p.1 p.2))] else []))

/-- The endpoints of the input edge with index `i`. -/
def Input.ends (inp : Input) (i : Nat) : Nat × Nat :=
  ((inp.edges.getD i (0, 0, 0)).1, (inp.edges.getD i (0, 0, 0)).2.1)

/-- The input edge with index `e` is a tree edge: one of the tree pairs names its
endpoints. -/
def Input.IsTreeEdge (inp : Input) (e : Nat) : Prop :=
  e < inp.edges.length ∧
    edge_key (inp.edges.getD e (0, 0, 0)) ∈ inp.tree.map (fun p => norm_pair p.1 p.2)

/-- The nodes `a` and `b` are consecutive, in this order, in the vertex sequence. -/
def Consecutive (a b : Nat) : List Nat → Prop
  | x :: y :: rest => (x = a ∧ y = b) ∨ Consecutive a b (y :: rest)
  | _ => False

/-- The input edge with index `e` joins two consecutive nodes of the vertex sequence `ρ`. -/
def Input.OnPath (inp : Input) (e : Nat) (ρ : List Nat) : Prop :=
  ∃ a b, Consecutive a b ρ ∧ edge_key (inp.edges.getD e (0, 0, 0)) = norm_pair a b

/-- The pair `(e, f)` the specification asks for: `f` is a non-tree edge and `e` is a
tree edge on the tree path between the endpoints of `f`. -/
def Input.Constraint (inp : Input) (e f : Nat) : Prop :=
  f < inp.edges.length ∧ ¬ inp.IsTreeEdge f ∧ inp.IsTreeEdge e ∧
    ∃ ρ, SimplePath (PairAdj inp.tree) (inp.ends f).1 (inp.ends f).2 ρ ∧ inp.OnPath e ρ

/-! ## Specification vocabulary for the result of `main` -/

/-- The assignment `x` of values to edges is admissible: every edge gets a value from
`distinct_weights` and `x e ≤ x f` for every pair `(e, f)` of `constraints`. -/
def Globals.Admissible (g : Globals) (x : Nat → Int) : Prop :=
  (∀ i, i < g.all_edges.length → x i ∈ g.distinct_weights) ∧
    ∀ p ∈ g.constraints, x p.1 ≤ x p.2

/-- The total deviation `sum_i |x_i - w_i|` of an assignment `x` over all edges. -/
def Globals.cost (g : Globals) (x : Nat → Int) : Int :=
  ((List.range g.all_edges.length).map (fun i => |x i - g.weight i|)).sum

/-- What holds when the top-level call of `solve` made by `main` has returned. -/
structure RunPost (inp : Input) (g : Globals) (st : SolveState) : Prop where
  edges : g.all_edges = read_edges inp.edges
  weights : g.distinct_weights = make_distinct_weights g.all_edges
  constraints : ∀ e f, (e, f) ∈ g.constraints ↔ inp.Constraint e f
  values : ∀ i, i < g.all_edges.length → st.final_weights.getD i 0 ∈ g.distinct_weights
  respects : ∀ p ∈ g.constraints, st.final_weights.getD p.1 0 ≤ st.final_weights.getD p.2 0
  optimal : ∀ x, g.Admissible x →
    costFw g st.final_weights (List.range g.all_edges.length) ≤ g.cost x

/-! ## Specification vocabulary for the split step -/

/-- Number of mispriced edges of a partition `(left, right)` at the split value `val`:
the edges with `w > val` placed in `left` plus the edges with `w <= val` placed in `right`. -/
def mispriced_count (g : Globals) (val : Int) (left right : List Nat) : Int :=
  ((left.filter (fun id => decide (g.weight id > val))).length : Int) +
    ((right.filter (fun id => decide (g.weight id ≤ val))).length : Int)

/-! ## Specification vocabulary for the recursion of `solve` -/

/-- The calls of `solve` made below a call `solve(nodes0, L0, R0)`, with their nesting
depth: the call itself at depth `0`, and for every call at depth `d` that splits, its two
recursive calls at depth `d + 1`, on the partition computed by its split step. -/
inductive SolveDesc (g : Globals) (nodes0 : List Nat) (L0 R0 : Int) :
    Nat → List Nat → Int → Int → Prop
  | root : SolveDesc g nodes0 L0 R0 0 nodes0 L0 R0
  | left (d : Nat) (nodes : List Nat) (L R : Int) (fuel : Nat) (flow : Int) (l r : List Nat) :
      SolveDesc g nodes0 L0 R0 d nodes L R → nodes ≠ [] → L ≠ R →
      solve_split fuel g nodes (g.distinct_weights.getD (Int.tdiv (L + R) 2).toNat 0) =
        some (flow, l, r) →
      SolveDesc g nodes0 L0 R0 (d + 1) l L (Int.tdiv (L + R) 2)
  | right (d : Nat) (nodes : List Nat) (L R : Int) (fuel : Nat) (flow : Int) (l r : List Nat) :
      SolveDesc g nodes0 L0 R0 d nodes L R → nodes ≠ [] → L ≠ R →
      solve_split fuel g nodes (g.distinct_weights.getD (Int.tdiv (L + R) 2).toNat 0) =
        some (flow, l, r) →
      SolveDesc g nodes0 L0 R0 (d + 1) r (Int.tdiv (L + R) 2 + 1) R

/-- The `rev` indices pair the adjacency entries: the entry named by an entry between two
different nodes lies in the adjacency list of the target, points back, and names the
first entry in turn. -/
def Dinic.PairOK (d : Dinic) : Prop :=
  ∀ v i, i < (d.edges v).length → (d.entry v i).to_ ≠ v →
    (d.entry v i).rev < (d.edges (d.entry v i).to_).length ∧
      (d.entry (d.entry v i).to_ (d.entry v i).rev).to_ = v ∧
      (d.entry (d.entry v i).to_ (d.entry v i).rev).rev = i

/-- Feasibility of the flows stored in the network: entries are paired, `flow <= capacity`
everywhere, the flow of an entry is the negation of the flow of its paired entry, and an
entry from a node to itself carries no flow. -/
structure Dinic.FlowOK (d : Dinic) : Prop where
  pair : d.PairOK
  cap : d.CapOK
  antisym : ∀ v i, i < (d.edges v).length → (d.entry v i).to_ ≠ v →
    (d.entry (d.entry v i).to_ (d.entry v i).rev).flow = -(d.entry v i).flow
  selfzero : ∀ v i, i < (d.edges v).length → (d.entry v i).to_ = v → (d.entry v i).flow = 0

/-- The network carries a feasible flow of value `val` from `s` to `t`, and no adjacency
entry carries more than `val` in either direction. -/
structure Dinic.IsFlow (d : Dinic) (s t : Nat) (val : Int) : Prop where
  ok : d.FlowOK
  track : d.Track s t val
  bound : ∀ v i, i < (d.edges v).length →
    (d.entry v i).flow ≤ val ∧ -(d.entry v i).flow ≤ val

/-- What a call `dfs(v, t, pushed)` that starts in `d`, ends in `d2` and returns `f` does
to the flows: it pushes `f` along one path of the level graph from `v` to `t`. -/
structure FlowStep (d d2 : Dinic) (v t : Nat) (pushed f : Int) : Prop where
  f_nonneg : 0 ≤ f
  f_le : f ≤ pushed
  shape : d.SameShape d2
  level_eq : d2.level = d.level
  ok : d2.FlowOK
  track : ∀ (c : Nat → Nat → Int) (φ : Nat → Int), (∀ u w, c u w - c w u = φ u - φ w) →
    d2.wsum c = d.wsum c + f * (φ v - φ t)
  delta : ∀ u j, (d2.entry u j).flow = (d.entry u j).flow ∨
    (((d2.entry u j).flow = (d.entry u j).flow + f ∨
        (d2.entry u j).flow = (d.entry u j).flow - f) ∧
      d.lvl v ≤ d.lvl u ∧ d.lvl v ≤ d.lvl (d.entry u j).to_)

/-- The added edge `(frm, to_, c)` has its forward entry and its reverse entry in the
network, paired with each other; `f` is the flow on the forward entry. -/
def Dinic.HasEdge (d : Dinic) (frm to_ : Nat) (c f : Int) : Prop :=
  ∃ i j, i < (d.edges frm).length ∧ j < (d.edges to_).length ∧
    d.entry frm i = ⟨to_, c, f, j⟩ ∧ d.entry to_ j = ⟨frm, 0, -f, i⟩

/-! ## Specification vocabulary for the split steps of the whole recursion -/

/-- The record of one split step of `solve`: the split value, the value returned by
`max_flow`, and the partition `(left_nodes, right_nodes)`. -/
structure SplitRec where
  val : Int
  flow : Int
  left : List Nat
  right : List Nat
deriving DecidableEq

/-- Ghost log of the recursion of `solve(nodes, L_idx, R_idx)`: the records of all its
split steps, in the order in which they are made.  The program does not keep this log; the
function follows the recursion of `solve`, whose split steps do not depend on
`final_weights`. -/
def solve_splits (g : Globals) : Nat → List Nat → Int → Int → Option (List SplitRec)
  | 0, _, _, _ => none
  | fuel + 1, nodes, L_idx, R_idx =>
    if nodes.isEmpty then some []
    else if L_idx = R_idx then some []
    else
      let mid_idx := Int.tdiv (L_idx + R_idx) 2
      let val := g.distinct_weights.getD mid_idx.toNat 0
      match solve_split (fuel + 1) g nodes val with
      | none => none
      | some (flow, left_nodes, right_nodes) =>
        match solve_splits g fuel left_nodes L_idx mid_idx with
        | none => none
        | some log1 =>
          match solve_splits g fuel right_nodes (mid_idx + 1) R_idx with
          | none => none
          | some log2 => some (⟨val, flow, left_nodes, right_nodes⟩ :: (log1 ++ log2))

/-- The split step `r` places the edge `i` against its preference: `w_i > val` but `i` is
in `left_nodes`, or `w_i <= val` but `i` is in `right_nodes` (value `1`, else `0`). -/
def against (g : Globals) (r : SplitRec) (i : Nat) : Int :=
  if (i ∈ r.left ∧ g.weight i > r.val) ∨ (i ∈ r.right ∧ g.weight i ≤ r.val) then 1 else 0

/-- Number of split steps of the log that place the edge `i` against its preference. -/
def against_count (g : Globals) (log : List SplitRec) (i : Nat) : Int :=
  (log.map (fun r => against g r i)).sum

/-- Sum of the `max_flow` values of the split steps of the log. -/
def flow_total (log : List SplitRec) : Int := (log.map (fun r => r.flow)).sum

/-- The index `j` clamped to the range `[L, R]`. -/
def clampIdx (j L R : Nat) : Nat := max L (min j R)

/-- Distance between two indices. -/
def idxDist (a b : Nat) : Nat := max a b - min a b

/-- What the log of the split steps of a call `solve(nodes, L, R)` that ended in `st1`
satisfies. -/
structure TracePost (g : Globals) (nodes : List Nat) (L R : Nat) (st1 : SolveState)
    (log : List SplitRec) : Prop where
  ids : ∀ r ∈ log, (∀ i ∈ r.left, i ∈ nodes) ∧ (∀ i ∈ r.right, i ∈ nodes)
  total : flow_total log = (nodes.map (against_count g log)).sum
  dev : ∀ i ∈ nodes, ∀ k j, L ≤ k → k ≤ R → st1.final_weights.getD i 0 = g.dw k →
    j < g.distinct_weights.length → g.weight i = g.dw j →
    against_count g log i ≤ (idxDist k (clampIdx j L R) : Int) ∧
      (against_count g log i = 0 ↔ k = clampIdx j L R)

/-! ## Fuel monotonicity -/

theorem bfsLoop_mono (adj : List (List FlowEdge)) :
    ∀ (f f' : Nat) (level : List Int) (q : List Nat) (r : List Int),
      f ≤ f' → bfsLoop adj f level q = some r → bfsLoop adj f' level q = some r := by
  intro f
  induction f with
  | zero =>
    intro f' level q r _ h
    cases q with
    | nil => cases f' <;> simpa [bfsLoop] using h
    | cons v q => simp [bfsLoop] at h
  | succ f ih =>
    intro f' level q r hle h
    cases q with
    | nil => cases f' <;> simpa [bfsLoop] using h
    | cons v q =>
      cases f' with
      | zero => omega
      | succ f' =>
        simp only [bfsLoop] at h ⊢
        exact ih f' _ _ r (by omega) h

theorem bfs_mono (d : Dinic) (s t : Nat) (f f' : Nat) (r : Bool × Dinic)
    (hle : f ≤ f') (h : d.bfs f s t = some r) : d.bfs f' s t = some r := by
  unfold Dinic.bfs at h ⊢
  cases hb : bfsLoop d.adj f ((List.replicate d.level.length (-1 : Int)).set s 0) [s] with
  | none => simp [hb] at h
  | some lv =>
    rw [bfsLoop_mono d.adj f f' _ _ lv hle hb]
    simpa [hb] using h

theorem cutLoop_mono (adj : List (List FlowEdge)) :
    ∀ (f f' : Nat) (visited : List Bool) (q : List Nat) (r : List Bool),
      f ≤ f' → cutLoop adj f visited q = some r → cutLoop adj f' visited q = some r := by
  intro f
  induction f with
  | zero =>
    intro f' visited q r _ h
    cases q with
    | nil => cases f' <;> simpa [cutLoop] using h
    | cons v q => simp [cutLoop] at h
  | succ f ih =>
    intro f' visited q r hle h
    cases q with
    | nil => cases f' <;> simpa [cutLoop] using h
    | cons v q =>
      cases f' with
      | zero => omega
      | succ f' =>
        simp only [cutLoop] at h ⊢
        exact ih f' _ _ r (by omega) h

theorem get_cut_mono (d : Dinic) (s : Nat) (f f' : Nat) (r : List Bool)
    (hle : f ≤ f') (h : d.get_cut f s = some r) : d.get_cut f' s = some r :=
  cutLoop_mono d.adj f f' _ _ r hle h

theorem dfsLoop_mono (rc rc' : Dinic → Nat → Int → Option (Int × Dinic)) (hrc : RcallLe rc rc')
    (v : Nat) (pushed : Int) :
    ∀ (k k' : Nat) (d : Dinic) (r : Int × Dinic),
      k ≤ k' → dfsLoop rc v pushed k d = some r → dfsLoop rc' v pushed k' d = some r := by
  intro k
  induction k with
  | zero => intro k' d r _ h; simp [dfsLoop] at h
  | succ k ih =>
    intro k' d r hle h
    cases k' with
    | zero => omega
    | succ k' =>
      simp only [dfsLoop] at h ⊢
      split at h
      · rename_i hlt
        rw [if_pos hlt]
        split at h
        · rename_i hc
          rw [if_pos hc]
          exact ih k' _ r (by omega) h
        · rename_i hc
          rw [if_neg hc]
          split at h
          · exact absurd h (by simp)
          · rename_i tp d1 hr
            rw [hrc _ _ _ _ hr]
            simp only
            split at h
            · rename_i h0
              rw [if_pos h0]
              exact ih k' _ r (by omega) h
            · rename_i h0
              rw [if_neg h0]
              exact h
      · rename_i hlt
        rw [if_neg hlt]
        exact h

theorem dfs_mono (t : Nat) :
    ∀ (f f' : Nat) (d : Dinic) (v : Nat) (pushed : Int) (r : Int × Dinic),
      f ≤ f' → d.dfs f v t pushed = some r → d.dfs f' v t pushed = some r := by
  intro f
  induction f with
  | zero => intro f' d v pushed r _ h; simp [Dinic.dfs] at h
  | succ f ih =>
    intro f' d v pushed r hle h
    cases f' with
    | zero => omega
    | succ f' =>
      simp only [Dinic.dfs] at h ⊢
      split at h
      · rename_i h0; rw [if_pos h0]; exact h
      · rename_i h0
        rw [if_neg h0]
        split at h
        · rename_i h1; rw [if_pos h1]; exact h
        · rename_i h1
          rw [if_neg h1]
          refine dfsLoop_mono _ _ ?_ v pushed (f + 1) (f' + 1) d r (by omega) h
          intro d1 tr p r1 hr1
          exact ih f' d1 tr p r1 (by omega) hr1

theorem augmentLoop_mono (s t : Nat) (f f' : Nat) (hf : f ≤ f') :
    ∀ (k k' : Nat) (d : Dinic) (flow : Int) (r : Int × Dinic),
      k ≤ k' → augmentLoop f s t k d flow = some r → augmentLoop f' s t k' d flow = some r := by
  intro k
  induction k with
  | zero => intro k' d flow r _ h; simp [augmentLoop] at h
  | succ k ih =>
    intro k' d flow r hle h
    cases k' with
    | zero => omega
    | succ k' =>
      simp only [augmentLoop] at h ⊢
      cases hr : d.dfs f s t INF with
      | none => simp [hr] at h
      | some res =>
        obtain ⟨p, d1⟩ := res
        rw [dfs_mono t f f' d s INF _ hf hr]
        simp only [hr] at h
        simp only
        split at h
        · rename_i h0; rw [if_pos h0]; exact h
        · rename_i h0; rw [if_neg h0]; exact ih k' _ _ r (by omega) h

theorem phaseLoop_mono (s t : Nat) (f f' : Nat) (hf : f ≤ f') :
    ∀ (k k' : Nat) (d : Dinic) (flow : Int) (r : Int × Dinic),
      k ≤ k' → phaseLoop f s t k d flow = some r → phaseLoop f' s t k' d flow = some r := by
  intro k
  induction k with
  | zero => intro k' d flow r _ h; simp [phaseLoop] at h
  | succ k ih =>
    intro k' d flow r hle h
    cases k' with
    | zero => omega
    | succ k' =>
      simp only [phaseLoop] at h ⊢
      cases hb : d.bfs f s t with
      | none => simp [hb] at h
      | some res =>
        obtain ⟨b, d1⟩ := res
        rw [bfs_mono d s t f f' _ hf hb]
        simp only [hb] at h
        cases b with
        | false => simpa using h
        | true =>
          simp only at h ⊢
          cases ha : augmentLoop f s t f { d1 with ptr := List.replicate d1.ptr.length 0 } flow with
          | none => simp [ha] at h
          | some res2 =>
            obtain ⟨fl, d2⟩ := res2
            rw [augmentLoop_mono s t f f' hf f f' _ _ _ hf ha]
            simp only [ha] at h
            exact ih k' _ _ r (by omega) h

theorem max_flow_mono (d : Dinic) (s t : Nat) (f f' : Nat) (r : Int × Dinic)
    (hle : f ≤ f') (h : d.max_flow f s t = some r) : d.max_flow f' s t = some r :=
  phaseLoop_mono s t f f' hle f f' d 0 r hle h

theorem get_path_loop_mono (rc rc' : Nat → List Nat → Option (Bool × List Nat))
    (hrc : PathRcallLe rc rc') (p : Int) :
    ∀ (l : List (Nat × Nat)) (path : List Nat) (r : Bool × List Nat),
      get_path_loop rc p l path = some r → get_path_loop rc' p l path = some r := by
  intro l
  induction l with
  | nil => intro path r h; simpa [get_path_loop] using h
  | cons a rest ih =>
    intro path r h
    obtain ⟨v, idx⟩ := a
    simp only [get_path_loop] at h ⊢
    split at h
    · rename_i hv
      rw [if_pos hv]
      split at h
      · exact absurd h (by simp)
      · rename_i path1 hr
        rw [hrc _ _ _ hr]
        exact h
      · rename_i path1 hr
        rw [hrc _ _ _ hr]
        exact ih _ r h
    · rename_i hv
      rw [if_neg hv]
      exact ih _ r h

theorem get_path_mono (tree_adj : List (List (Nat × Nat))) (target : Nat) :
    ∀ (f f' : Nat) (u : Nat) (p : Int) (path : List Nat) (r : Bool × List Nat),
      f ≤ f' → get_path tree_adj f u target p path = some r →
        get_path tree_adj f' u target p path = some r := by
  intro f
  induction f with
  | zero => intro f' u p path r _ h; simp [get_path] at h
  | succ f ih =>
    intro f' u p path r hle h
    cases f' with
    | zero => omega
    | succ f' =>
      simp only [get_path] at h ⊢
      split at h
      · rename_i h0; rw [if_pos h0]; exact h
      · rename_i h0
        rw [if_neg h0]
        refine get_path_loop_mono _ _ ?_ p _ path r h
        intro v path1 r1 hr1
        exact ih f' v _ path1 r1 (by omega) hr1

theorem build_constraints_mono (all_edges : List Edge) (tree_adj : List (List (Nat × Nat)))
    (f f' : Nat) (hle : f ≤ f') :
    ∀ (fs : List Nat) (cs r : List (Nat × Nat)),
      build_constraints f all_edges tree_adj fs cs = some r →
        build_constraints f' all_edges tree_adj fs cs = some r := by
  intro fs
  induction fs with
  | nil => intro cs r h; simpa [build_constraints] using h
  | cons a rest ih =>
    intro cs r h
    simp only [build_constraints] at h ⊢
    split at h
    · exact absurd h (by simp)
    · rename_i b pe hr
      rw [get_path_mono tree_adj _ f f' _ _ _ _ hle hr]
      exact ih _ r h

theorem setup_mono (inp : Input) (f f' : Nat) (hle : f ≤ f') (r : Globals × TreeState)
    (h : setup f inp = some r) : setup f' inp = some r := by
  simp only [setup] at h ⊢
  split at h
  · exact absurd h (by simp)
  · rename_i cs hr
    rw [build_constraints_mono _ _ f f' hle _ _ cs hr]
    exact h

theorem solve_split_mono (g : Globals) (nodes : List Nat) (val : Int) (f f' : Nat)
    (hle : f ≤ f') (r : Int × List Nat × List Nat)
    (h : solve_split f g nodes val = some r) : solve_split f' g nodes val = some r := by
  simp only [solve_split] at h ⊢
  split at h
  · exact absurd h (by simp)
  · rename_i flow d hm
    rw [max_flow_mono _ _ _ f f' _ hle hm]
    simp only
    split at h
    · exact absurd h (by simp)
    · rename_i cut hc
      rw [get_cut_mono _ _ f f' _ hle hc]
      exact h

theorem solve_mono (g : Globals) :
    ∀ (f f' : Nat) (nodes : List Nat) (L R : Int) (st r : SolveState),
      f ≤ f' → solve g f nodes L R st = some r → solve g f' nodes L R st = some r := by
  intro f
  induction f with
  | zero => intro f' nodes L R st r _ h; simp [solve] at h
  | succ f ih =>
    intro f' nodes L R st r hle h
    cases f' with
    | zero => omega
    | succ f' =>
      simp only [solve] at h ⊢
      split at h
      · rename_i h0; rw [if_pos h0]; exact h
      · rename_i h0
        rw [if_neg h0]
        split at h
        · rename_i h1; rw [if_pos h1]; exact h
        · rename_i h1
          rw [if_neg h1]
          split at h
          · exact absurd h (by simp)
          · rename_i fl ln rn hs
            rw [solve_split_mono g nodes _ (f + 1) (f' + 1) (by omega) _ hs]
            simp only
            split at h
            · exact absurd h (by simp)
            · rename_i st1 hl
              rw [ih f' _ _ _ _ st1 (by omega) hl]
              exact ih f' _ _ _ _ r (by omega) h

theorem run_mono (inp : Input) (f f' : Nat) (hle : f ≤ f') (r : Globals × SolveState)
    (h : run f inp = some r) : run f' inp = some r := by
  simp only [run] at h ⊢
  split at h
  · exact absurd h (by simp)
  · rename_i g ts hs
    rw [setup_mono inp f f' hle _ hs]
    simp only
    split at h
    · exact absurd h (by simp)
    · rename_i st hsol
      rw [solve_mono g f f' _ _ _ _ st hle hsol]
      exact h

theorem main_mono (inp : Input) (f f' : Nat) (hle : f ≤ f') (r : Int)
    (h : main f inp = some r) : main f' inp = some r := by
  simp only [main] at h ⊢
  split at h
  · exact absurd h (by simp)
  · rename_i g st hr
    rw [run_mono inp f f' hle _ hr]
    exact h

theorem scenario_run :
    (run 7 scenario).map (fun r => (r.1.distinct_weights, r.1.constraints, r.2.final_weights)) =
      some ([1, 3, 5, 8], [(0, 3), (1, 3), (2, 3)], [5, 3, 5, 5]) := by
  decide

theorem scenario_main : main 7 scenario = some 7 := by decide

/-! ## Basic facts about the accessors -/

theorem edges_eq_nil_of_le (d : Dinic) (v : Nat) (h : d.adj.length ≤ v) : d.edges v = [] := by
  unfold Dinic.edges
  rw [List.getD_eq_getElem?_getD, List.getElem?_eq_none h]
  rfl

theorem lt_adj_of_lt_edges (d : Dinic) (v i : Nat) (h : i < (d.edges v).length) :
    v < d.adj.length := by
  by_contra hc
  rw [edges_eq_nil_of_le d v (by omega)] at h
  simp at h

theorem entry_mem (d : Dinic) (v i : Nat) (h : i < (d.edges v).length) :
    d.entry v i ∈ d.edges v := by
  unfold Dinic.entry
  rw [List.getD_eq_getElem _ _ h]
  exact List.getElem_mem _

theorem exists_entry_of_mem (d : Dinic) (v : Nat) (e : FlowEdge) (h : e ∈ d.edges v) :
    ∃ i, i < (d.edges v).length ∧ d.entry v i = e := by
  obtain ⟨i, hi, he⟩ := List.mem_iff_getElem.1 h
  exact ⟨i, hi, by unfold Dinic.entry; rw [List.getD_eq_getElem _ _ hi]; exact he⟩

theorem edges_addFlow (d : Dinic) (v i : Nat) (x : Int) (u : Nat) :
    (d.addFlow v i x).edges u =
      if u = v then (d.edges v).set i { d.entry v i with flow := (d.entry v i).flow + x }
      else d.edges u := by
  unfold Dinic.addFlow Dinic.edges
  simp only [List.getD_eq_getElem?_getD, List.getElem?_set]
  by_cases huv : u = v
  · subst huv
    simp only [if_true]
    by_cases hlt : u < d.adj.length
    · simp [hlt]
    · simp [hlt, List.getElem?_eq_none (Nat.le_of_not_lt hlt)]
  · have : ¬ v = u := fun h => huv h.symm
    simp [huv, this]

theorem entry_eq_getElem (d : Dinic) (v i : Nat) (h : i < (d.edges v).length) :
    d.entry v i = (d.edges v)[i] := by
  unfold Dinic.entry
  exact List.getD_eq_getElem _ _ h

theorem entry_eq_zero (d : Dinic) (v i : Nat) (h : (d.edges v).length ≤ i) :
    d.entry v i = FlowEdge.zero := by
  unfold Dinic.entry
  rw [List.getD_eq_getElem?_getD, List.getElem?_eq_none h]
  rfl

theorem entry_addFlow (d : Dinic) (v i : Nat) (x : Int) (u j : Nat) :
    (d.addFlow v i x).entry u j =
      if u = v ∧ j = i ∧ i < (d.edges v).length then
        { d.entry v i with flow := (d.entry v i).flow + x }
      else d.entry u j := by
  by_cases huv : u = v
  · subst huv
    by_cases hji : j = i
    · subst hji
      by_cases hlt : j < (d.edges u).length
      · rw [if_pos ⟨rfl, rfl, hlt⟩]
        have h2 : j < ((d.addFlow u j x).edges u).length := by
          rw [edges_addFlow, if_pos rfl]; simpa using hlt
        rw [entry_eq_getElem _ _ _ h2]
        simp only [edges_addFlow, if_true, List.getElem_set_self]
      · rw [if_neg (by tauto)]
        have h2 : ((d.addFlow u j x).edges u).length ≤ j := by
          rw [edges_addFlow, if_pos rfl]; simpa using hlt
        rw [entry_eq_zero _ _ _ h2, entry_eq_zero _ _ _ (Nat.le_of_not_lt hlt)]
    · rw [if_neg (by tauto)]
      unfold Dinic.entry
      rw [edges_addFlow, if_pos rfl]
      simp only [List.getD_eq_getElem?_getD]
      rw [List.getElem?_set_ne (fun h => hji h.symm)]
  · rw [if_neg (by tauto)]
    unfold Dinic.entry
    rw [edges_addFlow, if_neg huv]

theorem length_edges_addFlow (d : Dinic) (v i : Nat) (x : Int) (u : Nat) :
    ((d.addFlow v i x).edges u).length = (d.edges u).length := by
  rw [edges_addFlow]
  split
  · rename_i h; subst h; simp
  · rfl

theorem lvl_addFlow (d : Dinic) (v i : Nat) (x : Int) (u : Nat) :
    (d.addFlow v i x).lvl u = d.lvl u := rfl

theorem cur_addFlow (d : Dinic) (v i : Nat) (x : Int) (u : Nat) :
    (d.addFlow v i x).cur u = d.cur u := rfl

theorem edges_incPtr (d : Dinic) (v u : Nat) : (d.incPtr v).edges u = d.edges u := rfl

theorem entry_incPtr (d : Dinic) (v u i : Nat) : (d.incPtr v).entry u i = d.entry u i := rfl

theorem lvl_incPtr (d : Dinic) (v u : Nat) : (d.incPtr v).lvl u = d.lvl u := rfl

theorem cur_incPtr (d : Dinic) (v u : Nat) :
    (d.incPtr v).cur u = if u = v ∧ v < d.ptr.length then d.cur v + 1 else d.cur u := by
  unfold Dinic.incPtr Dinic.cur
  simp only [List.getD_eq_getElem?_getD, List.getElem?_set]
  by_cases huv : u = v
  · subst huv
    by_cases hlt : u < d.ptr.length
    · simp [hlt]
    · simp [hlt, List.getElem?_eq_none (Nat.le_of_not_lt hlt)]
  · have : ¬ v = u := fun h => huv h.symm
    simp [huv, this]

/-! ## Sums over the adjacency entries -/

theorem sum_range_update (F F' : Nat → Int) (v : Nat) :
    ∀ n, v < n → (∀ u, u ≠ v → F' u = F u) →
      ((List.range n).map F').sum = ((List.range n).map F).sum + (F' v - F v) := by
  intro n
  induction n with
  | zero => intro h; omega
  | succ n ih =>
    intro hv hF
    rw [List.range_succ, List.map_append, List.map_append, List.sum_append, List.sum_append]
    simp only [List.map_cons, List.map_nil, List.sum_cons, List.sum_nil, add_zero]
    by_cases hvn : v = n
    · subst hvn
      have : (List.range v).map F' = (List.range v).map F := by
        apply List.map_congr_left
        intro u hu
        exact hF u (by have := List.mem_range.1 hu; omega)
      rw [this]; ring
    · rw [ih (by omega) hF, hF n (fun h => hvn h.symm)]; ring

theorem sum_map_set (l : List FlowEdge) (g : FlowEdge → Int) (i : Nat) (a : FlowEdge)
    (h : i < l.length) :
    ((l.set i a).map g).sum = (l.map g).sum + (g a - g (l.getD i FlowEdge.zero)) := by
  induction l generalizing i with
  | nil => simp at h
  | cons b l ih =>
    cases i with
    | zero => simp [List.getD]; ring
    | succ i =>
      simp only [List.set_cons_succ, List.map_cons, List.sum_cons]
      rw [ih i (by simpa using h)]
      simp [List.getD]; ring

theorem esum_addFlow (d : Dinic) (g : Nat → FlowEdge → Int) (v i : Nat) (x : Int)
    (hi : i < (d.edges v).length) :
    (d.addFlow v i x).esum g =
      d.esum g + (g v { d.entry v i with flow := (d.entry v i).flow + x } - g v (d.entry v i)) := by
  have hv := lt_adj_of_lt_edges d v i hi
  unfold Dinic.esum
  have hlen : (d.addFlow v i x).adj.length = d.adj.length := by
    unfold Dinic.addFlow; simp
  rw [hlen]
  rw [sum_range_update (fun u => ((d.edges u).map (g u)).sum)
    (fun u => (((d.addFlow v i x).edges u).map (g u)).sum) v d.adj.length hv]
  · rw [edges_addFlow, if_pos rfl, sum_map_set _ _ _ _ hi]
    unfold Dinic.entry
    ring
  · intro u hu
    rw [edges_addFlow, if_neg hu]

theorem wsum_addFlow (d : Dinic) (c : Nat → Nat → Int) (v i : Nat) (x : Int)
    (hi : i < (d.edges v).length) :
    (d.addFlow v i x).wsum c = d.wsum c + c v (d.entry v i).to_ * x := by
  unfold Dinic.wsum
  rw [esum_addFlow d _ v i x hi]
  ring

theorem esum_congr (d d' : Dinic) (g g' : Nat → FlowEdge → Int)
    (hlen : d'.adj.length = d.adj.length)
    (h : ∀ v, ((d'.edges v).map (g' v)).sum = ((d.edges v).map (g v)).sum) :
    d'.esum g' = d.esum g := by
  unfold Dinic.esum
  rw [hlen]
  congr 1
  apply List.map_congr_left
  intro v _
  exact h v

theorem esum_le (d : Dinic) (g g' : Nat → FlowEdge → Int)
    (h : ∀ v i, i < (d.edges v).length → g v (d.entry v i) ≤ g' v (d.entry v i)) :
    d.esum g ≤ d.esum g' := by
  unfold Dinic.esum
  apply List.sum_le_sum
  intro v _
  apply List.sum_le_sum
  intro e he
  obtain ⟨i, hi, rfl⟩ := exists_entry_of_mem d v e he
  exact h v i hi

theorem esum_eq (d : Dinic) (g g' : Nat → FlowEdge → Int)
    (h : ∀ v i, i < (d.edges v).length → g v (d.entry v i) = g' v (d.entry v i)) :
    d.esum g = d.esum g' :=
  le_antisymm (esum_le d g g' (fun v i hi => le_of_eq (h v i hi)))
    (esum_le d g' g (fun v i hi => le_of_eq (h v i hi).symm))

/-! ## Breadth-first search -/

theorem getD_set_self {α : Type} (l : List α) (i : Nat) (a dflt : α) (h : i < l.length) :
    (l.set i a).getD i dflt = a := by
  rw [List.getD_eq_getElem?_getD, List.getElem?_set_self h]
  rfl

theorem getD_set_ne {α : Type} (l : List α) (i j : Nat) (a dflt : α) (h : i ≠ j) :
    (l.set i a).getD j dflt = l.getD j dflt := by
  rw [List.getD_eq_getElem?_getD, List.getElem?_set_ne h, List.getD_eq_getElem?_getD]

theorem count_set_marked (l : List Int) (i : Nat) (a : Int) (h : i < l.length)
    (hi : l.getD i 0 = -1) (ha : a ≠ -1) : (l.set i a).count (-1) + 1 = l.count (-1) := by
  rw [List.count_set _ _ _ _ h]
  have h1 : l[i] = -1 := by rw [← List.getD_eq_getElem l 0 h]; exact hi
  have hpos : 0 < l.count (-1) := by
    rw [List.count_pos_iff]
    rw [← h1]; exact List.getElem_mem _
  simp only [h1, beq_self_eq_true, if_true]
  have : (a == (-1 : Int)) = false := by simpa using ha
  simp only [this]
  simp
  omega

theorem lvlStep_mono (adj : List (List FlowEdge)) (level level' : List Int)
    (hext : ∀ u, level.getD u 0 ≠ -1 → level'.getD u 0 = level.getD u 0) (u w : Nat)
    (h : lvlStep adj level u w) : lvlStep adj level' u w := by
  obtain ⟨e, he, hto, hres, hu, hw, hl⟩ := h
  exact ⟨e, he, hto, hres, by rw [hext u hu]; exact hu, by rw [hext w hw]; exact hw,
    by rw [hext u hu, hext w hw]; exact hl⟩

theorem bfs_mark_step (adj : List (List FlowEdge)) (n s v : Nat)
    (level : List Int) (q : List Nat) (e : FlowEdge)
    (hinv : BfsInv adj n s level (v :: q)) (he : e ∈ adj.getD v []) (hlt : e.to_ < n)
    (hres : e.capacity - e.flow > 0) (hun : level.getD e.to_ 0 = -1) :
    BfsInv adj n s (level.set e.to_ (level.getD v 0 + 1)) (v :: (q ++ [e.to_])) ∧
      (∀ u, level.getD u 0 ≠ -1 →
        (level.set e.to_ (level.getD v 0 + 1)).getD u 0 = level.getD u 0) ∧
      (level.set e.to_ (level.getD v 0 + 1)).count (-1) + 1 = level.count (-1) := by
  have hvq := hinv.qmark v (List.mem_cons_self _ _)
  have hv0 : 0 ≤ level.getD v 0 := by
    have := hinv.lo v hvq.1
    have := hvq.2
    omega
  have hlen : e.to_ < level.length := by rw [hinv.len]; exact hlt
  have hext : ∀ u, level.getD u 0 ≠ -1 →
      (level.set e.to_ (level.getD v 0 + 1)).getD u 0 = level.getD u 0 := by
    intro u hu
    apply getD_set_ne
    intro h; subst h; exact hu hun
  have hcnt := count_set_marked level e.to_ (level.getD v 0 + 1) hlen hun (by omega)
  have hval : ∀ u, (level.set e.to_ (level.getD v 0 + 1)).getD u 0 =
      if u = e.to_ then level.getD v 0 + 1 else level.getD u 0 := by
    intro u
    split
    · rename_i h; subst h; exact getD_set_self _ _ _ _ hlen
    · rename_i h; exact getD_set_ne _ _ _ _ _ (fun h' => h h'.symm)
  refine ⟨⟨by simp [hinv.len], hinv.s_lt, ?_, ?_, ?_, ?_, ?_, ?_⟩, hext, hcnt⟩
  · intro u hu
    rw [hval]
    split
    · omega
    · exact hinv.lo u hu
  · intro u hu
    rw [hval]
    split
    · have := hinv.hi v hvq.1; omega
    · have := hinv.hi u hu; omega
  · rw [hext s (by rw [hinv.src]; decide)]; exact hinv.src
  · intro x hx
    rcases List.mem_cons.1 hx with hx | hx
    · subst hx; exact ⟨hvq.1, by rw [hext x hvq.2]; exact hvq.2⟩
    · rcases List.mem_append.1 hx with hx | hx
      · have := hinv.qmark x (List.mem_cons_of_mem _ hx)
        exact ⟨this.1, by rw [hext x this.2]; exact this.2⟩
      · have hx := List.mem_singleton.1 hx
        subst hx; exact ⟨hlt, by rw [hval, if_pos rfl]; omega⟩
  · intro u hu hm
    rw [hval] at hm
    by_cases hue : u = e.to_
    · left; subst hue; simp
    · rw [if_neg hue] at hm
      rcases hinv.closed u hu hm with h | h
      · left
        rcases List.mem_cons.1 h with h | h
        · subst h; exact List.mem_cons_self _ _
        · exact List.mem_cons_of_mem _ (List.mem_append_left _ h)
      · right
        intro w hw
        have := h w hw
        rw [hval]
        split
        · omega
        · exact this
  · intro u hu hm
    rw [hval] at hm
    by_cases hue : u = e.to_
    · subst hue
      have hp := hinv.path v hvq.1 hvq.2
      have hp' := Relation.ReflTransGen.mono (lvlStep_mono adj level _ hext) hp
      refine Relation.ReflTransGen.tail hp' ⟨e, he, rfl, hres, ?_, ?_, ?_⟩
      · rw [hext v hvq.2]; exact hvq.2
      · rw [hval, if_pos rfl]; omega
      · rw [hext v hvq.2, hval, if_pos rfl]
    · rw [if_neg hue] at hm
      exact Relation.ReflTransGen.mono (lvlStep_mono adj level _ hext) (hinv.path u hu hm)

theorem bfsScan_inv (adj : List (List FlowEdge)) (n s v : Nat)
    (hto : ∀ e ∈ adj.getD v [], e.to_ < n) :
    ∀ (es : List FlowEdge) (level : List Int) (q : List Nat),
      (∀ e ∈ es, e ∈ adj.getD v []) → BfsInv adj n s level (v :: q) →
      BfsInv adj n s (bfsScan v es (level, q)).1 (v :: (bfsScan v es (level, q)).2) ∧
        (∀ u, level.getD u 0 ≠ -1 → (bfsScan v es (level, q)).1.getD u 0 = level.getD u 0) ∧
        (∀ e ∈ es, e.capacity - e.flow > 0 → (bfsScan v es (level, q)).1.getD e.to_ 0 ≠ -1) ∧
        (bfsScan v es (level, q)).1.count (-1) + (bfsScan v es (level, q)).2.length =
          level.count (-1) + q.length := by
  intro es
  induction es with
  | nil =>
    intro level q _ hinv
    exact ⟨hinv, fun _ _ => rfl, fun e he => absurd he (List.not_mem_nil e), rfl⟩
  | cons e es ih =>
    intro level q hsub hinv
    have he := hsub e (List.mem_cons_self _ _)
    have hsub' : ∀ e' ∈ es, e' ∈ adj.getD v [] := fun e' h => hsub e' (List.mem_cons_of_mem _ h)
    simp only [bfsScan]
    split
    · rename_i hc
      obtain ⟨hres, hun⟩ := hc
      obtain ⟨hinv1, hext1, hcnt1⟩ := bfs_mark_step adj n s v level q e hinv he (hto e he) hres hun
      obtain ⟨hinv2, hext2, hall2, hcnt2⟩ := ih _ _ hsub' hinv1
      refine ⟨hinv2, ?_, ?_, ?_⟩
      · intro u hu
        rw [hext2 u (by rw [hext1 u hu]; exact hu), hext1 u hu]
      · intro e' he' hres'
        simp only [List.mem_cons] at he'
        rcases he' with h | h
        · subst h
          have hv := hinv.qmark v (List.mem_cons_self _ _)
          have hlo := hinv.lo v hv.1
          have hm1 : (level.set e'.to_ (level.getD v 0 + 1)).getD e'.to_ 0 ≠ -1 := by
            rw [getD_set_self _ _ _ _ (by rw [hinv.len]; exact hto e' he)]
            have := hv.2
            omega
          rw [hext2 _ hm1]; exact hm1
        · exact hall2 e' h hres'
      · rw [hcnt2]; simp only [List.length_append, List.length_singleton]; omega
    · rename_i hc
      obtain ⟨hinv2, hext2, hall2, hcnt2⟩ := ih _ _ hsub' hinv
      refine ⟨hinv2, hext2, ?_, hcnt2⟩
      intro e' he' hres'
      simp only [List.mem_cons] at he'
      rcases he' with h | h
      · subst h
        have hm : level.getD e'.to_ 0 ≠ -1 := fun h => hc ⟨hres', h⟩
        rw [hext2 _ hm]; exact hm
      · exact hall2 e' h hres'

theorem bfsLoop_spec (adj : List (List FlowEdge)) (n s : Nat)
    (hto : ∀ v, ∀ e ∈ adj.getD v [], e.to_ < n) :
    ∀ (fuel : Nat) (level : List Int) (q : List Nat),
      BfsInv adj n s level q → level.count (-1) + q.length ≤ fuel →
      ∃ L, bfsLoop adj fuel level q = some L ∧ BfsInv adj n s L [] ∧
        (∀ u, level.getD u 0 ≠ -1 → L.getD u 0 = level.getD u 0) := by
  intro fuel
  induction fuel with
  | zero =>
    intro level q hinv hf
    have : q = [] := by
      cases q with
      | nil => rfl
      | cons a q => simp at hf
    subst this
    exact ⟨level, by simp [bfsLoop], hinv, fun _ _ => rfl⟩
  | succ fuel ih =>
    intro level q hinv hf
    cases q with
    | nil => exact ⟨level, by simp [bfsLoop], hinv, fun _ _ => rfl⟩
    | cons v q =>
      simp only [bfsLoop]
      obtain ⟨hinv1, hext1, hall1, hcnt1⟩ :=
        bfsScan_inv adj n s v (hto v) (adj.getD v []) level q (fun _ h => h) hinv
      have hinv2 : BfsInv adj n s (bfsScan v (adj.getD v []) (level, q)).1
          (bfsScan v (adj.getD v []) (level, q)).2 := by
        refine ⟨hinv1.len, hinv1.s_lt, hinv1.lo, hinv1.hi, hinv1.src, ?_, ?_, hinv1.path⟩
        · intro x hx; exact hinv1.qmark x (List.mem_cons_of_mem _ hx)
        · intro u hu hm
          rcases hinv1.closed u hu hm with h | h
          · simp only [List.mem_cons] at h
            rcases h with h | h
            · subst h
              right
              intro w hw
              obtain ⟨e, he, hew, hres⟩ := hw
              subst hew
              exact hall1 e he hres
            · left; exact h
          · right; exact h
      obtain ⟨L, hL, hinvL, hextL⟩ := ih _ _ hinv2 (by
        simp only [List.length_cons] at hf
        omega)
      refine ⟨L, hL, hinvL, ?_⟩
      intro u hu
      rw [hextL u (by rw [hext1 u hu]; exact hu), hext1 u hu]

theorem bfsScan_len_lo (v : Nat) :
    ∀ (es : List FlowEdge) (level : List Int) (q : List Nat),
      (∀ u, -1 ≤ level.getD u 0) →
      (bfsScan v es (level, q)).1.length = level.length ∧
        ∀ u, -1 ≤ (bfsScan v es (level, q)).1.getD u 0 := by
  intro es
  induction es with
  | nil => intro level q hlo; exact ⟨rfl, hlo⟩
  | cons e es ih =>
    intro level q hlo
    simp only [bfsScan]
    split
    · have hlo' : ∀ u, -1 ≤ (level.set e.to_ (level.getD v 0 + 1)).getD u 0 := by
        intro u
        by_cases hu : e.to_ = u
        · subst hu
          by_cases hlt : e.to_ < level.length
          · rw [getD_set_self _ _ _ _ hlt]; have := hlo v; omega
          · rw [List.set_eq_of_length_le (by omega)]; exact hlo _
        · rw [getD_set_ne _ _ _ _ _ hu]; exact hlo u
      obtain ⟨h1, h2⟩ := ih (level.set e.to_ (level.getD v 0 + 1)) (q ++ [e.to_]) hlo'
      exact ⟨by rw [h1]; simp, h2⟩
    · exact ih level q hlo

theorem getD_map_isMarked (level : List Int) (i : Nat) (h : i < level.length) :
    (level.map isMarked).getD i false = isMarked (level.getD i 0) := by
  rw [List.getD_eq_getElem _ _ (by simpa using h), List.getD_eq_getElem _ _ h]
  simp

theorem cutScan_sim (v : Nat) :
    ∀ (es : List FlowEdge) (level : List Int) (q : List Nat),
      (∀ e ∈ es, e.to_ < level.length) → (∀ u, -1 ≤ level.getD u 0) →
      cutScan es (level.map isMarked, q) =
        ((bfsScan v es (level, q)).1.map isMarked, (bfsScan v es (level, q)).2) := by
  intro es
  induction es with
  | nil => intro level q _ _; rfl
  | cons e es ih =>
    intro level q hto hlo
    have he := hto e (List.mem_cons_self _ _)
    have hto' : ∀ e' ∈ es, e'.to_ < level.length := fun e' h => hto e' (List.mem_cons_of_mem _ h)
    have hm : ((level.map isMarked).getD e.to_ false = false) ↔ level.getD e.to_ 0 = -1 := by
      rw [getD_map_isMarked level e.to_ he]
      simp [isMarked]
    simp only [bfsScan, cutScan]
    by_cases hc : e.capacity - e.flow > 0 ∧ level.getD e.to_ 0 = -1
    · rw [if_pos hc, if_pos ⟨hc.1, hm.2 hc.2⟩]
      have hv : isMarked (level.getD v 0 + 1) = true := by
        have := hlo v
        simp only [isMarked, decide_eq_true_eq]
        omega
      have hset : (level.map isMarked).set e.to_ true =
          (level.set e.to_ (level.getD v 0 + 1)).map isMarked := by
        rw [List.map_set, hv]
      rw [hset]
      apply ih
      · intro e' h; rw [List.length_set]; exact hto' e' h
      · intro u
        by_cases hu : e.to_ = u
        · subst hu
          rw [getD_set_self _ _ _ _ he]; have := hlo v; omega
        · rw [getD_set_ne _ _ _ _ _ hu]; exact hlo u
    · rw [if_neg hc, if_neg (fun h => hc ⟨h.1, hm.1 h.2⟩)]
      exact ih level q hto' hlo

theorem cutLoop_sim (adj : List (List FlowEdge)) (n : Nat)
    (hto : ∀ v, ∀ e ∈ adj.getD v [], e.to_ < n) :
    ∀ (fuel : Nat) (level : List Int) (q : List Nat),
      level.length = n → (∀ u, -1 ≤ level.getD u 0) →
      cutLoop adj fuel (level.map isMarked) q =
        (bfsLoop adj fuel level q).map (List.map isMarked) := by
  intro fuel
  induction fuel with
  | zero =>
    intro level q _ _
    cases q <;> simp [cutLoop, bfsLoop]
  | succ fuel ih =>
    intro level q hlen hlo
    cases q with
    | nil => simp [cutLoop, bfsLoop]
    | cons v q =>
      simp only [cutLoop, bfsLoop]
      rw [cutScan_sim v (adj.getD v []) level q (fun e he => by rw [hlen]; exact hto v e he) hlo]
      obtain ⟨h1, h2⟩ := bfsScan_len_lo v (adj.getD v []) level q hlo
      exact ih _ _ (by rw [h1, hlen]) h2

theorem resEdge_iff (d : Dinic) (u w : Nat) : resEdge d.adj u w ↔ d.Res u w := by
  constructor
  · rintro ⟨e, he, hto, hres⟩
    obtain ⟨i, hi, hei⟩ := exists_entry_of_mem d u e he
    exact ⟨i, hi, by rw [hei]; exact hto, by rw [hei]; exact hres⟩
  · rintro ⟨i, hi, hto, hres⟩
    exact ⟨d.entry u i, entry_mem d u i hi, hto, hres⟩

theorem wf_to_lt_mem (d : Dinic) (hwf : d.WF) :
    ∀ v, ∀ e ∈ d.adj.getD v [], e.to_ < d.n := by
  intro v e he
  obtain ⟨i, hi, hei⟩ := exists_entry_of_mem d v e he
  rw [← hei]
  exact hwf.to_lt v i hi

theorem bfs_init_inv (adj : List (List FlowEdge)) (n s : Nat) (hs : s < n) :
    BfsInv adj n s ((List.replicate n (-1 : Int)).set s 0) [s] ∧
      ((List.replicate n (-1 : Int)).set s 0).count (-1) + 1 = n := by
  have hlen : s < (List.replicate n (-1 : Int)).length := by simpa using hs
  have hcnt := count_set_marked (List.replicate n (-1 : Int)) s 0 hlen
    (by rw [List.getD_eq_getElem _ _ hlen]; simp) (by decide)
  rw [List.count_replicate_self] at hcnt
  have hval : ∀ u, u < n → ((List.replicate n (-1 : Int)).set s 0).getD u 0 =
      if u = s then 0 else -1 := by
    intro u hu
    split
    · rename_i h; subst h; exact getD_set_self _ _ _ _ hlen
    · rename_i h
      rw [getD_set_ne _ _ _ _ _ (fun h' => h h'.symm),
        List.getD_eq_getElem _ _ (by simpa using hu)]
      simp
  refine ⟨⟨by simp, hs, ?_, ?_, ?_, ?_, ?_, ?_⟩, hcnt⟩
  · intro u hu; rw [hval u hu]; split <;> omega
  · intro u hu; rw [hval u hu]; split <;> omega
  · rw [hval s hs, if_pos rfl]
  · intro v hv
    have := List.mem_singleton.1 hv
    subst this
    exact ⟨hs, by rw [hval v hs, if_pos rfl]; decide⟩
  · intro u hu hm
    rw [hval u hu] at hm
    left
    by_cases h : u = s
    · subst h; simp
    · rw [if_neg h] at hm; exact absurd rfl hm
  · intro u hu hm
    rw [hval u hu] at hm
    by_cases h : u = s
    · subst h; exact Relation.ReflTransGen.refl
    · rw [if_neg h] at hm; exact absurd rfl hm

theorem bfs_final_reach (d : Dinic) (hwf : d.WF) (s : Nat) (L : List Int)
    (hinv : BfsInv d.adj d.n s L []) (u : Nat) (hu : u < d.n) :
    L.getD u 0 ≠ -1 ↔ d.Reach s u := by
  constructor
  · intro hm
    have hp := hinv.path u hu hm
    refine Relation.ReflTransGen.mono ?_ hp
    intro a b hab
    obtain ⟨e, he, hto, hres, _⟩ := hab
    exact (resEdge_iff d a b).1 ⟨e, he, hto, hres⟩
  · intro hr
    induction hr with
    | refl => rw [hinv.src]; decide
    | tail hab hbc ih =>
      rename_i b c
      have hb : b < d.n := by
        obtain ⟨i, hi, _, _⟩ := hbc
        have := lt_adj_of_lt_edges d b i hi
        rw [hwf.adj_len] at this
        exact this
      have hmb := ih hb
      rcases hinv.closed b hb hmb with h | h
      · exact absurd h (List.not_mem_nil b)
      · exact h c ((resEdge_iff d b c).2 hbc)

theorem bfs_spec (d : Dinic) (hwf : d.WF) (s t fuel : Nat) (hs : s < d.n) (hf : d.n ≤ fuel) :
    ∃ L, d.bfs fuel s t = some (decide (L.getD t 0 ≠ -1), { d with level := L }) ∧
      BfsInv d.adj d.n s L [] := by
  obtain ⟨hinv, hcnt⟩ := bfs_init_inv d.adj d.n s hs
  obtain ⟨L, hL, hLinv, _⟩ := bfsLoop_spec d.adj d.n s (wf_to_lt_mem d hwf) fuel _ _ hinv
    (by simp only [List.length_singleton]; omega)
  refine ⟨L, ?_, hLinv⟩
  unfold Dinic.bfs
  rw [hwf.level_len, hL]

theorem get_cut_spec (d : Dinic) (hwf : d.WF) (s fuel : Nat) (hs : s < d.n) (hf : d.n ≤ fuel) :
    ∃ cut, d.get_cut fuel s = some cut ∧ cut.length = d.n ∧
      ∀ u, u < d.n → (cut.getD u false = true ↔ d.Reach s u) := by
  obtain ⟨hinv, hcnt⟩ := bfs_init_inv d.adj d.n s hs
  obtain ⟨L, hL, hLinv, _⟩ := bfsLoop_spec d.adj d.n s (wf_to_lt_mem d hwf) fuel _ _ hinv
    (by simp only [List.length_singleton]; omega)
  have hinit : (List.replicate d.n false).set s true =
      ((List.replicate d.n (-1 : Int)).set s 0).map isMarked := by
    rw [List.map_set, List.map_replicate]
    rfl
  have hlo : ∀ u, -1 ≤ ((List.replicate d.n (-1 : Int)).set s 0).getD u 0 := by
    intro u
    by_cases hu : u < d.n
    · exact hinv.lo u hu
    · rw [List.getD_eq_getElem?_getD, List.getElem?_eq_none (by simp; omega)]
      decide
  refine ⟨L.map isMarked, ?_, by simp [hLinv.len], ?_⟩
  · unfold Dinic.get_cut
    rw [hinit, cutLoop_sim d.adj d.n (wf_to_lt_mem d hwf) fuel _ _ (by simp) hlo, hL]
    rfl
  · intro u hu
    rw [getD_map_isMarked L u (by rw [hLinv.len]; exact hu), ← bfs_final_reach d hwf s L hLinv u hu]
    simp [isMarked]

theorem lvlStep_adm (d : Dinic) (L : List Int) (a b : Nat) (h : lvlStep d.adj L a b) :
    Dinic.Adm { d with level := L } a b := by
  obtain ⟨e, he, hto, hres, _, _, hl⟩ := h
  obtain ⟨i, hi, hei⟩ := exists_entry_of_mem d a e he
  refine ⟨i, hi, ?_, ?_, ?_⟩
  · show (d.entry a i).to_ = b
    rw [hei]; exact hto
  · show L.getD a 0 + 1 = L.getD (d.entry a i).to_ 0
    rw [hei, hto]; exact hl
  · show (d.entry a i).capacity - (d.entry a i).flow ≠ 0
    rw [hei]; omega

/-! ## Augmentation along a level-graph path -/

theorem to_addFlow (d : Dinic) (v i : Nat) (x : Int) (u j : Nat) :
    ((d.addFlow v i x).entry u j).to_ = (d.entry u j).to_ := by
  rw [entry_addFlow]
  split
  · rename_i h; obtain ⟨h1, h2, _⟩ := h; subst h1; subst h2; rfl
  · rfl

theorem capacity_addFlow (d : Dinic) (v i : Nat) (x : Int) (u j : Nat) :
    ((d.addFlow v i x).entry u j).capacity = (d.entry u j).capacity := by
  rw [entry_addFlow]
  split
  · rename_i h; obtain ⟨h1, h2, _⟩ := h; subst h1; subst h2; rfl
  · rfl

theorem rev_addFlow (d : Dinic) (v i : Nat) (x : Int) (u j : Nat) :
    ((d.addFlow v i x).entry u j).rev = (d.entry u j).rev := by
  rw [entry_addFlow]
  split
  · rename_i h; obtain ⟨h1, h2, _⟩ := h; subst h1; subst h2; rfl
  · rfl

theorem flow_addFlow (d : Dinic) (v i : Nat) (x : Int) (u j : Nat) :
    ((d.addFlow v i x).entry u j).flow =
      if u = v ∧ j = i ∧ i < (d.edges v).length then (d.entry v i).flow + x
      else (d.entry u j).flow := by
  rw [entry_addFlow]
  split <;> rfl

theorem wf_addFlow (d : Dinic) (v i : Nat) (x : Int) (h : d.WF) : (d.addFlow v i x).WF := by
  refine ⟨?_, h.level_len, h.ptr_len, ?_, ?_⟩
  · show (d.adj.set v _).length = d.n
    rw [List.length_set]; exact h.adj_len
  · intro u j hj
    rw [length_edges_addFlow] at hj
    rw [to_addFlow]
    exact h.to_lt u j hj
  · intro u j hj hne
    rw [length_edges_addFlow] at hj
    rw [to_addFlow] at hne ⊢
    rw [rev_addFlow, length_edges_addFlow, to_addFlow]
    exact h.pair u j hj hne

theorem sameShape_refl (d : Dinic) : d.SameShape d :=
  ⟨rfl, rfl, fun _ => ⟨rfl, fun _ => ⟨rfl, rfl, rfl⟩⟩⟩

theorem sameShape_trans (d d1 d2 : Dinic) (h1 : d.SameShape d1) (h2 : d1.SameShape d2) :
    d.SameShape d2 := by
  obtain ⟨a1, b1, c1⟩ := h1
  obtain ⟨a2, b2, c2⟩ := h2
  refine ⟨a2.trans a1, b2.trans b1, fun v => ⟨(c2 v).1.trans (c1 v).1, fun i => ?_⟩⟩
  obtain ⟨x1, y1, z1⟩ := (c1 v).2 i
  obtain ⟨x2, y2, z2⟩ := (c2 v).2 i
  exact ⟨x2.trans x1, y2.trans y1, z2.trans z1⟩

theorem sameShape_addFlow (d : Dinic) (v i : Nat) (x : Int) : d.SameShape (d.addFlow v i x) := by
  refine ⟨rfl, ?_, fun u => ⟨length_edges_addFlow d v i x u, fun j =>
    ⟨to_addFlow d v i x u j, capacity_addFlow d v i x u j, rev_addFlow d v i x u j⟩⟩⟩
  show (d.adj.set v _).length = d.adj.length
  rw [List.length_set]

theorem capOK_addFlow (d : Dinic) (v i : Nat) (x : Int) (h : d.CapOK)
    (hx : i < (d.edges v).length → (d.entry v i).flow + x ≤ (d.entry v i).capacity) :
    (d.addFlow v i x).CapOK := by
  intro u j hj
  rw [length_edges_addFlow] at hj
  rw [capacity_addFlow, flow_addFlow]
  split
  · rename_i hc
    obtain ⟨h1, h2, h3⟩ := hc
    subst h1; subst h2
    exact hx h3
  · exact h u j hj

theorem bounds_of_shape (d d1 : Dinic) (B D : Nat) (hs : d.SameShape d1)
    (hl : d1.level = d.level) (hb : d.Bounds B D) : d1.Bounds B D := by
  obtain ⟨hn, _, he⟩ := hs
  refine ⟨fun u hu => ?_, fun u => ?_⟩
  · have : d1.lvl u = d.lvl u := by unfold Dinic.lvl; rw [hl]
    rw [this]; exact hb.1 u (by rw [← hn]; exact hu)
  · rw [(he u).1]; exact hb.2 u

theorem canReach_not_of_dead (d : Dinic) (v t : Nat) (hvt : v ≠ t) (hd : d.Dead t)
    (hcur : (d.edges v).length ≤ d.cur v) : ¬ d.CanReach v t := by
  intro hr
  rcases Relation.ReflTransGen.cases_head hr with h | ⟨w, hvw, hwt⟩
  · exact hvt h
  · obtain ⟨i, hi, hto, hus⟩ := hvw
    refine hd v i (by omega) hi ⟨hus, ?_⟩
    rw [hto]; exact hwt

theorem dfsPost_stop (d : Dinic) (v t : Nat) (pushed : Int) (hwf : d.WF) (hcap : d.CapOK)
    (hp : 0 ≤ pushed) (hvt : v ≠ t) (hcur : (d.edges v).length ≤ d.cur v) :
    DfsPost d d v t pushed 0 :=
  ⟨le_refl 0, hp, hwf, hcap, sameShape_refl d, rfl, fun _ => le_refl _, fun _ _ => rfl,
    fun _ _ => rfl, fun _ => rfl, fun _ _ _ => by ring,
    fun _ hd _ => ⟨hd, canReach_not_of_dead d v t hvt hd hcur⟩⟩

theorem dfsPost_of_ptrStep (d d1 d2 : Dinic) (v t : Nat) (pushed f : Int)
    (hs : PtrStep d d1 v t) (hp : DfsPost d1 d2 v t pushed f) : DfsPost d d2 v t pushed f := by
  obtain ⟨n, adj, level, ptr⟩ := d
  obtain ⟨n1, adj1, level1, ptr1⟩ := d1
  obtain ⟨hn, hadj, hlevel, hmono, hlocal, hdead⟩ := hs
  simp only at hn hadj hlevel
  subst hn; subst hadj; subst hlevel
  refine ⟨hp.f_nonneg, hp.f_le, hp.wf, hp.cap, hp.shape, hp.level_eq, ?_, hp.local_edges, ?_,
    hp.zero_adj, hp.track, ?_⟩
  · intro u; exact le_trans (hmono u) (hp.ptr_mono u)
  · intro u hu; rw [hp.local_cur u hu]; exact hlocal u hu
  · intro h0 hd hf
    exact hp.dead h0 (hdead hd) hf

theorem wf_incPtr (d : Dinic) (v : Nat) (h : d.WF) : (d.incPtr v).WF :=
  ⟨h.adj_len, h.level_len, by show (d.ptr.set v _).length = d.n; rw [List.length_set]; exact h.ptr_len,
    h.to_lt, h.pair⟩

theorem ptrStep_incPtr (d : Dinic) (v t : Nat)
    (hdead : d.Dead t → ¬ (d.Usable v (d.cur v) ∧ d.CanReach (d.entry v (d.cur v)).to_ t)) :
    PtrStep d (d.incPtr v) v t := by
  refine ⟨rfl, rfl, rfl, ?_, ?_, ?_⟩
  · intro u; rw [cur_incPtr]; split
    · rename_i h; rw [h.1]; omega
    · exact le_refl _
  · intro u hu
    rw [cur_incPtr, if_neg]
    rintro ⟨h, _⟩
    subst h
    exact lt_irrefl _ hu
  · intro hd u i hi hlen
    rw [cur_incPtr] at hi
    by_cases huv : u = v ∧ v < d.ptr.length
    · rw [if_pos huv] at hi
      obtain ⟨h1, _⟩ := huv
      subst h1
      by_cases hic : i < d.cur u
      · exact hd u i hic hlen
      · have : i = d.cur u := by omega
        subst this
        exact hdead hd
    · rw [if_neg huv] at hi
      exact hd u i hi hlen

theorem ptrStep_of_zero (d d1 : Dinic) (v tr t : Nat) (p : Int) (hp0 : 0 < p)
    (hlv : d.lvl v < d.lvl tr) (hp : DfsPost d d1 tr t p 0) : PtrStep d d1 v t :=
  ⟨hp.shape.1, hp.zero_adj rfl, hp.level_eq, hp.ptr_mono,
    fun u hu => hp.local_cur u (lt_trans hu hlv), fun hd => (hp.dead hp0 hd rfl).1⟩

theorem dead_of_zero (d d1 : Dinic) (v tr t : Nat) (p : Int) (hp0 : 0 < p)
    (hlv : d.lvl v < d.lvl tr) (htr : (d.entry v (d.cur v)).to_ = tr)
    (hp : DfsPost d d1 tr t p 0) :
    d1.Dead t → ¬ (d1.Usable v (d1.cur v) ∧ d1.CanReach (d1.entry v (d1.cur v)).to_ t) := by
  have hcur : d1.cur v = d.cur v := hp.local_cur v hlv
  have hadj := hp.zero_adj rfl
  have hlevel := hp.level_eq
  have hmono := hp.ptr_mono
  have hdead := hp.dead hp0
  obtain ⟨n, adj, level, ptr⟩ := d
  obtain ⟨n1, adj1, level1, ptr1⟩ := d1
  simp only at hadj hlevel
  subst hadj; subst hlevel
  intro hd1 hc
  have hd : Dinic.Dead ⟨n, adj1, level1, ptr⟩ t := by
    intro u i hi hlen
    exact hd1 u i (lt_of_lt_of_le hi (hmono u)) hlen
  have h2 := (hdead hd rfl).2
  apply h2
  have h3 := hc.2
  rw [hcur] at h3
  rw [← htr]
  exact h3

theorem dfsPost_push (d d1 : Dinic) (v t : Nat) (pushed f : Int)
    (hlt : d.cur v < (d.edges v).length)
    (hus : d.Usable v (d.cur v)) (hf : f ≠ 0)
    (hp : DfsPost d d1 (d.entry v (d.cur v)).to_ t
      (min pushed ((d.entry v (d.cur v)).capacity - (d.entry v (d.cur v)).flow)) f) :
    DfsPost d ((d1.addFlow v (d.cur v) f).addFlow (d.entry v (d.cur v)).to_
      ((d1.addFlow v (d.cur v) f).entry v (d.cur v)).rev (-f)) v t pushed f := by
  have hlv : d.lvl v < d.lvl (d.entry v (d.cur v)).to_ := by have := hus.1; omega
  have hne : (d.entry v (d.cur v)).to_ ≠ v := by
    intro h; rw [h] at hlv; exact lt_irrefl _ hlv
  have hedges : d1.edges v = d.edges v := hp.local_edges v hlv
  have hentry : d1.entry v (d.cur v) = d.entry v (d.cur v) := by
    unfold Dinic.entry; rw [hedges]
  have hlt1 : d.cur v < (d1.edges v).length := by rw [hedges]; exact hlt
  have hrev : ((d1.addFlow v (d.cur v) f).entry v (d.cur v)).rev = (d.entry v (d.cur v)).rev := by
    rw [rev_addFlow, hentry]
  rw [hrev]
  have hpair := hp.wf.pair v (d.cur v) hlt1 (by rw [hentry]; exact hne)
  rw [hentry] at hpair
  obtain ⟨hrlt, hrto⟩ := hpair
  have hfle := hp.f_le
  have hf0 := hp.f_nonneg
  have hcap2 : (d1.addFlow v (d.cur v) f).CapOK := by
    apply capOK_addFlow _ _ _ _ hp.cap
    intro _
    rw [hentry]
    have := min_le_right pushed ((d.entry v (d.cur v)).capacity - (d.entry v (d.cur v)).flow)
    omega
  have hrlt2 : (d.entry v (d.cur v)).rev <
      ((d1.addFlow v (d.cur v) f).edges (d.entry v (d.cur v)).to_).length := by
    rw [length_edges_addFlow]; exact hrlt
  refine ⟨hf0, le_trans hfle (min_le_left _ _), wf_addFlow _ _ _ _ (wf_addFlow _ _ _ _ hp.wf),
    ?_, ?_, hp.level_eq, hp.ptr_mono, ?_, ?_, fun h => absurd h hf, ?_, fun _ _ h => absurd h hf⟩
  · apply capOK_addFlow _ _ _ _ hcap2
    intro _
    have := hcap2 _ _ hrlt2
    omega
  · exact sameShape_trans _ _ _ hp.shape
      (sameShape_trans _ _ _ (sameShape_addFlow _ _ _ _) (sameShape_addFlow _ _ _ _))
  · intro u hu
    have hu1 : u ≠ v := by intro h; rw [h] at hu; exact lt_irrefl _ hu
    have hu2 : u ≠ (d.entry v (d.cur v)).to_ := by
      intro h; rw [← h] at hlv; exact lt_irrefl _ (lt_trans hu hlv)
    rw [edges_addFlow, if_neg hu2, edges_addFlow, if_neg hu1]
    exact hp.local_edges u (lt_trans hu hlv)
  · intro u hu
    exact hp.local_cur u (lt_trans hu hlv)
  · intro c φ hc
    rw [wsum_addFlow _ c _ _ _ hrlt2, to_addFlow, hrto, wsum_addFlow _ c _ _ _ hlt1, hentry,
      hp.track c φ hc]
    linear_combination f * hc v (d.entry v (d.cur v)).to_

theorem dfsLoop_spec (t B D fuel : Nat) (rc : Dinic → Nat → Int → Option (Int × Dinic))
    (hrc : ∀ d1 tr p, d1.WF → d1.CapOK → d1.Bounds B D → 0 ≤ p →
      D + ((B : Int) - d1.lvl tr).toNat + 1 ≤ fuel →
      ∃ f d2, rc d1 tr p = some (f, d2) ∧ DfsPost d1 d2 tr t p f)
    (v : Nat) (pushed : Int) (hpos : 0 < pushed) (hvt : v ≠ t) :
    ∀ (k : Nat) (d : Dinic), d.WF → d.CapOK → d.Bounds B D →
      D + ((B : Int) - d.lvl v).toNat ≤ fuel → (d.edges v).length - d.cur v < k →
      ∃ f d2, dfsLoop rc v pushed k d = some (f, d2) ∧ DfsPost d d2 v t pushed f := by
  intro k
  induction k with
  | zero => intro d _ _ _ _ hk; omega
  | succ k ih =>
    intro d hwf hcap hb hfuel hk
    simp only [dfsLoop]
    by_cases hlt : d.cur v < (d.edges v).length
    · rw [if_pos hlt]
      have hvn : v < d.n := by
        have := lt_adj_of_lt_edges d v _ hlt
        rw [hwf.adj_len] at this; exact this
      have hvp : v < d.ptr.length := by rw [hwf.ptr_len]; exact hvn
      by_cases hc : d.lvl v + 1 ≠ d.lvl (d.entry v (d.cur v)).to_ ∨
          (d.entry v (d.cur v)).capacity - (d.entry v (d.cur v)).flow = 0
      · rw [if_pos hc]
        have hstep : PtrStep d (d.incPtr v) v t := by
          apply ptrStep_incPtr
          intro _ hh
          rcases hc with h | h
          · exact h hh.1.1
          · exact hh.1.2 h
        obtain ⟨f, d2, hres, hpost⟩ := ih (d.incPtr v) (wf_incPtr d v hwf) hcap
          (bounds_of_shape d _ B D (sameShape_refl d) rfl hb) hfuel (by
            rw [edges_incPtr, cur_incPtr, if_pos ⟨rfl, hvp⟩]; omega)
        exact ⟨f, d2, hres, dfsPost_of_ptrStep _ _ _ _ _ _ _ hstep hpost⟩
      · rw [if_neg hc]
        have hus : d.Usable v (d.cur v) := by
          constructor
          · by_contra h; exact hc (Or.inl h)
          · intro h; exact hc (Or.inr h)
        have hres0 : 0 < (d.entry v (d.cur v)).capacity - (d.entry v (d.cur v)).flow := by
          have h1 := hcap v _ hlt
          have h2 := hus.2
          omega
        have hp1 : 0 < min pushed
            ((d.entry v (d.cur v)).capacity - (d.entry v (d.cur v)).flow) := lt_min hpos hres0
        have htr : (d.entry v (d.cur v)).to_ < d.n := hwf.to_lt v _ hlt
        have hlv : d.lvl v < d.lvl (d.entry v (d.cur v)).to_ := by have := hus.1; omega
        have hfuel1 : D + ((B : Int) - d.lvl (d.entry v (d.cur v)).to_).toNat + 1 ≤ fuel := by
          have h1 := hb.1 _ htr
          have h2 := hus.1
          omega
        obtain ⟨f1, d1, hr1, hpost1⟩ := hrc d _ _ hwf hcap hb (le_of_lt hp1) hfuel1
        rw [hr1]
        simp only
        by_cases hf1 : f1 = 0
        · rw [if_pos hf1]
          subst hf1
          have hstep1 : PtrStep d d1 v t := ptrStep_of_zero d d1 v _ t _ hp1 hlv hpost1
          have hstep2 : PtrStep d1 (d1.incPtr v) v t :=
            ptrStep_incPtr d1 v t (dead_of_zero d d1 v _ t _ hp1 hlv rfl hpost1)
          have hb1 := bounds_of_shape d d1 B D hpost1.shape hpost1.level_eq hb
          have hlvl1 : d1.lvl v = d.lvl v := by unfold Dinic.lvl; rw [hpost1.level_eq]
          have hcur1 : d1.cur v = d.cur v := hpost1.local_cur v hlv
          have hvp1 : v < d1.ptr.length := by
            rw [hpost1.wf.ptr_len, hpost1.shape.1]; exact hvn
          obtain ⟨f, d2, hres, hpost⟩ := ih (d1.incPtr v) (wf_incPtr d1 v hpost1.wf) hpost1.cap
            (bounds_of_shape d1 _ B D (sameShape_refl d1) rfl hb1)
            (by show D + ((B : Int) - d1.lvl v).toNat ≤ fuel; rw [hlvl1]; exact hfuel)
            (by
              rw [edges_incPtr, cur_incPtr, if_pos ⟨rfl, hvp1⟩, hcur1, (hpost1.shape.2.2 v).1]
              omega)
          exact ⟨f, d2, hres, dfsPost_of_ptrStep _ _ _ _ _ _ _ hstep1
            (dfsPost_of_ptrStep _ _ _ _ _ _ _ hstep2 hpost)⟩
        · rw [if_neg hf1]
          exact ⟨f1, _, rfl, dfsPost_push d d1 v t pushed f1 hlt hus hf1 hpost1⟩
    · rw [if_neg hlt]
      exact ⟨0, d, rfl, dfsPost_stop d v t pushed hwf hcap (le_of_lt hpos) hvt (by omega)⟩

theorem dfs_spec (t B D : Nat) :
    ∀ (fuel : Nat) (d : Dinic) (v : Nat) (pushed : Int), d.WF → d.CapOK → d.Bounds B D →
      0 ≤ pushed → D + ((B : Int) - d.lvl v).toNat + 1 ≤ fuel →
      ∃ f d2, d.dfs fuel v t pushed = some (f, d2) ∧ DfsPost d d2 v t pushed f := by
  intro fuel
  induction fuel with
  | zero => intro d v pushed _ _ _ _ h; omega
  | succ fuel ih =>
    intro d v pushed hwf hcap hb hp hfuel
    simp only [Dinic.dfs]
    by_cases h0 : pushed = 0
    · rw [if_pos h0]
      subst h0
      exact ⟨0, d, rfl, ⟨le_refl 0, le_refl 0, hwf, hcap, sameShape_refl d, rfl,
        fun _ => le_refl _, fun _ _ => rfl, fun _ _ => rfl, fun _ => rfl,
        fun _ _ _ => by ring, fun h => absurd h (lt_irrefl 0)⟩⟩
    · rw [if_neg h0]
      by_cases hvt : v = t
      · rw [if_pos hvt]
        subst hvt
        exact ⟨pushed, d, rfl, ⟨hp, le_refl _, hwf, hcap, sameShape_refl d, rfl,
          fun _ => le_refl _, fun _ _ => rfl, fun _ _ => rfl, fun _ => rfl,
          fun _ _ _ => by ring, fun _ _ h => absurd h h0⟩⟩
      · rw [if_neg hvt]
        have hpos : 0 < pushed := lt_of_le_of_ne hp (fun h => h0 h.symm)
        exact dfsLoop_spec t B D fuel _ (fun d1 tr p h1 h2 h3 h4 h5 => ih d1 tr p h1 h2 h3 h4 h5)
          v pushed hpos hvt (fuel + 1) d hwf hcap hb (by omega) (by
            have := hb.2 v
            omega)

/-! ## Cuts and duality -/

theorem cutCoef_compat (A : Nat → Bool) (u w : Nat) :
    cutCoef A u w - cutCoef A w u = indic A u - indic A w := by
  unfold cutCoef indic
  cases A u <;> cases A w <;> simp

theorem cutCoef_nonneg (A : Nat → Bool) (u w : Nat) : 0 ≤ cutCoef A u w := by
  unfold cutCoef; split <;> decide

theorem cross_flow_eq (d : Dinic) (s t : Nat) (val : Int) (A : Nat → Bool)
    (htr : d.Track s t val) (hs : A s = true) (ht : A t = false) :
    d.wsum (cutCoef A) = val := by
  rw [htr (cutCoef A) (indic A) (cutCoef_compat A)]
  unfold indic
  rw [hs, ht]
  simp

theorem weak_duality (d : Dinic) (s t : Nat) (val : Int) (A : Nat → Bool)
    (hcap : d.CapOK) (htr : d.Track s t val) (hs : A s = true) (ht : A t = false) :
    val ≤ d.capSum (cutCoef A) := by
  rw [← cross_flow_eq d s t val A htr hs ht]
  unfold Dinic.wsum Dinic.capSum
  apply esum_le
  intro v i hi
  exact mul_le_mul_of_nonneg_left (hcap v i hi) (cutCoef_nonneg A _ _)

theorem strong_duality (d : Dinic) (s t : Nat) (val : Int) (A : Nat → Bool)
    (hcap : d.CapOK) (htr : d.Track s t val) (hs : A s = true) (ht : A t = false)
    (hclosed : ∀ u w, A u = true → d.Res u w → A w = true) :
    val = d.capSum (cutCoef A) := by
  rw [← cross_flow_eq d s t val A htr hs ht]
  unfold Dinic.wsum Dinic.capSum
  apply esum_eq
  intro v i hi
  by_cases hc : A v = true ∧ A (d.entry v i).to_ = false
  · have hres : ¬ ((d.entry v i).capacity - (d.entry v i).flow > 0) := by
      intro h
      have := hclosed v _ hc.1 ⟨i, hi, rfl, h⟩
      rw [hc.2] at this
      exact Bool.noConfusion this
    have h1 := hcap v i hi
    have : (d.entry v i).flow = (d.entry v i).capacity := by omega
    rw [this]
  · unfold cutCoef
    rw [if_neg hc]
    simp

theorem edges_map_congr (d d1 : Dinic) (hs : d.SameShape d1) (g : FlowEdge → Int)
    (hg : ∀ e e' : FlowEdge, e.to_ = e'.to_ → e.capacity = e'.capacity → g e = g e') (v : Nat) :
    (d1.edges v).map g = (d.edges v).map g := by
  obtain ⟨_, _, he⟩ := hs
  apply List.ext_getElem
  · simp [(he v).1]
  · intro i h1 h2
    simp only [List.length_map] at h1 h2
    simp only [List.getElem_map]
    rw [← entry_eq_getElem d1 v i h1, ← entry_eq_getElem d v i h2]
    obtain ⟨ha, hb, _⟩ := (he v).2 i
    exact hg _ _ ha hb

theorem capSum_shape (d d1 : Dinic) (hs : d.SameShape d1) (c : Nat → Nat → Int) :
    d1.capSum c = d.capSum c := by
  unfold Dinic.capSum
  apply esum_congr _ _ _ _ hs.2.1
  intro v
  rw [edges_map_congr d d1 hs (fun e => c v e.to_ * e.capacity)
    (fun e e' h1 h2 => by simp only; rw [h1, h2]) v]

theorem length_edges_le_size (d : Dinic) (v : Nat) : (d.edges v).length ≤ d.size := by
  by_cases hv : v < d.adj.length
  · unfold Dinic.size Dinic.edges
    rw [List.getD_eq_getElem _ _ hv]
    apply List.single_le_sum
    · intro x _; exact Nat.zero_le x
    · exact List.mem_map_of_mem _ (List.getElem_mem _)
  · rw [edges_eq_nil_of_le d v (by omega)]
    simp

theorem size_shape (d d1 : Dinic) (hs : d.SameShape d1) (v : Nat) :
    (d1.edges v).length ≤ d.size := by
  rw [(hs.2.2 v).1]; exact length_edges_le_size d v

/-! ## The loops of `max_flow` -/

theorem INF_pos : 0 < INF := by decide

theorem track_of_post (d d1 : Dinic) (s t : Nat) (flow f : Int)
    (htr : d.Track s t flow) (hp : DfsPost d d1 s t INF f) : d1.Track s t (flow + f) := by
  intro c φ hc
  rw [hp.track c φ hc, htr c φ hc]
  ring

theorem augmentLoop_spec (s t B D fuel : Nat) (hst : s ≠ t) (C : Int) :
    ∀ (k : Nat) (d : Dinic) (flow : Int), d.WF → d.CapOK → d.Bounds B D →
      d.Track s t flow → d.capSum (cutCoef (onlyNode s)) = C →
      D + ((B : Int) - d.lvl s).toNat + 1 ≤ fuel → (C - flow).toNat < k →
      ∃ flow1 d1, augmentLoop fuel s t k d flow = some (flow1, d1) ∧
        d1.WF ∧ d1.CapOK ∧ d.SameShape d1 ∧ d1.level = d.level ∧ d1.Track s t flow1 ∧
        flow ≤ flow1 ∧ (d.Dead t → d.CanReach s t → flow < flow1) := by
  intro k
  induction k with
  | zero => intro d flow _ _ _ _ _ _ hk; omega
  | succ k ih =>
    intro d flow hwf hcap hb htr hC hfuel hk
    obtain ⟨f, d1, hres, hpost⟩ := dfs_spec t B D fuel d s INF hwf hcap hb (le_of_lt INF_pos) hfuel
    simp only [augmentLoop]
    rw [hres]
    simp only
    have htr1 := track_of_post d d1 s t flow f htr hpost
    by_cases hf : f = 0
    · rw [if_pos hf]
      subst hf
      refine ⟨flow, d1, rfl, hpost.wf, hpost.cap, hpost.shape, hpost.level_eq, ?_, le_refl _, ?_⟩
      · simpa using htr1
      · intro hd hr
        exact absurd hr (hpost.dead INF_pos hd rfl).2
    · rw [if_neg hf]
      have hfpos : 0 < f := lt_of_le_of_ne hpost.f_nonneg (fun h => hf h.symm)
      have hC1 : d1.capSum (cutCoef (onlyNode s)) = C := by
        rw [capSum_shape d d1 hpost.shape]; exact hC
      have hweak := weak_duality d1 s t (flow + f) (onlyNode s) hpost.cap htr1
        (by simp [onlyNode]) (by simp [onlyNode]; exact fun h => hst h.symm)
      rw [hC1] at hweak
      have hlvl : d1.lvl s = d.lvl s := by unfold Dinic.lvl; rw [hpost.level_eq]
      obtain ⟨flow1, d2, hres2, hwf2, hcap2, hsh2, hlev2, htr2, hle2, _⟩ :=
        ih d1 (flow + f) hpost.wf hpost.cap
          (bounds_of_shape d d1 B D hpost.shape hpost.level_eq hb) htr1 hC1
          (by rw [hlvl]; exact hfuel) (by omega)
      exact ⟨flow1, d2, hres2, hwf2, hcap2, sameShape_trans _ _ _ hpost.shape hsh2,
        by rw [hlev2, hpost.level_eq], htr2, by omega, fun _ _ => by omega⟩

theorem cur_replicate_zero (d : Dinic) (u : Nat) :
    Dinic.cur { d with ptr := List.replicate d.ptr.length 0 } u = 0 := by
  unfold Dinic.cur
  simp only
  rw [List.getD_eq_getElem?_getD, List.getElem?_replicate]
  split <;> rfl

theorem phaseLoop_spec (s t fuel : Nat) (hst : s ≠ t) (C : Int) :
    ∀ (k : Nat) (d : Dinic) (flow : Int), d.WF → d.CapOK → s < d.n → t < d.n →
      d.Track s t flow → d.capSum (cutCoef (onlyNode s)) = C →
      d.n + d.size + 1 ≤ fuel → (C - flow).toNat < fuel → (C - flow).toNat < k →
      ∃ flow1 d1, phaseLoop fuel s t k d flow = some (flow1, d1) ∧
        d1.WF ∧ d1.CapOK ∧ d.SameShape d1 ∧ d1.Track s t flow1 ∧ flow ≤ flow1 ∧
        ¬ d1.Reach s t := by
  intro k
  induction k with
  | zero => intro d flow _ _ _ _ _ _ _ _ hk; omega
  | succ k ih =>
    intro d flow hwf hcap hs ht htr hC hfuel hfuel2 hk
    obtain ⟨L, hbfs, hinv⟩ := bfs_spec d hwf s t fuel hs (by omega)
    simp only [phaseLoop]
    rw [hbfs]
    have hwf1 : Dinic.WF { d with level := L } :=
      ⟨hwf.adj_len, hinv.len, hwf.ptr_len, hwf.to_lt, hwf.pair⟩
    by_cases hm : L.getD t 0 ≠ -1
    · rw [decide_eq_true hm]
      simp only
      have hreach : Dinic.CanReach { d with level := L, ptr := List.replicate d.ptr.length 0 } s t :=
        Relation.ReflTransGen.mono (fun a b h => lvlStep_adm d L a b h) (hinv.path t ht hm)
      have hdead : Dinic.Dead { d with level := L, ptr := List.replicate d.ptr.length 0 } t := by
        intro u i hi _
        have := cur_replicate_zero { d with level := L } u
        simp only at this
        rw [this] at hi
        omega
      have hb : Dinic.Bounds { d with level := L, ptr := List.replicate d.ptr.length 0 }
          d.n d.size := by
        refine ⟨fun u hu => ?_, fun u => length_edges_le_size d u⟩
        have h1 := hinv.hi u hu
        show L.getD u 0 ≤ (d.n : Int)
        omega
      obtain ⟨flow1, d2, hres2, hwf2, hcap2, hsh2, _, htr2, _, hlt2⟩ :=
        augmentLoop_spec s t d.n d.size fuel hst C fuel
          { d with level := L, ptr := List.replicate d.ptr.length 0 } flow
          ⟨hwf.adj_len, hinv.len, by simp [hwf.ptr_len], hwf.to_lt, hwf.pair⟩ hcap hb htr hC
          (by
            show d.size + ((d.n : Int) - L.getD s 0).toNat + 1 ≤ fuel
            rw [hinv.src]
            omega)
          (by omega)
      rw [hres2]
      simp only
      have hlt := hlt2 hdead hreach
      have hsh2' : d.SameShape d2 := hsh2
      have hweak := weak_duality d2 s t flow1 (onlyNode s) hcap2 htr2
        (by simp [onlyNode]) (by simp [onlyNode]; exact fun h => hst h.symm)
      rw [capSum_shape d d2 hsh2', hC] at hweak
      obtain ⟨flow3, d3, hres3, hwf3, hcap3, hsh3, htr3, hle3, hnr3⟩ :=
        ih d2 flow1 hwf2 hcap2 (by rw [hsh2'.1]; exact hs) (by rw [hsh2'.1]; exact ht) htr2
          (by rw [capSum_shape d d2 hsh2']; exact hC)
          (by
            have h1 : d2.size = d.size := by
              unfold Dinic.size
              congr 1
              apply List.ext_getElem
              · simp [hsh2'.2.1]
              · intro i h1 h2
                simp only [List.length_map] at h1 h2
                simp only [List.getElem_map]
                have := (hsh2'.2.2 i).1
                unfold Dinic.edges at this
                rw [List.getD_eq_getElem _ _ h1, List.getD_eq_getElem _ _ h2] at this
                exact this
            rw [h1, hsh2'.1]; exact hfuel)
          (by omega) (by omega)
      exact ⟨flow3, d3, hres3, hwf3, hcap3, sameShape_trans _ _ _ hsh2' hsh3, htr3,
        by omega, hnr3⟩
    · rw [decide_eq_false hm]
      simp only
      refine ⟨flow, _, rfl, hwf1, hcap, sameShape_refl d, htr, le_refl _, ?_⟩
      intro hr
      have hr' : d.Reach s t := hr
      exact hm ((bfs_final_reach d hwf s L hinv t ht).2 hr')

theorem max_flow_spec (d : Dinic) (s t fuel : Nat) (hst : s ≠ t) (hwf : d.WF) (hcap : d.CapOK)
    (hs : s < d.n) (ht : t < d.n) (htr : d.Track s t 0) (hfuel : d.fuelBound s ≤ fuel) :
    ∃ val d1, d.max_flow fuel s t = some (val, d1) ∧
      d1.WF ∧ d1.CapOK ∧ d.SameShape d1 ∧ d1.Track s t val ∧ 0 ≤ val ∧ ¬ d1.Reach s t := by
  unfold Dinic.fuelBound at hfuel
  exact phaseLoop_spec s t fuel hst _ fuel d 0 hwf hcap hs ht htr rfl (by omega)
    (by simp only [sub_zero]; omega) (by simp only [sub_zero]; omega)

/-! ## Networks built with `add_edge` -/

theorem getD_set_list {α : Type} (l : List α) (i j : Nat) (a dflt : α) (hi : i < l.length) :
    (l.set i a).getD j dflt = if j = i then a else l.getD j dflt := by
  by_cases h : j = i
  · subst h; rw [if_pos rfl]; exact getD_set_self l j a dflt hi
  · rw [if_neg h]; exact getD_set_ne l i j a dflt (fun h' => h h'.symm)

theorem edges_add_edge (d : Dinic) (frm to_ : Nat) (c : Int)
    (hf : frm < d.adj.length) (ht : to_ < d.adj.length) (u : Nat) :
    (d.add_edge frm to_ c).edges u =
      d.edges u ++ (if u = frm then [⟨to_, c, 0, (d.edges to_).length⟩] else []) ++
        (if u = to_ then [⟨frm, 0, 0, (d.edges frm).length⟩] else []) := by
  unfold Dinic.add_edge Dinic.edges
  simp only
  rw [getD_set_list _ _ _ _ _ (by rw [List.length_set]; exact ht),
    getD_set_list _ _ _ _ _ hf, getD_set_list _ _ _ _ _ hf]
  by_cases h1 : u = to_ <;> by_cases h2 : u = frm <;> by_cases h3 : to_ = frm <;>
    simp_all

theorem length_add_edge (d : Dinic) (frm to_ : Nat) (c : Int) :
    (d.add_edge frm to_ c).adj.length = d.adj.length := by
  unfold Dinic.add_edge
  simp

theorem getD_append_left {α : Type} (l l' : List α) (i : Nat) (dflt : α) (h : i < l.length) :
    (l ++ l').getD i dflt = l.getD i dflt := by
  rw [List.getD_eq_getElem?_getD, List.getD_eq_getElem?_getD, List.getElem?_append_left h]

theorem entry_add_edge_old (d : Dinic) (frm to_ : Nat) (c : Int)
    (hf : frm < d.adj.length) (ht : to_ < d.adj.length) (u i : Nat)
    (hi : i < (d.edges u).length) : (d.add_edge frm to_ c).entry u i = d.entry u i := by
  unfold Dinic.entry
  rw [edges_add_edge d frm to_ c hf ht, List.append_assoc, getD_append_left _ _ _ _ hi]

theorem mem_edges_add_edge (d : Dinic) (frm to_ : Nat) (c : Int)
    (hf : frm < d.adj.length) (ht : to_ < d.adj.length) (u : Nat) (e : FlowEdge)
    (he : e ∈ (d.add_edge frm to_ c).edges u) :
    e ∈ d.edges u ∨ (u = frm ∧ e = ⟨to_, c, 0, (d.edges to_).length⟩) ∨
      (u = to_ ∧ e = ⟨frm, 0, 0, (d.edges frm).length⟩) := by
  rw [edges_add_edge d frm to_ c hf ht] at he
  rcases List.mem_append.1 he with h | h
  · rcases List.mem_append.1 h with h | h
    · exact Or.inl h
    · right; left
      by_cases hu : u = frm
      · rw [if_pos hu] at h; exact ⟨hu, List.mem_singleton.1 h⟩
      · rw [if_neg hu] at h; exact absurd h (List.not_mem_nil e)
  · right; right
    by_cases hu : u = to_
    · rw [if_pos hu] at h; exact ⟨hu, List.mem_singleton.1 h⟩
    · rw [if_neg hu] at h; exact absurd h (List.not_mem_nil e)

theorem getD_append_one {α : Type} (l : List α) (a dflt : α) :
    (l ++ [a]).getD l.length dflt = a := by
  rw [List.getD_eq_getElem?_getD, List.getElem?_append_right (le_refl _)]
  simp

theorem getD_append_two_fst {α : Type} (l : List α) (a b dflt : α) :
    ((l ++ [a]) ++ [b]).getD l.length dflt = a := by
  rw [List.append_assoc, List.getD_eq_getElem?_getD, List.getElem?_append_right (le_refl _)]
  simp

theorem getD_append_two_snd {α : Type} (l : List α) (a b dflt : α) :
    ((l ++ [a]) ++ [b]).getD (l.length + 1) dflt = b := by
  have : (l ++ [a]).length = l.length + 1 := by simp
  rw [← this]
  exact getD_append_one (l ++ [a]) b dflt

theorem entry_add_edge_new (d : Dinic) (frm to_ : Nat) (c : Int)
    (hf : frm < d.adj.length) (ht : to_ < d.adj.length) (u i : Nat)
    (hi : i < ((d.add_edge frm to_ c).edges u).length) (hold : (d.edges u).length ≤ i)
    (hto : ((d.add_edge frm to_ c).entry u i).to_ ≠ u) :
    frm ≠ to_ ∧
      ((u = frm ∧ i = (d.edges frm).length ∧
          (d.add_edge frm to_ c).entry u i = ⟨to_, c, 0, (d.edges to_).length⟩) ∨
        (u = to_ ∧ i = (d.edges to_).length ∧
          (d.add_edge frm to_ c).entry u i = ⟨frm, 0, 0, (d.edges frm).length⟩)) := by
  have hes := edges_add_edge d frm to_ c hf ht u
  unfold Dinic.entry at hto ⊢
  rw [hes] at hi hto ⊢
  by_cases h1 : u = frm
  · by_cases h2 : u = to_
    · exfalso
      rw [if_pos h1, if_pos h2] at hi hto
      simp only [List.length_append, List.length_singleton] at hi
      have : i = (d.edges u).length ∨ i = (d.edges u).length + 1 := by omega
      rcases this with h | h
      · rw [h, getD_append_two_fst] at hto
        exact hto h2.symm
      · rw [h, getD_append_two_snd] at hto
        exact hto h1.symm
    · rw [if_pos h1, if_neg h2, List.append_nil] at hi hto ⊢
      simp only [List.length_append, List.length_singleton] at hi
      have hi2 : i = (d.edges u).length := by omega
      refine ⟨fun h => h2 (h1.trans h), Or.inl ⟨h1, by rw [hi2, h1], ?_⟩⟩
      rw [hi2, getD_append_one]
  · by_cases h2 : u = to_
    · rw [if_neg h1, if_pos h2, List.append_nil] at hi hto ⊢
      simp only [List.length_append, List.length_singleton] at hi
      have hi2 : i = (d.edges u).length := by omega
      refine ⟨fun h => h1 (h2.trans h.symm), Or.inr ⟨h2, by rw [hi2, h2], ?_⟩⟩
      rw [hi2, getD_append_one]
    · rw [if_neg h1, if_neg h2, List.append_nil, List.append_nil] at hi
      omega

theorem length_edges_add_edge_ge (d : Dinic) (frm to_ : Nat) (c : Int)
    (hf : frm < d.adj.length) (ht : to_ < d.adj.length) (u : Nat) :
    (d.edges u).length ≤ ((d.add_edge frm to_ c).edges u).length := by
  rw [edges_add_edge d frm to_ c hf ht]
  simp only [List.length_append]
  omega

theorem entry_add_edge_fwd (d : Dinic) (frm to_ : Nat) (c : Int)
    (hf : frm < d.adj.length) (ht : to_ < d.adj.length) (hne : frm ≠ to_) :
    (d.add_edge frm to_ c).entry frm (d.edges frm).length =
        ⟨to_, c, 0, (d.edges to_).length⟩ ∧
      (d.edges frm).length < ((d.add_edge frm to_ c).edges frm).length := by
  unfold Dinic.entry
  rw [edges_add_edge d frm to_ c hf ht, if_pos rfl, if_neg hne, List.append_nil]
  exact ⟨getD_append_one _ _ _, by simp⟩

theorem entry_add_edge_bwd (d : Dinic) (frm to_ : Nat) (c : Int)
    (hf : frm < d.adj.length) (ht : to_ < d.adj.length) (hne : frm ≠ to_) :
    (d.add_edge frm to_ c).entry to_ (d.edges to_).length =
        ⟨frm, 0, 0, (d.edges frm).length⟩ ∧
      (d.edges to_).length < ((d.add_edge frm to_ c).edges to_).length := by
  unfold Dinic.entry
  rw [edges_add_edge d frm to_ c hf ht, if_neg (fun h => hne h.symm), if_pos rfl, List.append_nil]
  exact ⟨getD_append_one _ _ _, by simp⟩

theorem wf_add_edge (d : Dinic) (frm to_ : Nat) (c : Int) (hwf : d.WF)
    (hf : frm < d.n) (ht : to_ < d.n) : (d.add_edge frm to_ c).WF := by
  have hf' : frm < d.adj.length := by rw [hwf.adj_len]; exact hf
  have ht' : to_ < d.adj.length := by rw [hwf.adj_len]; exact ht
  refine ⟨(length_add_edge d frm to_ c).trans hwf.adj_len, hwf.level_len, hwf.ptr_len, ?_, ?_⟩
  · intro u i hi
    have hmem := entry_mem _ u i hi
    rcases mem_edges_add_edge d frm to_ c hf' ht' u _ hmem with h | ⟨_, h⟩ | ⟨_, h⟩
    · obtain ⟨j, hj, hje⟩ := exists_entry_of_mem d u _ h
      rw [← hje]; exact hwf.to_lt u j hj
    · rw [h]; exact ht
    · rw [h]; exact hf
  · intro u i hi hto
    by_cases hold : i < (d.edges u).length
    · rw [entry_add_edge_old d frm to_ c hf' ht' u i hold] at hto ⊢
      obtain ⟨h1, h2⟩ := hwf.pair u i hold hto
      refine ⟨lt_of_lt_of_le h1 (length_edges_add_edge_ge d frm to_ c hf' ht' _), ?_⟩
      rw [entry_add_edge_old d frm to_ c hf' ht' _ _ h1]
      exact h2
    · obtain ⟨hne, h | h⟩ := entry_add_edge_new d frm to_ c hf' ht' u i hi (by omega) hto
      · obtain ⟨hu, _, he⟩ := h
        rw [he]
        simp only
        obtain ⟨hb1, hb2⟩ := entry_add_edge_bwd d frm to_ c hf' ht' hne
        rw [hb1]
        exact ⟨hb2, hu.symm⟩
      · obtain ⟨hu, _, he⟩ := h
        rw [he]
        simp only
        obtain ⟨hb1, hb2⟩ := entry_add_edge_fwd d frm to_ c hf' ht' hne
        rw [hb1]
        exact ⟨hb2, hu.symm⟩

theorem zeroFlow_add_edge (d : Dinic) (frm to_ : Nat) (c : Int) (hwf : d.WF) (hz : d.ZeroFlow)
    (hf : frm < d.n) (ht : to_ < d.n) (hc : 0 ≤ c) : (d.add_edge frm to_ c).ZeroFlow := by
  have hf' : frm < d.adj.length := by rw [hwf.adj_len]; exact hf
  have ht' : to_ < d.adj.length := by rw [hwf.adj_len]; exact ht
  intro u i hi
  have hmem := entry_mem _ u i hi
  rcases mem_edges_add_edge d frm to_ c hf' ht' u _ hmem with h | ⟨_, h⟩ | ⟨_, h⟩
  · obtain ⟨j, hj, hje⟩ := exists_entry_of_mem d u _ h
    rw [← hje]; exact hz u j hj
  · rw [h]; exact ⟨rfl, hc⟩
  · rw [h]; exact ⟨rfl, le_refl _⟩

theorem sum_range_indicator (a : Nat) (x : Int) :
    ∀ n, a < n → ((List.range n).map (fun u => if u = a then x else 0)).sum = x := by
  intro n h
  have := sum_range_update (fun _ => (0 : Int)) (fun u => if u = a then x else 0) a n h
    (fun u hu => by simp [hu])
  rw [this]
  simp

theorem esum_add_edge (d : Dinic) (frm to_ : Nat) (c : Int) (g : Nat → FlowEdge → Int)
    (hf : frm < d.adj.length) (ht : to_ < d.adj.length) :
    (d.add_edge frm to_ c).esum g =
      d.esum g + g frm ⟨to_, c, 0, (d.edges to_).length⟩ +
        g to_ ⟨frm, 0, 0, (d.edges frm).length⟩ := by
  unfold Dinic.esum
  rw [length_add_edge]
  have h : ∀ u, (((d.add_edge frm to_ c).edges u).map (g u)).sum =
      ((d.edges u).map (g u)).sum +
        ((if u = frm then g frm ⟨to_, c, 0, (d.edges to_).length⟩ else 0) +
          (if u = to_ then g to_ ⟨frm, 0, 0, (d.edges frm).length⟩ else 0)) := by
    intro u
    rw [edges_add_edge d frm to_ c hf ht]
    by_cases h1 : u = frm <;> by_cases h2 : u = to_
    · subst h1; subst h2
      simp only [if_true, List.map_append, List.sum_append, List.map_cons, List.map_nil,
        List.sum_cons, List.sum_nil]
      ring
    · subst h1
      simp only [if_true, if_neg h2, List.map_append, List.sum_append, List.map_cons,
        List.map_nil, List.sum_cons, List.sum_nil]
      ring
    · subst h2
      simp only [if_true, if_neg h1, List.map_append, List.sum_append, List.map_cons,
        List.map_nil, List.sum_cons, List.sum_nil]
      ring
    · simp only [if_neg h1, if_neg h2, List.map_append, List.sum_append, List.map_nil,
        List.sum_nil]
      ring
  rw [List.map_congr_left (fun u _ => h u), List.sum_map_add, List.sum_map_add,
    sum_range_indicator frm _ _ hf, sum_range_indicator to_ _ _ ht]
  ring

theorem edges_init (n v : Nat) : (Dinic.init n).edges v = [] := by
  unfold Dinic.edges Dinic.init
  simp only
  rw [List.getD_eq_getElem?_getD, List.getElem?_replicate]
  split <;> rfl

theorem wf_init (n : Nat) : (Dinic.init n).WF := by
  refine ⟨by simp [Dinic.init], by simp [Dinic.init], by simp [Dinic.init], ?_, ?_⟩
  · intro v i hi; rw [edges_init] at hi; simp at hi
  · intro v i hi; rw [edges_init] at hi; simp at hi

theorem zeroFlow_init (n : Nat) : (Dinic.init n).ZeroFlow := by
  intro v i hi; rw [edges_init] at hi; simp at hi

theorem esum_init (n : Nat) (g : Nat → FlowEdge → Int) : (Dinic.init n).esum g = 0 := by
  unfold Dinic.esum
  apply List.sum_eq_zero
  intro x hx
  obtain ⟨v, _, hv⟩ := List.mem_map.1 hx
  rw [← hv, edges_init]
  rfl

theorem foldl_add_edge_props (S : Nat → FlowEdge → Prop) :
    ∀ (es : List (Nat × Nat × Int)) (d0 : Dinic), d0.WF → d0.ZeroFlow → ValidEdges d0.n es →
      (∀ u, ∀ e ∈ d0.edges u, 0 < e.capacity → S u e) →
      (∀ e ∈ es, ∀ r, S e.1 ⟨e.2.1, e.2.2, 0, r⟩) →
      (es.foldl (fun d e => d.add_edge e.1 e.2.1 e.2.2) d0).WF ∧
        (es.foldl (fun d e => d.add_edge e.1 e.2.1 e.2.2) d0).ZeroFlow ∧
        (es.foldl (fun d e => d.add_edge e.1 e.2.1 e.2.2) d0).n = d0.n ∧
        (∀ c, (es.foldl (fun d e => d.add_edge e.1 e.2.1 e.2.2) d0).capSum c =
          d0.capSum c + (es.map (fun e => c e.1 e.2.1 * e.2.2)).sum) ∧
        (∀ u, ∀ e ∈ (es.foldl (fun d e => d.add_edge e.1 e.2.1 e.2.2) d0).edges u,
          0 < e.capacity → S u e) := by
  intro es
  induction es with
  | nil =>
    intro d0 hwf hz _ hS _
    exact ⟨hwf, hz, rfl, fun c => by simp, hS⟩
  | cons e es ih =>
    intro d0 hwf hz hv hS hes
    obtain ⟨h1, h2, h3⟩ := hv e (List.mem_cons_self _ _)
    have hf' : e.1 < d0.adj.length := by rw [hwf.adj_len]; exact h1
    have ht' : e.2.1 < d0.adj.length := by rw [hwf.adj_len]; exact h2
    simp only [List.foldl_cons]
    have hwf1 := wf_add_edge d0 e.1 e.2.1 e.2.2 hwf h1 h2
    have hz1 := zeroFlow_add_edge d0 e.1 e.2.1 e.2.2 hwf hz h1 h2 h3
    have hS1 : ∀ u, ∀ x ∈ (d0.add_edge e.1 e.2.1 e.2.2).edges u, 0 < x.capacity → S u x := by
      intro u x hx hpos
      rcases mem_edges_add_edge d0 e.1 e.2.1 e.2.2 hf' ht' u x hx with h | ⟨hu, h⟩ | ⟨_, h⟩
      · exact hS u x h hpos
      · rw [h, hu]; exact hes e (List.mem_cons_self _ _) _
      · rw [h] at hpos; exact absurd hpos (lt_irrefl 0)
    obtain ⟨a, b, c1, c2, c3⟩ := ih (d0.add_edge e.1 e.2.1 e.2.2) hwf1 hz1
      (fun x hx => hv x (List.mem_cons_of_mem _ hx)) hS1
      (fun x hx => hes x (List.mem_cons_of_mem _ hx))
    refine ⟨a, b, c1, ?_, c3⟩
    intro c
    rw [c2 c]
    unfold Dinic.capSum
    rw [esum_add_edge d0 e.1 e.2.1 e.2.2 _ hf' ht']
    simp only [List.map_cons, List.sum_cons]
    ring

theorem build_props (n : Nat) (es : List (Nat × Nat × Int)) (hv : ValidEdges n es) :
    (build n es).WF ∧ (build n es).ZeroFlow ∧ (build n es).n = n ∧
      (∀ A, (build n es).capSum (cutCoef A) = cut_capacity es A) ∧
      (∀ u, ∀ e ∈ (build n es).edges u, 0 < e.capacity →
        ∃ x ∈ es, x.1 = u ∧ x.2.1 = e.to_ ∧ 0 < x.2.2) := by
  obtain ⟨a, b, c1, c2, c3⟩ := foldl_add_edge_props
    (fun u e => ∃ x ∈ es, x.1 = u ∧ x.2.1 = e.to_ ∧ 0 < x.2.2 ∨ e.capacity ≤ 0)
    es (Dinic.init n) (wf_init n) (zeroFlow_init n) hv
    (fun u e he => by rw [edges_init] at he; exact absurd he (List.not_mem_nil e))
    (fun e he r => ⟨e, he, by
      by_cases h : 0 < e.2.2
      · exact Or.inl ⟨rfl, rfl, h⟩
      · exact Or.inr (by simpa using h)⟩)
  refine ⟨a, b, c1, ?_, ?_⟩
  · intro A
    have := c2 (cutCoef A)
    unfold build
    rw [this]
    unfold Dinic.capSum cut_capacity
    rw [esum_init, zero_add]
    congr 1
    apply List.map_congr_left
    intro e _
    unfold cutCoef
    split <;> simp
  · intro u e he hpos
    obtain ⟨x, hx, h⟩ := c3 u e he hpos
    rcases h with h | h
    · exact ⟨x, hx, h⟩
    · omega

theorem capOK_of_zeroFlow (d : Dinic) (h : d.ZeroFlow) : d.CapOK := by
  intro v i hi
  obtain ⟨h1, h2⟩ := h v i hi
  rw [h1]; exact h2

theorem track_of_zeroFlow (d : Dinic) (s t : Nat) (h : d.ZeroFlow) : d.Track s t 0 := by
  intro c φ _
  rw [zero_mul]
  unfold Dinic.wsum
  have : d.esum (fun v e => c v e.to_ * e.flow) = d.esum (fun _ _ => 0) := by
    apply esum_eq
    intro v i hi
    rw [(h v i hi).1]
    simp
  rw [this]
  unfold Dinic.esum
  apply List.sum_eq_zero
  intro x hx
  obtain ⟨v, _, hv⟩ := List.mem_map.1 hx
  rw [← hv]
  simp

/-! ## Max-flow / min-cut theorems -/

theorem posReach_of_reach (n : Nat) (es : List (Nat × Nat × Int)) (hv : ValidEdges n es)
    (s v : Nat) (h : (build n es).Reach s v) : PosReach es s v := by
  obtain ⟨_, hz, _, _, hpos⟩ := build_props n es hv
  refine Relation.ReflTransGen.mono ?_ h
  intro a b hab
  obtain ⟨i, hi, hto, hres⟩ := hab
  have h0 := (hz a i hi).1
  obtain ⟨x, hx, h1, h2, h3⟩ := hpos a _ (entry_mem _ a i hi) (by omega)
  exact ⟨x, hx, h1, by rw [h2, hto], h3⟩

theorem validEdges_example : ValidEdges 3 [(0, 1, 3), (1, 2, 2), (0, 2, 1)] := by
  intro e he
  simp only [List.mem_cons, List.mem_singleton, List.not_mem_nil, or_false] at he
  rcases he with h | h | h <;> subst h <;> decide

/-- C10: on a network built from valid edges in which `t` cannot be reached from `s` along
edges of positive capacity (in particular a network without edges), the first `bfs` of
`max_flow(s, t)` reports `false`, so `max_flow` returns 0 without any augmentation and
every adjacency entry still has flow 0. -/
theorem max_flow_unreachable (n : Nat) (es : List (Nat × Nat × Int)) (s t : Nat)
    (hv : ValidEdges n es) (hs : s < n) (ht : t < n) (hun : ¬ PosReach es s t) :
    ∀ fuel, n ≤ fuel →
      ∃ d1, (build n es).bfs fuel s t = some (false, d1) ∧
        (build n es).max_flow fuel s t = some (0, d1) ∧
        d1.adj = (build n es).adj ∧ d1.ZeroFlow := by
  intro fuel hf
  obtain ⟨hwf, hz, hn, _, _⟩ := build_props n es hv
  obtain ⟨L, hbfs, hinv⟩ := bfs_spec (build n es) hwf s t fuel (by rw [hn]; exact hs)
    (by rw [hn]; exact hf)
  have hm : ¬ (L.getD t 0 ≠ -1) := by
    intro h
    exact hun (posReach_of_reach n es hv s t
      ((bfs_final_reach _ hwf s L hinv t (by rw [hn]; exact ht)).1 h))
  rw [decide_eq_false hm] at hbfs
  refine ⟨_, hbfs, ?_, rfl, hz⟩
  unfold Dinic.max_flow
  obtain ⟨k, hk⟩ : ∃ k, fuel = k + 1 := ⟨fuel - 1, by omega⟩
  rw [hk] at hbfs ⊢
  simp only [phaseLoop]
  rw [hbfs]

theorem max_flow_unreachable_witness :
    ValidEdges 3 [(0, 1, 3), (2, 1, 2)] ∧ ¬ PosReach [(0, 1, 3), (2, 1, 2)] 0 2 ∧
      ∀ fuel, 3 ≤ fuel →
        ∃ d1, (build 3 [(0, 1, 3), (2, 1, 2)]).bfs fuel 0 2 = some (false, d1) ∧
          (build 3 [(0, 1, 3), (2, 1, 2)]).max_flow fuel 0 2 = some (0, d1) ∧
          d1.adj = (build 3 [(0, 1, 3), (2, 1, 2)]).adj ∧ d1.ZeroFlow := by
  have hv : ValidEdges 3 [(0, 1, 3), (2, 1, 2)] := by
    intro e he
    simp only [List.mem_cons, List.mem_singleton, List.not_mem_nil, or_false] at he
    rcases he with h | h <;> subst h <;> decide
  have hun : ¬ PosReach [(0, 1, 3), (2, 1, 2)] 0 2 := by
    intro h
    have key : ∀ v, PosReach [(0, 1, 3), (2, 1, 2)] 0 v → v = 0 ∨ v = 1 := by
      intro v hv
      induction hv with
      | refl => exact Or.inl rfl
      | tail _ hbc ih =>
        obtain ⟨e, he, h1, h2, _⟩ := hbc
        simp only [List.mem_cons, List.mem_singleton, List.not_mem_nil, or_false] at he
        rcases he with h | h
        · subst h; right; exact h2.symm
        · subst h
          simp only at h1
          omega
    rcases key 2 h with h | h <;> omega
  exact ⟨hv, hun, max_flow_unreachable 3 [(0, 1, 3), (2, 1, 2)] 0 2 hv (by decide) (by decide) hun⟩

/-! ## The concrete scenario -/

/-- C2 (refutation): on the concrete scenario the program never prints 13, and the tree
edge `1-2` (edge id 0) is never assigned the final weight 1. -/
theorem scenario_not_13 :
    (∀ fuel, main fuel scenario ≠ some 13) ∧
      ∀ fuel g st, run fuel scenario = some (g, st) → st.final_weights.getD 0 0 ≠ 1 := by
  constructor
  · intro fuel h
    have h1 := main_mono scenario fuel (max fuel 7) (le_max_left _ _) 13 h
    have h2 := main_mono scenario 7 (max fuel 7) (le_max_right _ _) 7 scenario_main
    rw [h1] at h2
    exact absurd h2 (by decide)
  · intro fuel g st h
    have h1 := run_mono scenario fuel (max fuel 7) (le_max_left _ _) _ h
    have h2 := scenario_run
    cases hr : run 7 scenario with
    | none => rw [hr] at h2; exact absurd h2 (by simp)
    | some r =>
      have h3 := run_mono scenario 7 (max fuel 7) (le_max_right _ _) r hr
      rw [h1] at h3
      rw [hr] at h2
      simp only [Option.map_some', Option.some.injEq, Prod.mk.injEq] at h2 h3
      rw [← h3] at h2
      simp only at h2
      rw [h2.2.2]
      decide

/-- C2 (amended): on the concrete scenario, with enough fuel, `distinct_weights` is
`[1,3,5,8]`, the constraints are `(0,3)`, `(1,3)`, `(2,3)`, the final weights are
`[5,3,5,5]` (tree edges 5, 3, 5 and the non-tree edge raised to 5) and the program
prints 7. -/
theorem scenario_result (fuel : Nat) (h : 7 ≤ fuel) :
    ∃ g st, run fuel scenario = some (g, st) ∧ g.distinct_weights = [1, 3, 5, 8] ∧
      g.constraints = [(0, 3), (1, 3), (2, 3)] ∧ st.final_weights = [5, 3, 5, 5] ∧
      main fuel scenario = some 7 := by
  have h2 := scenario_run
  cases hr : run 7 scenario with
  | none => rw [hr] at h2; exact absurd h2 (by simp)
  | some r =>
    rw [hr] at h2
    simp only [Option.map_some', Option.some.injEq, Prod.mk.injEq] at h2
    exact ⟨r.1, r.2, run_mono scenario 7 fuel h r hr, h2.1, h2.2.1, h2.2.2,
      main_mono scenario 7 fuel h 7 scenario_main⟩

theorem scenario_result_witness :
    7 ≤ 7 ∧ ∃ g st, run 7 scenario = some (g, st) ∧ g.distinct_weights = [1, 3, 5, 8] ∧
      g.constraints = [(0, 3), (1, 3), (2, 3)] ∧ st.final_weights = [5, 3, 5, 5] ∧
      main 7 scenario = some 7 :=
  ⟨le_refl 7, scenario_result 7 (le_refl 7)⟩

/-! ## The flow network of one split -/

theorem foldl_cons_eq {α β : Type} (h : α → β) :
    ∀ (l : List α) (acc : List β),
      l.foldl (fun m i => h i :: m) acc = (l.map h).reverse ++ acc := by
  intro l
  induction l with
  | nil => intro acc; rfl
  | cons a l ih => intro acc; simp [List.foldl_cons, ih]

theorem build_node_map_eq (nodes : List Nat) :
    build_node_map nodes = ((List.range nodes.length).map (fun i => (nodes.getD i 0, i))).reverse := by
  unfold build_node_map
  rw [foldl_cons_eq (fun i => (nodes.getD i 0, i))]
  simp

theorem mem_build_node_map (nodes : List Nat) (kv : Nat × Nat) :
    kv ∈ build_node_map nodes ↔ kv.2 < nodes.length ∧ nodes.getD kv.2 0 = kv.1 := by
  rw [build_node_map_eq, List.mem_reverse, List.mem_map]
  constructor
  · rintro ⟨i, hi, rfl⟩
    exact ⟨List.mem_range.1 hi, rfl⟩
  · rintro ⟨h1, h2⟩
    exact ⟨kv.2, List.mem_range.2 h1, by rw [h2]⟩

theorem map_count_iff (nodes : List Nat) (u : Nat) :
    map_count (build_node_map nodes) u = true ↔ u ∈ nodes := by
  unfold map_count
  rw [List.find?_isSome]
  constructor
  · rintro ⟨kv, hkv, hp⟩
    obtain ⟨h1, h2⟩ := (mem_build_node_map nodes kv).1 hkv
    have : kv.1 = u := by simpa using hp
    rw [← this, ← h2, List.getD_eq_getElem _ _ h1]
    exact List.getElem_mem _
  · intro hu
    obtain ⟨i, hi, he⟩ := List.mem_iff_getElem.1 hu
    exact ⟨(u, i), (mem_build_node_map nodes (u, i)).2
      ⟨hi, by rw [List.getD_eq_getElem _ _ hi]; exact he⟩, by simp⟩

theorem map_get_spec (nodes : List Nat) (u : Nat) (hu : u ∈ nodes) :
    map_get (build_node_map nodes) u < nodes.length ∧
      nodes.getD (map_get (build_node_map nodes) u) 0 = u := by
  unfold map_get
  cases hf : (build_node_map nodes).find? (fun kv => kv.1 = u) with
  | none =>
    have := (map_count_iff nodes u).2 hu
    unfold map_count at this
    rw [hf] at this
    exact absurd this (by simp)
  | some kv =>
    have h1 := List.mem_of_find?_eq_some hf
    have h2 := List.find?_some hf
    obtain ⟨h3, h4⟩ := (mem_build_node_map nodes kv).1 h1
    have : kv.1 = u := by simpa using h2
    simp only
    exact ⟨h3, by rw [h4, this]⟩

theorem map_get_getD (nodes : List Nat) (hnd : nodes.Nodup) (i : Nat) (hi : i < nodes.length) :
    map_get (build_node_map nodes) (nodes.getD i 0) = i := by
  have hmem : nodes.getD i 0 ∈ nodes := by
    rw [List.getD_eq_getElem _ _ hi]; exact List.getElem_mem _
  obtain ⟨h1, h2⟩ := map_get_spec nodes _ hmem
  have h3 : nodes[map_get (build_node_map nodes) (nodes.getD i 0)] = nodes[i] := by
    rw [← List.getD_eq_getElem nodes 0 h1, ← List.getD_eq_getElem nodes 0 hi]
    exact h2
  exact (hnd.getElem_inj_iff).1 h3

theorem foldl_filterMap_add (f : Nat × Nat → Option (Nat × Nat × Int)) :
    ∀ (cs : List (Nat × Nat)) (d : Dinic),
      cs.foldl (fun d p => match f p with
        | some e => d.add_edge e.1 e.2.1 e.2.2
        | none => d) d =
      (cs.filterMap f).foldl (fun d e => d.add_edge e.1 e.2.1 e.2.2) d := by
  intro cs
  induction cs with
  | nil => intro d; rfl
  | cons p cs ih =>
    intro d
    simp only [List.foldl_cons, List.filterMap_cons]
    cases hf : f p with
    | none => simp only; exact ih d
    | some e => simp only [List.foldl_cons]; exact ih _

theorem build_network_eq (g : Globals) (nodes : List Nat) (val : Int) :
    build_network g nodes val = build (nodes.length + 2) (network_edges g nodes val) := by
  unfold build_network build network_edges
  simp only
  rw [List.foldl_append, List.foldl_map, ← foldl_filterMap_add]
  have h1 : ∀ (d : Dinic) (i : Nat),
      (if (g.all_edges.getD (nodes.getD i 0) Edge.zero).w > val then
        d.add_edge nodes.length i 1 else d.add_edge i (nodes.length + 1) 1) =
      d.add_edge (pref_edge g nodes val i).1 (pref_edge g nodes val i).2.1
        (pref_edge g nodes val i).2.2 := by
    intro d i
    unfold pref_edge
    split <;> rfl
  have h2 : ∀ (d : Dinic) (p : Nat × Nat),
      (if map_count (build_node_map nodes) p.1 = true ∧
          map_count (build_node_map nodes) p.2 = true then
        d.add_edge (map_get (build_node_map nodes) p.1) (map_get (build_node_map nodes) p.2) INF
        else d) =
      (match cons_edge nodes p with
        | some e => d.add_edge e.1 e.2.1 e.2.2
        | none => d) := by
    intro d p
    unfold cons_edge
    split <;> rfl
  simp only [h1, h2]

theorem foldl_split (nodes : List Nat) (cut : List Bool) :
    ∀ (is : List Nat) (l r : List Nat),
      is.foldl (fun lr i =>
        if cut.getD i false then (lr.1, lr.2 ++ [nodes.getD i 0])
        else (lr.1 ++ [nodes.getD i 0], lr.2)) (l, r) =
      (l ++ (is.filter (fun i => !cut.getD i false)).map (fun i => nodes.getD i 0),
        r ++ (is.filter (fun i => cut.getD i false)).map (fun i => nodes.getD i 0)) := by
  intro is
  induction is with
  | nil => intro l r; simp
  | cons i is ih =>
    intro l r
    simp only [List.foldl_cons]
    cases hc : cut.getD i false with
    | false =>
      simp only [Bool.false_eq_true, if_false]
      rw [ih]
      simp only [List.filter_cons, hc, Bool.not_false, if_true, Bool.false_eq_true, if_false,
        List.map_cons, List.append_assoc, List.singleton_append]
    | true =>
      simp only [if_true]
      rw [ih]
      simp only [List.filter_cons, hc, Bool.not_true, if_true, Bool.false_eq_true, if_false,
        List.map_cons, List.append_assoc, List.singleton_append]

theorem split_nodes_eq (nodes : List Nat) (cut : List Bool) :
    split_nodes nodes cut =
      (((List.range nodes.length).filter (fun i => !cut.getD i false)).map
          (fun i => nodes.getD i 0),
        ((List.range nodes.length).filter (fun i => cut.getD i false)).map
          (fun i => nodes.getD i 0)) := by
  unfold split_nodes
  simp only
  rw [foldl_split]
  simp only [List.nil_append]

theorem map_getD_range (nodes : List Nat) :
    (List.range nodes.length).map (fun i => nodes.getD i 0) = nodes := by
  apply List.ext_getElem
  · simp
  · intro i h1 h2
    simp only [List.getElem_map, List.getElem_range]
    exact List.getD_eq_getElem _ _ h2

/-! ## The split step of `solve` -/

theorem flow_cut_spec (n : Nat) (es : List (Nat × Nat × Int)) (s t : Nat)
    (hv : ValidEdges n es) (hs : s < n) (ht : t < n) (hst : s ≠ t) :
    ∃ val d1 cut,
      (∀ fuel, (build n es).fuelBound s ≤ fuel →
        (build n es).max_flow fuel s t = some (val, d1) ∧ d1.get_cut fuel s = some cut) ∧
      cut.length = n ∧ cut.getD s false = true ∧ cut.getD t false = false ∧
      cut_capacity es (fun u => cut.getD u false) = val ∧
      ∀ A : Nat → Bool, A s = true → A t = false → val ≤ cut_capacity es A := by
  obtain ⟨hwf, hz, hn, hcs, _⟩ := build_props n es hv
  obtain ⟨val, d1, hres, hwf1, hcap1, hsh1, htr1, _, hnr1⟩ :=
    max_flow_spec (build n es) s t ((build n es).fuelBound s) hst hwf (capOK_of_zeroFlow _ hz)
      (by rw [hn]; exact hs) (by rw [hn]; exact ht) (track_of_zeroFlow _ s t hz) (le_refl _)
  have hn1 : d1.n = n := by rw [hsh1.1, hn]
  have hb : n ≤ (build n es).fuelBound s := by
    unfold Dinic.fuelBound; rw [hn]; omega
  obtain ⟨cut, hcut, hlen, hiff⟩ := get_cut_spec d1 hwf1 s ((build n es).fuelBound s)
    (by rw [hn1]; exact hs) (by rw [hn1]; exact hb)
  rw [hn1] at hlen hiff
  have hcs1 : cut.getD s false = true := (hiff s hs).2 Relation.ReflTransGen.refl
  have hct1 : cut.getD t false = false := by
    cases h : cut.getD t false with
    | false => rfl
    | true => exact absurd ((hiff t ht).1 h) hnr1
  refine ⟨val, d1, cut, fun fuel hf => ⟨max_flow_mono _ s t _ fuel _ hf hres,
    get_cut_mono d1 s _ fuel cut hf hcut⟩, hlen, hcs1, hct1, ?_, ?_⟩
  · rw [← hcs, ← capSum_shape _ d1 hsh1]
    refine (strong_duality d1 s t val _ hcap1 htr1 hcs1 hct1 ?_).symm
    intro u w hu hres
    have hun : u < n := by
      by_contra hc
      rw [List.getD_eq_getElem?_getD, List.getElem?_eq_none (by omega)] at hu
      exact Bool.noConfusion hu
    have hwn : w < n := by
      obtain ⟨i, hi, hto, _⟩ := hres
      rw [← hto, ← hn1]
      exact hwf1.to_lt u i hi
    exact (hiff w hwn).2 (Relation.ReflTransGen.tail ((hiff u hun).1 hu) hres)
  · intro A hAs hAt
    rw [← hcs, ← capSum_shape _ d1 hsh1]
    exact weak_duality d1 s t val A hcap1 htr1 hAs hAt

theorem cut_capacity_congr (es : List (Nat × Nat × Int)) (A B : Nat → Bool)
    (h : ∀ e ∈ es, A e.1 = B e.1 ∧ A e.2.1 = B e.2.1) :
    cut_capacity es A = cut_capacity es B := by
  unfold cut_capacity
  congr 1
  apply List.map_congr_left
  intro e he
  rw [(h e he).1, (h e he).2]

theorem cut_of_lt (nodes : List Nat) (hi : Nat → Bool) (i : Nat) (h : i < nodes.length) :
    cut_of nodes hi i = hi (nodes.getD i 0) := by
  unfold cut_of; rw [if_pos h]

theorem cut_of_S (nodes : List Nat) (hi : Nat → Bool) : cut_of nodes hi nodes.length = true := by
  unfold cut_of; rw [if_neg (lt_irrefl _)]; simp

theorem cut_of_T (nodes : List Nat) (hi : Nat → Bool) :
    cut_of nodes hi (nodes.length + 1) = false := by
  unfold cut_of; rw [if_neg (by omega)]; simp

theorem pref_term (g : Globals) (nodes : List Nat) (val : Int) (hi : Nat → Bool) (i : Nat)
    (h : i < nodes.length) :
    (if cut_of nodes hi (pref_edge g nodes val i).1 = true ∧
        cut_of nodes hi (pref_edge g nodes val i).2.1 = false then
      (pref_edge g nodes val i).2.2 else 0) = mispriced g val hi (nodes.getD i 0) := by
  unfold pref_edge mispriced Globals.weight
  have hlt := cut_of_lt nodes hi i h
  generalize (g.all_edges.getD (nodes.getD i 0) Edge.zero).w = w at *
  generalize hi (nodes.getD i 0) = b at *
  by_cases hw : w > val
  · rw [if_pos hw]
    simp only [cut_of_S, hlt, true_and]
    have hw' : ¬ w ≤ val := by omega
    cases b <;> simp [hw, hw']
  · rw [if_neg hw]
    simp only [cut_of_T, hlt, and_true]
    have hw' : w ≤ val := by omega
    cases b <;> simp [hw, hw']

theorem sum_filterMap {α β : Type} (f : α → Option β) (t : β → Int) :
    ∀ l : List α, ((l.filterMap f).map t).sum = (l.map (fun p => optTerm t (f p))).sum := by
  intro l
  induction l with
  | nil => rfl
  | cons a l ih =>
    simp only [List.filterMap_cons, List.map_cons, List.sum_cons]
    cases hf : f a with
    | none => simp only [optTerm, zero_add]; exact ih
    | some e => simp only [optTerm, List.map_cons, List.sum_cons, ih]

theorem cons_term (nodes : List Nat) (hi : Nat → Bool) (p : Nat × Nat) :
    optTerm (fun e : Nat × Nat × Int =>
        if cut_of nodes hi e.1 = true ∧ cut_of nodes hi e.2.1 = false then e.2.2 else 0)
      (cons_edge nodes p) =
    INF * (if p.1 ∈ nodes ∧ p.2 ∈ nodes ∧ hi p.1 = true ∧ hi p.2 = false then (1 : Int) else 0) := by
  unfold cons_edge
  by_cases hc : map_count (build_node_map nodes) p.1 = true ∧
      map_count (build_node_map nodes) p.2 = true
  · rw [if_pos hc]
    have h1 := (map_count_iff nodes p.1).1 hc.1
    have h2 := (map_count_iff nodes p.2).1 hc.2
    obtain ⟨a1, b1⟩ := map_get_spec nodes p.1 h1
    obtain ⟨a2, b2⟩ := map_get_spec nodes p.2 h2
    simp only [optTerm, cut_of_lt nodes hi _ a1, cut_of_lt nodes hi _ a2, b1, b2, h1, h2,
      true_and]
    split <;> simp
  · rw [if_neg hc]
    have : ¬ (p.1 ∈ nodes ∧ p.2 ∈ nodes ∧ hi p.1 = true ∧ hi p.2 = false) := by
      intro h
      exact hc ⟨(map_count_iff nodes p.1).2 h.1, (map_count_iff nodes p.2).2 h.2.1⟩
    rw [if_neg this]
    simp [optTerm]

theorem cut_capacity_network (g : Globals) (nodes : List Nat) (val : Int) (hi : Nat → Bool) :
    cut_capacity (network_edges g nodes val) (cut_of nodes hi) =
      mispricing g nodes val hi + INF * violations g nodes hi := by
  unfold cut_capacity network_edges
  rw [List.map_append, List.sum_append]
  congr 1
  · rw [List.map_map]
    unfold mispricing
    have hn := congrArg (List.map (mispriced g val hi)) (map_getD_range nodes)
    rw [← hn, List.map_map]
    congr 1
    apply List.map_congr_left
    intro i hi'
    exact pref_term g nodes val hi i (List.mem_range.1 hi')
  · rw [sum_filterMap (cons_edge nodes)
      (fun e => if cut_of nodes hi e.1 = true ∧ cut_of nodes hi e.2.1 = false then e.2.2 else 0)]
    unfold violations
    rw [← List.sum_map_mul_left]
    congr 1
    apply List.map_congr_left
    intro p _
    exact cons_term nodes hi p

theorem validEdges_network (g : Globals) (nodes : List Nat) (val : Int) :
    ValidEdges (nodes.length + 2) (network_edges g nodes val) := by
  intro e he
  unfold network_edges at he
  rcases List.mem_append.1 he with h | h
  · obtain ⟨i, hi, rfl⟩ := List.mem_map.1 h
    have := List.mem_range.1 hi
    unfold pref_edge
    split <;> simp <;> omega
  · obtain ⟨p, _, hp⟩ := List.mem_filterMap.1 h
    unfold cons_edge at hp
    split at hp
    · rename_i hc
      have h1 := (map_get_spec nodes p.1 ((map_count_iff nodes p.1).1 hc.1)).1
      have h2 := (map_get_spec nodes p.2 ((map_count_iff nodes p.2).1 hc.2)).1
      simp only [Option.some.injEq] at hp
      rw [← hp]
      simp only
      exact ⟨by omega, by omega, le_of_lt INF_pos⟩
    · exact absurd hp (by simp)

theorem mispriced_range (g : Globals) (val : Int) (hi : Nat → Bool) (id : Nat) :
    0 ≤ mispriced g val hi id ∧ mispriced g val hi id ≤ 1 := by
  unfold mispriced; split <;> simp

theorem mispricing_nonneg (g : Globals) (nodes : List Nat) (val : Int) (hi : Nat → Bool) :
    0 ≤ mispricing g nodes val hi := by
  unfold mispricing
  apply List.sum_nonneg
  intro x hx
  obtain ⟨id, _, rfl⟩ := List.mem_map.1 hx
  exact (mispriced_range g val hi id).1

theorem mispricing_le_length (g : Globals) (nodes : List Nat) (val : Int) (hi : Nat → Bool) :
    mispricing g nodes val hi ≤ nodes.length := by
  unfold mispricing
  induction nodes with
  | nil => simp
  | cons a l ih =>
    simp only [List.map_cons, List.sum_cons, List.length_cons, Nat.cast_add, Nat.cast_one]
    have := (mispriced_range g val hi a).2
    omega

theorem violations_nonneg (g : Globals) (nodes : List Nat) (hi : Nat → Bool) :
    0 ≤ violations g nodes hi := by
  unfold violations
  apply List.sum_nonneg
  intro x hx
  obtain ⟨p, _, rfl⟩ := List.mem_map.1 hx
  split <;> simp

theorem violations_eq_zero_iff (g : Globals) (nodes : List Nat) (hi : Nat → Bool) :
    violations g nodes hi = 0 ↔ RespectsConstraints g nodes hi := by
  unfold violations RespectsConstraints
  constructor
  · intro h p hp h1 h2 h3
    by_contra h4
    have hterm : (1 : Int) ≤ ((g.constraints.map (fun p =>
        if p.1 ∈ nodes ∧ p.2 ∈ nodes ∧ hi p.1 = true ∧ hi p.2 = false then (1 : Int) else 0)).sum) := by
      refine le_trans ?_ (List.single_le_sum ?_ _ (List.mem_map_of_mem _ hp))
      · rw [if_pos ⟨h1, h2, h3, by simpa using h4⟩]
      · intro x hx
        obtain ⟨q, _, rfl⟩ := List.mem_map.1 hx
        split <;> simp
    omega
  · intro h
    apply List.sum_eq_zero
    intro x hx
    obtain ⟨p, hp, rfl⟩ := List.mem_map.1 hx
    rw [if_neg]
    rintro ⟨h1, h2, h3, h4⟩
    have := h p hp h1 h2 h3
    rw [h4] at this
    exact Bool.noConfusion this

theorem filter_range_getD (nodes : List Nat) (p q : Nat → Bool)
    (h : ∀ i, i < nodes.length → q i = p (nodes.getD i 0)) :
    ((List.range nodes.length).filter q).map (fun i => nodes.getD i 0) = nodes.filter p := by
  have h1 : (List.range nodes.length).filter q =
      (List.range nodes.length).filter (p ∘ fun i => nodes.getD i 0) := by
    apply List.filter_congr
    intro i hi
    exact h i (List.mem_range.1 hi)
  rw [h1, ← List.filter_map, map_getD_range]

theorem solve_split_spec (g : Globals) (nodes : List Nat) (val : Int) (hnd : nodes.Nodup)
    (hlen : (nodes.length : Int) < INF) :
    ∃ flow hi F,
      (∀ fuel, F ≤ fuel → solve_split fuel g nodes val =
        some (flow, nodes.filter (fun id => !hi id), nodes.filter hi)) ∧
      RespectsConstraints g nodes hi ∧ flow = mispricing g nodes val hi ∧
      ∀ hi', RespectsConstraints g nodes hi' →
        mispricing g nodes val hi ≤ mispricing g nodes val hi' := by
  obtain ⟨flow, d1, cut, hfuel, _, hcS, hcT, hcap, hweak⟩ :=
    flow_cut_spec (nodes.length + 2) (network_edges g nodes val) nodes.length (nodes.length + 1)
      (validEdges_network g nodes val) (by omega) (by omega) (by omega)
  have hcut : ∀ u, u < nodes.length + 2 → cut.getD u false =
      cut_of nodes (fun id => cut.getD (map_get (build_node_map nodes) id) false) u := by
    intro u hu
    by_cases h1 : u < nodes.length
    · rw [cut_of_lt _ _ u h1, map_get_getD nodes hnd u h1]
    · by_cases h2 : u = nodes.length
      · rw [h2, cut_of_S]; exact hcS
      · have h3 : u = nodes.length + 1 := by omega
        rw [h3, cut_of_T]; exact hcT
  have hval : flow = mispricing g nodes val
        (fun id => cut.getD (map_get (build_node_map nodes) id) false) +
      INF * violations g nodes (fun id => cut.getD (map_get (build_node_map nodes) id) false) := by
    rw [← cut_capacity_network, ← hcap]
    apply cut_capacity_congr
    intro e he
    obtain ⟨h1, h2, _⟩ := validEdges_network g nodes val e he
    exact ⟨hcut _ h1, hcut _ h2⟩
  have hopt : ∀ hi', RespectsConstraints g nodes hi' → flow ≤ mispricing g nodes val hi' := by
    intro hi' hr
    have := hweak (cut_of nodes hi') (cut_of_S nodes hi') (cut_of_T nodes hi')
    rw [cut_capacity_network, (violations_eq_zero_iff g nodes hi').2 hr] at this
    simpa using this
  have hlow : flow ≤ nodes.length :=
    le_trans (hopt (fun _ => false) (fun _ _ _ _ h => Bool.noConfusion h))
      (mispricing_le_length g nodes val _)
  have hviol : violations g nodes
      (fun id => cut.getD (map_get (build_node_map nodes) id) false) = 0 := by
    by_contra hne
    have h1 := violations_nonneg g nodes
      (fun id => cut.getD (map_get (build_node_map nodes) id) false)
    have h2 := mispricing_nonneg g nodes val
      (fun id => cut.getD (map_get (build_node_map nodes) id) false)
    have h3 : 1 ≤ violations g nodes
        (fun id => cut.getD (map_get (build_node_map nodes) id) false) := by omega
    have h4 : INF ≤ INF * violations g nodes
        (fun id => cut.getD (map_get (build_node_map nodes) id) false) := by
      have := mul_le_mul_of_nonneg_left h3 (le_of_lt INF_pos)
      simpa using this
    omega
  rw [hviol] at hval
  simp only [mul_zero, add_zero] at hval
  refine ⟨flow, fun id => cut.getD (map_get (build_node_map nodes) id) false,
    (build (nodes.length + 2) (network_edges g nodes val)).fuelBound nodes.length, ?_,
    (violations_eq_zero_iff g nodes _).1 hviol, hval, fun hi' hr => by rw [← hval]; exact hopt hi' hr⟩
  intro fuel hf
  obtain ⟨h1, h2⟩ := hfuel fuel hf
  unfold solve_split
  simp only
  rw [build_network_eq, h1]
  simp only
  rw [h2]
  simp only
  rw [split_nodes_eq]
  rw [filter_range_getD nodes (fun id => !cut.getD (map_get (build_node_map nodes) id) false)
      (fun i => !cut.getD i false) (fun i hi => by
        simp only; rw [map_get_getD nodes hnd i hi]),
    filter_range_getD nodes (fun id => cut.getD (map_get (build_node_map nodes) id) false)
      (fun i => cut.getD i false) (fun i hi => by
        simp only; rw [map_get_getD nodes hnd i hi])]

/-! ## Optimality of the divide and conquer -/

theorem dw_lt (g : Globals) (hg : g.Good) (i j : Nat) (hij : i < j)
    (hj : j < g.distinct_weights.length) : g.dw i < g.dw j := by
  unfold Globals.dw
  rw [List.getD_eq_getElem _ _ hj, List.getD_eq_getElem _ _ (by omega)]
  exact (List.pairwise_iff_getElem.1 hg.sorted) i j (by omega) hj hij

theorem dw_le (g : Globals) (hg : g.Good) (i j : Nat) (hij : i ≤ j)
    (hj : j < g.distinct_weights.length) : g.dw i ≤ g.dw j := by
  rcases Nat.lt_or_eq_of_le hij with h | h
  · exact le_of_lt (dw_lt g hg i j h hj)
  · rw [h]

theorem cost_step (g : Globals) (hg : g.Good) (w : Int) (hw : w ∈ g.distinct_weights) (k : Nat)
    (hk : k + 1 < g.distinct_weights.length) :
    |g.dw (k + 1) - w| - |g.dw k - w| =
      (g.dw (k + 1) - g.dw k) * (if w ≤ g.dw k then 1 else -1) := by
  obtain ⟨j, hj, hjw⟩ := List.mem_iff_getElem.1 hw
  have hwj : w = g.dw j := by
    unfold Globals.dw; rw [List.getD_eq_getElem _ _ hj]; exact hjw.symm
  have hlt := dw_lt g hg k (k + 1) (by omega) hk
  by_cases hjk : j ≤ k
  · have h1 := dw_le g hg j k hjk (by omega)
    rw [← hwj] at h1
    rw [if_pos h1, abs_of_nonneg (by omega), abs_of_nonneg (by omega)]
    ring
  · have h1 := dw_le g hg (k + 1) j (by omega) hj
    rw [← hwj] at h1
    rw [if_neg (by omega), abs_of_nonpos (by omega), abs_of_nonpos (by omega)]
    ring

theorem sum_bound (l : List Nat) (a b p q : Nat → Int) (δ : Int)
    (h : ∀ id ∈ l, b id + δ * (p id - q id) ≤ a id) :
    (l.map b).sum + δ * ((l.map p).sum - (l.map q).sum) ≤ (l.map a).sum := by
  induction l with
  | nil => simp
  | cons x l ih =>
    simp only [List.map_cons, List.sum_cons]
    have h1 := h x (List.mem_cons_self _ _)
    have h2 := ih (fun id hid => h id (List.mem_cons_of_mem _ hid))
    have e : b x + (l.map b).sum + δ * (p x + (l.map p).sum - (q x + (l.map q).sum)) =
        (b x + δ * (p x - q x)) + ((l.map b).sum + δ * ((l.map p).sum - (l.map q).sum)) := by
      ring
    rw [e]
    exact add_le_add h1 h2

theorem costIdx_congr (g : Globals) (y y' : Nat → Nat) (nodes : List Nat)
    (h : ∀ id ∈ nodes, y id = y' id) : costIdx g y nodes = costIdx g y' nodes := by
  unfold costIdx
  congr 1
  apply List.map_congr_left
  intro id hid
  rw [h id hid]

theorem clamp_down_step (g : Globals) (hg : g.Good) (nodes : List Nat) (mid m R : Nat)
    (hi : Nat → Bool) (y : Nat → Nat)
    (hsub : ∀ id ∈ nodes, id < g.all_edges.length)
    (hmid : mid ≤ m) (hm : m < R) (hR : R < g.distinct_weights.length)
    (hresp : RespectsConstraints g nodes hi)
    (hopt : ∀ hi', RespectsConstraints g nodes hi' →
      mispricing g nodes (g.dw mid) hi ≤ mispricing g nodes (g.dw mid) hi')
    (hmono : ∀ p ∈ g.constraints, p.1 ∈ nodes → p.2 ∈ nodes → hi p.1 = false →
      hi p.2 = false → y p.1 ≤ y p.2) :
    costIdx g (fun id => if hi id = true then y id else min (y id) m) nodes ≤
      costIdx g (fun id => if hi id = true then y id else min (y id) (m + 1)) nodes := by
  have hr' : RespectsConstraints g nodes (fun id => hi id || decide (m < y id)) := by
    intro p hp h1 h2 h3
    simp only [Bool.or_eq_true, decide_eq_true_eq] at h3 ⊢
    rcases h3 with h | h
    · exact Or.inl (hresp p hp h1 h2 h)
    · cases hf : hi p.2 with
      | true => exact Or.inl rfl
      | false =>
        right
        cases he : hi p.1 with
        | true => have := hresp p hp h1 h2 he; rw [hf] at this; exact Bool.noConfusion this
        | false => exact lt_of_lt_of_le h (hmono p hp h1 h2 he hf)
  have hδ : 0 ≤ g.dw (m + 1) - g.dw m := by
    have := dw_lt g hg m (m + 1) (by omega) (by omega); omega
  have hmis := hopt _ hr'
  have hsum := sum_bound nodes
    (fun id => |g.dw (if hi id = true then y id else min (y id) (m + 1)) - g.weight id|)
    (fun id => |g.dw (if hi id = true then y id else min (y id) m) - g.weight id|)
    (mispriced g (g.dw mid) (fun id => hi id || decide (m < y id)))
    (mispriced g (g.dw mid) hi) (g.dw (m + 1) - g.dw m) (by
      intro id hid
      simp only
      cases hh : hi id with
      | true =>
        simp only [if_true]
        have : mispriced g (g.dw mid) (fun id => hi id || decide (m < y id)) id =
            mispriced g (g.dw mid) hi id := by
          unfold mispriced; simp only [hh, Bool.true_or]
        rw [this]; simp
      | false =>
        simp only [Bool.false_eq_true, if_false]
        by_cases hy : m < y id
        · have e1 : min (y id) (m + 1) = m + 1 := by omega
          have e2 : min (y id) m = m := by omega
          rw [e1, e2]
          have hstep := cost_step g hg (g.weight id) (hg.weight_mem id (hsub id hid)) m (by omega)
          have hval := dw_le g hg mid m hmid (by omega)
          have hm1 : mispriced g (g.dw mid) (fun id => hi id || decide (m < y id)) id =
              if g.weight id ≤ g.dw mid then 1 else 0 := by
            unfold mispriced
            simp only [hh, Bool.false_or, decide_eq_false_iff_not, not_lt, decide_eq_true_eq, hy,
              and_true]
            by_cases hw : g.weight id ≤ g.dw mid
            · simp [hw]
            · simp [hw]
          have hm2 : mispriced g (g.dw mid) hi id = if g.weight id ≤ g.dw mid then 0 else 1 := by
            unfold mispriced
            simp only [hh, and_true, Bool.false_eq_true, and_false, or_false]
            by_cases hw : g.weight id ≤ g.dw mid
            · rw [if_pos hw, if_neg (by omega)]
            · rw [if_neg hw, if_pos (by omega)]
          rw [hm1, hm2]
          by_cases hw : g.weight id ≤ g.dw mid
          · have hw2 : g.weight id ≤ g.dw m := le_trans hw hval
            rw [if_pos hw2] at hstep
            rw [if_pos hw, if_pos hw]
            linarith
          · rw [if_neg hw, if_neg hw]
            by_cases hw2 : g.weight id ≤ g.dw m
            · rw [if_pos hw2] at hstep
              nlinarith
            · rw [if_neg hw2] at hstep
              linarith
        · have e1 : min (y id) (m + 1) = y id := by omega
          have e2 : min (y id) m = y id := by omega
          rw [e1, e2]
          have : mispriced g (g.dw mid) (fun id => hi id || decide (m < y id)) id =
              mispriced g (g.dw mid) hi id := by
            unfold mispriced; simp only [hh, Bool.false_or, decide_eq_true_eq, hy, decide_False]
          rw [this]; simp)
  unfold costIdx
  unfold mispricing at hmis
  nlinarith

theorem clamp_up_step (g : Globals) (hg : g.Good) (nodes : List Nat) (mid m : Nat)
    (hi : Nat → Bool) (y : Nat → Nat)
    (hsub : ∀ id ∈ nodes, id < g.all_edges.length)
    (hmid : m ≤ mid) (hR : mid + 1 < g.distinct_weights.length)
    (hresp : RespectsConstraints g nodes hi)
    (hopt : ∀ hi', RespectsConstraints g nodes hi' →
      mispricing g nodes (g.dw mid) hi ≤ mispricing g nodes (g.dw mid) hi')
    (hmono : ∀ p ∈ g.constraints, p.1 ∈ nodes → p.2 ∈ nodes → hi p.1 = true →
      hi p.2 = true → y p.1 ≤ y p.2) :
    costIdx g (fun id => if hi id = true then max (y id) (m + 1) else y id) nodes ≤
      costIdx g (fun id => if hi id = true then max (y id) m else y id) nodes := by
  have hr' : RespectsConstraints g nodes (fun id => hi id && decide (m < y id)) := by
    intro p hp h1 h2 h3
    simp only [Bool.and_eq_true, decide_eq_true_eq] at h3 ⊢
    have h4 := hresp p hp h1 h2 h3.1
    exact ⟨h4, lt_of_lt_of_le h3.2 (hmono p hp h1 h2 h3.1 h4)⟩
  have hδ : 0 ≤ g.dw (m + 1) - g.dw m := by
    have := dw_lt g hg m (m + 1) (by omega) (by omega); omega
  have hmis := hopt _ hr'
  have hsum := sum_bound nodes
    (fun id => |g.dw (if hi id = true then max (y id) m else y id) - g.weight id|)
    (fun id => |g.dw (if hi id = true then max (y id) (m + 1) else y id) - g.weight id|)
    (mispriced g (g.dw mid) (fun id => hi id && decide (m < y id)))
    (mispriced g (g.dw mid) hi) (g.dw (m + 1) - g.dw m) (by
      intro id hid
      simp only
      cases hh : hi id with
      | false =>
        simp only [Bool.false_eq_true, if_false]
        have : mispriced g (g.dw mid) (fun id => hi id && decide (m < y id)) id =
            mispriced g (g.dw mid) hi id := by
          unfold mispriced; simp only [hh, Bool.false_and]
        rw [this]; simp
      | true =>
        simp only [if_true]
        by_cases hy : m < y id
        · have e1 : max (y id) (m + 1) = y id := by omega
          have e2 : max (y id) m = y id := by omega
          rw [e1, e2]
          have : mispriced g (g.dw mid) (fun id => hi id && decide (m < y id)) id =
              mispriced g (g.dw mid) hi id := by
            unfold mispriced; simp only [hh, Bool.true_and, decide_eq_true_eq, hy, decide_True]
          rw [this]; simp
        · have e1 : max (y id) (m + 1) = m + 1 := by omega
          have e2 : max (y id) m = m := by omega
          rw [e1, e2]
          have hstep := cost_step g hg (g.weight id) (hg.weight_mem id (hsub id hid)) m (by omega)
          have hval := dw_le g hg m mid hmid (by omega)
          have hm1 : mispriced g (g.dw mid) (fun id => hi id && decide (m < y id)) id =
              if g.weight id ≤ g.dw mid then 0 else 1 := by
            unfold mispriced
            simp only [hh, Bool.true_and, decide_eq_false_iff_not, decide_eq_true_eq, hy,
              not_false_eq_true, and_true, and_false, or_false]
            by_cases hw : g.weight id ≤ g.dw mid
            · rw [if_pos hw, if_neg (by omega)]
            · rw [if_neg hw, if_pos (by omega)]
          have hm2 : mispriced g (g.dw mid) hi id = if g.weight id ≤ g.dw mid then 1 else 0 := by
            unfold mispriced
            simp only [hh, and_true, Bool.true_eq_false, and_false, false_or]
          rw [hm1, hm2]
          by_cases hw : g.weight id ≤ g.dw mid
          · rw [if_pos hw, if_pos hw]
            by_cases hw2 : g.weight id ≤ g.dw m
            · rw [if_pos hw2] at hstep
              linarith
            · rw [if_neg hw2] at hstep
              nlinarith
          · have hw2 : ¬ g.weight id ≤ g.dw m := by omega
            rw [if_neg hw2] at hstep
            rw [if_neg hw, if_neg hw]
            linarith)
  unfold costIdx
  unfold mispricing at hmis
  nlinarith

theorem clamp_down (g : Globals) (hg : g.Good) (nodes : List Nat) (mid R : Nat)
    (hi : Nat → Bool) (y : Nat → Nat)
    (hsub : ∀ id ∈ nodes, id < g.all_edges.length)
    (hR : R < g.distinct_weights.length)
    (hresp : RespectsConstraints g nodes hi)
    (hopt : ∀ hi', RespectsConstraints g nodes hi' →
      mispricing g nodes (g.dw mid) hi ≤ mispricing g nodes (g.dw mid) hi')
    (hmono : ∀ p ∈ g.constraints, p.1 ∈ nodes → p.2 ∈ nodes → hi p.1 = false →
      hi p.2 = false → y p.1 ≤ y p.2)
    (hyR : ∀ id ∈ nodes, y id ≤ R) :
    ∀ d m, m + d = R → mid ≤ m →
      costIdx g (fun id => if hi id = true then y id else min (y id) m) nodes ≤
        costIdx g y nodes := by
  intro d
  induction d with
  | zero =>
    intro m hm _
    apply le_of_eq
    apply costIdx_congr
    intro id hid
    have := hyR id hid
    show (if hi id = true then y id else min (y id) m) = y id
    split
    · rfl
    · omega
  | succ d ih =>
    intro m hm hmid
    exact le_trans
      (clamp_down_step g hg nodes mid m R hi y hsub hmid (by omega) hR hresp hopt hmono)
      (ih (m + 1) (by omega) (by omega))

theorem clamp_up (g : Globals) (hg : g.Good) (nodes : List Nat) (mid L : Nat)
    (hi : Nat → Bool) (y : Nat → Nat)
    (hsub : ∀ id ∈ nodes, id < g.all_edges.length)
    (hR : mid + 1 < g.distinct_weights.length)
    (hresp : RespectsConstraints g nodes hi)
    (hopt : ∀ hi', RespectsConstraints g nodes hi' →
      mispricing g nodes (g.dw mid) hi ≤ mispricing g nodes (g.dw mid) hi')
    (hmono : ∀ p ∈ g.constraints, p.1 ∈ nodes → p.2 ∈ nodes → hi p.1 = true →
      hi p.2 = true → y p.1 ≤ y p.2)
    (hyL : ∀ id ∈ nodes, hi id = true → L ≤ y id) :
    ∀ d, L + d ≤ mid + 1 →
      costIdx g (fun id => if hi id = true then max (y id) (L + d) else y id) nodes ≤
        costIdx g y nodes := by
  intro d
  induction d with
  | zero =>
    intro _
    apply le_of_eq
    apply costIdx_congr
    intro id hid
    show (if hi id = true then max (y id) (L + 0) else y id) = y id
    split
    · rename_i h
      have := hyL id hid h
      omega
    · rfl
  | succ d ih =>
    intro hm
    exact le_trans
      (clamp_up_step g hg nodes mid (L + d) hi y hsub (by omega) hR hresp hopt hmono)
      (ih (by omega))

theorem clamp_cost (g : Globals) (hg : g.Good) (nodes : List Nat) (L mid R : Nat)
    (hi : Nat → Bool) (y : Nat → Nat)
    (hsub : ∀ id ∈ nodes, id < g.all_edges.length)
    (hLm : L ≤ mid) (hmR : mid < R) (hR : R < g.distinct_weights.length)
    (hresp : RespectsConstraints g nodes hi)
    (hopt : ∀ hi', RespectsConstraints g nodes hi' →
      mispricing g nodes (g.dw mid) hi ≤ mispricing g nodes (g.dw mid) hi')
    (hy : Feasible g nodes L R y) :
    costIdx g (fun id => if hi id = true then max (y id) (mid + 1) else min (y id) mid) nodes ≤
      costIdx g y nodes := by
  have h1 := clamp_down g hg nodes mid R hi y hsub hR hresp hopt
    (fun p hp a b _ _ => hy.2 p hp a b) (fun id hid => (hy.1 id hid).2) (R - mid) mid
    (by omega) (le_refl _)
  have h2 := clamp_up g hg nodes mid L hi
    (fun id => if hi id = true then y id else min (y id) mid) hsub (by omega) hresp hopt
    (fun p hp a b c d => by
      simp only [c, d, if_true]
      exact hy.2 p hp a b)
    (fun id hid h => by
      simp only [h, if_true]
      exact (hy.1 id hid).1) (mid + 1 - L) (by omega)
  refine le_trans (le_of_eq ?_) (le_trans h2 h1)
  apply costIdx_congr
  intro id _
  simp only
  have : L + (mid + 1 - L) = mid + 1 := by omega
  rw [this]
  split <;> rfl

/-! ## The recursion of `solve` -/

theorem assign_all_spec (x : Int) :
    ∀ (nodes : List Nat) (st : SolveState), (∀ id ∈ nodes, id < st.final_weights.length) →
      (assign_all x nodes st).final_weights.length = st.final_weights.length ∧
        (∀ j, (assign_all x nodes st).final_weights.getD j 0 =
          if j ∈ nodes then x else st.final_weights.getD j 0) ∧
        (assign_all x nodes st).writes = st.writes ++ nodes := by
  intro nodes
  induction nodes with
  | nil =>
    intro st _
    refine ⟨rfl, fun j => ?_, by simp [assign_all]⟩
    rw [if_neg (List.not_mem_nil j)]
    rfl
  | cons id rest ih =>
    intro st hlt
    have hid := hlt id (List.mem_cons_self _ _)
    obtain ⟨h1, h2, h3⟩ := ih ⟨st.final_weights.set id x, st.writes ++ [id]⟩ (by
      intro j hj
      simp only [List.length_set]
      exact hlt j (List.mem_cons_of_mem _ hj))
    simp only [assign_all]
    refine ⟨by rw [h1]; simp, ?_, by rw [h3]; simp⟩
    intro j
    rw [h2 j]
    by_cases hjr : j ∈ rest
    · rw [if_pos hjr, if_pos (List.mem_cons_of_mem _ hjr)]
    · rw [if_neg hjr]
      by_cases hji : j = id
      · subst hji
        rw [if_pos (List.mem_cons_self _ _)]
        exact getD_set_self _ _ _ _ hid
      · rw [if_neg (by simp [hji, hjr])]
        exact getD_set_ne _ _ _ _ _ (fun h => hji h.symm)

theorem costFw_nil (g : Globals) (fw : List Int) : costFw g fw [] = 0 := rfl

theorem costFw_append (g : Globals) (fw : List Int) (l1 l2 : List Nat) :
    costFw g fw (l1 ++ l2) = costFw g fw l1 + costFw g fw l2 := by
  unfold costFw; rw [List.map_append, List.sum_append]

theorem costFw_perm (g : Globals) (fw : List Int) (l1 l2 : List Nat) (h : l1.Perm l2) :
    costFw g fw l1 = costFw g fw l2 := by
  unfold costFw; exact (h.map _).sum_eq

theorem costIdx_append (g : Globals) (y : Nat → Nat) (l1 l2 : List Nat) :
    costIdx g y (l1 ++ l2) = costIdx g y l1 + costIdx g y l2 := by
  unfold costIdx; rw [List.map_append, List.sum_append]

theorem costIdx_perm (g : Globals) (y : Nat → Nat) (l1 l2 : List Nat) (h : l1.Perm l2) :
    costIdx g y l1 = costIdx g y l2 := by
  unfold costIdx; exact (h.map _).sum_eq

theorem costFw_congr (g : Globals) (fw fw' : List Int) (nodes : List Nat)
    (h : ∀ id ∈ nodes, fw.getD id 0 = fw'.getD id 0) : costFw g fw nodes = costFw g fw' nodes := by
  unfold costFw
  congr 1
  apply List.map_congr_left
  intro id hid
  rw [h id hid]

theorem solve_spec_nil (g : Globals) (L R : Nat) (st : SolveState) :
    ∃ st1 F, (∀ fuel, F ≤ fuel → solve g fuel [] (L : Int) (R : Int) st = some st1) ∧
      SolvePost g [] L R st st1 := by
  refine ⟨st, 1, ?_, ⟨rfl, fun _ h => absurd h (List.not_mem_nil _), fun _ _ => rfl,
    ⟨[], by simp, List.Perm.nil⟩, fun _ _ h => absurd h (List.not_mem_nil _), fun _ _ => le_refl _⟩⟩
  intro fuel hf
  obtain ⟨f, rfl⟩ : ∃ f, fuel = f + 1 := ⟨fuel - 1, by omega⟩
  simp [solve]

theorem solve_spec_leaf (g : Globals) (nodes : List Nat) (L : Nat) (st : SolveState)
    (hne : nodes ≠ []) (hlt : ∀ id ∈ nodes, id < st.final_weights.length) :
    ∃ st1 F, (∀ fuel, F ≤ fuel → solve g fuel nodes (L : Int) (L : Int) st = some st1) ∧
      SolvePost g nodes L L st st1 := by
  obtain ⟨h1, h2, h3⟩ := assign_all_spec (g.dw L) nodes st hlt
  refine ⟨assign_all (g.dw L) nodes st, 1, ?_, ⟨h1, ?_, ?_, ⟨nodes, h3, List.Perm.refl _⟩, ?_, ?_⟩⟩
  · intro fuel hf
    obtain ⟨f, rfl⟩ : ∃ f, fuel = f + 1 := ⟨fuel - 1, by omega⟩
    simp only [solve]
    rw [if_neg (by simpa using hne)]
    simp only [if_true, Int.toNat_natCast]
    rfl
  · intro id hid
    exact ⟨L, le_refl _, le_refl _, by rw [h2 id, if_pos hid]⟩
  · intro j hj
    rw [h2 j, if_neg hj]
  · intro p _ ha hb
    rw [h2 p.1, h2 p.2, if_pos ha, if_pos hb]
  · intro y hy
    apply le_of_eq
    unfold costFw costIdx
    congr 1
    apply List.map_congr_left
    intro id hid
    have := hy.1 id hid
    have hyL : y id = L := by omega
    rw [h2 id, if_pos hid, hyL]

theorem tdiv_mid (L R : Nat) : Int.tdiv ((L : Int) + (R : Int)) 2 = (((L + R) / 2 : Nat) : Int) := by
  rw [Int.tdiv_eq_ediv (by omega) (by decide)]
  omega

theorem length_lt_INF (g : Globals) (hsize : g.all_edges.length < 2 ^ 31) (nodes : List Nat)
    (hsub : nodes.Sublist (List.range g.all_edges.length)) : (nodes.length : Int) < INF := by
  have h1 := hsub.length_le
  rw [List.length_range] at h1
  have h2 := hsize
  unfold INF
  omega

theorem solve_spec_step (g : Globals) (hg : g.Good) (nodes : List Nat) (L R : Nat)
    (st : SolveState) (hsub : nodes.Sublist (List.range g.all_edges.length)) (hne : nodes ≠ [])
    (hLR : L < R) (hR : R < g.distinct_weights.length)
    (ih : ∀ (nodes1 : List Nat) (L1 R1 : Nat) (st0 : SolveState),
      nodes1.Sublist (List.range g.all_edges.length) → L1 ≤ R1 →
      R1 < g.distinct_weights.length → R1 - L1 < R - L →
      st0.final_weights.length = g.all_edges.length →
      ∃ st1 F, (∀ fuel, F ≤ fuel → solve g fuel nodes1 (L1 : Int) (R1 : Int) st0 = some st1) ∧
        SolvePost g nodes1 L1 R1 st0 st1)
    (hst : st.final_weights.length = g.all_edges.length) :
    ∃ st1 F, (∀ fuel, F ≤ fuel → solve g fuel nodes (L : Int) (R : Int) st = some st1) ∧
      SolvePost g nodes L R st st1 := by
  have hnd : nodes.Nodup := hsub.nodup (List.nodup_range _)
  have hlt : ∀ id ∈ nodes, id < g.all_edges.length :=
    fun id hid => List.mem_range.1 (hsub.subset hid)
  obtain ⟨flow, hi, F0, hsplit, hresp, _, hopt⟩ :=
    solve_split_spec g nodes (g.dw ((L + R) / 2)) hnd (length_lt_INF g hg.size nodes hsub)
  have hmemL : ∀ id, id ∈ nodes.filter (fun id => !hi id) ↔ id ∈ nodes ∧ hi id = false := by
    intro id; rw [List.mem_filter]; simp
  have hmemR : ∀ id, id ∈ nodes.filter hi ↔ id ∈ nodes ∧ hi id = true := by
    intro id; rw [List.mem_filter]
  obtain ⟨st1, F1, h1, post1⟩ := ih (nodes.filter (fun id => !hi id)) L ((L + R) / 2) st
    ((List.filter_sublist _).trans hsub) (by omega) (by omega) (by omega) hst
  obtain ⟨st2, F2, h2, post2⟩ := ih (nodes.filter hi) ((L + R) / 2 + 1) R st1
    ((List.filter_sublist _).trans hsub) (by omega) hR (by omega) (by rw [post1.len]; exact hst)
  have hperm : (nodes.filter (fun id => !hi id) ++ nodes.filter hi).Perm nodes :=
    List.perm_append_comm.trans (List.filter_append_perm hi nodes)
  have hfrL : ∀ id ∈ nodes.filter (fun id => !hi id),
      st2.final_weights.getD id 0 = st1.final_weights.getD id 0 := by
    intro id hid
    apply post2.frame
    intro h
    have a := ((hmemL id).1 hid).2
    have b := ((hmemR id).1 h).2
    rw [a] at b
    exact Bool.noConfusion b
  refine ⟨st2, max F0 (max F1 F2) + 1, ?_, ⟨post2.len.trans post1.len, ?_, ?_, ?_, ?_, ?_⟩⟩
  · intro fuel hf
    obtain ⟨f, rfl⟩ : ∃ f, fuel = f + 1 := ⟨fuel - 1, by omega⟩
    simp only [solve]
    rw [if_neg (by simpa using hne), if_neg (by omega), tdiv_mid]
    simp only [Int.toNat_natCast]
    have hs := hsplit (f + 1) (by omega)
    unfold Globals.dw at hs
    rw [hs]
    simp only
    rw [h1 f (by omega)]
    simp only
    have hc : (((L + R) / 2 : Nat) : Int) + 1 = (((L + R) / 2 + 1 : Nat) : Int) := by
      push_cast; rfl
    rw [hc]
    exact h2 f (by omega)
  · intro id hid
    cases hh : hi id with
    | true =>
      obtain ⟨k, a, b, c⟩ := post2.range id ((hmemR id).2 ⟨hid, hh⟩)
      exact ⟨k, by omega, b, c⟩
    | false =>
      have hl := (hmemL id).2 ⟨hid, hh⟩
      obtain ⟨k, a, b, c⟩ := post1.range id hl
      exact ⟨k, a, by omega, by rw [hfrL id hl]; exact c⟩
  · intro j hj
    rw [post2.frame j (fun h => hj ((hmemR j).1 h).1),
      post1.frame j (fun h => hj ((hmemL j).1 h).1)]
  · obtain ⟨ws1, e1, p1⟩ := post1.writes
    obtain ⟨ws2, e2, p2⟩ := post2.writes
    exact ⟨ws1 ++ ws2, by rw [e2, e1, List.append_assoc], (p1.append p2).trans hperm⟩
  · intro p hp ha hb
    cases he : hi p.1 with
    | true =>
      have hf := hresp p hp ha hb he
      exact post2.respects p hp ((hmemR _).2 ⟨ha, he⟩) ((hmemR _).2 ⟨hb, hf⟩)
    | false =>
      have hl1 := (hmemL p.1).2 ⟨ha, he⟩
      rw [hfrL p.1 hl1]
      cases hf : hi p.2 with
      | false =>
        have hl2 := (hmemL p.2).2 ⟨hb, hf⟩
        rw [hfrL p.2 hl2]
        exact post1.respects p hp hl1 hl2
      | true =>
        obtain ⟨k1, _, b1, c1⟩ := post1.range p.1 hl1
        obtain ⟨k2, a2, b2, c2⟩ := post2.range p.2 ((hmemR _).2 ⟨hb, hf⟩)
        rw [c1, c2]
        exact le_of_lt (dw_lt g hg k1 k2 (by omega) (by omega))
  · intro y hy
    have hc := clamp_cost g hg nodes L ((L + R) / 2) R hi y hlt (by omega) (by omega) hR hresp
      hopt hy
    have hfl : Feasible g (nodes.filter (fun id => !hi id)) L ((L + R) / 2)
        (fun id => if hi id = true then max (y id) ((L + R) / 2 + 1)
          else min (y id) ((L + R) / 2)) := by
      constructor
      · intro id hid
        obtain ⟨a, b⟩ := (hmemL id).1 hid
        have := hy.1 id a
        simp only [b, Bool.false_eq_true, if_false]
        omega
      · intro p hp ha hb
        obtain ⟨a1, b1⟩ := (hmemL _).1 ha
        obtain ⟨a2, b2⟩ := (hmemL _).1 hb
        have := hy.2 p hp a1 a2
        simp only [b1, b2, Bool.false_eq_true, if_false]
        omega
    have hfr : Feasible g (nodes.filter hi) ((L + R) / 2 + 1) R
        (fun id => if hi id = true then max (y id) ((L + R) / 2 + 1)
          else min (y id) ((L + R) / 2)) := by
      constructor
      · intro id hid
        obtain ⟨a, b⟩ := (hmemR id).1 hid
        have := hy.1 id a
        simp only [b, if_true]
        omega
      · intro p hp ha hb
        obtain ⟨a1, b1⟩ := (hmemR _).1 ha
        obtain ⟨a2, b2⟩ := (hmemR _).1 hb
        have := hy.2 p hp a1 a2
        simp only [b1, b2, if_true]
        omega
    have o1 := post1.optimal _ hfl
    have o2 := post2.optimal _ hfr
    rw [← costFw_perm g _ _ _ hperm, costFw_append,
      costFw_congr g st2.final_weights st1.final_weights _ hfrL]
    rw [← costIdx_perm g _ _ _ hperm, costIdx_append] at hc
    linarith

theorem solve_spec (g : Globals) (hg : g.Good) :
    ∀ (n : Nat) (nodes : List Nat) (L R : Nat) (st : SolveState),
      R - L = n → nodes.Sublist (List.range g.all_edges.length) → L ≤ R →
      R < g.distinct_weights.length → st.final_weights.length = g.all_edges.length →
      ∃ st1 F, (∀ fuel, F ≤ fuel → solve g fuel nodes (L : Int) (R : Int) st = some st1) ∧
        SolvePost g nodes L R st st1 := by
  intro n
  induction n using Nat.strong_induction_on with
  | _ n ih =>
    intro nodes L R st hn hsub hLR hR hst
    by_cases hne : nodes = []
    · subst hne; exact solve_spec_nil g L R st
    · by_cases hEq : L = R
      · subst hEq
        exact solve_spec_leaf g nodes L st hne (fun id hid => by
          rw [hst]; exact List.mem_range.1 (hsub.subset hid))
      · exact solve_spec_step g hg nodes L R st hsub hne (by omega) hR
          (fun nodes1 L1 R1 st0 a b c d e => ih (R1 - L1) (by omega) nodes1 L1 R1 st0 rfl a b c e)
          hst

/-! ## Facts about the driver -/

theorem unique_mem : ∀ (l : List Int) (x : Int), x ∈ unique l ↔ x ∈ l := by
  intro l
  induction l with
  | nil => intro x; simp [unique]
  | cons a l ih =>
    intro x
    cases l with
    | nil => simp [unique]
    | cons b rest =>
      simp only [unique]
      split
      · rename_i hab
        rw [ih x]
        subst hab
        simp
      · rw [List.mem_cons, ih x]
        exact List.mem_cons.symm

theorem unique_sorted : ∀ (l : List Int), l.Sorted (fun a b => a ≤ b) →
    (unique l).Sorted (fun a b => a < b) := by
  intro l
  induction l with
  | nil => intro _; simp [unique]
  | cons a l ih =>
    intro hs
    cases l with
    | nil => simp [unique]
    | cons b rest =>
      have hs' := List.Sorted.of_cons hs
      have hab : a ≤ b := List.rel_of_sorted_cons hs b (List.mem_cons_self _ _)
      simp only [unique]
      split
      · exact ih hs'
      · rename_i hne
        refine List.Pairwise.cons ?_ (ih hs')
        intro x hx
        rw [unique_mem] at hx
        have hbx : b ≤ x := by
          rcases List.mem_cons.1 hx with h | h
          · rw [h]
          · exact List.rel_of_sorted_cons hs' x h
        omega

theorem make_distinct_weights_sorted (all_edges : List Edge) :
    (make_distinct_weights all_edges).Sorted (fun a b => a < b) :=
  unique_sorted _ (List.sorted_insertionSort _ _)

theorem mem_make_distinct_weights (all_edges : List Edge) (x : Int) :
    x ∈ make_distinct_weights all_edges ↔ ∃ e ∈ all_edges, e.w = x := by
  unfold make_distinct_weights
  rw [unique_mem, (List.perm_insertionSort _ _).mem_iff, List.mem_map]

theorem good_of_make (g : Globals) (hdw : g.distinct_weights = make_distinct_weights g.all_edges)
    (hsize : g.all_edges.length < 2 ^ 31) : g.Good := by
  refine ⟨by rw [hdw]; exact make_distinct_weights_sorted _, ?_, hsize⟩
  intro id hid
  rw [hdw, mem_make_distinct_weights]
  refine ⟨g.all_edges[id], List.getElem_mem _, ?_⟩
  unfold Globals.weight
  rw [List.getD_eq_getElem _ _ hid]

theorem distinct_weights_pos (g : Globals)
    (hdw : g.distinct_weights = make_distinct_weights g.all_edges) (hM : 1 ≤ g.all_edges.length) :
    1 ≤ g.distinct_weights.length := by
  have h : g.all_edges[0].w ∈ g.distinct_weights := by
    rw [hdw, mem_make_distinct_weights]
    exact ⟨g.all_edges[0], List.getElem_mem _, rfl⟩
  exact List.length_pos_of_mem h

theorem foldl_add_eq_sum (f : Nat → Int) :
    ∀ (l : List Nat) (acc : Int), l.foldl (fun a i => a + f i) acc = acc + (l.map f).sum := by
  intro l
  induction l with
  | nil => intro acc; simp
  | cons x l ih => intro acc; simp only [List.foldl_cons, ih, List.map_cons, List.sum_cons]; ring

theorem total_cost_eq (g : Globals) (fw : List Int) :
    total_cost g.all_edges fw = costFw g fw (List.range g.all_edges.length) := by
  unfold total_cost costFw Globals.weight
  rw [foldl_add_eq_sum (fun i => |fw.getD i 0 - (g.all_edges.getD i Edge.zero).w|)]
  simp

theorem solve_top (g : Globals) (hg : g.Good) (hpos : 1 ≤ g.distinct_weights.length)
    (st : SolveState) (hst : st.final_weights.length = g.all_edges.length) :
    ∃ st1 F,
      (∀ fuel, F ≤ fuel → solve g fuel (List.range g.all_edges.length) 0
        ((g.distinct_weights.length : Int) - 1) st = some st1) ∧
      SolvePost g (List.range g.all_edges.length) 0 (g.distinct_weights.length - 1) st st1 := by
  obtain ⟨st1, F, h1, h2⟩ := solve_spec g hg _ (List.range g.all_edges.length) 0
    (g.distinct_weights.length - 1) st rfl (List.Sublist.refl _) (Nat.zero_le _) (by omega) hst
  refine ⟨st1, F, ?_, h2⟩
  intro fuel hf
  have := h1 fuel hf
  have hc : ((g.distinct_weights.length - 1 : Nat) : Int) = (g.distinct_weights.length : Int) - 1 := by
    omega
  rw [hc] at this
  exact this

theorem solveCall_sublist (g : Globals) (nodes : List Nat) (L R : Int)
    (h : SolveCall g nodes L R) : nodes.Sublist (List.range g.all_edges.length) := by
  induction h with
  | top => exact List.Sublist.refl _
  | left nodes L R fuel flow l r _ _ _ hs ih =>
    refine List.Sublist.trans ?_ ih
    unfold solve_split at hs
    simp only at hs
    split at hs
    · exact absurd hs (by simp)
    · split at hs
      · exact absurd hs (by simp)
      · rename_i cut _
        simp only [Option.some.injEq, Prod.mk.injEq] at hs
        have := hs.2
        rw [split_nodes_eq] at this
        simp only [Prod.mk.injEq] at this
        rw [← this.1]
        have h2 := (@List.filter_sublist _ (fun i => !cut.getD i false)
          (List.range nodes.length)).map (fun i => nodes.getD i 0)
        rw [map_getD_range] at h2
        exact h2
  | right nodes L R fuel flow l r _ _ _ hs ih =>
    refine List.Sublist.trans ?_ ih
    unfold solve_split at hs
    simp only at hs
    split at hs
    · exact absurd hs (by simp)
    · split at hs
      · exact absurd hs (by simp)
      · rename_i cut _
        simp only [Option.some.injEq, Prod.mk.injEq] at hs
        have := hs.2
        rw [split_nodes_eq] at this
        simp only [Prod.mk.injEq] at this
        rw [← this.2]
        have h2 := (@List.filter_sublist _ (fun i => cut.getD i false)
          (List.range nodes.length)).map (fun i => nodes.getD i 0)
        rw [map_getD_range] at h2
        exact h2

/-! ## Coverage and partition validity -/

/-- C4: for every instance with `M ≥ 1` edges (whatever the constraints), the top-level
call `solve([0..M-1], 0, |distinct_weights| - 1)` returns, afterwards every
`final_weights[i]` with `i < M` is an element of `distinct_weights`, and the log of writes
to `final_weights` contains every edge id `i < M` exactly once and nothing else. -/
theorem solve_covers_all_edges (g : Globals) (hM : 1 ≤ g.all_edges.length)
    (hsize : g.all_edges.length < 2 ^ 31)
    (hdw : g.distinct_weights = make_distinct_weights g.all_edges) :
    ∃ st1 F,
      (∀ fuel, F ≤ fuel → solve g fuel (List.range g.all_edges.length) 0
        ((g.distinct_weights.length : Int) - 1)
        ⟨List.replicate g.all_edges.length 0, []⟩ = some st1) ∧
      (∀ i, i < g.all_edges.length → st1.final_weights.getD i 0 ∈ g.distinct_weights) ∧
      (∀ i, i < g.all_edges.length → st1.writes.count i = 1) ∧
      (∀ i ∈ st1.writes, i < g.all_edges.length) := by
  have hg := good_of_make g hdw hsize
  have hpos := distinct_weights_pos g hdw hM
  obtain ⟨st1, F, h1, post⟩ := solve_top g hg hpos ⟨List.replicate g.all_edges.length 0, []⟩
    (by simp)
  obtain ⟨ws, hws, hperm⟩ := post.writes
  simp only [List.nil_append] at hws
  refine ⟨st1, F, h1, ?_, ?_, ?_⟩
  · intro i hi
    obtain ⟨k, _, hk, hfw⟩ := post.range i (List.mem_range.2 hi)
    rw [hfw]
    unfold Globals.dw
    rw [List.getD_eq_getElem _ _ (by omega)]
    exact List.getElem_mem _
  · intro i hi
    rw [hws, hperm.count_eq]
    exact List.count_eq_one_of_mem (List.nodup_range _) (List.mem_range.2 hi)
  · intro i hi
    rw [hws] at hi
    exact List.mem_range.1 (hperm.mem_iff.1 hi)

theorem solve_covers_all_edges_witness :
    ∃ st1 F,
      (∀ fuel, F ≤ fuel → solve scenario_globals fuel
        (List.range scenario_globals.all_edges.length) 0
        ((scenario_globals.distinct_weights.length : Int) - 1)
        ⟨List.replicate scenario_globals.all_edges.length 0, []⟩ = some st1) ∧
      (∀ i, i < scenario_globals.all_edges.length →
        st1.final_weights.getD i 0 ∈ scenario_globals.distinct_weights) ∧
      (∀ i, i < scenario_globals.all_edges.length → st1.writes.count i = 1) ∧
      (∀ i ∈ st1.writes, i < scenario_globals.all_edges.length) :=
  solve_covers_all_edges scenario_globals (by decide) (by decide) rfl

/-- C7: for every call `solve(nodes, L, R)` made by the recursion (the number of edges
fitting an `int`), the split step at `val = distinct_weights[(L+R)/2]` returns a partition
`(left_nodes, right_nodes)` in which no constraint `(e, f)` between two edges of `nodes`
has `e` in `right_nodes` (high side) and `f` in `left_nodes` (low side). -/
theorem partition_respects_constraints (g : Globals) (hsize : g.all_edges.length < 2 ^ 31)
    (nodes : List Nat) (L R : Int) (hcall : SolveCall g nodes L R) :
    ∃ flow left right F,
      (∀ fuel, F ≤ fuel →
        solve_split fuel g nodes (g.distinct_weights.getD (Int.tdiv (L + R) 2).toNat 0) =
          some (flow, left, right)) ∧
      ∀ p ∈ g.constraints, p.1 ∈ nodes → p.2 ∈ nodes → ¬ (p.1 ∈ right ∧ p.2 ∈ left) := by
  have hsub := solveCall_sublist g nodes L R hcall
  obtain ⟨flow, hi, F, hsplit, hresp, _, _⟩ :=
    solve_split_spec g nodes (g.distinct_weights.getD (Int.tdiv (L + R) 2).toNat 0)
      (hsub.nodup (List.nodup_range _)) (length_lt_INF g hsize nodes hsub)
  refine ⟨flow, _, _, F, hsplit, ?_⟩
  rintro p hp ha hb ⟨h1, h2⟩
  have e1 := (List.mem_filter.1 h1).2
  have e2 := (List.mem_filter.1 h2).2
  have := hresp p hp ha hb e1
  rw [this] at e2
  exact absurd e2 (by decide)

theorem partition_respects_constraints_witness :
    ∃ flow left right F,
      (∀ fuel, F ≤ fuel →
        solve_split fuel scenario_globals (List.range scenario_globals.all_edges.length)
          (scenario_globals.distinct_weights.getD
            (Int.tdiv (0 + ((scenario_globals.distinct_weights.length : Int) - 1)) 2).toNat 0) =
          some (flow, left, right)) ∧
      ∀ p ∈ scenario_globals.constraints,
        p.1 ∈ List.range scenario_globals.all_edges.length →
        p.2 ∈ List.range scenario_globals.all_edges.length → ¬ (p.1 ∈ right ∧ p.2 ∈ left) :=
  partition_respects_constraints scenario_globals (by decide) _ _ _ SolveCall.top

/-! ## Simple paths and cycles -/

theorem exists_simple_path (R : Nat → Nat → Prop) (x y : Nat) (h : Relation.ReflTransGen R x y) :
    ∃ σ, SimplePath R x y σ ∧ ∀ z ∈ σ, Relation.ReflTransGen R x z := by
  induction h using Relation.ReflTransGen.head_induction_on with
  | refl =>
    refine ⟨[y], ⟨rfl, rfl, List.chain'_singleton _, List.nodup_singleton _⟩, ?_⟩
    intro z hz
    rw [List.mem_singleton.1 hz]
  | @head a c hxc _ ih =>
    obtain ⟨σ, hσ, hreach⟩ := ih
    have hreach' : ∀ z ∈ σ, Relation.ReflTransGen R a z :=
      fun z hz => Relation.ReflTransGen.head hxc (hreach z hz)
    by_cases ha : a ∈ σ
    · obtain ⟨l1, l2, rfl⟩ := List.append_of_mem ha
      refine ⟨a :: l2, ⟨rfl, ?_, (List.chain'_append.1 hσ.chain).2.1,
        (List.nodup_append.1 hσ.nodup).2.1⟩, ?_⟩
      · rw [← hσ.last, List.getLast?_append_of_ne_nil _ (List.cons_ne_nil _ _)]
      · intro z hz
        exact hreach' z (List.mem_append_right _ hz)
    · obtain ⟨t, rfl⟩ := List.head?_eq_some_iff.1 hσ.head
      refine ⟨a :: c :: t, ⟨rfl, ?_, List.Chain'.cons hxc hσ.chain, List.nodup_cons.2 ⟨ha, hσ.nodup⟩⟩,
        ?_⟩
      · rw [List.getLast?_cons_cons]; exact hσ.last
      · intro z hz
        rcases List.mem_cons.1 hz with h | h
        · rw [h]
        · exact hreach' z h

theorem no_back_edge (R : Nat → Nat → Prop) (hsymm : ∀ a b, R a b → R b a)
    (hirr : ∀ a, ¬ R a a) (hac : ∀ c, ¬ IsCycle R c) (u : Nat) (rest : List Nat)
    (hch : (u :: rest).Chain' R) (hnd : (u :: rest).Nodup) (v : Nat) (huv : R u v)
    (hp : ∀ q, rest.head? = some q → v ≠ q) : v ∉ u :: rest := by
  intro hmem
  rcases List.mem_cons.1 hmem with h | h
  · rw [h] at huv; exact hirr u huv
  · obtain ⟨l1, l2, rfl⟩ := List.append_of_mem h
    cases l1 with
    | nil => exact hp v rfl rfl
    | cons q l1 =>
      apply hac (u :: q :: l1 ++ [v])
      have hsplit : u :: (q :: l1 ++ v :: l2) = (u :: q :: l1 ++ [v]) ++ l2 := by simp
      rw [hsplit] at hch hnd
      refine ⟨by simp, (List.nodup_append.1 hnd).1, (List.chain'_append.1 hch).1, u, v, rfl, ?_,
        hsymm u v huv⟩
      have : u :: q :: l1 ++ [v] = (u :: q :: l1) ++ [v] := by simp
      rw [this, List.getLast?_append_of_ne_nil _ (List.cons_ne_nil _ _)]
      rfl

theorem chain_to_rtg (R : Nat → Nat → Prop) (P : Nat → Prop) :
    ∀ (l : List Nat) (s e : Nat), l.Chain' R → (∀ x ∈ l, P x) → l.head? = some s →
      l.getLast? = some e → Relation.ReflTransGen (fun x y => R x y ∧ P x ∧ P y) s e := by
  intro l
  induction l with
  | nil => intro s e _ _ h; simp at h
  | cons a l ih =>
    intro s e hch hP hs he
    simp only [List.head?_cons, Option.some.injEq] at hs
    subst hs
    cases l with
    | nil =>
      simp only [List.getLast?_singleton, Option.some.injEq] at he
      subst he
      exact Relation.ReflTransGen.refl
    | cons b l =>
      rw [List.getLast?_cons_cons] at he
      have h1 := ih b e (List.chain'_cons.1 hch).2 (fun x hx => hP x (List.mem_cons_of_mem _ hx))
        rfl he
      exact Relation.ReflTransGen.head
        ⟨(List.chain'_cons.1 hch).1, hP a (List.mem_cons_self _ _),
          hP b (List.mem_cons_of_mem _ (List.mem_cons_self _ _))⟩ h1

theorem rtg_symm (R : Nat → Nat → Prop) (hsymm : ∀ a b, R a b → R b a) (x y : Nat)
    (h : Relation.ReflTransGen R x y) : Relation.ReflTransGen R y x := by
  induction h with
  | refl => exact Relation.ReflTransGen.refl
  | tail _ hbc ih => exact Relation.ReflTransGen.head (hsymm _ _ hbc) ih

theorem unique_path (R : Nat → Nat → Prop) (hsymm : ∀ a b, R a b → R b a)
    (hac : ∀ c, ¬ IsCycle R c) :
    ∀ (ρ ρ' : List Nat) (a b : Nat), SimplePath R a b ρ → SimplePath R a b ρ' → ρ = ρ' := by
  intro ρ
  induction ρ with
  | nil => intro ρ' a b h _; exact absurd h.head (by simp)
  | cons x t ih =>
    intro ρ' a b h h'
    have hx : x = a := by simpa using h.head
    subst hx
    obtain ⟨t', rfl⟩ := List.head?_eq_some_iff.1 h'.head
    cases t with
    | nil =>
      have hb : x = b := by simpa using h.last
      subst hb
      cases t' with
      | nil => rfl
      | cons v' t1' =>
        exfalso
        have hl := h'.last
        rw [List.getLast?_cons_cons] at hl
        exact (List.nodup_cons.1 h'.nodup).1 (List.mem_of_getLast?_eq_some hl)
    | cons v t1 =>
      cases t' with
      | nil =>
        exfalso
        have hb : x = b := by simpa using h'.last
        subst hb
        have hl := h.last
        rw [List.getLast?_cons_cons] at hl
        exact (List.nodup_cons.1 h.nodup).1 (List.mem_of_getLast?_eq_some hl)
      | cons v' t1' =>
        have hl := h.last
        rw [List.getLast?_cons_cons] at hl
        have hl' := h'.last
        rw [List.getLast?_cons_cons] at hl'
        have hp : SimplePath R v b (v :: t1) :=
          ⟨rfl, hl, (List.chain'_cons.1 h.chain).2, (List.nodup_cons.1 h.nodup).2⟩
        have hp' : SimplePath R v' b (v' :: t1') :=
          ⟨rfl, hl', (List.chain'_cons.1 h'.chain).2, (List.nodup_cons.1 h'.nodup).2⟩
        by_cases hv : v = v'
        · subst hv
          rw [ih (v :: t1') v b hp hp']
        · exfalso
          have hne : ∀ z ∈ v :: t1, z ≠ x := by
            intro z hz hzx
            rw [hzx] at hz
            exact (List.nodup_cons.1 h.nodup).1 hz
          have hne' : ∀ z ∈ v' :: t1', z ≠ x := by
            intro z hz hzx
            rw [hzx] at hz
            exact (List.nodup_cons.1 h'.nodup).1 hz
          have r1 := chain_to_rtg R (fun z => z ≠ x) (v :: t1) v b hp.chain hne rfl hl
          have r2 := chain_to_rtg R (fun z => z ≠ x) (v' :: t1') v' b hp'.chain hne' rfl hl'
          have r3 := rtg_symm (fun p q => R p q ∧ p ≠ x ∧ q ≠ x)
            (fun p q hpq => ⟨hsymm p q hpq.1, hpq.2.2, hpq.2.1⟩) v' b r2
          obtain ⟨σ, hσ, hreach⟩ := exists_simple_path _ v v' (r1.trans r3)
          have hσne : ∀ z ∈ σ, z ≠ x := by
            intro z hz
            rcases Relation.ReflTransGen.cases_tail (hreach z hz) with h0 | ⟨w, _, hw⟩
            · rw [h0]; exact hne v (List.mem_cons_self _ _)
            · exact hw.2.2
          obtain ⟨s, rfl⟩ := List.head?_eq_some_iff.1 hσ.head
          have hs : s ≠ [] := by
            intro hs
            subst hs
            have := hσ.last
            simp only [List.getLast?_singleton, Option.some.injEq] at this
            exact hv this
          apply hac (x :: v :: s)
          refine ⟨?_, List.nodup_cons.2 ⟨fun hm => hσne x hm rfl, hσ.nodup⟩,
            List.Chain'.cons (List.chain'_cons.1 h.chain).1 (hσ.chain.imp (fun p q hpq => hpq.1)),
            x, v', rfl, ?_, hsymm x v' (List.chain'_cons.1 h'.chain).1⟩
          · cases s with
            | nil => exact absurd rfl hs
            | cons _ _ => simp
          · rw [List.getLast?_cons_cons]; exact hσ.last

/-! ## The tree path finder -/

theorem stack_length_le (adj : List (List (Nat × Nat))) (N u : Nat) (rest : List Nat) (p : Int)
    (h : DfsStack adj N u rest p) : rest.length + 1 ≤ N := by
  have hsub : (u :: rest) ⊆ List.range' 1 N := by
    intro x hx
    obtain ⟨h1, h2⟩ := h.verts x hx
    rw [List.mem_range'_1]
    omega
  have := (List.subperm_of_subset h.nodup hsub).length_le
  simpa using this

theorem edge_id_eq (adj : List (List (Nat × Nat))) (u v idx : Nat)
    (hs : ((adj.getD u []).map Prod.fst).Nodup) (hm : (v, idx) ∈ adj.getD u []) :
    edge_id adj u v = idx := by
  unfold edge_id
  cases hf : (adj.getD u []).find? (fun e => e.1 = v) with
  | none =>
    have := List.find?_eq_none.1 hf (v, idx) hm
    simp at this
  | some e =>
    have h1 := List.mem_of_find?_eq_some hf
    have h2 : e.1 = v := by simpa using List.find?_some hf
    have := List.inj_on_of_nodup_map hs h1 hm h2
    rw [this]

theorem path_ids_cons (adj : List (List (Nat × Nat))) (a b : Nat) (rest : List Nat) :
    path_ids adj (a :: b :: rest) = edge_id adj a b :: path_ids adj (b :: rest) := rfl

theorem get_path_loop_spec (adj : List (List (Nat × Nat))) (N : Nat) (ht : IsTreeAdj adj N)
    (target fuel u : Nat) (rest : List Nat) (p : Int) (hstk : DfsStack adj N u rest p)
    (ih : ∀ (v : Nat) (path : List Nat), DfsStack adj N v (u :: rest) (u : Int) →
      (∃ ρ, PathExt adj (u :: rest) v target ρ ∧
        get_path adj fuel v target (u : Int) path = some (true, path ++ path_ids adj ρ)) ∨
      ((∀ ρ, ¬ PathExt adj (u :: rest) v target ρ) ∧
        get_path adj fuel v target (u : Int) path = some (false, path))) :
    ∀ (l : List (Nat × Nat)) (path : List Nat), (∀ e ∈ l, e ∈ adj.getD u []) →
      (∃ v idx ρ, (v, idx) ∈ l ∧ PathExt adj (u :: rest) v target ρ ∧
        get_path_loop (fun v path1 => get_path adj fuel v target (u : Int) path1) p l path =
          some (true, path ++ idx :: path_ids adj ρ)) ∨
      ((∀ v idx, (v, idx) ∈ l → (v : Int) ≠ p → ∀ ρ, ¬ PathExt adj (u :: rest) v target ρ) ∧
        get_path_loop (fun v path1 => get_path adj fuel v target (u : Int) path1) p l path =
          some (false, path)) := by
  intro l
  induction l with
  | nil =>
    intro path _
    exact Or.inr ⟨fun v idx h => absurd h (List.not_mem_nil _), rfl⟩
  | cons e l ihl =>
    intro path hsub
    obtain ⟨v, idx⟩ := e
    have hmem : (v, idx) ∈ adj.getD u [] := hsub _ (List.mem_cons_self _ _)
    have hsub' : ∀ e ∈ l, e ∈ adj.getD u [] := fun e he => hsub e (List.mem_cons_of_mem _ he)
    simp only [get_path_loop]
    by_cases hvp : (v : Int) ≠ p
    · rw [if_pos hvp]
      have hadj : TAdj adj u v := ⟨idx, hmem⟩
      have hsy : ∀ a b, TAdj adj a b → TAdj adj b a := by
        rintro a b ⟨i, hi⟩; exact ⟨i, ht.symm a b i hi⟩
      have hirr : ∀ a, ¬ TAdj adj a a := by
        rintro a ⟨i, hi⟩; exact ht.irrefl a i hi
      have hnot : v ∉ u :: rest := by
        apply no_back_edge (TAdj adj) hsy hirr ht.acyclic u rest hstk.chain hstk.nodup v hadj
        intro q hq hvq
        cases rest with
        | nil => simp at hq
        | cons q' rest' =>
          simp only [List.head?_cons, Option.some.injEq] at hq
          have := hstk.parent
          simp only at this
          rw [this, hq, hvq] at hvp
          exact hvp rfl
      have hstk' : DfsStack adj N v (u :: rest) (u : Int) :=
        ⟨List.Chain'.cons (hsy u v hadj) hstk.chain, List.nodup_cons.2 ⟨hnot, hstk.nodup⟩,
          fun x hx => by
            rcases List.mem_cons.1 hx with h | h
            · rw [h]
              have := ht.verts u v idx hmem
              omega
            · exact hstk.verts x h, rfl⟩
      rcases ih v (path ++ [idx]) hstk' with ⟨ρ, hρ, hres⟩ | ⟨hno, hres⟩
      · rw [hres]
        simp only
        exact Or.inl ⟨v, idx, ρ, List.mem_cons_self _ _, hρ, by simp⟩
      · rw [hres]
        simp only [List.dropLast_concat]
        rcases ihl path hsub' with ⟨v2, idx2, ρ2, h1, h2, h3⟩ | ⟨h1, h2⟩
        · exact Or.inl ⟨v2, idx2, ρ2, List.mem_cons_of_mem _ h1, h2, h3⟩
        · refine Or.inr ⟨?_, h2⟩
          intro v2 idx2 hm hne ρ
          rcases List.mem_cons.1 hm with h | h
          · simp only [Prod.mk.injEq] at h
            rw [h.1]
            exact hno ρ
          · exact h1 v2 idx2 h hne ρ
    · rw [if_neg hvp]
      rcases ihl path hsub' with ⟨v2, idx2, ρ2, h1, h2, h3⟩ | ⟨h1, h2⟩
      · exact Or.inl ⟨v2, idx2, ρ2, List.mem_cons_of_mem _ h1, h2, h3⟩
      · refine Or.inr ⟨?_, h2⟩
        intro v2 idx2 hm hne ρ
        rcases List.mem_cons.1 hm with h | h
        · simp only [Prod.mk.injEq] at h
          rw [h.1] at hne
          exact absurd hne hvp
        · exact h1 v2 idx2 h hne ρ

theorem get_path_spec (adj : List (List (Nat × Nat))) (N : Nat) (ht : IsTreeAdj adj N)
    (target : Nat) :
    ∀ (fuel u : Nat) (rest : List Nat) (p : Int) (path : List Nat),
      DfsStack adj N u rest p → N + 1 ≤ fuel + (rest.length + 1) →
      (∃ ρ, PathExt adj rest u target ρ ∧
        get_path adj fuel u target p path = some (true, path ++ path_ids adj ρ)) ∨
      ((∀ ρ, ¬ PathExt adj rest u target ρ) ∧
        get_path adj fuel u target p path = some (false, path)) := by
  intro fuel
  induction fuel with
  | zero =>
    intro u rest p path hstk hf
    have := stack_length_le adj N u rest p hstk
    omega
  | succ fuel ih =>
    intro u rest p path hstk hf
    simp only [get_path]
    by_cases hut : u = target
    · rw [if_pos hut]
      subst hut
      refine Or.inl ⟨[u], ⟨⟨rfl, rfl, List.chain'_singleton _, List.nodup_singleton _⟩, ?_⟩, by
        simp [path_ids]⟩
      intro x hx
      rw [List.mem_singleton.1 hx]
      exact (List.nodup_cons.1 hstk.nodup).1
    · rw [if_neg hut]
      have hloop := get_path_loop_spec adj N ht target fuel u rest p hstk
        (fun v path1 hs => ih v (u :: rest) (u : Int) path1 hs (by
          simp only [List.length_cons]; omega))
        (adj.getD u []) path (fun _ h => h)
      rcases hloop with ⟨v, idx, ρ, hm, hρ, hres⟩ | ⟨hno, hres⟩
      · obtain ⟨t, rfl⟩ := List.head?_eq_some_iff.1 hρ.1.head
        refine Or.inl ⟨u :: v :: t, ⟨⟨rfl, ?_, List.Chain'.cons ⟨idx, hm⟩ hρ.1.chain,
          List.nodup_cons.2 ⟨?_, hρ.1.nodup⟩⟩, ?_⟩, ?_⟩
        · rw [List.getLast?_cons_cons]; exact hρ.1.last
        · intro hu
          exact hρ.2 u hu (List.mem_cons_self _ _)
        · intro x hx
          rcases List.mem_cons.1 hx with h | h
          · rw [h]; exact (List.nodup_cons.1 hstk.nodup).1
          · exact fun hr => hρ.2 x h (List.mem_cons_of_mem _ hr)
        · rw [hres, path_ids_cons, edge_id_eq adj u v idx (ht.simple u) hm]
      · refine Or.inr ⟨?_, hres⟩
        intro ρ hρ
        obtain ⟨t, rfl⟩ := List.head?_eq_some_iff.1 hρ.1.head
        cases t with
        | nil =>
          have := hρ.1.last
          simp only [List.getLast?_singleton, Option.some.injEq] at this
          exact hut this
        | cons v t2 =>
          obtain ⟨idx, hm⟩ := (List.chain'_cons.1 hρ.1.chain).1
          have hvr : v ∉ rest := hρ.2 v (List.mem_cons_of_mem _ (List.mem_cons_self _ _))
          have hvp : (v : Int) ≠ p := by
            rw [hstk.parent]
            cases rest with
            | nil => simp only; omega
            | cons q rest' =>
              simp only
              intro h
              have : v = q := by exact_mod_cast h
              rw [this] at hvr
              exact hvr (List.mem_cons_self _ _)
          apply hno v idx hm hvp (v :: t2)
          have hl := hρ.1.last
          rw [List.getLast?_cons_cons] at hl
          refine ⟨⟨rfl, hl, (List.chain'_cons.1 hρ.1.chain).2, (List.nodup_cons.1 hρ.1.nodup).2⟩, ?_⟩
          intro x hx hxr
          rcases List.mem_cons.1 hxr with h | h
          · rw [h] at hx
            exact (List.nodup_cons.1 hρ.1.nodup).1 hx
          · exact hρ.2 x (List.mem_cons_of_mem _ hx) h

theorem tadj_symm (adj : List (List (Nat × Nat))) (N : Nat) (ht : IsTreeAdj adj N) :
    ∀ a b, TAdj adj a b → TAdj adj b a := by
  rintro a b ⟨i, hi⟩; exact ⟨i, ht.symm a b i hi⟩

theorem get_path_top (adj : List (List (Nat × Nat))) (N : Nat) (ht : IsTreeAdj adj N)
    (u target : Nat) (hu1 : 1 ≤ u) (hu2 : u ≤ N) (ht1 : 1 ≤ target) (ht2 : target ≤ N) :
    ∃ ρ, SimplePath (TAdj adj) u target ρ ∧
      (∀ ρ', SimplePath (TAdj adj) u target ρ' → ρ' = ρ) ∧
      ∀ fuel, N ≤ fuel → get_path adj fuel u target (-1) [] = some (true, path_ids adj ρ) := by
  obtain ⟨ρ, hρ, _⟩ := exists_simple_path (TAdj adj) u target (ht.connected u target hu1 hu2 ht1 ht2)
  have huniq : ∀ ρ', SimplePath (TAdj adj) u target ρ' → ρ' = ρ :=
    fun ρ' h => unique_path (TAdj adj) (tadj_symm adj N ht) ht.acyclic ρ' ρ u target h hρ
  refine ⟨ρ, hρ, huniq, ?_⟩
  intro fuel hf
  have hstk : DfsStack adj N u [] (-1) :=
    ⟨List.chain'_singleton _, List.nodup_singleton _, fun x hx => by
      rw [List.mem_singleton.1 hx]; exact ⟨hu1, hu2⟩, rfl⟩
  rcases get_path_spec adj N ht target fuel u [] (-1) [] hstk (by simp; omega) with
    ⟨ρ1, hρ1, hres⟩ | ⟨hno, _⟩
  · rw [hres, huniq ρ1 hρ1.1]
    rfl
  · exact absurd ⟨hρ, fun x _ h => absurd h (List.not_mem_nil x)⟩ (hno ρ)

/-- C8: when `tree_adj` is the adjacency of a tree on the nodes `1..N` (symmetric, no
self-loops or multi-edges, connected, acyclic) and `u`, `target` are nodes, there is exactly
one simple path from `u` to `target`, and `get_path(u, target, -1, path_edges)` started
with `path_edges` empty terminates (fuel `N` suffices), returns `true` and leaves
`path_edges` equal to the edge ids along that path, in order (empty when `u == target`). -/
theorem get_path_tree_path (adj : List (List (Nat × Nat))) (N : Nat) (ht : IsTreeAdj adj N)
    (u target : Nat) (hu1 : 1 ≤ u) (hu2 : u ≤ N) (ht1 : 1 ≤ target) (ht2 : target ≤ N) :
    ∃ ρ, SimplePath (TAdj adj) u target ρ ∧
      (∀ ρ', SimplePath (TAdj adj) u target ρ' → ρ' = ρ) ∧
      (∀ fuel, N ≤ fuel → get_path adj fuel u target (-1) [] = some (true, path_ids adj ρ)) ∧
      (u = target → path_ids adj ρ = []) := by
  obtain ⟨ρ, h1, h2, h3⟩ := get_path_top adj N ht u target hu1 hu2 ht1 ht2
  refine ⟨ρ, h1, h2, h3, ?_⟩
  intro hut
  subst hut
  have : [u] = ρ := h2 [u] ⟨rfl, rfl, List.chain'_singleton _, List.nodup_singleton _⟩
  rw [← this]
  rfl

/-! ## The set-up phase of `main` -/

theorem read_edges_length (edges : List (Nat × Nat × Int)) :
    (read_edges edges).length = edges.length := by
  simp [read_edges]

theorem read_edges_getD (edges : List (Nat × Nat × Int)) (i : Nat) (hi : i < edges.length) :
    (read_edges edges).getD i Edge.zero =
      ⟨(edges.getD i (0, 0, 0)).1, (edges.getD i (0, 0, 0)).2.1,
        (edges.getD i (0, 0, 0)).2.2, i⟩ := by
  have h : i < (read_edges edges).length := by rw [read_edges_length]; exact hi
  rw [List.getD_eq_getElem _ _ h]
  unfold read_edges
  rw [List.getElem_map, List.getElem_range]

theorem find_of_nodup {κ : Type} [DecidableEq κ] (m : List (κ × Nat)) (k : κ) (i : Nat)
    (hnd : (m.map Prod.fst).Nodup) (hmem : (k, i) ∈ m) :
    m.find? (fun kv => kv.1 = k) = some (k, i) := by
  induction m with
  | nil => exact absurd hmem (List.not_mem_nil _)
  | cons a m ih =>
    rw [List.map_cons, List.nodup_cons] at hnd
    rcases List.mem_cons.1 hmem with h | h
    · subst h; simp
    · have hne : a.1 ≠ k := by
        intro he
        apply hnd.1
        rw [he]
        exact List.mem_map.2 ⟨(k, i), h, rfl⟩
      rw [List.find?_cons_of_neg _ (by simpa using hne)]
      exact ih hnd.2 h

theorem keys_read_edges (edges : List (Nat × Nat × Int)) :
    (List.range (read_edges edges).length).map (fun i =>
      norm_pair ((read_edges edges).getD i Edge.zero).u ((read_edges edges).getD i Edge.zero).v)
      = edges.map edge_key := by
  apply List.ext_getElem
  · simp [read_edges_length]
  · intro i h1 h2
    have hi : i < edges.length := by simpa using h2
    rw [List.getElem_map, List.getElem_map, List.getElem_range, read_edges_getD edges i hi,
      List.getD_eq_getElem _ _ hi]
    rfl

theorem edge_map_get_spec (edges : List (Nat × Nat × Int)) (hnd : (edges.map edge_key).Nodup)
    (i : Nat) (hi : i < edges.length) :
    edge_map_get (build_edge_map (read_edges edges)) (edge_key (edges.getD i (0, 0, 0))) = i := by
  have hm : build_edge_map (read_edges edges) =
      ((List.range (read_edges edges).length).map (fun i =>
        (norm_pair ((read_edges edges).getD i Edge.zero).u
          ((read_edges edges).getD i Edge.zero).v, i))).reverse := by
    unfold build_edge_map
    rw [foldl_cons_eq]
    simp
  have hkeys : (build_edge_map (read_edges edges)).map Prod.fst =
      (edges.map edge_key).reverse := by
    rw [hm, ← keys_read_edges, List.map_reverse, List.map_map]
    rfl
  have hmem : (edge_key (edges.getD i (0, 0, 0)), i) ∈ build_edge_map (read_edges edges) := by
    rw [hm, List.mem_reverse, List.mem_map]
    refine ⟨i, List.mem_range.2 (by rw [read_edges_length]; exact hi), ?_⟩
    simp only [read_edges_getD edges i hi]
    rfl
  unfold edge_map_get
  rw [find_of_nodup _ _ i (by rw [hkeys]; exact List.nodup_reverse.2 hnd) hmem]

theorem mem_keys (edges : List (Nat × Nat × Int)) (k : Nat × Nat)
    (hk : k ∈ edges.map edge_key) :
    ∃ i, i < edges.length ∧ edge_key (edges.getD i (0, 0, 0)) = k := by
  obtain ⟨e, he, hek⟩ := List.mem_map.1 hk
  obtain ⟨i, hi, hie⟩ := List.getElem_of_mem he
  exact ⟨i, hi, by rw [List.getD_eq_getElem _ _ hi, hie, hek]⟩

theorem tree_step_adj (em : List ((Nat × Nat) × Nat)) (ts : TreeState) (p : Nat × Nat)
    (h1 : (norm_pair p.1 p.2).1 < ts.tree_adj.length)
    (h2 : (norm_pair p.1 p.2).2 < ts.tree_adj.length) (w : Nat) :
    (tree_step em ts p).tree_adj.getD w [] = ts.tree_adj.getD w [] ++ adj_entries em [p] w := by
  unfold tree_step adj_entries
  simp only [List.flatMap_cons, List.flatMap_nil, List.append_nil]
  generalize norm_pair p.1 p.2 = k at h1 h2
  rw [getD_set_list _ _ _ _ _ (by rw [List.length_set]; exact h2),
    getD_set_list _ _ _ _ _ h1, getD_set_list _ _ _ _ _ h1]
  by_cases ha : w = k.2 <;> by_cases hb : w = k.1 <;> by_cases hc : k.2 = k.1 <;>
    simp_all
  · exact fun h => hc h.symm
  · exact fun h => hb h.symm
  · exact ⟨fun h => hb h.symm, fun h => ha h.symm⟩

theorem tree_step_length (em : List ((Nat × Nat) × Nat)) (ts : TreeState) (p : Nat × Nat) :
    (tree_step em ts p).tree_adj.length = ts.tree_adj.length ∧
      (tree_step em ts p).is_tree.length = ts.is_tree.length := by
  unfold tree_step
  simp

theorem adj_entries_cons (em : List ((Nat × Nat) × Nat)) (p : Nat × Nat)
    (pairs : List (Nat × Nat)) (w : Nat) :
    adj_entries em (p :: pairs) w = adj_entries em [p] w ++ adj_entries em pairs w := by
  unfold adj_entries
  simp only [List.flatMap_cons, List.flatMap_nil, List.append_nil]

theorem tree_fold_adj (em : List ((Nat × Nat) × Nat)) :
    ∀ (pairs : List (Nat × Nat)) (ts : TreeState),
      (∀ p ∈ pairs, (norm_pair p.1 p.2).1 < ts.tree_adj.length ∧
        (norm_pair p.1 p.2).2 < ts.tree_adj.length) →
      (pairs.foldl (tree_step em) ts).tree_adj.length = ts.tree_adj.length ∧
      ∀ w, (pairs.foldl (tree_step em) ts).tree_adj.getD w [] =
        ts.tree_adj.getD w [] ++ adj_entries em pairs w := by
  intro pairs
  induction pairs with
  | nil =>
    intro ts _
    refine ⟨rfl, fun w => ?_⟩
    simp [adj_entries]
  | cons p pairs ih =>
    intro ts h
    have hp := h p (List.mem_cons_self _ _)
    have hl := (tree_step_length em ts p).1
    obtain ⟨h1, h2⟩ := ih (tree_step em ts p) (fun q hq => by
      rw [hl]; exact h q (List.mem_cons_of_mem _ hq))
    rw [List.foldl_cons]
    refine ⟨by rw [h1, hl], fun w => ?_⟩
    rw [h2 w, tree_step_adj em ts p hp.1 hp.2 w, adj_entries_cons em p pairs w,
      List.append_assoc]

theorem tree_fold_is_tree (em : List ((Nat × Nat) × Nat)) :
    ∀ (pairs : List (Nat × Nat)) (ts : TreeState),
      (pairs.foldl (tree_step em) ts).is_tree.length = ts.is_tree.length ∧
      ∀ i, (pairs.foldl (tree_step em) ts).is_tree.getD i false = true ↔
        (ts.is_tree.getD i false = true ∨
          (i < ts.is_tree.length ∧ ∃ p ∈ pairs, edge_map_get em (norm_pair p.1 p.2) = i)) := by
  intro pairs
  induction pairs with
  | nil =>
    intro ts
    refine ⟨rfl, fun i => ?_⟩
    simp
  | cons p pairs ih =>
    intro ts
    have hl := (tree_step_length em ts p).2
    obtain ⟨h1, h2⟩ := ih (tree_step em ts p)
    rw [List.foldl_cons]
    refine ⟨by rw [h1, hl], fun i => ?_⟩
    rw [h2 i, hl]
    have hstep : (tree_step em ts p).is_tree.getD i false = true ↔
        (ts.is_tree.getD i false = true ∨
          (i < ts.is_tree.length ∧ edge_map_get em (norm_pair p.1 p.2) = i)) := by
      unfold tree_step
      simp only
      generalize edge_map_get em (norm_pair p.1 p.2) = idx
      by_cases hi : idx = i
      · subst hi
        by_cases hlt : idx < ts.is_tree.length
        · rw [getD_set_self _ _ _ _ hlt]
          simp [hlt]
        · rw [List.set_eq_of_length_le (by omega)]
          simp [hlt]
      · rw [getD_set_ne _ _ _ _ _ hi]
        simp [hi]
    rw [hstep]
    constructor
    · rintro ((h | h) | ⟨hi, q, hq, hqi⟩)
      · exact Or.inl h
      · exact Or.inr ⟨h.1, p, List.mem_cons_self _ _, h.2⟩
      · exact Or.inr ⟨hi, q, List.mem_cons_of_mem _ hq, hqi⟩
    · rintro (h | ⟨hi, q, hq, hqi⟩)
      · exact Or.inl (Or.inl h)
      · rcases List.mem_cons.1 hq with h | h
        · subst h; exact Or.inl (Or.inr ⟨hi, hqi⟩)
        · exact Or.inr ⟨hi, q, h, hqi⟩

theorem norm_pair_cases (a b : Nat) : norm_pair a b = (a, b) ∨ norm_pair a b = (b, a) := by
  unfold norm_pair
  split
  · exact Or.inr rfl
  · exact Or.inl rfl

theorem norm_pair_le (a b : Nat) : (norm_pair a b).1 ≤ (norm_pair a b).2 := by
  unfold norm_pair
  split <;> simp only <;> omega

theorem norm_pair_eq_iff (a b c d : Nat) :
    norm_pair a b = norm_pair c d ↔ (a = c ∧ b = d) ∨ (a = d ∧ b = c) := by
  unfold norm_pair
  split <;> split <;> simp only [Prod.mk.injEq] <;> omega

theorem norm_pair_comm (a b : Nat) : norm_pair a b = norm_pair b a :=
  (norm_pair_eq_iff a b b a).2 (Or.inr ⟨rfl, rfl⟩)

theorem mem_adj_entries (em : List ((Nat × Nat) × Nat)) (pairs : List (Nat × Nat))
    (u : Nat) (x : Nat × Nat) :
    x ∈ adj_entries em pairs u ↔ ∃ p ∈ pairs,
      ((norm_pair p.1 p.2).1 = u ∧ x = ((norm_pair p.1 p.2).2, edge_map_get em (norm_pair p.1 p.2)))
      ∨ ((norm_pair p.1 p.2).2 = u ∧
          x = ((norm_pair p.1 p.2).1, edge_map_get em (norm_pair p.1 p.2))) := by
  unfold adj_entries
  rw [List.mem_flatMap]
  constructor
  · rintro ⟨p, hp, hx⟩
    refine ⟨p, hp, ?_⟩
    rcases List.mem_append.1 hx with h | h
    · left
      split at h
      · rename_i hu; exact ⟨hu, List.mem_singleton.1 h⟩
      · exact absurd h (List.not_mem_nil _)
    · right
      split at h
      · rename_i hu; exact ⟨hu, List.mem_singleton.1 h⟩
      · exact absurd h (List.not_mem_nil _)
  · rintro ⟨p, hp, h | h⟩
    · refine ⟨p, hp, List.mem_append.2 (Or.inl ?_)⟩
      rw [if_pos h.1, h.2]; exact List.mem_singleton.2 rfl
    · refine ⟨p, hp, List.mem_append.2 (Or.inr ?_)⟩
      rw [if_pos h.1, h.2]; exact List.mem_singleton.2 rfl

/-- What well-formedness gives for one tree pair: it joins two distinct nodes and the
edge map sends it to the index of the input edge with the same endpoints. -/
theorem tree_pair_props (inp : Input) (wf : WellFormed inp) (p : Nat × Nat)
    (hp : p ∈ inp.tree) :
    p.1 ≠ p.2 ∧ 1 ≤ p.1 ∧ p.1 ≤ inp.N ∧ 1 ≤ p.2 ∧ p.2 ≤ inp.N ∧
      edge_map_get (build_edge_map (read_edges inp.edges)) (norm_pair p.1 p.2)
        < inp.edges.length ∧
      edge_key (inp.edges.getD
        (edge_map_get (build_edge_map (read_edges inp.edges)) (norm_pair p.1 p.2)) (0, 0, 0))
        = norm_pair p.1 p.2 := by
  obtain ⟨i, hi, hk⟩ := mem_keys inp.edges _ (wf.tree_edges p hp)
  have hget := edge_map_get_spec inp.edges wf.no_multi i hi
  rw [hk] at hget
  rw [hget]
  have hmem : inp.edges.getD i (0, 0, 0) ∈ inp.edges := by
    rw [List.getD_eq_getElem _ _ hi]; exact List.getElem_mem _
  have hr := wf.edges_range _ hmem
  have hl := wf.no_loops _ hmem
  unfold edge_key at hk
  rcases (norm_pair_eq_iff _ _ _ _).1 hk with ⟨h1, h2⟩ | ⟨h1, h2⟩
  · rw [← h1, ← h2]; exact ⟨hl, hr.1, hr.2.1, hr.2.2.1, hr.2.2.2, hi, rfl⟩
  · rw [← h1, ← h2]
    exact ⟨fun h => hl h.symm, hr.2.2.1, hr.2.2.2, hr.1, hr.2.1, hi, norm_pair_comm _ _⟩

theorem tree_adj_eq (inp : Input) (wf : WellFormed inp) (w : Nat) :
    (identify_tree inp (read_edges inp.edges)).tree_adj.getD w [] =
      adj_entries (build_edge_map (read_edges inp.edges)) inp.tree w := by
  unfold identify_tree
  rw [List.take_of_length_le (by rw [wf.tree_len])]
  have h := (tree_fold_adj (build_edge_map (read_edges inp.edges)) inp.tree
    ⟨List.replicate (read_edges inp.edges).length false, [], List.replicate (inp.N + 1) []⟩
    (fun p hp => by
      have hp := tree_pair_props inp wf p hp
      simp only [List.length_replicate]
      rcases norm_pair_cases p.1 p.2 with h | h <;> rw [h] <;> simp only <;> omega)).2 w
  rw [h]
  have : (List.replicate (inp.N + 1) ([] : List (Nat × Nat))).getD w [] = [] := by
    simp only [List.getD_eq_getElem?_getD, List.getElem?_replicate]
    split <;> rfl
  rw [this, List.nil_append]

theorem norm_pair_ne (a b : Nat) (h : a ≠ b) : (norm_pair a b).1 ≠ (norm_pair a b).2 := by
  rcases norm_pair_cases a b with h1 | h1 <;> rw [h1] <;> simp only
  · exact h
  · exact fun h2 => h h2.symm

theorem adj_entries_nodup (em : List ((Nat × Nat) × Nat)) (u : Nat) :
    ∀ (pairs : List (Nat × Nat)), (∀ p ∈ pairs, p.1 ≠ p.2) →
      (pairs.map (fun p => norm_pair p.1 p.2)).Nodup →
      ((adj_entries em pairs u).map Prod.fst).Nodup := by
  intro pairs
  induction pairs with
  | nil => intro _ _; simp [adj_entries]
  | cons p pairs ih =>
    intro hne hnd
    rw [List.map_cons, List.nodup_cons] at hnd
    rw [adj_entries_cons, List.map_append, List.nodup_append]
    have hk := norm_pair_ne p.1 p.2 (hne p (List.mem_cons_self _ _))
    refine ⟨?_, ih (fun q hq => hne q (List.mem_cons_of_mem _ hq)) hnd.2, ?_⟩
    · unfold adj_entries
      simp only [List.flatMap_cons, List.flatMap_nil, List.append_nil]
      by_cases h1 : (norm_pair p.1 p.2).1 = u
      · have h2 : (norm_pair p.1 p.2).2 ≠ u := fun h2 => hk (h1.trans h2.symm)
        rw [if_pos h1, if_neg h2]
        simp
      · rw [if_neg h1]
        split <;> simp
    · intro x hx1 hx2
      obtain ⟨y1, hy1, hyx1⟩ := List.mem_map.1 hx1
      obtain ⟨y2, hy2, hyx2⟩ := List.mem_map.1 hx2
      obtain ⟨p1, hp1, hc1⟩ := (mem_adj_entries em [p] u y1).1 hy1
      obtain ⟨q, hq, hc2⟩ := (mem_adj_entries em pairs u y2).1 hy2
      rw [List.mem_singleton.1 hp1] at hc1
      apply hnd.1
      have hle1 := norm_pair_le p.1 p.2
      have hle2 := norm_pair_le q.1 q.2
      have heq : norm_pair p.1 p.2 = norm_pair q.1 q.2 := by
        generalize norm_pair p.1 p.2 = k at hc1 hk hle1
        generalize norm_pair q.1 q.2 = k2 at hc2 hle2
        rcases hc1 with ⟨a1, a2⟩ | ⟨a1, a2⟩ <;> rcases hc2 with ⟨b1, b2⟩ | ⟨b1, b2⟩ <;>
          subst a2 <;> subst b2 <;> simp only at hyx1 hyx2 <;> apply Prod.ext <;> omega
      rw [heq]
      exact List.mem_map.2 ⟨q, hq, rfl⟩

theorem tadj_iff_pair (inp : Input) (wf : WellFormed inp) (u v : Nat) :
    TAdj (identify_tree inp (read_edges inp.edges)).tree_adj u v ↔ PairAdj inp.tree u v := by
  unfold TAdj
  simp only [tree_adj_eq inp wf, mem_adj_entries]
  constructor
  · rintro ⟨idx, p, hp, ⟨h1, h2⟩ | ⟨h1, h2⟩⟩
    · have hv : v = (norm_pair p.1 p.2).2 := congrArg Prod.fst h2
      rcases norm_pair_cases p.1 p.2 with h | h <;> rw [h] at h1 hv <;> simp only at h1 hv <;>
        subst h1 <;> subst hv
      · exact Or.inl hp
      · exact Or.inr hp
    · have hv : v = (norm_pair p.1 p.2).1 := congrArg Prod.fst h2
      rcases norm_pair_cases p.1 p.2 with h | h <;> rw [h] at h1 hv <;> simp only at h1 hv <;>
        subst h1 <;> subst hv
      · exact Or.inr hp
      · exact Or.inl hp
  · rintro (h | h)
    · refine ⟨edge_map_get (build_edge_map (read_edges inp.edges)) (norm_pair u v), (u, v), h, ?_⟩
      rcases norm_pair_cases u v with h1 | h1 <;> simp [h1]
    · refine ⟨edge_map_get (build_edge_map (read_edges inp.edges)) (norm_pair v u), (v, u), h, ?_⟩
      rcases norm_pair_cases v u with h1 | h1 <;> simp [h1]

theorem isCycle_congr (R S : Nat → Nat → Prop) (h : ∀ a b, R a b → S a b) (c : List Nat)
    (hc : IsCycle R c) : IsCycle S c := by
  obtain ⟨h1, h2, h3, a, b, h4, h5, h6⟩ := hc
  exact ⟨h1, h2, h3.imp (fun {x y} hxy => h x y hxy), a, b, h4, h5, h b a h6⟩

/-- For a well-formed input the tree identification loop builds the adjacency of a tree. -/
theorem isTreeAdj_identify (inp : Input) (wf : WellFormed inp) :
    IsTreeAdj (identify_tree inp (read_edges inp.edges)).tree_adj inp.N := by
  have hent : ∀ u v idx,
      (v, idx) ∈ (identify_tree inp (read_edges inp.edges)).tree_adj.getD u [] →
      ∃ p ∈ inp.tree, (norm_pair p.1 p.2 = (u, v) ∨ norm_pair p.1 p.2 = (v, u)) ∧
        idx = edge_map_get (build_edge_map (read_edges inp.edges)) (norm_pair p.1 p.2) := by
    intro u v idx h
    rw [tree_adj_eq inp wf, mem_adj_entries] at h
    obtain ⟨p, hp, ⟨h1, h2⟩ | ⟨h1, h2⟩⟩ := h
    · exact ⟨p, hp, Or.inl (Prod.ext h1 (congrArg Prod.fst h2).symm), congrArg Prod.snd h2⟩
    · exact ⟨p, hp, Or.inr (Prod.ext (congrArg Prod.fst h2).symm h1), congrArg Prod.snd h2⟩
  refine ⟨?_, ?_, ?_, ?_, ?_, ?_⟩
  · intro u v idx h
    obtain ⟨p, hp, hk, _⟩ := hent u v idx h
    have hprops := tree_pair_props inp wf p hp
    rcases norm_pair_cases p.1 p.2 with h1 | h1 <;> rw [h1] at hk <;>
      rcases hk with hk | hk <;>
      have ha := congrArg Prod.fst hk <;> have hb := congrArg Prod.snd hk <;>
      simp only at ha hb <;> omega
  · intro u v idx h
    rw [tree_adj_eq inp wf, mem_adj_entries] at h ⊢
    obtain ⟨p, hp, ⟨h1, h2⟩ | ⟨h1, h2⟩⟩ := h
    · refine ⟨p, hp, Or.inr ⟨(congrArg Prod.fst h2).symm, ?_⟩⟩
      have hidx : idx = edge_map_get (build_edge_map (read_edges inp.edges))
          (norm_pair p.1 p.2) := congrArg Prod.snd h2
      rw [h1, ← hidx]
    · refine ⟨p, hp, Or.inl ⟨(congrArg Prod.fst h2).symm, ?_⟩⟩
      have hidx : idx = edge_map_get (build_edge_map (read_edges inp.edges))
          (norm_pair p.1 p.2) := congrArg Prod.snd h2
      rw [h1, ← hidx]
  · intro u idx h
    obtain ⟨p, hp, hk, _⟩ := hent u u idx h
    have hne := norm_pair_ne p.1 p.2 (tree_pair_props inp wf p hp).1
    rcases hk with hk | hk <;> rw [hk] at hne <;> exact hne rfl
  · intro u
    rw [tree_adj_eq inp wf]
    exact adj_entries_nodup _ u inp.tree (fun p hp => (tree_pair_props inp wf p hp).1)
      wf.tree_distinct
  · intro u v h1 h2 h3 h4
    exact Relation.ReflTransGen.mono (fun a b h => (tadj_iff_pair inp wf a b).2 h)
      (wf.connected u v h1 h2 h3 h4)
  · intro c hc
    exact wf.acyclic c (isCycle_congr _ _ (fun a b h => (tadj_iff_pair inp wf a b).1 h) c hc)

theorem tree_adj_entry (inp : Input) (wf : WellFormed inp) (a b idx : Nat)
    (h : (b, idx) ∈ (identify_tree inp (read_edges inp.edges)).tree_adj.getD a []) :
    idx = edge_map_get (build_edge_map (read_edges inp.edges)) (norm_pair a b) ∧
      idx < inp.edges.length ∧
      edge_key (inp.edges.getD idx (0, 0, 0)) = norm_pair a b ∧
      norm_pair a b ∈ inp.tree.map (fun p => norm_pair p.1 p.2) := by
  rw [tree_adj_eq inp wf, mem_adj_entries] at h
  obtain ⟨p, hp, hc⟩ := h
  have hprops := tree_pair_props inp wf p hp
  have hle := norm_pair_le p.1 p.2
  have hk : norm_pair p.1 p.2 = norm_pair a b ∧
      idx = edge_map_get (build_edge_map (read_edges inp.edges)) (norm_pair p.1 p.2) := by
    rcases hc with ⟨h1, h2⟩ | ⟨h1, h2⟩
    · have hb : b = (norm_pair p.1 p.2).2 := congrArg Prod.fst h2
      refine ⟨?_, congrArg Prod.snd h2⟩
      have : norm_pair a b = (a, b) := by
        unfold norm_pair; rw [if_neg (by omega)]
      rw [this]; exact Prod.ext h1 hb.symm
    · have hb : b = (norm_pair p.1 p.2).1 := congrArg Prod.fst h2
      refine ⟨?_, congrArg Prod.snd h2⟩
      rw [norm_pair_comm a b]
      have : norm_pair b a = (b, a) := by
        unfold norm_pair; rw [if_neg (by omega)]
      rw [this]; exact Prod.ext hb.symm h1
  rw [← hk.1, hk.2]
  exact ⟨rfl, hprops.2.2.2.2.2.1, hprops.2.2.2.2.2.2, List.mem_map.2 ⟨p, hp, rfl⟩⟩

theorem is_tree_length (inp : Input) :
    (identify_tree inp (read_edges inp.edges)).is_tree.length = inp.edges.length := by
  unfold identify_tree
  rw [(tree_fold_is_tree _ _ _).1]
  simp [read_edges_length]

theorem is_tree_iff (inp : Input) (wf : WellFormed inp) (i : Nat) :
    (identify_tree inp (read_edges inp.edges)).is_tree.getD i false = true ↔
      inp.IsTreeEdge i := by
  unfold identify_tree
  rw [List.take_of_length_le (by rw [wf.tree_len]), (tree_fold_is_tree _ _ _).2 i]
  simp only [List.length_replicate, read_edges_length]
  have h0 : (List.replicate inp.edges.length false).getD i false = false := by
    simp only [List.getD_eq_getElem?_getD, List.getElem?_replicate]
    split <;> rfl
  rw [h0]
  unfold Input.IsTreeEdge
  constructor
  · rintro (h | ⟨hi, p, hp, hpi⟩)
    · exact absurd h (by simp)
    · refine ⟨hi, List.mem_map.2 ⟨p, hp, ?_⟩⟩
      rw [← hpi]
      exact (tree_pair_props inp wf p hp).2.2.2.2.2.2.symm
  · rintro ⟨hi, hmem⟩
    obtain ⟨p, hp, hpk⟩ := List.mem_map.1 hmem
    refine Or.inr ⟨hi, p, hp, ?_⟩
    rw [hpk]
    exact edge_map_get_spec inp.edges wf.no_multi i hi

theorem mem_make_non_tree (is_tree : List Bool) (f : Nat) :
    f ∈ make_non_tree is_tree ↔ f < is_tree.length ∧ is_tree.getD f false = false := by
  unfold make_non_tree
  rw [List.mem_filter, List.mem_range]
  simp

theorem mem_path_ids (adj : List (List (Nat × Nat))) (x : Nat) :
    ∀ (ρ : List Nat), x ∈ path_ids adj ρ ↔ ∃ a b, Consecutive a b ρ ∧ x = edge_id adj a b := by
  intro ρ
  induction ρ with
  | nil => simp [path_ids, Consecutive]
  | cons a rest ih =>
    cases rest with
    | nil => simp [path_ids, Consecutive]
    | cons b rest =>
      rw [path_ids_cons, List.mem_cons, ih]
      constructor
      · rintro (h | ⟨c, d, hcd, hx⟩)
        · exact ⟨a, b, Or.inl ⟨rfl, rfl⟩, h⟩
        · exact ⟨c, d, Or.inr hcd, hx⟩
      · rintro ⟨c, d, hcd, hx⟩
        rcases hcd with ⟨h1, h2⟩ | hcd
        · subst h1; subst h2; exact Or.inl hx
        · exact Or.inr ⟨c, d, hcd, hx⟩

theorem chain_consecutive (R : Nat → Nat → Prop) (a b : Nat) :
    ∀ (ρ : List Nat), ρ.Chain' R → Consecutive a b ρ → R a b := by
  intro ρ
  induction ρ with
  | nil => intro _ h; exact absurd h (by simp [Consecutive])
  | cons x rest ih =>
    cases rest with
    | nil => intro _ h; exact absurd h (by simp [Consecutive])
    | cons y rest =>
      intro hc h
      rw [List.chain'_cons] at hc
      rcases h with ⟨h1, h2⟩ | h
      · subst h1; subst h2; exact hc.1
      · exact ih hc.2 h

theorem build_constraints_spec (all_edges : List Edge) (adj : List (List (Nat × Nat)))
    (N : Nat) (ht : IsTreeAdj adj N) :
    ∀ (fs : List Nat) (cs : List (Nat × Nat)),
      (∀ f ∈ fs, 1 ≤ (all_edges.getD f Edge.zero).u ∧ (all_edges.getD f Edge.zero).u ≤ N ∧
        1 ≤ (all_edges.getD f Edge.zero).v ∧ (all_edges.getD f Edge.zero).v ≤ N) →
      ∃ result,
        (∀ fuel, N ≤ fuel → build_constraints fuel all_edges adj fs cs = some result) ∧
        ∀ x f, (x, f) ∈ result ↔ ((x, f) ∈ cs ∨ (f ∈ fs ∧
          ∃ ρ, SimplePath (TAdj adj) (all_edges.getD f Edge.zero).u
            (all_edges.getD f Edge.zero).v ρ ∧ x ∈ path_ids adj ρ)) := by
  intro fs
  induction fs with
  | nil =>
    intro cs _
    refine ⟨cs, fun fuel _ => rfl, fun x f => ?_⟩
    simp
  | cons f0 fs ih =>
    intro cs hr
    have hf0 := hr f0 (List.mem_cons_self _ _)
    obtain ⟨ρ, hρ, huniq, hget⟩ := get_path_top adj N ht _ _ hf0.1 hf0.2.1 hf0.2.2.1 hf0.2.2.2
    obtain ⟨result, hres, hiff⟩ := ih (cs ++ (path_ids adj ρ).map (fun e_idx => (e_idx, f0)))
      (fun f hf => hr f (List.mem_cons_of_mem _ hf))
    refine ⟨result, fun fuel hfuel => ?_, fun x f => ?_⟩
    · unfold build_constraints
      simp only
      rw [hget fuel hfuel]
      exact hres fuel hfuel
    · rw [hiff x f, List.mem_append, List.mem_map]
      constructor
      · rintro ((h | ⟨e, he, hef⟩) | ⟨hf, h⟩)
        · exact Or.inl h
        · have h1 : e = x := congrArg Prod.fst hef
          have h2 : f0 = f := congrArg Prod.snd hef
          subst h1; subst h2
          exact Or.inr ⟨List.mem_cons_self _ _, ρ, hρ, he⟩
        · exact Or.inr ⟨List.mem_cons_of_mem _ hf, h⟩
      · rintro (h | ⟨hf, ρ1, hρ1, hx⟩)
        · exact Or.inl (Or.inl h)
        · rcases List.mem_cons.1 hf with h | h
          · subst h
            rw [huniq ρ1 hρ1] at hx
            exact Or.inl (Or.inr ⟨x, hx, rfl⟩)
          · exact Or.inr ⟨h, ρ1, hρ1, hx⟩

theorem simplePath_congr (R S : Nat → Nat → Prop) (h : ∀ a b, R a b → S a b) (a b : Nat)
    (ρ : List Nat) (hp : SimplePath R a b ρ) : SimplePath S a b ρ :=
  ⟨hp.head, hp.last, hp.chain.imp (fun {x y} hxy => h x y hxy), hp.nodup⟩

theorem ends_eq (inp : Input) (f : Nat) (hf : f < inp.edges.length) :
    ((read_edges inp.edges).getD f Edge.zero).u = (inp.ends f).1 ∧
      ((read_edges inp.edges).getD f Edge.zero).v = (inp.ends f).2 := by
  rw [read_edges_getD inp.edges f hf]
  exact ⟨rfl, rfl⟩

theorem ends_range (inp : Input) (wf : WellFormed inp) (f : Nat) (hf : f < inp.edges.length) :
    1 ≤ (inp.ends f).1 ∧ (inp.ends f).1 ≤ inp.N ∧ 1 ≤ (inp.ends f).2 ∧ (inp.ends f).2 ≤ inp.N := by
  have hmem : inp.edges.getD f (0, 0, 0) ∈ inp.edges := by
    rw [List.getD_eq_getElem _ _ hf]; exact List.getElem_mem _
  exact wf.edges_range _ hmem

/-- On a path of the tree, the edge ids collected by `get_path` are exactly the tree
edges joining consecutive nodes. -/
theorem mem_path_ids_iff (inp : Input) (wf : WellFormed inp) (ρ : List Nat)
    (hc : ρ.Chain' (TAdj (identify_tree inp (read_edges inp.edges)).tree_adj)) (x : Nat) :
    x ∈ path_ids (identify_tree inp (read_edges inp.edges)).tree_adj ρ ↔
      (inp.IsTreeEdge x ∧ inp.OnPath x ρ) := by
  have ht := isTreeAdj_identify inp wf
  rw [mem_path_ids]
  constructor
  · rintro ⟨a, b, hab, hx⟩
    obtain ⟨idx, hidx⟩ := chain_consecutive _ a b ρ hc hab
    rw [edge_id_eq _ a b idx (ht.simple a) hidx] at hx
    obtain ⟨_, h2, h3, h4⟩ := tree_adj_entry inp wf a b idx hidx
    subst hx
    exact ⟨⟨h2, by rw [h3]; exact h4⟩, a, b, hab, h3⟩
  · rintro ⟨⟨hx, _⟩, a, b, hab, hk⟩
    refine ⟨a, b, hab, ?_⟩
    obtain ⟨idx, hidx⟩ := chain_consecutive _ a b ρ hc hab
    rw [edge_id_eq _ a b idx (ht.simple a) hidx]
    obtain ⟨h1, _, _, _⟩ := tree_adj_entry inp wf a b idx hidx
    rw [h1, ← hk]
    exact (edge_map_get_spec inp.edges wf.no_multi x hx).symm

/-- The set-up phase of `main` on a well-formed input: it terminates, and the constraint
list it builds holds exactly the pairs the specification asks for. -/
theorem setup_spec (inp : Input) (wf : WellFormed inp) :
    ∃ cs, (∀ fuel, inp.N ≤ fuel → setup fuel inp =
        some (⟨read_edges inp.edges, make_distinct_weights (read_edges inp.edges), cs⟩,
          identify_tree inp (read_edges inp.edges))) ∧
      ∀ e f, (e, f) ∈ cs ↔ inp.Constraint e f := by
  have ht := isTreeAdj_identify inp wf
  obtain ⟨cs, hres, hiff⟩ := build_constraints_spec (read_edges inp.edges) _ inp.N ht
    (make_non_tree (identify_tree inp (read_edges inp.edges)).is_tree) []
    (fun f hf => by
      have hlt := ((mem_make_non_tree _ f).1 hf).1
      rw [is_tree_length] at hlt
      rw [(ends_eq inp f hlt).1, (ends_eq inp f hlt).2]
      exact ends_range inp wf f hlt)
  refine ⟨cs, fun fuel hfuel => ?_, fun e f => ?_⟩
  · unfold setup
    simp only
    rw [hres fuel hfuel]
  · rw [hiff e f, mem_make_non_tree, is_tree_length]
    unfold Input.Constraint
    constructor
    · rintro (h | ⟨⟨hlt, hnt⟩, ρ, hρ, hx⟩)
      · exact absurd h (List.not_mem_nil _)
      · rw [(ends_eq inp f hlt).1, (ends_eq inp f hlt).2] at hρ
        have hx2 := (mem_path_ids_iff inp wf ρ hρ.chain e).1 hx
        refine ⟨hlt, fun h => ?_, hx2.1, ρ,
          simplePath_congr _ _ (fun a b h => (tadj_iff_pair inp wf a b).1 h) _ _ ρ hρ, hx2.2⟩
        rw [(is_tree_iff inp wf f).2 h] at hnt
        exact Bool.noConfusion hnt
    · rintro ⟨hlt, hnt, he, ρ, hρ, hon⟩
      have hρ2 := simplePath_congr _ _ (fun a b h => (tadj_iff_pair inp wf a b).2 h) _ _ ρ hρ
      refine Or.inr ⟨⟨hlt, ?_⟩, ρ, ?_, (mem_path_ids_iff inp wf ρ hρ2.chain e).2 ⟨he, hon⟩⟩
      · cases hb : (identify_tree inp (read_edges inp.edges)).is_tree.getD f false with
        | false => rfl
        | true => exact absurd ((is_tree_iff inp wf f).1 hb) hnt
      · rw [(ends_eq inp f hlt).1, (ends_eq inp f hlt).2]
        exact hρ2

/-! ## The concrete scenario is a well-formed instance -/

theorem chain_mem_rel (R : Nat → Nat → Prop) :
    ∀ (c : List Nat), 2 ≤ c.length → c.Chain' R → ∀ x ∈ c, ∃ y, R x y ∨ R y x := by
  intro c
  induction c with
  | nil => intro h; simp at h
  | cons a rest ih =>
    cases rest with
    | nil => intro h; simp at h
    | cons b rest =>
      intro _ hc x hx
      rw [List.chain'_cons] at hc
      rcases List.mem_cons.1 hx with h | h
      · subst h; exact ⟨b, Or.inl hc.1⟩
      · cases rest with
        | nil =>
          rw [List.mem_singleton.1 h]
          exact ⟨a, Or.inr hc.1⟩
        | cons d rest =>
          exact ih (by simp) hc.2 x h

theorem scenario_pair_range (x y : Nat)
    (h : PairAdj scenario.tree x y ∨ PairAdj scenario.tree y x) : x ∈ [1, 2, 3, 4] := by
  simp only [PairAdj, scenario, List.mem_cons, Prod.mk.injEq, List.mem_singleton,
    List.not_mem_nil, or_false] at h ⊢
  omega

theorem scenario_pair_step (x y : Nat) (h : PairAdj scenario.tree x y) :
    y = x + 1 ∨ x = y + 1 := by
  simp only [PairAdj, scenario, List.mem_cons, Prod.mk.injEq, List.mem_singleton,
    List.not_mem_nil, or_false] at h
  omega

theorem scenario_acyclic : ∀ c, ¬ IsCycle (PairAdj scenario.tree) c := by
  rintro c ⟨hlen, hnd, hch, a, b, ha, hb, hba⟩
  have hmem : ∀ x ∈ c, x ∈ [1, 2, 3, 4] := fun x hx => by
    obtain ⟨y, hy⟩ := chain_mem_rel _ c (by omega) hch x hx
    exact scenario_pair_range x y hy
  have hle : c.length ≤ 4 := (hnd.subperm hmem).length_le
  match c, hlen, hle, hnd, hch, ha, hb with
  | [x, y, z], _, _, hnd, hch, ha, hb =>
    have h1 : x = a := by simpa using ha
    have h2 : z = b := by simpa using hb
    subst h1; subst h2
    have hxy := scenario_pair_step _ _ (List.chain'_cons.1 hch).1
    have hyz := scenario_pair_step _ _ (List.chain'_cons.1 (List.chain'_cons.1 hch).2).1
    have hzx := scenario_pair_step _ _ hba
    omega
  | [x, y, z, w], _, _, hnd, hch, ha, hb =>
    have h1 : x = a := by simpa using ha
    have h2 : w = b := by simpa using hb
    subst h1; subst h2
    have hxy := scenario_pair_step _ _ (List.chain'_cons.1 hch).1
    have hyz := scenario_pair_step _ _ (List.chain'_cons.1 (List.chain'_cons.1 hch).2).1
    have hzw := scenario_pair_step _ _
      (List.chain'_cons.1 (List.chain'_cons.1 (List.chain'_cons.1 hch).2).2).1
    have hwx := scenario_pair_step _ _ hba
    simp only [List.nodup_cons, List.mem_cons, List.mem_singleton, List.not_mem_nil,
      not_or, or_false, not_false_eq_true, List.nodup_nil, and_true] at hnd
    omega

theorem scenario_connected (u v : Nat) (hu1 : 1 ≤ u) (hu2 : u ≤ 4) (hv1 : 1 ≤ v) (hv2 : v ≤ 4) :
    Relation.ReflTransGen (PairAdj scenario.tree) u v := by
  have h12 : PairAdj scenario.tree 1 2 := by decide
  have h23 : PairAdj scenario.tree 2 3 := by decide
  have h34 : PairAdj scenario.tree 3 4 := by decide
  have hfrom : ∀ w, 1 ≤ w → w ≤ 4 → Relation.ReflTransGen (PairAdj scenario.tree) 1 w := by
    intro w hw1 hw2
    have hw : w = 1 ∨ w = 2 ∨ w = 3 ∨ w = 4 := by omega
    rcases hw with h | h | h | h <;> subst h
    · exact Relation.ReflTransGen.refl
    · exact Relation.ReflTransGen.single h12
    · exact (Relation.ReflTransGen.single h12).tail h23
    · exact ((Relation.ReflTransGen.single h12).tail h23).tail h34
  have hsymm : ∀ a b, PairAdj scenario.tree a b → PairAdj scenario.tree b a :=
    fun a b h => h.symm
  exact (rtg_symm _ hsymm 1 u (hfrom u hu1 hu2)).trans (hfrom v hv1 hv2)

/-- The concrete scenario of the specification is a well-formed instance. -/
theorem wellFormed_scenario : WellFormed scenario where
  size := by simp [scenario]
  weights := by decide
  spread := by decide
  edges_range := by decide
  no_loops := by decide
  no_multi := by decide
  tree_len := rfl
  tree_edges := by decide
  tree_distinct := by decide
  connected := scenario_connected
  acyclic := scenario_acyclic

/-! ## The whole run of `main` on a well-formed input -/

theorem dw_indexOf (g : Globals) (v : Int) (hv : v ∈ g.distinct_weights) :
    g.dw (g.distinct_weights.indexOf v) = v := by
  unfold Globals.dw
  have h := List.indexOf_lt_length.2 hv
  rw [List.getD_eq_getElem _ _ h]
  exact List.getElem_indexOf h

theorem dw_mem (g : Globals) (k : Nat) (hk : k < g.distinct_weights.length) :
    g.dw k ∈ g.distinct_weights := by
  unfold Globals.dw
  rw [List.getD_eq_getElem _ _ hk]
  exact List.getElem_mem _

/-- An admissible assignment of values is an admissible assignment of indices into
`distinct_weights` with the same total deviation. -/
theorem admissible_to_feasible (g : Globals) (hg : g.Good) (x : Nat → Int)
    (hx : g.Admissible x) :
    Feasible g (List.range g.all_edges.length) 0 (g.distinct_weights.length - 1)
        (fun id => g.distinct_weights.indexOf (x id)) ∧
      costIdx g (fun id => g.distinct_weights.indexOf (x id)) (List.range g.all_edges.length)
        = g.cost x := by
  refine ⟨⟨fun id hid => ?_, fun p hp h1 h2 => ?_⟩, ?_⟩
  · have := List.indexOf_lt_length.2 (hx.1 id (List.mem_range.1 hid))
    simp only
    omega
  · have hm1 := hx.1 p.1 (List.mem_range.1 h1)
    have hm2 := hx.1 p.2 (List.mem_range.1 h2)
    by_contra hlt
    have hlt2 : g.distinct_weights.indexOf (x p.2) < g.distinct_weights.indexOf (x p.1) := by
      simp only at hlt; omega
    have := dw_lt g hg _ _ hlt2 (List.indexOf_lt_length.2 hm1)
    rw [dw_indexOf g _ hm1, dw_indexOf g _ hm2] at this
    have := hx.2 p hp
    omega
  · unfold costIdx Globals.cost
    congr 1
    apply List.map_congr_left
    intro id hid
    simp only
    rw [dw_indexOf g _ (hx.1 id (List.mem_range.1 hid))]

theorem run_spec (inp : Input) (wf : WellFormed inp) :
    ∃ g st F, (∀ fuel, F ≤ fuel → run fuel inp = some (g, st)) ∧ RunPost inp g st := by
  obtain ⟨cs, hsetup, hcs⟩ := setup_spec inp wf
  have hlen : (read_edges inp.edges).length = inp.edges.length := read_edges_length _
  have hgood : Globals.Good
      ⟨read_edges inp.edges, make_distinct_weights (read_edges inp.edges), cs⟩ :=
    good_of_make _ rfl (by simp only; rw [hlen]; exact lt_trans wf.size (by norm_num))
  have hids : ∀ p ∈ cs, p.1 < inp.edges.length ∧ p.2 < inp.edges.length := fun p hp => by
    have := (hcs p.1 p.2).1 hp
    exact ⟨this.2.2.1.1, this.1⟩
  by_cases hM : inp.edges.length = 0
  · have hnil : read_edges inp.edges = [] := List.length_eq_zero.1 (by rw [hlen]; exact hM)
    refine ⟨⟨read_edges inp.edges, make_distinct_weights (read_edges inp.edges), cs⟩,
      ⟨List.replicate (read_edges inp.edges).length 0, []⟩, inp.N + 1, fun fuel hf => ?_,
      ⟨rfl, rfl, hcs, fun i hi => ?_, fun p hp => ?_, fun x _ => ?_⟩⟩
    · unfold run
      rw [hsetup fuel (by omega)]
      simp only
      obtain ⟨f, rfl⟩ : ∃ f, fuel = f + 1 := ⟨fuel - 1, by omega⟩
      rw [hnil]
      simp [solve]
    · simp only [hlen, hM] at hi
      omega
    · have := (hids p hp).1
      omega
    · unfold costFw Globals.cost
      simp only [hnil]
      simp
  · obtain ⟨st1, F, h1, post⟩ := solve_top _ hgood
      (distinct_weights_pos _ rfl (by simp only; rw [hlen]; omega))
      ⟨List.replicate (read_edges inp.edges).length 0, []⟩ (by simp)
    refine ⟨⟨read_edges inp.edges, make_distinct_weights (read_edges inp.edges), cs⟩, st1,
      max inp.N F, fun fuel hf => ?_,
      ⟨rfl, rfl, hcs, fun i hi => ?_, fun p hp => ?_, fun x hx => ?_⟩⟩
    · unfold run
      rw [hsetup fuel (le_trans (le_max_left _ _) hf)]
      simp only
      rw [h1 fuel (le_trans (le_max_right _ _) hf)]
    · obtain ⟨k, _, hk2, hk3⟩ := post.range i (List.mem_range.2 hi)
      rw [hk3]
      have hpos := distinct_weights_pos
        (⟨read_edges inp.edges, make_distinct_weights (read_edges inp.edges), cs⟩ : Globals)
        rfl (by simp only; rw [hlen]; omega)
      exact dw_mem _ k (by omega)
    · have := hids p hp
      exact post.respects p hp (List.mem_range.2 (by simp only; rw [hlen]; exact this.1))
        (List.mem_range.2 (by simp only; rw [hlen]; exact this.2))
    · obtain ⟨hf, hc⟩ := admissible_to_feasible _ hgood x hx
      rw [← hc]
      exact post.optimal _ hf

/-! ## Main results: `get_path`, the constraint list and the result of `main` -/

theorem get_path_tree_path_witness :
    WellFormed scenario ∧
    ∃ ρ, SimplePath (TAdj (identify_tree scenario (read_edges scenario.edges)).tree_adj) 1 4 ρ ∧
      (∀ ρ', SimplePath (TAdj (identify_tree scenario (read_edges scenario.edges)).tree_adj)
        1 4 ρ' → ρ' = ρ) ∧
      (∀ fuel, 4 ≤ fuel →
        get_path (identify_tree scenario (read_edges scenario.edges)).tree_adj fuel 1 4 (-1) []
          = some (true, path_ids (identify_tree scenario (read_edges scenario.edges)).tree_adj ρ)) ∧
      ((1 : Nat) = 4 →
        path_ids (identify_tree scenario (read_edges scenario.edges)).tree_adj ρ = []) :=
  ⟨wellFormed_scenario,
    get_path_tree_path _ 4 (isTreeAdj_identify scenario wellFormed_scenario) 1 4
      (by decide) (by decide) (by decide) (by decide)⟩

/-- C9: for a well-formed input the set-up phase of `main` terminates (fuel `N` suffices)
and the `constraints` list it builds contains the pair `(e, f)` if and only if `f` is a
non-tree edge and `e` is a tree edge on the tree path between the endpoints of `f`; hence
every pair has a tree edge as first component and a non-tree edge as second component,
and the constraint relation has no cycle. -/
theorem constraints_are_tree_paths (inp : Input) (wf : WellFormed inp) :
    ∃ g ts, (∀ fuel, inp.N ≤ fuel → setup fuel inp = some (g, ts)) ∧
      (∀ e f, (e, f) ∈ g.constraints ↔ inp.Constraint e f) ∧
      (∀ p ∈ g.constraints,
        inp.IsTreeEdge p.1 ∧ p.2 < inp.edges.length ∧ ¬ inp.IsTreeEdge p.2) ∧
      ∀ a, ¬ Relation.TransGen (fun x y => (x, y) ∈ g.constraints) a a := by
  obtain ⟨cs, hsetup, hcs⟩ := setup_spec inp wf
  have hpair : ∀ p ∈ cs,
      inp.IsTreeEdge p.1 ∧ p.2 < inp.edges.length ∧ ¬ inp.IsTreeEdge p.2 := fun p hp => by
    have := (hcs p.1 p.2).1 hp
    exact ⟨this.2.2.1, this.1, this.2.1⟩
  refine ⟨⟨read_edges inp.edges, make_distinct_weights (read_edges inp.edges), cs⟩,
    identify_tree inp (read_edges inp.edges), hsetup, hcs, hpair, ?_⟩
  have hty : ∀ a b, Relation.TransGen (fun x y => (x, y) ∈ cs) a b →
      inp.IsTreeEdge a ∧ ¬ inp.IsTreeEdge b := by
    intro a b h
    induction h with
    | single h => exact ⟨(hpair _ h).1, (hpair _ h).2.2⟩
    | tail _ h ih => exact ⟨ih.1, (hpair _ h).2.2⟩
  intro a h
  exact (hty a a h).2 (hty a a h).1

theorem constraints_are_tree_paths_witness :
    WellFormed scenario ∧
    ∃ g ts, (∀ fuel, scenario.N ≤ fuel → setup fuel scenario = some (g, ts)) ∧
      (∀ e f, (e, f) ∈ g.constraints ↔ scenario.Constraint e f) ∧
      (∀ p ∈ g.constraints,
        scenario.IsTreeEdge p.1 ∧ p.2 < scenario.edges.length ∧ ¬ scenario.IsTreeEdge p.2) ∧
      ∀ a, ¬ Relation.TransGen (fun x y => (x, y) ∈ g.constraints) a a :=
  ⟨wellFormed_scenario, constraints_are_tree_paths scenario wellFormed_scenario⟩

/-- C3: for a well-formed input the top-level call
`solve(all edge ids, 0, |distinct_weights| - 1)` made by `main` returns, and afterwards
`final_weights[e] <= final_weights[f]` holds for every pair `(e, f)` of `constraints`,
whether or not the two edges were ever active in the same flow network; equivalently, for
every non-tree edge `f` and every tree edge `e` on the tree path between its endpoints. -/
theorem final_weights_respect_constraints (inp : Input) (wf : WellFormed inp) :
    ∃ g st F, (∀ fuel, F ≤ fuel → run fuel inp = some (g, st)) ∧
      (∀ p ∈ g.constraints, st.final_weights.getD p.1 0 ≤ st.final_weights.getD p.2 0) ∧
      ∀ e f, inp.Constraint e f → st.final_weights.getD e 0 ≤ st.final_weights.getD f 0 := by
  obtain ⟨g, st, F, hrun, post⟩ := run_spec inp wf
  exact ⟨g, st, F, hrun, post.respects,
    fun e f h => post.respects (e, f) ((post.constraints e f).2 h)⟩

theorem final_weights_respect_constraints_witness :
    WellFormed scenario ∧
    ∃ g st F, (∀ fuel, F ≤ fuel → run fuel scenario = some (g, st)) ∧
      (∀ p ∈ g.constraints, st.final_weights.getD p.1 0 ≤ st.final_weights.getD p.2 0) ∧
      ∀ e f, scenario.Constraint e f →
        st.final_weights.getD e 0 ≤ st.final_weights.getD f 0 :=
  ⟨wellFormed_scenario, final_weights_respect_constraints scenario wellFormed_scenario⟩

/-- C1: for a well-formed input `main` terminates, and the total cost it prints, the sum
over all edges of `|final_weights[i] - w_i|`, is the minimum of `sum_i |x_i - w_i|` over
the assignments `x` of values from `distinct_weights` to the edges with `x_e <= x_f` for
every pair `(e, f)` of `constraints`: the final weights are such an assignment, and no
such assignment has a smaller total. -/
theorem main_cost_is_minimum (inp : Input) (wf : WellFormed inp) :
    ∃ g st F,
      (∀ fuel, F ≤ fuel → run fuel inp = some (g, st) ∧
        main fuel inp = some (g.cost (fun i => st.final_weights.getD i 0))) ∧
      g.all_edges = read_edges inp.edges ∧
      g.distinct_weights = make_distinct_weights g.all_edges ∧
      (∀ e f, (e, f) ∈ g.constraints ↔ inp.Constraint e f) ∧
      g.Admissible (fun i => st.final_weights.getD i 0) ∧
      ∀ x, g.Admissible x → g.cost (fun i => st.final_weights.getD i 0) ≤ g.cost x := by
  obtain ⟨g, st, F, hrun, post⟩ := run_spec inp wf
  have hcost : total_cost g.all_edges st.final_weights
      = g.cost (fun i => st.final_weights.getD i 0) := by
    rw [total_cost_eq]; rfl
  refine ⟨g, st, F, fun fuel hf => ⟨hrun fuel hf, ?_⟩, post.edges, post.weights,
    post.constraints, ⟨post.values, post.respects⟩, fun x hx => ?_⟩
  · unfold main
    rw [hrun fuel hf]
    simp only
    rw [hcost]
  · have := post.optimal x hx
    rw [← total_cost_eq, hcost] at this
    exact this

theorem main_cost_is_minimum_witness :
    WellFormed scenario ∧
    ∃ g st F,
      (∀ fuel, F ≤ fuel → run fuel scenario = some (g, st) ∧
        main fuel scenario = some (g.cost (fun i => st.final_weights.getD i 0))) ∧
      g.all_edges = read_edges scenario.edges ∧
      g.distinct_weights = make_distinct_weights g.all_edges ∧
      (∀ e f, (e, f) ∈ g.constraints ↔ scenario.Constraint e f) ∧
      g.Admissible (fun i => st.final_weights.getD i 0) ∧
      ∀ x, g.Admissible x → g.cost (fun i => st.final_weights.getD i 0) ≤ g.cost x :=
  ⟨wellFormed_scenario, main_cost_is_minimum scenario wellFormed_scenario⟩

/-! ## The split step: mispricing and tie-breaking -/

theorem mispricing_eq_count (g : Globals) (val : Int) (hi : Nat → Bool) :
    ∀ nodes : List Nat, mispricing g nodes val hi =
      mispriced_count g val (nodes.filter (fun id => !hi id)) (nodes.filter hi) := by
  intro nodes
  induction nodes with
  | nil => simp [mispricing, mispriced_count]
  | cons id rest ih =>
    unfold mispricing mispriced_count at ih ⊢
    rw [List.map_cons, List.sum_cons, ih]
    unfold mispriced
    cases hh : hi id
    · have e1 : (id :: rest).filter (fun id => !hi id) = id :: rest.filter (fun id => !hi id) := by
        rw [List.filter_cons, if_pos (by simp [hh])]
      have e2 : (id :: rest).filter hi = rest.filter hi := by
        rw [List.filter_cons, if_neg (by simp [hh])]
      rw [e1, e2, List.filter_cons]
      by_cases hw : g.weight id > val
      · have hd : decide (g.weight id > val) = true := decide_eq_true hw
        rw [hd, if_pos rfl, if_pos (Or.inl ⟨hw, rfl⟩), List.length_cons]
        push_cast
        ring
      · have hd : decide (g.weight id > val) = false := decide_eq_false hw
        rw [hd, if_neg Bool.false_ne_true, if_neg (by
          rintro (h | h)
          · exact hw h.1
          · exact Bool.noConfusion h.2)]
        ring
    · have e1 : (id :: rest).filter (fun id => !hi id) = rest.filter (fun id => !hi id) := by
        rw [List.filter_cons, if_neg (by simp [hh])]
      have e2 : (id :: rest).filter hi = id :: rest.filter hi := by
        rw [List.filter_cons, if_pos hh]
      rw [e1, e2, List.filter_cons]
      by_cases hw : g.weight id ≤ val
      · have hd : decide (g.weight id ≤ val) = true := decide_eq_true hw
        rw [hd, if_pos rfl, if_pos (Or.inr ⟨hw, rfl⟩), List.length_cons]
        push_cast
        ring
      · have hd : decide (g.weight id ≤ val) = false := decide_eq_false hw
        rw [hd, if_neg Bool.false_ne_true, if_neg (by
          rintro (h | h)
          · exact Bool.noConfusion h.2
          · exact hw h.1)]
        ring

/-- C11: for every call `solve(nodes, L, R)` on distinct edge ids (fewer than `INF` of
them) and every split value `val`, in particular `val = distinct_weights[(L+R)/2]`, the
split step returns; the number of mispriced edges of the partition it computes equals the
value returned by `max_flow(S, T)`, and no partition of `nodes` that respects every
constraint between two edges of `nodes` has fewer mispriced edges. -/
theorem split_minimises_mispricing (g : Globals) (nodes : List Nat) (val : Int)
    (hnd : nodes.Nodup) (hlen : (nodes.length : Int) < INF) :
    ∃ flow left right F,
      (∀ fuel, F ≤ fuel →
        solve_split fuel g nodes val = some (flow, left, right) ∧
        ∃ d, (build_network g nodes val).max_flow fuel nodes.length (nodes.length + 1)
          = some (flow, d)) ∧
      mispriced_count g val left right = flow ∧
      ∀ hi', RespectsConstraints g nodes hi' →
        flow ≤ mispriced_count g val (nodes.filter (fun id => !hi' id)) (nodes.filter hi') := by
  obtain ⟨flow, hi, F, hrun, _, hflow, hmin⟩ := solve_split_spec g nodes val hnd hlen
  refine ⟨flow, nodes.filter (fun id => !hi id), nodes.filter hi, F, fun fuel hf => ?_, ?_, ?_⟩
  · refine ⟨hrun fuel hf, ?_⟩
    have h := hrun fuel hf
    unfold solve_split at h
    simp only at h
    split at h
    · exact absurd h (by simp)
    · rename_i fl d hmf
      split at h
      · exact absurd h (by simp)
      · simp only [Option.some.injEq, Prod.mk.injEq] at h
        exact ⟨d, by rw [hmf, h.1]⟩
  · rw [← mispricing_eq_count, hflow]
  · intro hi' hr
    rw [← mispricing_eq_count, hflow]
    exact hmin hi' hr

theorem split_minimises_mispricing_witness :
    ∃ flow left right F,
      (∀ fuel, F ≤ fuel →
        solve_split fuel scenario_globals [0, 1, 2, 3] 3 = some (flow, left, right) ∧
        ∃ d, (build_network scenario_globals [0, 1, 2, 3] 3).max_flow fuel 4 5
          = some (flow, d)) ∧
      mispriced_count scenario_globals 3 left right = flow ∧
      ∀ hi', RespectsConstraints scenario_globals [0, 1, 2, 3] hi' →
        flow ≤ mispriced_count scenario_globals 3
          ([0, 1, 2, 3].filter (fun id => !hi' id)) ([0, 1, 2, 3].filter hi') :=
  split_minimises_mispricing scenario_globals [0, 1, 2, 3] 3 (by decide) (by decide)

/-! ## One split step of `solve` and its two recursive calls -/

/-- A call `solve(nodes, L, R)` with `L < R` on a non-empty edge list: the split step,
the call on `left_nodes`, and the call on `right_nodes` started where the first ended. -/
theorem solve_decompose (g : Globals) (hg : g.Good) (nodes : List Nat) (L R : Nat)
    (st : SolveState) (hsub : nodes.Sublist (List.range g.all_edges.length)) (hne : nodes ≠ [])
    (hLR : L < R) (hR : R < g.distinct_weights.length)
    (hst : st.final_weights.length = g.all_edges.length) :
    ∃ flow hi stL st1 F,
      (∀ fuel, F ≤ fuel →
        solve_split fuel g nodes (g.dw ((L + R) / 2)) =
          some (flow, nodes.filter (fun id => !hi id), nodes.filter hi) ∧
        solve g fuel (nodes.filter (fun id => !hi id)) (L : Int) (((L + R) / 2 : Nat) : Int) st
          = some stL ∧
        solve g fuel (nodes.filter hi) (((L + R) / 2 + 1 : Nat) : Int) (R : Int) stL = some st1 ∧
        solve g fuel nodes (L : Int) (R : Int) st = some st1) ∧
      RespectsConstraints g nodes hi ∧
      flow = mispricing g nodes (g.dw ((L + R) / 2)) hi ∧
      (∀ hi', RespectsConstraints g nodes hi' →
        mispricing g nodes (g.dw ((L + R) / 2)) hi ≤ mispricing g nodes (g.dw ((L + R) / 2)) hi') ∧
      SolvePost g (nodes.filter (fun id => !hi id)) L ((L + R) / 2) st stL ∧
      SolvePost g (nodes.filter hi) ((L + R) / 2 + 1) R stL st1 := by
  have hnd : nodes.Nodup := hsub.nodup (List.nodup_range _)
  obtain ⟨flow, hi, F0, hsplit, hresp, hflow, hopt⟩ :=
    solve_split_spec g nodes (g.dw ((L + R) / 2)) hnd (length_lt_INF g hg.size nodes hsub)
  obtain ⟨stL, F1, h1, post1⟩ := solve_spec g hg _ (nodes.filter (fun id => !hi id)) L
    ((L + R) / 2) st rfl ((List.filter_sublist _).trans hsub) (by omega) (by omega) hst
  obtain ⟨st1, F2, h2, post2⟩ := solve_spec g hg _ (nodes.filter hi) ((L + R) / 2 + 1) R stL rfl
    ((List.filter_sublist _).trans hsub) (by omega) hR (by rw [post1.len]; exact hst)
  refine ⟨flow, hi, stL, st1, max F0 (max F1 F2) + 1, fun fuel hf => ?_, hresp, hflow, hopt,
    post1, post2⟩
  refine ⟨hsplit fuel (by omega), h1 fuel (by omega), h2 fuel (by omega), ?_⟩
  obtain ⟨f, rfl⟩ : ∃ f, fuel = f + 1 := ⟨fuel - 1, by omega⟩
  simp only [solve]
  rw [if_neg (by simpa using hne), if_neg (by omega), tdiv_mid]
  simp only [Int.toNat_natCast]
  have hs := hsplit (f + 1) (by omega)
  unfold Globals.dw at hs
  rw [hs]
  simp only
  rw [h1 f (by omega)]
  simp only
  have hc : (((L + R) / 2 : Nat) : Int) + 1 = (((L + R) / 2 + 1 : Nat) : Int) := by
    push_cast; rfl
  rw [hc]
  exact h2 f (by omega)

theorem filter_disjoint (nodes : List Nat) (hi : Nat → Bool) (id : Nat)
    (h1 : id ∈ nodes.filter (fun id => !hi id)) : id ∉ nodes.filter hi := by
  intro h2
  have a := (List.mem_filter.1 h1).2
  have b := (List.mem_filter.1 h2).2
  rw [b] at a
  exact Bool.noConfusion a

/-- C12: for every call `solve(nodes, L, R)` with `0 <= L <= R < |distinct_weights|` on
edge ids of the instance (the globals being those `main` builds), the call returns; on
return every id in `nodes` has `final_weights[id] = distinct_weights[k]` for some
`L <= k <= R`, and `final_weights[j]` is unchanged for every `j` not in `nodes`; when the
call splits, the ids put in `left_nodes` get `k <= mid` and those put in `right_nodes`
get `k >= mid + 1`. -/
theorem solve_range_and_frame (g : Globals) (hsize : g.all_edges.length < 2 ^ 31)
    (hdw : g.distinct_weights = make_distinct_weights g.all_edges)
    (nodes : List Nat) (L R : Nat) (st : SolveState)
    (hsub : nodes.Sublist (List.range g.all_edges.length)) (hLR : L ≤ R)
    (hR : R < g.distinct_weights.length) (hst : st.final_weights.length = g.all_edges.length) :
    ∃ st1 F,
      (∀ fuel, F ≤ fuel → solve g fuel nodes (L : Int) (R : Int) st = some st1) ∧
      (∀ id ∈ nodes, ∃ k, L ≤ k ∧ k ≤ R ∧
        st1.final_weights.getD id 0 = g.distinct_weights.getD k 0) ∧
      (∀ j, j ∉ nodes → st1.final_weights.getD j 0 = st.final_weights.getD j 0) ∧
      (nodes ≠ [] → L < R → ∃ flow left right,
        (∀ fuel, F ≤ fuel →
          solve_split fuel g nodes (g.distinct_weights.getD ((L + R) / 2) 0) =
            some (flow, left, right)) ∧
        (∀ id ∈ left, ∃ k, L ≤ k ∧ k ≤ (L + R) / 2 ∧
          st1.final_weights.getD id 0 = g.distinct_weights.getD k 0) ∧
        (∀ id ∈ right, ∃ k, (L + R) / 2 + 1 ≤ k ∧ k ≤ R ∧
          st1.final_weights.getD id 0 = g.distinct_weights.getD k 0)) := by
  have hg := good_of_make g hdw hsize
  by_cases hsplit : nodes ≠ [] ∧ L < R
  · obtain ⟨flow, hi, stL, st1, F, hrun, _, _, _, post1, post2⟩ :=
      solve_decompose g hg nodes L R st hsub hsplit.1 hsplit.2 hR hst
    have hleft : ∀ id ∈ nodes.filter (fun id => !hi id), ∃ k, L ≤ k ∧ k ≤ (L + R) / 2 ∧
        st1.final_weights.getD id 0 = g.distinct_weights.getD k 0 := by
      intro id hid
      obtain ⟨k, a, b, c⟩ := post1.range id hid
      exact ⟨k, a, b, by rw [post2.frame id (filter_disjoint nodes hi id hid)]; exact c⟩
    have hright : ∀ id ∈ nodes.filter hi, ∃ k, (L + R) / 2 + 1 ≤ k ∧ k ≤ R ∧
        st1.final_weights.getD id 0 = g.distinct_weights.getD k 0 := by
      intro id hid
      obtain ⟨k, a, b, c⟩ := post2.range id hid
      exact ⟨k, a, b, c⟩
    refine ⟨st1, F, fun fuel hf => (hrun fuel hf).2.2.2, ?_, ?_, ?_⟩
    · intro id hid
      cases hh : hi id with
      | true =>
        obtain ⟨k, a, b, c⟩ := hright id (List.mem_filter.2 ⟨hid, hh⟩)
        exact ⟨k, by omega, b, c⟩
      | false =>
        obtain ⟨k, a, b, c⟩ := hleft id (List.mem_filter.2 ⟨hid, by simp [hh]⟩)
        exact ⟨k, a, by omega, c⟩
    · intro j hj
      rw [post2.frame j (fun h => hj (List.mem_filter.1 h).1),
        post1.frame j (fun h => hj (List.mem_filter.1 h).1)]
    · intro _ _
      exact ⟨flow, _, _, fun fuel hf => (hrun fuel hf).1, hleft, hright⟩
  · obtain ⟨st1, F, hrun, post⟩ := solve_spec g hg _ nodes L R st rfl hsub hLR hR hst
    exact ⟨st1, F, hrun, post.range, post.frame, fun h1 h2 => absurd ⟨h1, h2⟩ hsplit⟩

theorem solve_range_and_frame_witness :
    ∃ st1 F,
      (∀ fuel, F ≤ fuel → solve scenario_globals fuel [0, 1, 2, 3] ((0 : Nat) : Int)
        ((3 : Nat) : Int) ⟨[0, 0, 0, 0], []⟩ = some st1) ∧
      (∀ id ∈ [0, 1, 2, 3], ∃ k, 0 ≤ k ∧ k ≤ 3 ∧
        st1.final_weights.getD id 0 = scenario_globals.distinct_weights.getD k 0) ∧
      (∀ j, j ∉ [0, 1, 2, 3] →
        st1.final_weights.getD j 0 = (⟨[0, 0, 0, 0], []⟩ : SolveState).final_weights.getD j 0) ∧
      (([0, 1, 2, 3] : List Nat) ≠ [] → 0 < 3 → ∃ flow left right,
        (∀ fuel, F ≤ fuel →
          solve_split fuel scenario_globals [0, 1, 2, 3]
            (scenario_globals.distinct_weights.getD ((0 + 3) / 2) 0) =
            some (flow, left, right)) ∧
        (∀ id ∈ left, ∃ k, 0 ≤ k ∧ k ≤ (0 + 3) / 2 ∧
          st1.final_weights.getD id 0 = scenario_globals.distinct_weights.getD k 0) ∧
        (∀ id ∈ right, ∃ k, (0 + 3) / 2 + 1 ≤ k ∧ k ≤ 3 ∧
          st1.final_weights.getD id 0 = scenario_globals.distinct_weights.getD k 0)) :=
  solve_range_and_frame scenario_globals (by decide) rfl [0, 1, 2, 3] 0 3 ⟨[0, 0, 0, 0], []⟩
    (by decide) (by decide) (by decide) rfl

/-! ## Termination and depth of the recursion of `solve` -/

theorem solve_split_terminates (g : Globals) (nodes : List Nat) (val : Int) :
    ∃ flow cut F, cut.length = nodes.length + 2 ∧
      ∀ fuel, F ≤ fuel → solve_split fuel g nodes val = some (flow, split_nodes nodes cut) := by
  obtain ⟨flow, d1, cut, hfuel, hlen, _⟩ :=
    flow_cut_spec (nodes.length + 2) (network_edges g nodes val) nodes.length (nodes.length + 1)
      (validEdges_network g nodes val) (by omega) (by omega) (by omega)
  refine ⟨flow, cut,
    (build (nodes.length + 2) (network_edges g nodes val)).fuelBound nodes.length, hlen,
    fun fuel hf => ?_⟩
  obtain ⟨h1, h2⟩ := hfuel fuel hf
  unfold solve_split
  simp only
  rw [build_network_eq, h1]
  simp only
  rw [h2]

/-- The recursion of `solve` terminates on every index range `L <= R`, whatever the edge
list and the globals. -/
theorem solve_terminates (g : Globals) :
    ∀ (n : Nat) (nodes : List Nat) (L R : Nat) (st : SolveState), R - L = n → L ≤ R →
      ∃ st1 F, ∀ fuel, F ≤ fuel → solve g fuel nodes (L : Int) (R : Int) st = some st1 := by
  intro n
  induction n using Nat.strong_induction_on with
  | _ n ih =>
    intro nodes L R st hn hLR
    by_cases hne : nodes = []
    · subst hne
      obtain ⟨st1, F, h, _⟩ := solve_spec_nil g L R st
      exact ⟨st1, F, h⟩
    · by_cases hEq : L = R
      · subst hEq
        refine ⟨assign_all (g.distinct_weights.getD (L : Int).toNat 0) nodes st, 1,
          fun fuel hf => ?_⟩
        obtain ⟨f, rfl⟩ : ∃ f, fuel = f + 1 := ⟨fuel - 1, by omega⟩
        simp only [solve]
        rw [if_neg (by simpa using hne), if_pos trivial]
      · obtain ⟨flow, cut, F0, _, hsplit⟩ :=
          solve_split_terminates g nodes (g.distinct_weights.getD ((L + R) / 2) 0)
        obtain ⟨stL, F1, h1⟩ := ih ((L + R) / 2 - L) (by omega) (split_nodes nodes cut).1 L
          ((L + R) / 2) st rfl (by omega)
        obtain ⟨st1, F2, h2⟩ := ih (R - ((L + R) / 2 + 1)) (by omega) (split_nodes nodes cut).2
          ((L + R) / 2 + 1) R stL rfl (by omega)
        refine ⟨st1, max F0 (max F1 F2) + 1, fun fuel hf => ?_⟩
        obtain ⟨f, rfl⟩ : ∃ f, fuel = f + 1 := ⟨fuel - 1, by omega⟩
        simp only [solve]
        rw [if_neg (by simpa using hne), if_neg (by omega), tdiv_mid]
        simp only [Int.toNat_natCast]
        rw [hsplit (f + 1) (by omega)]
        simp only
        rw [h1 f (by omega)]
        simp only
        have hc : (((L + R) / 2 : Nat) : Int) + 1 = (((L + R) / 2 + 1 : Nat) : Int) := by
          push_cast; rfl
        rw [hc]
        exact h2 f (by omega)

theorem tdiv_two_bounds (L R : Int) (hL : 0 ≤ L) (hLR : L ≤ R) :
    2 * Int.tdiv (L + R) 2 ≤ L + R ∧ L + R ≤ 2 * Int.tdiv (L + R) 2 + 1 := by
  rw [Int.tdiv_eq_ediv (by omega) (by decide)]
  omega

/-- Every call below `solve(nodes0, L0, R0)` at depth `d` works on a range inside
`[L0, R0]` whose width, times `2^d`, is at most the width of `[L0, R0]`. -/
theorem solveDesc_range (g : Globals) (nodes0 : List Nat) (L0 R0 : Int) (hL : 0 ≤ L0)
    (hLR : L0 ≤ R0) (d : Nat) (nodes : List Nat) (L R : Int)
    (h : SolveDesc g nodes0 L0 R0 d nodes L R) :
    L0 ≤ L ∧ L ≤ R ∧ R ≤ R0 ∧ (R - L) * 2 ^ d ≤ R0 - L0 := by
  induction h with
  | root => exact ⟨le_refl _, hLR, le_refl _, by simp⟩
  | left d nodes L R fuel flow l r _ _ hne _ ih =>
    obtain ⟨a, b, c, e⟩ := ih
    obtain ⟨m1, m2⟩ := tdiv_two_bounds L R (by omega) b
    refine ⟨a, by omega, by omega, ?_⟩
    have hp : (0 : Int) ≤ 2 ^ d := by positivity
    have h2 : (Int.tdiv (L + R) 2 - L) * 2 ≤ R - L := by omega
    calc (Int.tdiv (L + R) 2 - L) * 2 ^ (d + 1)
        = ((Int.tdiv (L + R) 2 - L) * 2) * 2 ^ d := by ring
      _ ≤ (R - L) * 2 ^ d := mul_le_mul_of_nonneg_right h2 hp
      _ ≤ R0 - L0 := e
  | right d nodes L R fuel flow l r _ _ hne _ ih =>
    obtain ⟨a, b, c, e⟩ := ih
    obtain ⟨m1, m2⟩ := tdiv_two_bounds L R (by omega) b
    refine ⟨by omega, by omega, c, ?_⟩
    have hp : (0 : Int) ≤ 2 ^ d := by positivity
    have h2 : (R - (Int.tdiv (L + R) 2 + 1)) * 2 ≤ R - L := by omega
    calc (R - (Int.tdiv (L + R) 2 + 1)) * 2 ^ (d + 1)
        = ((R - (Int.tdiv (L + R) 2 + 1)) * 2) * 2 ^ d := by ring
      _ ≤ (R - L) * 2 ^ d := mul_le_mul_of_nonneg_right h2 hp
      _ ≤ R0 - L0 := e

/-- C14: for every call `solve(nodes, L, R)` with `L <= R` the recursion terminates; every
call made below it works on a range inside `[L, R]`, every call that splits a range of
size `n = R' - L' + 1 >= 2` recurses on the strictly smaller ranges `[L', mid]` of size
`ceil(n/2)` and `[mid+1, R']` of size `floor(n/2)`, and a call that splits at nesting depth
`d` has `d + 1 <= ceil(log2(R - L + 1))`: no recursion path has more split steps than
that (`ceil(log2(|distinct_weights|))` for the top-level call). -/
theorem solve_recursion_depth (g : Globals) (nodes : List Nat) (L R : Nat) (hLR : L ≤ R)
    (st : SolveState) :
    (∃ st1 F, ∀ fuel, F ≤ fuel → solve g fuel nodes (L : Int) (R : Int) st = some st1) ∧
    ∀ (d : Nat) (nodes' : List Nat) (L' R' : Int),
      SolveDesc g nodes (L : Int) (R : Int) d nodes' L' R' →
      (L : Int) ≤ L' ∧ L' ≤ R' ∧ R' ≤ (R : Int) ∧
      (nodes' ≠ [] → L' ≠ R' →
        Int.tdiv (L' + R') 2 - L' + 1 = (R' - L' + 1 + 1) / 2 ∧
        R' - (Int.tdiv (L' + R') 2 + 1) + 1 = (R' - L' + 1) / 2 ∧
        Int.tdiv (L' + R') 2 - L' + 1 < R' - L' + 1 ∧
        R' - (Int.tdiv (L' + R') 2 + 1) + 1 < R' - L' + 1 ∧
        d + 1 ≤ Nat.clog 2 (R - L + 1)) := by
  refine ⟨solve_terminates g _ nodes L R st rfl hLR, ?_⟩
  intro d nodes' L' R' hdesc
  obtain ⟨a, b, c, e⟩ := solveDesc_range g nodes (L : Int) (R : Int) (by omega) (by omega)
    d nodes' L' R' hdesc
  refine ⟨a, b, c, fun _ hne => ?_⟩
  obtain ⟨m1, m2⟩ := tdiv_two_bounds L' R' (by omega) b
  refine ⟨by omega, by omega, by omega, by omega, ?_⟩
  have h1 : (1 : Int) ≤ R' - L' := by omega
  have hp : (0 : Int) ≤ 2 ^ d := by positivity
  have h2 : (2 : Int) ^ d ≤ (R' - L') * 2 ^ d := le_mul_of_one_le_left hp h1
  have h3 : ((2 ^ d : Nat) : Int) ≤ (R : Int) - (L : Int) := by
    push_cast
    exact le_trans h2 e
  have h4 : 2 ^ d < R - L + 1 := by
    generalize 2 ^ d = P at h3
    omega
  have := (Nat.pow_lt_iff_lt_clog (by decide : 1 < 2)).1 h4
  omega

theorem solve_recursion_depth_witness :
    (∃ st1 F, ∀ fuel, F ≤ fuel →
      solve scenario_globals fuel [0, 1, 2, 3] ((0 : Nat) : Int) ((3 : Nat) : Int)
        ⟨[0, 0, 0, 0], []⟩ = some st1) ∧
    ∀ (d : Nat) (nodes' : List Nat) (L' R' : Int),
      SolveDesc scenario_globals [0, 1, 2, 3] ((0 : Nat) : Int) ((3 : Nat) : Int) d nodes' L' R' →
      ((0 : Nat) : Int) ≤ L' ∧ L' ≤ R' ∧ R' ≤ ((3 : Nat) : Int) ∧
      (nodes' ≠ [] → L' ≠ R' →
        Int.tdiv (L' + R') 2 - L' + 1 = (R' - L' + 1 + 1) / 2 ∧
        R' - (Int.tdiv (L' + R') 2 + 1) + 1 = (R' - L' + 1) / 2 ∧
        Int.tdiv (L' + R') 2 - L' + 1 < R' - L' + 1 ∧
        R' - (Int.tdiv (L' + R') 2 + 1) + 1 < R' - L' + 1 ∧
        d + 1 ≤ Nat.clog 2 (3 - 0 + 1)) :=
  solve_recursion_depth scenario_globals [0, 1, 2, 3] 0 3 (by decide) ⟨[0, 0, 0, 0], []⟩

/-! ## Termination of `max_flow` and its stopping condition -/

theorem bfs_false_level (d d1 : Dinic) (fuel s t : Nat) (h : d.bfs fuel s t = some (false, d1)) :
    d1.lvl t = -1 := by
  unfold Dinic.bfs at h
  split at h
  · exact absurd h (by simp)
  · rename_i level _
    simp only [Option.some.injEq, Prod.mk.injEq] at h
    obtain ⟨h1, h2⟩ := h
    rw [← h2]
    unfold Dinic.lvl
    simp only
    by_contra hne
    rw [decide_eq_true hne] at h1
    exact Bool.noConfusion h1

/-- The outer loop of `max_flow` returns only the state left by a `bfs` that reported
`false`. -/
theorem phaseLoop_stop (fuel s t : Nat) :
    ∀ (k : Nat) (d : Dinic) (flow val : Int) (d1 : Dinic),
      phaseLoop fuel s t k d flow = some (val, d1) →
      ∃ d0 : Dinic, d0.bfs fuel s t = some (false, d1) := by
  intro k
  induction k with
  | zero => intro d flow val d1 h; simp [phaseLoop] at h
  | succ k ih =>
    intro d flow val d1 h
    unfold phaseLoop at h
    cases hb : d.bfs fuel s t with
    | none => rw [hb] at h; exact absurd h (by simp)
    | some r =>
      obtain ⟨b, d'⟩ := r
      rw [hb] at h
      cases b with
      | false =>
        simp only [Option.some.injEq, Prod.mk.injEq] at h
        exact ⟨d, by rw [hb, h.2]⟩
      | true =>
        simp only at h
        split at h
        · exact absurd h (by simp)
        · exact ih _ _ _ _ h

/-! ## Tree pairs that name no input edge -/

theorem assign_all_length (x : Int) :
    ∀ (nodes : List Nat) (st : SolveState),
      (assign_all x nodes st).final_weights.length = st.final_weights.length := by
  intro nodes
  induction nodes with
  | nil => intro st; rfl
  | cons id rest ih =>
    intro st
    unfold assign_all
    rw [ih]
    simp

/-- No call of `solve` changes the size of `final_weights`. -/
theorem solve_length (g : Globals) :
    ∀ (fuel : Nat) (nodes : List Nat) (L R : Int) (st st1 : SolveState),
      solve g fuel nodes L R st = some st1 →
      st1.final_weights.length = st.final_weights.length := by
  intro fuel
  induction fuel with
  | zero => intro nodes L R st st1 h; simp [solve] at h
  | succ f ih =>
    intro nodes L R st st1 h
    simp only [solve] at h
    split at h
    · simp only [Option.some.injEq] at h; rw [← h]
    · split at h
      · simp only [Option.some.injEq] at h
        rw [← h]
        exact assign_all_length _ _ _
      · split at h
        · exact absurd h (by simp)
        · split at h
          · exact absurd h (by simp)
          · rename_i stL hl
            rw [ih _ _ _ _ _ h, ih _ _ _ _ _ hl]

/-- Every call made by the recursion started by `main` either has an empty edge list or
works on an index range inside `distinct_weights`. -/
theorem solveCall_range (g : Globals)
    (hdw : g.distinct_weights = make_distinct_weights g.all_edges)
    (nodes : List Nat) (L R : Int) (h : SolveCall g nodes L R) :
    nodes = [] ∨ (0 ≤ L ∧ L ≤ R ∧ R < (g.distinct_weights.length : Int)) := by
  induction h with
  | top =>
    by_cases hM : g.all_edges.length = 0
    · left; rw [hM]; rfl
    · right
      have := distinct_weights_pos g hdw (by omega)
      omega
  | left nodes L R fuel flow l r _ hne hLR _ ih =>
    right
    rcases ih with ih | ⟨a, b, c⟩
    · exact absurd ih hne
    · obtain ⟨m1, m2⟩ := tdiv_two_bounds L R a b
      omega
  | right nodes L R fuel flow l r _ hne hLR _ ih =>
    right
    rcases ih with ih | ⟨a, b, c⟩
    · exact absurd ih hne
    · obtain ⟨m1, m2⟩ := tdiv_two_bounds L R a b
      omega

/-- C20: for every call `solve(nodes, L_idx, R_idx)` reachable from the top-level call
`solve([0..M-1], 0, |distinct_weights| - 1)` of `main` (also when `M = 0`): every id in
`nodes` is below `M`, the size of `all_edges` and of `final_weights`, which no call
changes; if `nodes` is not empty then `0 <= L_idx <= R_idx < |distinct_weights|`, so
`distinct_weights[L_idx]` and `distinct_weights[mid_idx]` are in bounds; a call with
`L_idx > R_idx` has an empty node list; every node index passed to `add_edge` is below
the size `num_active + 2` of the network; and `cut` has `num_active + 2` entries. -/
theorem solve_index_safety (g : Globals)
    (hdw : g.distinct_weights = make_distinct_weights g.all_edges)
    (nodes : List Nat) (L R : Int) (hcall : SolveCall g nodes L R) :
    (∀ id ∈ nodes, id < g.all_edges.length) ∧
    (∀ fuel st st1, solve g fuel nodes L R st = some st1 →
      st1.final_weights.length = st.final_weights.length) ∧
    (nodes ≠ [] → 0 ≤ L ∧ L ≤ R ∧ R < (g.distinct_weights.length : Int) ∧
      L.toNat < g.distinct_weights.length ∧
      L ≤ Int.tdiv (L + R) 2 ∧ (Int.tdiv (L + R) 2).toNat < g.distinct_weights.length) ∧
    (R < L → nodes = []) ∧
    (∀ val, build_network g nodes val = build (nodes.length + 2) (network_edges g nodes val) ∧
      ValidEdges (nodes.length + 2) (network_edges g nodes val) ∧
      ∃ flow d cut F, cut.length = nodes.length + 2 ∧
        ∀ fuel, F ≤ fuel →
          (build_network g nodes val).max_flow fuel nodes.length (nodes.length + 1)
            = some (flow, d) ∧
          d.get_cut fuel nodes.length = some cut) := by
  have hr := solveCall_range g hdw nodes L R hcall
  refine ⟨fun id hid => List.mem_range.1 ((solveCall_sublist g nodes L R hcall).subset hid),
    fun fuel st st1 h => solve_length g fuel nodes L R st st1 h, fun hne => ?_, fun hlt => ?_,
    fun val => ⟨build_network_eq g nodes val, validEdges_network g nodes val, ?_⟩⟩
  · rcases hr with h | ⟨a, b, c⟩
    · exact absurd h hne
    · obtain ⟨m1, m2⟩ := tdiv_two_bounds L R a b
      refine ⟨a, b, c, by omega, by omega, by omega⟩
  · rcases hr with h | ⟨a, b, c⟩
    · exact h
    · omega
  · obtain ⟨flow, d1, cut, hfuel, hlen, _⟩ :=
      flow_cut_spec (nodes.length + 2) (network_edges g nodes val) nodes.length
        (nodes.length + 1) (validEdges_network g nodes val) (by omega) (by omega) (by omega)
    refine ⟨flow, d1, cut,
      (build (nodes.length + 2) (network_edges g nodes val)).fuelBound nodes.length, hlen,
      fun fuel hf => ?_⟩
    rw [build_network_eq]
    exact hfuel fuel hf

theorem solve_index_safety_witness :
    (∀ id ∈ List.range scenario_globals.all_edges.length,
      id < scenario_globals.all_edges.length) ∧
    (∀ fuel st st1, solve scenario_globals fuel (List.range scenario_globals.all_edges.length)
        0 ((scenario_globals.distinct_weights.length : Int) - 1) st = some st1 →
      st1.final_weights.length = st.final_weights.length) ∧
    (List.range scenario_globals.all_edges.length ≠ [] →
      (0 : Int) ≤ 0 ∧ (0 : Int) ≤ (scenario_globals.distinct_weights.length : Int) - 1 ∧
      (scenario_globals.distinct_weights.length : Int) - 1
        < (scenario_globals.distinct_weights.length : Int) ∧
      (0 : Int).toNat < scenario_globals.distinct_weights.length ∧
      (0 : Int) ≤ Int.tdiv (0 + ((scenario_globals.distinct_weights.length : Int) - 1)) 2 ∧
      (Int.tdiv (0 + ((scenario_globals.distinct_weights.length : Int) - 1)) 2).toNat
        < scenario_globals.distinct_weights.length) ∧
    ((scenario_globals.distinct_weights.length : Int) - 1 < 0 →
      List.range scenario_globals.all_edges.length = []) ∧
    (∀ val, build_network scenario_globals (List.range scenario_globals.all_edges.length) val
        = build ((List.range scenario_globals.all_edges.length).length + 2)
          (network_edges scenario_globals (List.range scenario_globals.all_edges.length) val) ∧
      ValidEdges ((List.range scenario_globals.all_edges.length).length + 2)
        (network_edges scenario_globals (List.range scenario_globals.all_edges.length) val) ∧
      ∃ flow d cut F, cut.length = (List.range scenario_globals.all_edges.length).length + 2 ∧
        ∀ fuel, F ≤ fuel →
          (build_network scenario_globals (List.range scenario_globals.all_edges.length)
            val).max_flow fuel (List.range scenario_globals.all_edges.length).length
            ((List.range scenario_globals.all_edges.length).length + 1) = some (flow, d) ∧
          d.get_cut fuel (List.range scenario_globals.all_edges.length).length = some cut) :=
  solve_index_safety scenario_globals rfl _ _ _ SolveCall.top

/-! ## The state left by `max_flow` and the tie-breaking of the split step -/

/-- Everything known about the state `d1` left by `max_flow(s, t)` on a network built
from valid edges, and about the vector `cut` returned by `get_cut(s)` there. -/
theorem flow_final (n : Nat) (es : List (Nat × Nat × Int)) (s t : Nat)
    (hv : ValidEdges n es) (hs : s < n) (ht : t < n) (hst : s ≠ t) :
    ∃ val d1 cut,
      (∀ fuel, (build n es).fuelBound s ≤ fuel →
        (build n es).max_flow fuel s t = some (val, d1) ∧ d1.get_cut fuel s = some cut) ∧
      d1.WF ∧ d1.CapOK ∧ (build n es).SameShape d1 ∧ d1.Track s t val ∧ 0 ≤ val ∧
      ¬ d1.Reach s t ∧ cut.length = n ∧
      ∀ u, u < n → (cut.getD u false = true ↔ d1.Reach s u) := by
  obtain ⟨hwf, hz, hn, hcs, _⟩ := build_props n es hv
  obtain ⟨val, d1, hres, hwf1, hcap1, hsh1, htr1, hval, hnr1⟩ :=
    max_flow_spec (build n es) s t ((build n es).fuelBound s) hst hwf (capOK_of_zeroFlow _ hz)
      (by rw [hn]; exact hs) (by rw [hn]; exact ht) (track_of_zeroFlow _ s t hz) (le_refl _)
  have hn1 : d1.n = n := by rw [hsh1.1, hn]
  have hb : n ≤ (build n es).fuelBound s := by
    unfold Dinic.fuelBound; rw [hn]; omega
  obtain ⟨cut, hcut, hlen, hiff⟩ := get_cut_spec d1 hwf1 s ((build n es).fuelBound s)
    (by rw [hn1]; exact hs) (by rw [hn1]; exact hb)
  rw [hn1] at hlen hiff
  exact ⟨val, d1, cut, fun fuel hf => ⟨max_flow_mono _ s t _ fuel _ hf hres,
    get_cut_mono d1 s _ fuel cut hf hcut⟩, hwf1, hcap1, hsh1, htr1, hval, hnr1, hlen, hiff⟩

theorem list_sum_eq_of_le {α : Type} (f f' : α → Int) :
    ∀ l : List α, (∀ x ∈ l, f x ≤ f' x) → (l.map f).sum = (l.map f').sum →
      ∀ x ∈ l, f x = f' x := by
  intro l
  induction l with
  | nil => intro _ _ x hx; exact absurd hx (List.not_mem_nil _)
  | cons a l ih =>
    intro hle hsum x hx
    rw [List.map_cons, List.map_cons, List.sum_cons, List.sum_cons] at hsum
    have h1 := hle a (List.mem_cons_self _ _)
    have h2 : (l.map f).sum ≤ (l.map f').sum :=
      List.sum_le_sum (fun y hy => hle y (List.mem_cons_of_mem _ hy))
    rcases List.mem_cons.1 hx with h | h
    · rw [h]; omega
    · exact ih (fun y hy => hle y (List.mem_cons_of_mem _ hy)) (by omega) x h

/-- If one entry-wise sum is pointwise below another and the totals agree, they agree on
every adjacency entry. -/
theorem esum_eq_of_le (d : Dinic) (g g' : Nat → FlowEdge → Int)
    (hle : ∀ v i, i < (d.edges v).length → g v (d.entry v i) ≤ g' v (d.entry v i))
    (hsum : d.esum g = d.esum g') :
    ∀ v i, i < (d.edges v).length → g v (d.entry v i) = g' v (d.entry v i) := by
  have hmem : ∀ v, ∀ e ∈ d.edges v, g v e ≤ g' v e := by
    intro v e he
    obtain ⟨i, hi, hie⟩ := exists_entry_of_mem d v e he
    rw [← hie]; exact hle v i hi
  have houter := list_sum_eq_of_le (fun v => ((d.edges v).map (g v)).sum)
    (fun v => ((d.edges v).map (g' v)).sum) (List.range d.adj.length)
    (fun v _ => List.sum_le_sum (fun e he => hmem v e he)) hsum
  intro v i hi
  have hv : v < d.adj.length := lt_adj_of_lt_edges d v i hi
  exact list_sum_eq_of_le (g v) (g' v) (d.edges v) (hmem v) (houter v (List.mem_range.2 hv))
    (d.entry v i) (entry_mem d v i hi)

/-- A cut whose capacity equals the flow value is closed under residual edges, so it
contains every node that is residually reachable from `s`. -/
theorem reach_subset_min_cut (d : Dinic) (s t : Nat) (val : Int) (A : Nat → Bool)
    (hcap : d.CapOK) (htr : d.Track s t val) (hs : A s = true) (ht : A t = false)
    (hmin : d.capSum (cutCoef A) = val) : ∀ u, d.Reach s u → A u = true := by
  have hflow := cross_flow_eq d s t val A htr hs ht
  have hent := esum_eq_of_le d (fun v e => cutCoef A v e.to_ * e.flow)
    (fun v e => cutCoef A v e.to_ * e.capacity)
    (fun v i hi => mul_le_mul_of_nonneg_left (hcap v i hi) (cutCoef_nonneg A _ _))
    (by
      have h1 : d.esum (fun v e => cutCoef A v e.to_ * e.flow) = val := hflow
      have h2 : d.esum (fun v e => cutCoef A v e.to_ * e.capacity) = val := hmin
      rw [h1, h2])
  have hstep : ∀ u w, A u = true → d.Res u w → A w = true := by
    intro u w hu hres
    obtain ⟨i, hi, hto, hpos⟩ := hres
    cases hw : A w with
    | true => rfl
    | false =>
      have hc : cutCoef A u (d.entry u i).to_ = 1 := by
        unfold cutCoef
        rw [hto, if_pos ⟨hu, hw⟩]
      have := hent u i hi
      simp only [hc, one_mul] at this
      omega
  intro u hu
  induction hu with
  | refl => exact hs
  | tail _ hbc ih => exact hstep _ _ ih hbc

/-- C19: for every call `solve(nodes, L, R)` on distinct edge ids (fewer than `INF` of
them) and every split value `val`, the partition computed by the split step respects the
active constraints and has minimum mispricing, and its high side `right_nodes` (the edges
reachable from `S` in the residual graph after `max_flow`) is contained in the high side
of every partition that respects the active constraints and has minimum mispricing: an
edge goes to the low side whenever some optimal partition puts it there. -/
theorem split_high_side_minimal (g : Globals) (nodes : List Nat) (val : Int)
    (hnd : nodes.Nodup) (hlen : (nodes.length : Int) < INF) :
    ∃ flow hi F,
      (∀ fuel, F ≤ fuel → solve_split fuel g nodes val =
        some (flow, nodes.filter (fun id => !hi id), nodes.filter hi)) ∧
      RespectsConstraints g nodes hi ∧
      (∀ hi', RespectsConstraints g nodes hi' →
        mispricing g nodes val hi ≤ mispricing g nodes val hi') ∧
      ∀ hi', RespectsConstraints g nodes hi' →
        (∀ hi'', RespectsConstraints g nodes hi'' →
          mispricing g nodes val hi' ≤ mispricing g nodes val hi'') →
        ∀ id ∈ nodes.filter hi, hi' id = true := by
  obtain ⟨v1, d1, cut, hrun, _, hcap1, hsh1, htr1, _, _, _, hiff⟩ :=
    flow_final (nodes.length + 2) (network_edges g nodes val) nodes.length (nodes.length + 1)
      (validEdges_network g nodes val) (by omega) (by omega) (by omega)
  obtain ⟨flow, hi, F, hsplit, hresp, hflow, hopt⟩ := solve_split_spec g nodes val hnd hlen
  refine ⟨flow, hi, F, hsplit, hresp, hopt, ?_⟩
  -- the two descriptions of the result of the split step agree
  have hboth : flow = v1 ∧ nodes.filter hi = (split_nodes nodes cut).2 := by
    have ha := hsplit (max F ((build (nodes.length + 2)
      (network_edges g nodes val)).fuelBound nodes.length)) (le_max_left _ _)
    obtain ⟨h1, h2⟩ := hrun (max F ((build (nodes.length + 2)
      (network_edges g nodes val)).fuelBound nodes.length)) (le_max_right _ _)
    unfold solve_split at ha
    simp only at ha
    rw [build_network_eq, h1] at ha
    simp only at ha
    rw [h2] at ha
    simp only [Option.some.injEq, Prod.mk.injEq] at ha
    exact ⟨ha.1.symm, by rw [ha.2]⟩
  intro hi' hr' hmin' id hid
  have hval : mispricing g nodes val hi' = v1 := by
    have a := hmin' hi hresp
    have b := hopt hi' hr'
    rw [← hboth.1, hflow]
    omega
  have hcs := (build_props (nodes.length + 2) (network_edges g nodes val)
    (validEdges_network g nodes val)).2.2.2.1
  have hcut : d1.capSum (cutCoef (cut_of nodes hi')) = v1 := by
    rw [capSum_shape _ d1 hsh1, hcs, cut_capacity_network,
      (violations_eq_zero_iff g nodes hi').2 hr', hval]
    simp
  have hsub := reach_subset_min_cut d1 nodes.length (nodes.length + 1) v1 (cut_of nodes hi')
    hcap1 htr1 (cut_of_S nodes hi') (cut_of_T nodes hi') hcut
  rw [hboth.2, split_nodes_eq] at hid
  simp only at hid
  obtain ⟨i, hi1, hi2⟩ := List.mem_map.1 hid
  obtain ⟨hi3, hi4⟩ := List.mem_filter.1 hi1
  have hlt : i < nodes.length := List.mem_range.1 hi3
  have hreach := (hiff i (by omega)).1 hi4
  have := hsub i hreach
  rw [cut_of_lt nodes hi' i hlt, hi2] at this
  exact this

theorem split_high_side_minimal_witness :
    ∃ flow hi F,
      (∀ fuel, F ≤ fuel → solve_split fuel scenario_globals [0, 1, 2, 3] 3 =
        some (flow, [0, 1, 2, 3].filter (fun id => !hi id), [0, 1, 2, 3].filter hi)) ∧
      RespectsConstraints scenario_globals [0, 1, 2, 3] hi ∧
      (∀ hi', RespectsConstraints scenario_globals [0, 1, 2, 3] hi' →
        mispricing scenario_globals [0, 1, 2, 3] 3 hi ≤
          mispricing scenario_globals [0, 1, 2, 3] 3 hi') ∧
      ∀ hi', RespectsConstraints scenario_globals [0, 1, 2, 3] hi' →
        (∀ hi'', RespectsConstraints scenario_globals [0, 1, 2, 3] hi'' →
          mispricing scenario_globals [0, 1, 2, 3] 3 hi' ≤
            mispricing scenario_globals [0, 1, 2, 3] 3 hi'') →
        ∀ id ∈ [0, 1, 2, 3].filter hi, hi' id = true :=
  split_high_side_minimal scenario_globals [0, 1, 2, 3] 3 (by decide) (by decide)

/-! ## Pairing of adjacency entries in networks built with `add_edge` -/

theorem pairOK_add_edge (d : Dinic) (frm to_ : Nat) (c : Int) (hwf : d.WF) (hp : d.PairOK)
    (hf : frm < d.n) (ht : to_ < d.n) : (d.add_edge frm to_ c).PairOK := by
  have hf' : frm < d.adj.length := by rw [hwf.adj_len]; exact hf
  have ht' : to_ < d.adj.length := by rw [hwf.adj_len]; exact ht
  intro u i hi hto
  by_cases hold : i < (d.edges u).length
  · rw [entry_add_edge_old d frm to_ c hf' ht' u i hold] at hto ⊢
    obtain ⟨h1, h2, h3⟩ := hp u i hold hto
    refine ⟨lt_of_lt_of_le h1 (length_edges_add_edge_ge d frm to_ c hf' ht' _), ?_⟩
    rw [entry_add_edge_old d frm to_ c hf' ht' _ _ h1]
    exact ⟨h2, h3⟩
  · obtain ⟨hne, h | h⟩ := entry_add_edge_new d frm to_ c hf' ht' u i hi (by omega) hto
    · obtain ⟨hu, hidx, he⟩ := h
      rw [he]
      simp only
      obtain ⟨hb1, hb2⟩ := entry_add_edge_bwd d frm to_ c hf' ht' hne
      rw [hb1]
      exact ⟨hb2, hu.symm, by rw [hidx]⟩
    · obtain ⟨hu, hidx, he⟩ := h
      rw [he]
      simp only
      obtain ⟨hb1, hb2⟩ := entry_add_edge_fwd d frm to_ c hf' ht' hne
      rw [hb1]
      exact ⟨hb2, hu.symm, by rw [hidx]⟩

theorem hasEdge_add_edge_old (d : Dinic) (frm to_ : Nat) (c : Int)
    (hf : frm < d.adj.length) (ht : to_ < d.adj.length) (a b : Nat) (x f : Int)
    (h : d.HasEdge a b x f) : (d.add_edge frm to_ c).HasEdge a b x f := by
  obtain ⟨i, j, hi, hj, h1, h2⟩ := h
  refine ⟨i, j, lt_of_lt_of_le hi (length_edges_add_edge_ge d frm to_ c hf ht _),
    lt_of_lt_of_le hj (length_edges_add_edge_ge d frm to_ c hf ht _), ?_, ?_⟩
  · rw [entry_add_edge_old d frm to_ c hf ht a i hi]; exact h1
  · rw [entry_add_edge_old d frm to_ c hf ht b j hj]; exact h2

theorem hasEdge_add_edge_new (d : Dinic) (frm to_ : Nat) (c : Int)
    (hf : frm < d.adj.length) (ht : to_ < d.adj.length) (hne : frm ≠ to_) :
    (d.add_edge frm to_ c).HasEdge frm to_ c 0 := by
  obtain ⟨a1, a2⟩ := entry_add_edge_fwd d frm to_ c hf ht hne
  obtain ⟨b1, b2⟩ := entry_add_edge_bwd d frm to_ c hf ht hne
  exact ⟨(d.edges frm).length, (d.edges to_).length, a2, b2, a1, by rw [b1]; simp⟩

/-- Every network reached by `add_edge` calls on valid edges keeps the pairing and
contains the entries of every edge added between two different nodes. -/
theorem foldl_add_edge_pair :
    ∀ (es : List (Nat × Nat × Int)) (d0 : Dinic), d0.WF → d0.PairOK → ValidEdges d0.n es →
      (es.foldl (fun d e => d.add_edge e.1 e.2.1 e.2.2) d0).PairOK ∧
        (∀ a b x f, d0.HasEdge a b x f →
          (es.foldl (fun d e => d.add_edge e.1 e.2.1 e.2.2) d0).HasEdge a b x f) ∧
        ∀ e ∈ es, e.1 ≠ e.2.1 →
          (es.foldl (fun d e => d.add_edge e.1 e.2.1 e.2.2) d0).HasEdge e.1 e.2.1 e.2.2 0 := by
  intro es
  induction es with
  | nil =>
    intro d0 _ hp _
    exact ⟨hp, fun _ _ _ _ h => h, fun e he => absurd he (List.not_mem_nil _)⟩
  | cons x es ih =>
    intro d0 hwf hp hv
    obtain ⟨hx1, hx2, _⟩ := hv x (List.mem_cons_self _ _)
    have hf' : x.1 < d0.adj.length := by rw [hwf.adj_len]; exact hx1
    have ht' : x.2.1 < d0.adj.length := by rw [hwf.adj_len]; exact hx2
    have hwf1 := wf_add_edge d0 x.1 x.2.1 x.2.2 hwf hx1 hx2
    have hp1 := pairOK_add_edge d0 x.1 x.2.1 x.2.2 hwf hp hx1 hx2
    have hn1 : (d0.add_edge x.1 x.2.1 x.2.2).n = d0.n := rfl
    obtain ⟨r1, r2, r3⟩ := ih (d0.add_edge x.1 x.2.1 x.2.2) hwf1 hp1
      (fun e he => by rw [hn1]; exact hv e (List.mem_cons_of_mem _ he))
    rw [List.foldl_cons]
    refine ⟨r1, fun a b y f h => r2 a b y f (hasEdge_add_edge_old d0 _ _ _ hf' ht' a b y f h),
      fun e he hne => ?_⟩
    rcases List.mem_cons.1 he with h | h
    · subst h
      exact r2 _ _ _ _ (hasEdge_add_edge_new d0 _ _ _ hf' ht' hne)
    · exact r3 e h hne

theorem pairOK_init (n : Nat) : (Dinic.init n).PairOK := by
  intro v i hi
  rw [edges_init] at hi
  exact absurd hi (Nat.not_lt_zero _)

theorem flowOK_of_zeroFlow (d : Dinic) (hp : d.PairOK) (hz : d.ZeroFlow) : d.FlowOK := by
  refine ⟨hp, capOK_of_zeroFlow d hz, fun v i hi hto => ?_, fun v i hi _ => (hz v i hi).1⟩
  obtain ⟨h1, _, _⟩ := hp v i hi hto
  rw [(hz _ _ h1).1, (hz v i hi).1]
  rfl

/-- The network built from valid edges carries the zero flow. -/
theorem isFlow_build (n : Nat) (es : List (Nat × Nat × Int)) (hv : ValidEdges n es)
    (s t : Nat) :
    (build n es).IsFlow s t 0 ∧
      ∀ e ∈ es, e.1 ≠ e.2.1 → (build n es).HasEdge e.1 e.2.1 e.2.2 0 := by
  obtain ⟨hwf, hz, _, _, _⟩ := build_props n es hv
  obtain ⟨hp, _, he⟩ := foldl_add_edge_pair es (Dinic.init n) (wf_init n) (pairOK_init n) hv
  refine ⟨⟨flowOK_of_zeroFlow _ hp hz, track_of_zeroFlow _ s t hz, fun v i hi => ?_⟩, he⟩
  rw [(hz v i hi).1]
  exact ⟨le_refl _, by simp⟩

/-! ## The effect of one augmentation on the flows -/

theorem pairOK_of_shape (d d' : Dinic) (hs : d.SameShape d') (hp : d.PairOK) : d'.PairOK := by
  intro v i hi hto
  obtain ⟨hl, hf⟩ := hs.2.2 v
  rw [hl] at hi
  obtain ⟨a1, _, a3⟩ := hf i
  rw [a1] at hto
  obtain ⟨p1, p2, p3⟩ := hp v i hi hto
  obtain ⟨hl2, hf2⟩ := hs.2.2 (d.entry v i).to_
  obtain ⟨b1, _, b3⟩ := hf2 (d.entry v i).rev
  rw [a1, a3, hl2, b1, b3]
  exact ⟨p1, p2, p3⟩

theorem flow_push (d1 : Dinic) (v cid tr r : Nat) (f : Int)
    (hcid : cid < (d1.edges v).length) (hr : r < (d1.edges tr).length) (hne : tr ≠ v)
    (u j : Nat) :
    (((d1.addFlow v cid f).addFlow tr r (-f)).entry u j).flow =
      if u = v ∧ j = cid then (d1.entry v cid).flow + f
      else if u = tr ∧ j = r then (d1.entry tr r).flow - f
      else (d1.entry u j).flow := by
  rw [flow_addFlow, length_edges_addFlow, flow_addFlow, flow_addFlow]
  by_cases h1 : u = v ∧ j = cid
  · rw [if_pos h1, if_neg (fun h => hne (h.1.symm.trans h1.1)), if_pos ⟨h1.1, h1.2, hcid⟩]
  · rw [if_neg h1]
    by_cases h2 : u = tr ∧ j = r
    · rw [if_pos h2, if_pos ⟨h2.1, h2.2, hr⟩, if_neg (fun h => hne h.1)]
      ring
    · rw [if_neg h2, if_neg (fun h => h2 ⟨h.1, h.2.1⟩), if_neg (fun h => h1 ⟨h.1, h.2.1⟩)]

theorem sameShape_push (d1 : Dinic) (v cid tr r : Nat) (f : Int) :
    d1.SameShape ((d1.addFlow v cid f).addFlow tr r (-f)) :=
  sameShape_trans _ _ _ (sameShape_addFlow d1 v cid f) (sameShape_addFlow _ tr r (-f))

/-- Pushing `f` along the entry `cid` of `v` and `-f` along its paired entry keeps the
flows feasible. -/
theorem flowOK_push (d1 : Dinic) (v cid tr r : Nat) (f : Int) (hok : d1.FlowOK)
    (hcid : cid < (d1.edges v).length) (htr : (d1.entry v cid).to_ = tr)
    (hrr : (d1.entry v cid).rev = r) (hne : tr ≠ v) (hf : 0 ≤ f)
    (hcap : (d1.entry v cid).flow + f ≤ (d1.entry v cid).capacity) :
    ((d1.addFlow v cid f).addFlow tr r (-f)).FlowOK := by
  have hne' : (d1.entry v cid).to_ ≠ v := by rw [htr]; exact hne
  have hpair := hok.pair v cid hcid hne'
  have hanti := hok.antisym v cid hcid hne'
  rw [htr, hrr] at hpair hanti
  obtain ⟨hr, hback, hrev⟩ := hpair
  have hsh := sameShape_push d1 v cid tr r f
  have hfl := flow_push d1 v cid tr r f hcid hr hne
  refine ⟨pairOK_of_shape _ _ hsh hok.pair, ?_, ?_, ?_⟩
  · apply capOK_addFlow
    · exact capOK_addFlow d1 v cid f hok.cap (fun _ => hcap)
    · intro _
      rw [capacity_addFlow, flow_addFlow, if_neg (fun h => hne h.1)]
      have := hok.cap _ _ hr
      omega
  · intro u j hj hto
    obtain ⟨hl, hfld⟩ := hsh.2.2 u
    rw [hl] at hj
    obtain ⟨a1, _, a3⟩ := hfld j
    rw [a1] at hto
    rw [a1, a3, hfl, hfl]
    obtain ⟨q1, q2, q3⟩ := hok.pair u j hj hto
    have hq := hok.antisym u j hj hto
    by_cases h1 : u = v ∧ j = cid
    · have ha : (d1.entry u j).to_ = tr := by rw [h1.1, h1.2]; exact htr
      have hb : (d1.entry u j).rev = r := by rw [h1.1, h1.2]; exact hrr
      rw [ha, hb, if_neg (fun h => hne h.1), if_pos ⟨rfl, rfl⟩, if_pos h1]
      omega
    · by_cases h2 : u = tr ∧ j = r
      · have ha : (d1.entry u j).to_ = v := by rw [h2.1, h2.2]; exact hback
        have hb : (d1.entry u j).rev = cid := by rw [h2.1, h2.2]; exact hrev
        rw [ha, hb, if_pos ⟨rfl, rfl⟩, if_neg h1, if_pos h2]
        omega
      · have n1 : ¬ ((d1.entry u j).to_ = v ∧ (d1.entry u j).rev = cid) := by
          rintro ⟨e1, e2⟩
          rw [e1, e2, htr] at q2
          rw [e1, e2, hrr] at q3
          exact h2 ⟨q2.symm, q3.symm⟩
        have n2 : ¬ ((d1.entry u j).to_ = tr ∧ (d1.entry u j).rev = r) := by
          rintro ⟨e1, e2⟩
          rw [e1, e2, hback] at q2
          rw [e1, e2, hrev] at q3
          exact h1 ⟨q2.symm, q3.symm⟩
        rw [if_neg n1, if_neg n2, if_neg h1, if_neg h2]
        exact hq
  · intro u j hj hto
    obtain ⟨hl, hfld⟩ := hsh.2.2 u
    rw [hl] at hj
    rw [(hfld j).1] at hto
    rw [hfl]
    have n1 : ¬ (u = v ∧ j = cid) := by
      rintro ⟨e1, e2⟩
      rw [e1, e2, htr] at hto
      exact hne hto
    have n2 : ¬ (u = tr ∧ j = r) := by
      rintro ⟨e1, e2⟩
      rw [e1, e2, hback] at hto
      exact hne hto.symm
    rw [if_neg n1, if_neg n2]
    exact hok.selfzero u j hj hto

/-! ## Every call of `dfs` is a flow step -/

theorem flowStep_zero (d : Dinic) (v t : Nat) (pushed : Int) (hok : d.FlowOK)
    (hp : 0 ≤ pushed) : FlowStep d d v t pushed 0 :=
  ⟨le_refl _, hp, sameShape_refl d, rfl, hok, fun c φ _ => by ring, fun _ _ => Or.inl rfl⟩

theorem flowStep_target (d : Dinic) (t : Nat) (pushed : Int) (hok : d.FlowOK)
    (hp : 0 ≤ pushed) : FlowStep d d t t pushed pushed :=
  ⟨hp, le_refl _, sameShape_refl d, rfl, hok, fun c φ _ => by ring, fun _ _ => Or.inl rfl⟩

theorem edges_of_adj_eq (d d' : Dinic) (h : d'.adj = d.adj) (v : Nat) :
    d'.edges v = d.edges v := by
  unfold Dinic.edges; rw [h]

theorem entry_of_adj_eq (d d' : Dinic) (h : d'.adj = d.adj) (v i : Nat) :
    d'.entry v i = d.entry v i := by
  unfold Dinic.entry; rw [edges_of_adj_eq d d' h]

theorem wsum_of_adj_eq (d d' : Dinic) (h : d'.adj = d.adj) (c : Nat → Nat → Int) :
    d'.wsum c = d.wsum c := by
  unfold Dinic.wsum Dinic.esum
  rw [h]
  congr 1
  apply List.map_congr_left
  intro v _
  rw [edges_of_adj_eq d d' h]

theorem lvl_of_level_eq (d d' : Dinic) (h : d'.level = d.level) (v : Nat) :
    d'.lvl v = d.lvl v := by
  unfold Dinic.lvl; rw [h]

theorem sameShape_of_adj_eq (d d' : Dinic) (h : d'.adj = d.adj) (hn : d'.n = d.n) :
    d.SameShape d' :=
  ⟨hn, by rw [h], fun v => ⟨by rw [edges_of_adj_eq d d' h], fun i => by
    rw [entry_of_adj_eq d d' h]; exact ⟨rfl, rfl, rfl⟩⟩⟩

theorem flowOK_of_adj_eq (d d' : Dinic) (h : d'.adj = d.adj) (hok : d.FlowOK) : d'.FlowOK := by
  have he := edges_of_adj_eq d d' h
  have hn := entry_of_adj_eq d d' h
  refine ⟨?_, ?_, ?_, ?_⟩
  · intro v i hi hto
    rw [he] at hi
    rw [hn] at hto
    simp only [hn, he]
    exact hok.pair v i hi hto
  · intro v i hi
    rw [he] at hi
    rw [hn]
    exact hok.cap v i hi
  · intro v i hi hto
    rw [he] at hi
    rw [hn] at hto
    simp only [hn]
    exact hok.antisym v i hi hto
  · intro v i hi hto
    rw [he] at hi
    rw [hn] at hto ⊢
    exact hok.selfzero v i hi hto

/-- A change of the cursors before a flow step does not matter. -/
theorem flowStep_ptr (d d' d2 : Dinic) (v t : Nat) (p f : Int) (hadj : d'.adj = d.adj)
    (hlev : d'.level = d.level) (hn : d'.n = d.n) (h : FlowStep d' d2 v t p f) :
    FlowStep d d2 v t p f := by
  refine ⟨h.f_nonneg, h.f_le, sameShape_trans _ _ _ (sameShape_of_adj_eq d d' hadj hn) h.shape,
    h.level_eq.trans hlev, h.ok, fun c φ hc => ?_, fun u j => ?_⟩
  · rw [h.track c φ hc, wsum_of_adj_eq d d' hadj]
  · have := h.delta u j
    simp only [entry_of_adj_eq d d' hadj, lvl_of_level_eq d d' hlev] at this
    exact this

/-- A call that returned `0` changed no flow, so a flow step after it is a flow step
from the state before it. -/
theorem flowStep_after_zero (d d1 d2 : Dinic) (v tr t : Nat) (p pushed f : Int)
    (h0 : FlowStep d d1 tr t p 0) (h : FlowStep d1 d2 v t pushed f) :
    FlowStep d d2 v t pushed f := by
  have hflow : ∀ u j, (d1.entry u j).flow = (d.entry u j).flow := by
    intro u j
    rcases h0.delta u j with e | ⟨e | e, _⟩
    · exact e
    · rw [e]; ring
    · rw [e]; ring
  refine ⟨h.f_nonneg, h.f_le, sameShape_trans _ _ _ h0.shape h.shape,
    h.level_eq.trans h0.level_eq, h.ok, fun c φ hc => ?_, fun u j => ?_⟩
  · rw [h.track c φ hc, h0.track c φ hc]
    ring
  · have := h.delta u j
    rw [hflow u j, lvl_of_level_eq d d1 h0.level_eq, lvl_of_level_eq d d1 h0.level_eq,
      lvl_of_level_eq d d1 h0.level_eq, ((h0.shape.2.2 u).2 j).1] at this
    exact this

/-- The successful branch of the `dfs` loop: after the recursive call pushed `f` from
`tr` to `t`, adding `f` on the entry `v → tr` and `-f` on its paired entry pushes `f`
from `v` to `t`. -/
theorem flowStep_push (d d1 : Dinic) (v t : Nat) (pushed f : Int) (hok : d.FlowOK)
    (hlt : d.cur v < (d.edges v).length)
    (hlv : d.lvl v + 1 = d.lvl (d.entry v (d.cur v)).to_)
    (hsub : FlowStep d d1 (d.entry v (d.cur v)).to_ t
      (min pushed ((d.entry v (d.cur v)).capacity - (d.entry v (d.cur v)).flow)) f) :
    FlowStep d ((d1.addFlow v (d.cur v) f).addFlow (d.entry v (d.cur v)).to_
      ((d1.addFlow v (d.cur v) f).entry v (d.cur v)).rev (-f)) v t pushed f := by
  have hne : (d.entry v (d.cur v)).to_ ≠ v := by
    intro h; rw [h] at hlv; omega
  obtain ⟨hr, hback, _⟩ := hok.pair v (d.cur v) hlt hne
  obtain ⟨hl1, hf1⟩ := hsub.shape.2.2 v
  obtain ⟨s1, s2, s3⟩ := hf1 (d.cur v)
  obtain ⟨hl2, hf2⟩ := hsub.shape.2.2 (d.entry v (d.cur v)).to_
  have hcid1 : d.cur v < (d1.edges v).length := by rw [hl1]; exact hlt
  have hr1 : (d.entry v (d.cur v)).rev < (d1.edges (d.entry v (d.cur v)).to_).length := by
    rw [hl2]; exact hr
  rw [rev_addFlow, s3]
  have hkeep1 : (d1.entry v (d.cur v)).flow = (d.entry v (d.cur v)).flow := by
    rcases hsub.delta v (d.cur v) with e | ⟨_, h1, _⟩
    · exact e
    · omega
  have hkeep2 : (d1.entry (d.entry v (d.cur v)).to_ (d.entry v (d.cur v)).rev).flow =
      (d.entry (d.entry v (d.cur v)).to_ (d.entry v (d.cur v)).rev).flow := by
    rcases hsub.delta (d.entry v (d.cur v)).to_ (d.entry v (d.cur v)).rev with e | ⟨_, _, h2⟩
    · exact e
    · rw [hback] at h2; omega
  have hfle := hsub.f_le
  have hcap : (d1.entry v (d.cur v)).flow + f ≤ (d1.entry v (d.cur v)).capacity := by
    rw [hkeep1, s2]
    have := min_le_right pushed ((d.entry v (d.cur v)).capacity - (d.entry v (d.cur v)).flow)
    omega
  have hfl := flow_push d1 v (d.cur v) (d.entry v (d.cur v)).to_ (d.entry v (d.cur v)).rev f
    hcid1 hr1 hne
  refine ⟨hsub.f_nonneg, le_trans hfle (min_le_left _ _),
    sameShape_trans _ _ _ hsub.shape (sameShape_push d1 _ _ _ _ f), hsub.level_eq,
    flowOK_push d1 v (d.cur v) _ _ f hsub.ok hcid1 s1 s3 hne hsub.f_nonneg hcap,
    fun c φ hc => ?_, fun u j => ?_⟩
  · rw [wsum_addFlow _ c _ _ _ (by rw [length_edges_addFlow]; exact hr1), to_addFlow,
      wsum_addFlow _ c _ _ _ hcid1, s1, ((hf2 _).1), hback, hsub.track c φ hc]
    have := hc v (d.entry v (d.cur v)).to_
    linear_combination f * this
  · rw [hfl]
    by_cases h1 : u = v ∧ j = d.cur v
    · rw [if_pos h1, hkeep1, h1.1, h1.2]
      exact Or.inr ⟨Or.inl rfl, le_refl _, by omega⟩
    · by_cases h2 : u = (d.entry v (d.cur v)).to_ ∧ j = (d.entry v (d.cur v)).rev
      · rw [if_neg h1, if_pos h2, hkeep2, h2.1, h2.2, hback]
        exact Or.inr ⟨Or.inr rfl, by omega, le_refl _⟩
      · rw [if_neg h1, if_neg h2]
        rcases hsub.delta u j with e | ⟨e, a, b⟩
        · exact Or.inl e
        · exact Or.inr ⟨e, by omega, by omega⟩

theorem dfsLoop_flowStep (t : Nat) (rc : Dinic → Nat → Int → Option (Int × Dinic))
    (hrc : ∀ (d1 : Dinic) (tr : Nat) (p f : Int) (d2 : Dinic), d1.FlowOK → 0 ≤ p →
      rc d1 tr p = some (f, d2) → FlowStep d1 d2 tr t p f)
    (v : Nat) (pushed : Int) (hp : 0 ≤ pushed) :
    ∀ (k : Nat) (d : Dinic) (f : Int) (d2 : Dinic), d.FlowOK →
      dfsLoop rc v pushed k d = some (f, d2) → FlowStep d d2 v t pushed f := by
  intro k
  induction k with
  | zero => intro d f d2 _ h; simp [dfsLoop] at h
  | succ k ih =>
    intro d f d2 hok h
    unfold dfsLoop at h
    split at h
    · rename_i hlt
      split at h
      · exact flowStep_ptr d (d.incPtr v) d2 v t pushed f rfl rfl rfl
          (ih (d.incPtr v) f d2 (flowOK_of_adj_eq d (d.incPtr v) rfl hok) h)
      · rename_i hskip
        have hlv : d.lvl v + 1 = d.lvl (d.entry v (d.cur v)).to_ := by
          by_contra hc; exact hskip (Or.inl hc)
        have hcap := hok.cap v (d.cur v) hlt
        have hp' : 0 ≤ min pushed
            ((d.entry v (d.cur v)).capacity - (d.entry v (d.cur v)).flow) :=
          le_min hp (by omega)
        split at h
        · exact absurd h (by simp)
        · rename_i tr_pushed d1 hr
          have hsub := hrc d _ _ tr_pushed d1 hok hp' hr
          split at h
          · rename_i hz
            rw [hz] at hsub
            exact flowStep_after_zero d d1 d2 v _ t _ pushed f hsub
              (flowStep_ptr d1 (d1.incPtr v) d2 v t pushed f rfl rfl rfl
                (ih (d1.incPtr v) f d2 (flowOK_of_adj_eq d1 (d1.incPtr v) rfl hsub.ok) h))
          · simp only [Option.some.injEq, Prod.mk.injEq] at h
            obtain ⟨h1, h2⟩ := h
            rw [← h1, ← h2]
            exact flowStep_push d d1 v t pushed tr_pushed hok hlt hlv hsub
    · simp only [Option.some.injEq, Prod.mk.injEq] at h
      obtain ⟨h1, h2⟩ := h
      rw [← h1, ← h2]
      exact flowStep_zero d v t pushed hok hp

/-- Every call `dfs(v, t, pushed)` with `pushed >= 0` that returns, started in a state with
feasible flows, is a flow step. -/
theorem dfs_flowStep (t : Nat) :
    ∀ (fuel : Nat) (d : Dinic) (v : Nat) (pushed f : Int) (d2 : Dinic), d.FlowOK →
      0 ≤ pushed → d.dfs fuel v t pushed = some (f, d2) → FlowStep d d2 v t pushed f := by
  intro fuel
  induction fuel with
  | zero => intro d v pushed f d2 _ _ h; simp [Dinic.dfs] at h
  | succ fuel ih =>
    intro d v pushed f d2 hok hp h
    unfold Dinic.dfs at h
    split at h
    · rename_i hz
      simp only [Option.some.injEq, Prod.mk.injEq] at h
      rw [← h.1, ← h.2]
      exact flowStep_zero d v t pushed hok hp
    · split at h
      · rename_i hvt
        simp only [Option.some.injEq, Prod.mk.injEq] at h
        rw [← h.1, ← h.2, hvt]
        exact flowStep_target d t pushed hok hp
      · exact dfsLoop_flowStep t _ (fun d1 tr p f1 d3 hok1 hp1 hr =>
          ih d1 tr p f1 d3 hok1 hp1 hr) v pushed hp (fuel + 1) d f d2 hok h

/-! ## The flow invariants along `max_flow` -/

theorem isFlow_of_adj_eq (d d' : Dinic) (s t : Nat) (val : Int) (h : d'.adj = d.adj)
    (hf : d.IsFlow s t val) : d'.IsFlow s t val := by
  refine ⟨flowOK_of_adj_eq d d' h hf.ok, fun c φ hc => ?_, fun v i hi => ?_⟩
  · rw [wsum_of_adj_eq d d' h]; exact hf.track c φ hc
  · rw [edges_of_adj_eq d d' h] at hi
    rw [entry_of_adj_eq d d' h]
    exact hf.bound v i hi

/-- A flow step from `s` turns a flow of value `val` into a flow of value `val + f`. -/
theorem isFlow_step (d d2 : Dinic) (s t : Nat) (val pushed f : Int) (hf : d.IsFlow s t val)
    (h : FlowStep d d2 s t pushed f) : d2.IsFlow s t (val + f) := by
  refine ⟨h.ok, fun c φ hc => ?_, fun v i hi => ?_⟩
  · rw [h.track c φ hc, hf.track c φ hc]; ring
  · rw [(h.shape.2.2 v).1] at hi
    obtain ⟨b1, b2⟩ := hf.bound v i hi
    have hn := h.f_nonneg
    rcases h.delta v i with e | ⟨e | e, _⟩ <;> rw [e] <;> constructor <;> omega

theorem bfs_adj (d d1 : Dinic) (fuel s t : Nat) (b : Bool)
    (h : d.bfs fuel s t = some (b, d1)) : d1.adj = d.adj := by
  unfold Dinic.bfs at h
  split at h
  · exact absurd h (by simp)
  · simp only [Option.some.injEq, Prod.mk.injEq] at h
    rw [← h.2]

theorem INF_nonneg : 0 ≤ INF := le_of_lt INF_pos

theorem augmentLoop_isFlow (fuel s t : Nat) :
    ∀ (k : Nat) (d : Dinic) (flow flow1 : Int) (d1 : Dinic), d.IsFlow s t flow →
      augmentLoop fuel s t k d flow = some (flow1, d1) → d1.IsFlow s t flow1 := by
  intro k
  induction k with
  | zero => intro d flow flow1 d1 _ h; simp [augmentLoop] at h
  | succ k ih =>
    intro d flow flow1 d1 hf h
    unfold augmentLoop at h
    split at h
    · exact absurd h (by simp)
    · rename_i pushed d2 hd
      have hstep := dfs_flowStep t fuel d s INF pushed d2 hf.ok INF_nonneg hd
      have hf2 := isFlow_step d d2 s t flow INF pushed hf hstep
      split at h
      · rename_i hz
        simp only [Option.some.injEq, Prod.mk.injEq] at h
        rw [← h.1, ← h.2]
        rw [hz, add_zero] at hf2
        exact hf2
      · exact ih d2 (flow + pushed) flow1 d1 hf2 h

theorem phaseLoop_isFlow (fuel s t : Nat) :
    ∀ (k : Nat) (d : Dinic) (flow flow1 : Int) (d1 : Dinic), d.IsFlow s t flow →
      phaseLoop fuel s t k d flow = some (flow1, d1) → d1.IsFlow s t flow1 := by
  intro k
  induction k with
  | zero => intro d flow flow1 d1 _ h; simp [phaseLoop] at h
  | succ k ih =>
    intro d flow flow1 d1 hf h
    unfold phaseLoop at h
    cases hb : d.bfs fuel s t with
    | none => rw [hb] at h; exact absurd h (by simp)
    | some r =>
      obtain ⟨b, d'⟩ := r
      rw [hb] at h
      have hf' := isFlow_of_adj_eq d d' s t flow (bfs_adj d d' fuel s t b hb) hf
      cases b with
      | false =>
        simp only [Option.some.injEq, Prod.mk.injEq] at h
        rw [← h.1, ← h.2]
        exact hf'
      | true =>
        simp only at h
        split at h
        · exact absurd h (by simp)
        · rename_i fl d2 ha
          have hf2 := augmentLoop_isFlow fuel s t fuel _ flow fl d2
            (isFlow_of_adj_eq d' { d' with ptr := List.replicate d'.ptr.length 0 } s t flow
              rfl hf') ha
          exact ih d2 fl flow1 d1 hf2 h

/-- Whatever `max_flow(s, t)` returns on a network built from valid edges is a flow of
the returned value. -/
theorem max_flow_isFlow (n : Nat) (es : List (Nat × Nat × Int)) (hv : ValidEdges n es)
    (s t fuel : Nat) (val : Int) (d1 : Dinic)
    (h : (build n es).max_flow fuel s t = some (val, d1)) : d1.IsFlow s t val :=
  phaseLoop_isFlow fuel s t fuel (build n es) 0 val d1 (isFlow_build n es hv s t).1 h

/-! ## Termination of `max_flow` -/

/-- C15: on a network built from valid edges (node indices in range, non-negative integer
capacities) with `s ≠ t`, `max_flow(s, t)` terminates: with any fuel of at least
`fuelBound` (a bound on the iterations of the inner and of the outer loop) it returns.
The state it returns is the one left by a `bfs` that reported `false`, so `level[t] == -1`
there; and whenever `bfs` reports `false` the outer loop stops at once with the flow
accumulated so far. In the inner loop, an augmentation `dfs(s, t, INF)` from a state that
carries a flow of value `v` returns `f ≥ 0`, ends the loop when `f = 0`, and otherwise
leaves a flow of value `v + f`, which never exceeds the total capacity of the edges out of
`s`: so the augmentations that push a positive amount are at most that many. -/
theorem max_flow_terminates (n : Nat) (es : List (Nat × Nat × Int)) (s t : Nat)
    (hv : ValidEdges n es) (hs : s < n) (ht : t < n) (hst : s ≠ t) :
    ∃ val d1,
      (∀ fuel, (build n es).fuelBound s ≤ fuel →
        (build n es).max_flow fuel s t = some (val, d1) ∧
        ∃ d0 : Dinic, d0.bfs fuel s t = some (false, d1)) ∧
      d1.lvl t = -1 ∧
      (∀ (fuel k : Nat) (d : Dinic) (flow : Int) (d2 : Dinic),
        d.bfs fuel s t = some (false, d2) →
        phaseLoop fuel s t (k + 1) d flow = some (flow, d2)) ∧
      ∀ (fuel k : Nat) (d : Dinic) (v flow f : Int) (d2 : Dinic),
        (build n es).SameShape d → d.IsFlow s t v → d.dfs fuel s t INF = some (f, d2) →
        0 ≤ f ∧ (build n es).SameShape d2 ∧ d2.IsFlow s t (v + f) ∧
          v + f ≤ (build n es).capSum (cutCoef (onlyNode s)) ∧
          (f = 0 → augmentLoop fuel s t (k + 1) d flow = some (flow, d2)) ∧
          (f ≠ 0 → augmentLoop fuel s t (k + 1) d flow =
            augmentLoop fuel s t k d2 (flow + f)) := by
  obtain ⟨val, d1, cut, hrun, _⟩ := flow_cut_spec n es s t hv hs ht hst
  have hstop : ∀ fuel, (build n es).fuelBound s ≤ fuel →
      ∃ d0 : Dinic, d0.bfs fuel s t = some (false, d1) := fun fuel hf =>
    phaseLoop_stop fuel s t fuel (build n es) 0 val d1 (hrun fuel hf).1
  refine ⟨val, d1, fun fuel hf => ⟨(hrun fuel hf).1, hstop fuel hf⟩, ?_, ?_, ?_⟩
  · obtain ⟨d0, h0⟩ := hstop _ (le_refl _)
    exact bfs_false_level d0 d1 _ s t h0
  · intro fuel k d flow d2 hb
    unfold phaseLoop
    rw [hb]
  · intro fuel k d v flow f d2 hsh hfl hd
    have hstep := dfs_flowStep t fuel d s INF f d2 hfl.ok INF_nonneg hd
    have hsh2 := sameShape_trans _ _ _ hsh hstep.shape
    have hfl2 := isFlow_step d d2 s t v INF f hfl hstep
    have hwd := weak_duality d2 s t (v + f) (onlyNode s) hfl2.ok.cap hfl2.track
      (by simp [onlyNode]) (by simp [onlyNode, Ne.symm hst])
    rw [capSum_shape _ d2 hsh2] at hwd
    refine ⟨hstep.f_nonneg, hsh2, hfl2, hwd, fun h0 => ?_, fun h0 => ?_⟩
    · simp only [augmentLoop, hd]
      rw [if_pos h0]
    · simp only [augmentLoop, hd]
      rw [if_neg h0]

theorem max_flow_terminates_witness :
    ∃ val d1,
      (∀ fuel, (build 3 [(0, 1, 3), (1, 2, 2), (0, 2, 1)]).fuelBound 0 ≤ fuel →
        (build 3 [(0, 1, 3), (1, 2, 2), (0, 2, 1)]).max_flow fuel 0 2 = some (val, d1) ∧
        ∃ d0 : Dinic, d0.bfs fuel 0 2 = some (false, d1)) ∧
      d1.lvl 2 = -1 ∧
      (∀ (fuel k : Nat) (d : Dinic) (flow : Int) (d2 : Dinic),
        d.bfs fuel 0 2 = some (false, d2) →
        phaseLoop fuel 0 2 (k + 1) d flow = some (flow, d2)) ∧
      ∀ (fuel k : Nat) (d : Dinic) (v flow f : Int) (d2 : Dinic),
        (build 3 [(0, 1, 3), (1, 2, 2), (0, 2, 1)]).SameShape d → d.IsFlow 0 2 v →
        d.dfs fuel 0 2 INF = some (f, d2) →
        0 ≤ f ∧ (build 3 [(0, 1, 3), (1, 2, 2), (0, 2, 1)]).SameShape d2 ∧
          d2.IsFlow 0 2 (v + f) ∧
          v + f ≤ (build 3 [(0, 1, 3), (1, 2, 2), (0, 2, 1)]).capSum (cutCoef (onlyNode 0)) ∧
          (f = 0 → augmentLoop fuel 0 2 (k + 1) d flow = some (flow, d2)) ∧
          (f ≠ 0 → augmentLoop fuel 0 2 (k + 1) d flow =
            augmentLoop fuel 0 2 k d2 (flow + f)) :=
  max_flow_terminates 3 [(0, 1, 3), (1, 2, 2), (0, 2, 1)] 0 2 validEdges_example
    (by decide) (by decide) (by decide)

/-! ## Flow conservation and capacity feasibility -/

/-- In a state of the same shape as the built network that carries a feasible flow, every
added edge between two different nodes has its forward entry with a flow `0 <= f <= c`
and its reverse entry with flow `-f`. -/
theorem hasEdge_of_shape (d0 d : Dinic) (hs : d0.SameShape d) (hok : d.FlowOK)
    (frm to_ : Nat) (c : Int) (hne : frm ≠ to_) (h : d0.HasEdge frm to_ c 0) :
    ∃ f, d.HasEdge frm to_ c f ∧ 0 ≤ f ∧ f ≤ c := by
  obtain ⟨i, j, hi, hj, h1, h2⟩ := h
  obtain ⟨hl1, hf1⟩ := hs.2.2 frm
  obtain ⟨hl2, hf2⟩ := hs.2.2 to_
  obtain ⟨a1, a2, a3⟩ := hf1 i
  obtain ⟨b1, b2, b3⟩ := hf2 j
  rw [h1] at a1 a2 a3
  rw [h2] at b1 b2 b3
  simp only at a1 a2 a3 b1 b2 b3
  have hi' : i < (d.edges frm).length := by rw [hl1]; exact hi
  have hj' : j < (d.edges to_).length := by rw [hl2]; exact hj
  have hto : (d.entry frm i).to_ ≠ frm := by rw [a1]; exact fun h => hne h.symm
  have hanti := hok.antisym frm i hi' hto
  rw [a1, a3] at hanti
  have hc1 := hok.cap frm i hi'
  have hc2 := hok.cap to_ j hj'
  rw [a2] at hc1
  rw [b2, hanti] at hc2
  refine ⟨(d.entry frm i).flow, ⟨i, j, hi', hj', ?_, ?_⟩, by omega, hc1⟩
  · cases he : d.entry frm i with
    | mk x1 x2 x3 x4 =>
      rw [he] at a1 a2 a3
      simp only at a1 a2 a3
      rw [a1, a2, a3]
  · cases he : d.entry to_ j with
    | mk x1 x2 x3 x4 =>
      rw [he] at b1 b2 b3 hanti
      simp only at b1 b2 b3 hanti
      rw [b1, b2, b3, hanti]

/-- C16: for the flow network built inside `solve(nodes, L, R)` (with fewer than `INF`
active edges) and any split value, `max_flow(S, T)` returns a value between `0` and the
number of active edges `|nodes|`, hence below `INF`; in the state it leaves, every
adjacency entry of capacity `INF` carries a flow strictly below `INF`, so it keeps a
positive residual capacity and never goes from the source side to the sink side of the
cut found by `get_cut`; every constraint between two active edges (mapped to two
different nodes) has such a forward entry; and the same bounds hold in every state of the
network that carries a flow (as every state between two augmentations does): its value is
at most `|nodes|` and no entry carries `INF` or more. -/
theorem constraint_edges_unsaturated (g : Globals) (nodes : List Nat) (val : Int)
    (hlen : (nodes.length : Int) < INF) :
    ∃ flow d cut F,
      (∀ fuel, F ≤ fuel →
        (build_network g nodes val).max_flow fuel nodes.length (nodes.length + 1)
          = some (flow, d) ∧
        d.get_cut fuel nodes.length = some cut) ∧
      0 ≤ flow ∧ flow ≤ (nodes.length : Int) ∧ flow < INF ∧
      (∀ u i, i < (d.edges u).length → (d.entry u i).capacity = INF →
        (d.entry u i).flow < INF ∧ 0 < (d.entry u i).capacity - (d.entry u i).flow ∧
        ¬ (cut.getD u false = true ∧ cut.getD (d.entry u i).to_ false = false)) ∧
      (∀ p ∈ g.constraints, p.1 ∈ nodes → p.2 ∈ nodes →
        map_get (build_node_map nodes) p.1 ≠ map_get (build_node_map nodes) p.2 →
        ∃ f, d.HasEdge (map_get (build_node_map nodes) p.1)
          (map_get (build_node_map nodes) p.2) INF f ∧ 0 ≤ f ∧ f < INF) ∧
      ∀ (d' : Dinic) (v : Int), (build_network g nodes val).SameShape d' →
        d'.IsFlow nodes.length (nodes.length + 1) v →
        v ≤ (nodes.length : Int) ∧
          ∀ u i, i < (d'.edges u).length → (d'.entry u i).flow < INF := by
  have hv := validEdges_network g nodes val
  obtain ⟨flow, d1, cut, hrun, hwf1, hcap1, hsh1, htr1, hnn, _, hcl, hiff⟩ :=
    flow_final (nodes.length + 2) (network_edges g nodes val) nodes.length (nodes.length + 1)
      hv (by omega) (by omega) (by omega)
  have hf1 := max_flow_isFlow _ _ hv nodes.length (nodes.length + 1) _ flow d1
    (hrun _ (le_refl _)).1
  obtain ⟨_, _, hn, hcs, _⟩ := build_props (nodes.length + 2) (network_edges g nodes val) hv
  have hn1 : d1.n = nodes.length + 2 := by rw [hsh1.1, hn]
  have hgen : ∀ (d' : Dinic) (v : Int),
      (build (nodes.length + 2) (network_edges g nodes val)).SameShape d' →
      d'.IsFlow nodes.length (nodes.length + 1) v → v ≤ (nodes.length : Int) := by
    intro d' v hs' hf'
    have h1 := weak_duality d' nodes.length (nodes.length + 1) v
      (cut_of nodes (fun _ => false)) hf'.ok.cap hf'.track (cut_of_S nodes _) (cut_of_T nodes _)
    rw [capSum_shape _ d' hs', hcs, cut_capacity_network,
      (violations_eq_zero_iff g nodes _).2 (fun _ _ _ _ h => Bool.noConfusion h)] at h1
    have h2 := mispricing_le_length g nodes val (fun _ => false)
    omega
  have hle : flow ≤ (nodes.length : Int) := hgen d1 flow hsh1 hf1
  have hentry : ∀ u i, i < (d1.edges u).length → (d1.entry u i).capacity = INF →
      (d1.entry u i).flow < INF ∧ 0 < (d1.entry u i).capacity - (d1.entry u i).flow ∧
      ¬ (cut.getD u false = true ∧ cut.getD (d1.entry u i).to_ false = false) := by
    intro u i hi hc
    have hb := (hf1.bound u i hi).1
    have hlt : (d1.entry u i).flow < INF := by omega
    refine ⟨hlt, by omega, ?_⟩
    rintro ⟨hu, hw⟩
    have hun : u < nodes.length + 2 := by
      have := lt_adj_of_lt_edges d1 u i hi
      rw [hwf1.adj_len, hn1] at this
      exact this
    have hwn : (d1.entry u i).to_ < nodes.length + 2 := by
      rw [← hn1]; exact hwf1.to_lt u i hi
    have hreach := (hiff u hun).1 hu
    have hres : d1.Res u (d1.entry u i).to_ := ⟨i, hi, rfl, by omega⟩
    have := (hiff _ hwn).2 (Relation.ReflTransGen.tail hreach hres)
    rw [this] at hw
    exact Bool.noConfusion hw
  have hlt : flow < INF := by omega
  refine ⟨flow, d1, cut,
    (build (nodes.length + 2) (network_edges g nodes val)).fuelBound nodes.length,
    fun fuel hf => ?_, hnn, hle, hlt, hentry, ?_, ?_⟩
  · rw [build_network_eq]
    exact hrun fuel hf
  · intro p hp h1 h2 hne
    have hmem : (map_get (build_node_map nodes) p.1, map_get (build_node_map nodes) p.2, INF)
        ∈ network_edges g nodes val := by
      unfold network_edges
      apply List.mem_append_right
      rw [List.mem_filterMap]
      refine ⟨p, hp, ?_⟩
      unfold cons_edge
      rw [if_pos ⟨(map_count_iff nodes p.1).2 h1, (map_count_iff nodes p.2).2 h2⟩]
    obtain ⟨f, hedge, hf0, _⟩ := hasEdge_of_shape _ d1 hsh1 hf1.ok _ _ INF hne
      ((isFlow_build _ _ hv nodes.length (nodes.length + 1)).2 _ hmem hne)
    obtain ⟨i, j, hi, _, he, _⟩ := hedge
    have hb := (hentry _ i hi (by rw [he])).1
    rw [he] at hb
    exact ⟨f, ⟨i, j, hi, by assumption, he, by assumption⟩, hf0, hb⟩
  · intro d' v hs' hf'
    rw [build_network_eq] at hs'
    have hv' := hgen d' v hs' hf'
    exact ⟨hv', fun u i hi => by have := (hf'.bound u i hi).1; omega⟩

theorem constraint_edges_unsaturated_witness :
    ∃ flow d cut F,
      (∀ fuel, F ≤ fuel →
        (build_network scenario_globals [0, 1, 2, 3] 3).max_flow fuel 4 5 = some (flow, d) ∧
        d.get_cut fuel 4 = some cut) ∧
      0 ≤ flow ∧ flow ≤ 4 ∧ flow < INF ∧
      (∀ u i, i < (d.edges u).length → (d.entry u i).capacity = INF →
        (d.entry u i).flow < INF ∧ 0 < (d.entry u i).capacity - (d.entry u i).flow ∧
        ¬ (cut.getD u false = true ∧ cut.getD (d.entry u i).to_ false = false)) ∧
      (∀ p ∈ scenario_globals.constraints, p.1 ∈ [0, 1, 2, 3] → p.2 ∈ [0, 1, 2, 3] →
        map_get (build_node_map [0, 1, 2, 3]) p.1 ≠ map_get (build_node_map [0, 1, 2, 3]) p.2 →
        ∃ f, d.HasEdge (map_get (build_node_map [0, 1, 2, 3]) p.1)
          (map_get (build_node_map [0, 1, 2, 3]) p.2) INF f ∧ 0 ≤ f ∧ f < INF) ∧
      ∀ (d' : Dinic) (v : Int), (build_network scenario_globals [0, 1, 2, 3] 3).SameShape d' →
        d'.IsFlow 4 5 v →
        v ≤ 4 ∧ ∀ u i, i < (d'.edges u).length → (d'.entry u i).flow < INF :=
  constraint_edges_unsaturated scenario_globals [0, 1, 2, 3] 3 (by decide)

/-! ## The split steps of the whole recursion and the total cost -/

/-- The claim C17 as stated fails on the concrete scenario (a well-formed instance): the
edge `1-4` (id 3, weight 1) is placed against its preference by one split step only, while
`|final_weights[3] - w_3| = |5 - 1| = 4`; and the `max_flow` values of the three split
steps sum to `2`, while the total cost is `7`. -/
theorem mispriced_splits_not_cost :
    WellFormed scenario ∧
    (run 7 scenario).bind (fun r =>
      (solve_splits r.1 7 (List.range r.1.all_edges.length) 0
        ((r.1.distinct_weights.length : Int) - 1)).map (fun log =>
          (against_count r.1 log 3, |r.2.final_weights.getD 3 0 - r.1.weight 3|,
            flow_total log, total_cost r.1.all_edges r.2.final_weights)))
      = some (1, 4, 2, 7) :=
  ⟨wellFormed_scenario, by decide⟩

theorem against_count_cons (g : Globals) (r : SplitRec) (log : List SplitRec) (i : Nat) :
    against_count g (r :: log) i = against g r i + against_count g log i := by
  unfold against_count
  rw [List.map_cons, List.sum_cons]

theorem against_count_append (g : Globals) (a b : List SplitRec) (i : Nat) :
    against_count g (a ++ b) i = against_count g a i + against_count g b i := by
  unfold against_count
  rw [List.map_append, List.sum_append]

theorem flow_total_cons (r : SplitRec) (log : List SplitRec) :
    flow_total (r :: log) = r.flow + flow_total log := by
  unfold flow_total
  rw [List.map_cons, List.sum_cons]

theorem flow_total_append (a b : List SplitRec) :
    flow_total (a ++ b) = flow_total a + flow_total b := by
  unfold flow_total
  rw [List.map_append, List.sum_append]

theorem against_range (g : Globals) (r : SplitRec) (i : Nat) :
    0 ≤ against g r i ∧ against g r i ≤ 1 := by
  unfold against
  split <;> constructor <;> decide

theorem against_count_nonneg (g : Globals) (log : List SplitRec) (i : Nat) :
    0 ≤ against_count g log i := by
  unfold against_count
  apply List.sum_nonneg
  intro x hx
  obtain ⟨r, _, hr⟩ := List.mem_map.1 hx
  rw [← hr]
  exact (against_range g r i).1

theorem against_count_eq_zero (g : Globals) (log : List SplitRec) (i : Nat)
    (h : ∀ r ∈ log, i ∉ r.left ∧ i ∉ r.right) : against_count g log i = 0 := by
  unfold against_count
  apply List.sum_eq_zero
  intro x hx
  obtain ⟨r, hr, hx2⟩ := List.mem_map.1 hx
  rw [← hx2]
  unfold against
  rw [if_neg]
  rintro (⟨a, _⟩ | ⟨a, _⟩)
  · exact (h r hr).1 a
  · exact (h r hr).2 a

theorem dw_lt_iff (g : Globals) (hg : g.Good) (i j : Nat)
    (hi : i < g.distinct_weights.length) (hj : j < g.distinct_weights.length) :
    g.dw i < g.dw j ↔ i < j := by
  constructor
  · intro h
    by_contra hc
    have := dw_le g hg j i (by omega) hi
    omega
  · intro h
    exact dw_lt g hg i j h hj

theorem dw_inj (g : Globals) (hg : g.Good) (i j : Nat)
    (hi : i < g.distinct_weights.length) (hj : j < g.distinct_weights.length)
    (h : g.dw i = g.dw j) : i = j := by
  by_contra hc
  rcases Nat.lt_or_gt_of_ne hc with h1 | h1
  · have := dw_lt g hg i j h1 hj; omega
  · have := dw_lt g hg j i h1 hi; omega

/-- In a strictly increasing list of integers, values are at least as far apart as their
indices. -/
theorem dw_gap (g : Globals) (hg : g.Good) (i : Nat) :
    ∀ d, i + d < g.distinct_weights.length → g.dw i + (d : Int) ≤ g.dw (i + d) := by
  intro d
  induction d with
  | zero => intro _; simp
  | succ d ih =>
    intro h
    have h1 := ih (by omega)
    have h2 := dw_lt g hg (i + d) (i + (d + 1)) (by omega) h
    push_cast
    omega

theorem solve_splits_nil (g : Globals) (fuel : Nat) (L R : Int) :
    solve_splits g (fuel + 1) [] L R = some [] := by
  simp [solve_splits]

/-! ## The log of the split steps of one call -/

theorem against_eq_mispriced (g : Globals) (nodes : List Nat) (val flow : Int)
    (hi : Nat → Bool) (i : Nat) (hmem : i ∈ nodes) :
    against g ⟨val, flow, nodes.filter (fun id => !hi id), nodes.filter hi⟩ i =
      mispriced g val hi i := by
  unfold against mispriced
  simp only
  apply if_congr _ rfl rfl
  constructor
  · rintro (⟨a, b⟩ | ⟨a, b⟩)
    · exact Or.inl ⟨b, by simpa using (List.mem_filter.1 a).2⟩
    · exact Or.inr ⟨b, (List.mem_filter.1 a).2⟩
  · rintro (⟨a, b⟩ | ⟨a, b⟩)
    · exact Or.inl ⟨List.mem_filter.2 ⟨hmem, by simp [b]⟩, a⟩
    · exact Or.inr ⟨List.mem_filter.2 ⟨hmem, b⟩, a⟩

theorem sum_map_eq_zero (l : List Nat) (f : Nat → Int) (h : ∀ i ∈ l, f i = 0) :
    (l.map f).sum = 0 := by
  apply List.sum_eq_zero
  intro x hx
  obtain ⟨i, hi, hx2⟩ := List.mem_map.1 hx
  rw [← hx2]; exact h i hi

theorem sum_map_add3 (l : List Nat) (f1 f2 f3 : Nat → Int) :
    (l.map (fun i => f1 i + (f2 i + f3 i))).sum =
      (l.map f1).sum + ((l.map f2).sum + (l.map f3).sum) := by
  induction l with
  | nil => simp
  | cons a l ih =>
    simp only [List.map_cons, List.sum_cons, ih]
    ring

/-- The total of the log of a splitting call, from the totals of the logs of its two
recursive calls. -/
theorem trace_total_step (g : Globals) (nodes : List Nat) (val flow : Int) (hi : Nat → Bool)
    (a b : List SplitRec)
    (hflow : flow = mispricing g nodes val hi)
    (ha : ∀ r ∈ a, (∀ i ∈ r.left, i ∈ nodes.filter (fun id => !hi id)) ∧
      (∀ i ∈ r.right, i ∈ nodes.filter (fun id => !hi id)))
    (hb : ∀ r ∈ b, (∀ i ∈ r.left, i ∈ nodes.filter hi) ∧ (∀ i ∈ r.right, i ∈ nodes.filter hi))
    (hta : flow_total a = ((nodes.filter (fun id => !hi id)).map (against_count g a)).sum)
    (htb : flow_total b = ((nodes.filter hi).map (against_count g b)).sum) :
    flow_total (⟨val, flow, nodes.filter (fun id => !hi id), nodes.filter hi⟩ :: (a ++ b)) =
      (nodes.map (against_count g
        (⟨val, flow, nodes.filter (fun id => !hi id), nodes.filter hi⟩ :: (a ++ b)))).sum := by
  have hperm : (nodes.filter (fun id => !hi id) ++ nodes.filter hi).Perm nodes :=
    List.perm_append_comm.trans (List.filter_append_perm hi nodes)
  have hza : ∀ i ∈ nodes.filter hi, against_count g a i = 0 := fun i hi1 =>
    against_count_eq_zero g a i (fun r hr =>
      ⟨fun h => filter_disjoint nodes hi i ((ha r hr).1 i h) hi1,
        fun h => filter_disjoint nodes hi i ((ha r hr).2 i h) hi1⟩)
  have hzb : ∀ i ∈ nodes.filter (fun id => !hi id), against_count g b i = 0 := fun i hi1 =>
    against_count_eq_zero g b i (fun r hr =>
      ⟨fun h => filter_disjoint nodes hi i hi1 ((hb r hr).1 i h),
        fun h => filter_disjoint nodes hi i hi1 ((hb r hr).2 i h)⟩)
  have hsa : (nodes.map (against_count g a)).sum = flow_total a := by
    rw [← (hperm.map _).sum_eq, List.map_append, List.sum_append, ← hta,
      sum_map_eq_zero _ _ hza, add_zero]
  have hsb : (nodes.map (against_count g b)).sum = flow_total b := by
    rw [← (hperm.map _).sum_eq, List.map_append, List.sum_append, ← htb,
      sum_map_eq_zero _ _ hzb, zero_add]
  have hs1 : (nodes.map (against g
      ⟨val, flow, nodes.filter (fun id => !hi id), nodes.filter hi⟩)).sum = flow := by
    rw [hflow]
    unfold mispricing
    congr 1
    apply List.map_congr_left
    intro i hmem
    rw [against_eq_mispriced g nodes val _ hi i hmem]
  rw [flow_total_cons, flow_total_append]
  have hfun : nodes.map (against_count g
      (⟨val, flow, nodes.filter (fun id => !hi id), nodes.filter hi⟩ :: (a ++ b))) =
      nodes.map (fun i => against g
        ⟨val, flow, nodes.filter (fun id => !hi id), nodes.filter hi⟩ i +
          (against_count g a i + against_count g b i)) := by
    apply List.map_congr_left
    intro i _
    rw [against_count_cons, against_count_append]
  rw [hfun, sum_map_add3, hs1, hsa, hsb]

theorem dev_left (x : Int) (k j L R : Nat) (hx0 : 0 ≤ x) (hLR : L < R) (hLk : L ≤ k)
    (hk : k ≤ (L + R) / 2)
    (ih : x ≤ (idxDist k (clampIdx j L ((L + R) / 2)) : Int) ∧
      (x = 0 ↔ k = clampIdx j L ((L + R) / 2))) :
    (if j > (L + R) / 2 then (1 : Int) else 0) + x ≤ (idxDist k (clampIdx j L R) : Int) ∧
      ((if j > (L + R) / 2 then (1 : Int) else 0) + x = 0 ↔ k = clampIdx j L R) := by
  have hm : (L + R) / 2 < R := by omega
  generalize (L + R) / 2 = mid at *
  simp only [idxDist, clampIdx, Nat.max_def, Nat.min_def] at ih ⊢
  split_ifs at ih ⊢ <;> omega

theorem dev_right (x : Int) (k j L R : Nat) (hx0 : 0 ≤ x) (hLR : L < R)
    (hk : (L + R) / 2 + 1 ≤ k) (hkR : k ≤ R)
    (ih : x ≤ (idxDist k (clampIdx j ((L + R) / 2 + 1) R) : Int) ∧
      (x = 0 ↔ k = clampIdx j ((L + R) / 2 + 1) R)) :
    (if j ≤ (L + R) / 2 then (1 : Int) else 0) + x ≤ (idxDist k (clampIdx j L R) : Int) ∧
      ((if j ≤ (L + R) / 2 then (1 : Int) else 0) + x = 0 ↔ k = clampIdx j L R) := by
  have hm : L ≤ (L + R) / 2 := by omega
  generalize (L + R) / 2 = mid at *
  simp only [idxDist, clampIdx, Nat.max_def, Nat.min_def] at ih ⊢
  split_ifs at ih ⊢ <;> omega

/-- The log of a splitting call satisfies `TracePost` when the logs of its two recursive
calls do. -/
theorem tracePost_step (g : Globals) (hg : g.Good) (nodes : List Nat) (L R : Nat)
    (hi : Nat → Bool) (st stL st1 : SolveState) (flow : Int) (a b : List SplitRec)
    (hLR : L < R) (hR : R < g.distinct_weights.length)
    (hflow : flow = mispricing g nodes (g.dw ((L + R) / 2)) hi)
    (post1 : SolvePost g (nodes.filter (fun id => !hi id)) L ((L + R) / 2) st stL)
    (post2 : SolvePost g (nodes.filter hi) ((L + R) / 2 + 1) R stL st1)
    (tpa : TracePost g (nodes.filter (fun id => !hi id)) L ((L + R) / 2) stL a)
    (tpb : TracePost g (nodes.filter hi) ((L + R) / 2 + 1) R st1 b) :
    TracePost g nodes L R st1
      (⟨g.dw ((L + R) / 2), flow, nodes.filter (fun id => !hi id), nodes.filter hi⟩ ::
        (a ++ b)) := by
  have hmid : (L + R) / 2 < g.distinct_weights.length := by omega
  refine ⟨?_, trace_total_step g nodes _ flow hi a b hflow tpa.ids tpb.ids tpa.total tpb.total,
    ?_⟩
  · intro r hr
    rcases List.mem_cons.1 hr with h | h
    · rw [h]
      exact ⟨fun i h1 => (List.mem_filter.1 h1).1, fun i h1 => (List.mem_filter.1 h1).1⟩
    · rcases List.mem_append.1 h with h | h
      · exact ⟨fun i h1 => (List.mem_filter.1 ((tpa.ids r h).1 i h1)).1,
          fun i h1 => (List.mem_filter.1 ((tpa.ids r h).2 i h1)).1⟩
      · exact ⟨fun i h1 => (List.mem_filter.1 ((tpb.ids r h).1 i h1)).1,
          fun i h1 => (List.mem_filter.1 ((tpb.ids r h).2 i h1)).1⟩
  · intro i hmem k j hLk hkR hfw hj hw
    rw [against_count_cons, against_count_append]
    cases hh : hi i with
    | false =>
      have hl : i ∈ nodes.filter (fun id => !hi id) := List.mem_filter.2 ⟨hmem, by simp [hh]⟩
      have hnr : i ∉ nodes.filter hi := filter_disjoint nodes hi i hl
      obtain ⟨k', a1, a2, a3⟩ := post1.range i hl
      have hfwL : stL.final_weights.getD i 0 = g.dw k := by
        rw [← post2.frame i hnr]; exact hfw
      have hkk : k = k' := dw_inj g hg k k' (by omega) (by omega) (by rw [← hfwL, a3])
      have ih := tpa.dev i hl k j hLk (by omega) hfwL hj hw
      have hcb : against_count g b i = 0 := against_count_eq_zero g b i (fun r hr =>
        ⟨fun h => hnr ((tpb.ids r hr).1 i h), fun h => hnr ((tpb.ids r hr).2 i h)⟩)
      have hag : against g ⟨g.dw ((L + R) / 2), flow, nodes.filter (fun id => !hi id),
          nodes.filter hi⟩ i = if j > (L + R) / 2 then 1 else 0 := by
        unfold against
        simp only
        apply if_congr _ rfl rfl
        rw [hw]
        constructor
        · rintro (⟨_, h⟩ | ⟨h, _⟩)
          · exact (dw_lt_iff g hg _ _ hmid hj).1 h
          · exact absurd h hnr
        · intro h
          exact Or.inl ⟨hl, (dw_lt_iff g hg _ _ hmid hj).2 h⟩
      rw [hcb, add_zero, hag]
      exact dev_left _ k j L R (against_count_nonneg g a i) hLR hLk (by omega) ih
    | true =>
      have hr : i ∈ nodes.filter hi := List.mem_filter.2 ⟨hmem, hh⟩
      have hnl : i ∉ nodes.filter (fun id => !hi id) :=
        fun h => filter_disjoint nodes hi i h hr
      obtain ⟨k', a1, a2, a3⟩ := post2.range i hr
      have hkk : k = k' := dw_inj g hg k k' (by omega) (by omega) (by rw [← hfw, a3])
      have ih := tpb.dev i hr k j (by omega) hkR hfw hj hw
      have hca : against_count g a i = 0 := against_count_eq_zero g a i (fun r hr' =>
        ⟨fun h => hnl ((tpa.ids r hr').1 i h), fun h => hnl ((tpa.ids r hr').2 i h)⟩)
      have hag : against g ⟨g.dw ((L + R) / 2), flow, nodes.filter (fun id => !hi id),
          nodes.filter hi⟩ i = if j ≤ (L + R) / 2 then 1 else 0 := by
        unfold against
        simp only
        apply if_congr _ rfl rfl
        rw [hw]
        constructor
        · rintro (⟨h, _⟩ | ⟨_, h⟩)
          · exact absurd h hnl
          · by_contra hc
            have := (dw_lt_iff g hg _ _ hmid hj).2 (by omega)
            omega
        · intro h
          refine Or.inr ⟨hr, ?_⟩
          exact dw_le g hg j _ h hmid
      rw [hca, zero_add, hag]
      exact dev_right _ k j L R (against_count_nonneg g b i) hLR (by omega) hkR ih

/-- The log of the split steps of every call of `solve` exists and satisfies
`TracePost` for the state in which the call ends. -/
theorem solve_trace (g : Globals) (hg : g.Good) :
    ∀ (n : Nat) (nodes : List Nat) (L R : Nat) (st st1 : SolveState) (F0 : Nat),
      R - L = n → nodes.Sublist (List.range g.all_edges.length) → L ≤ R →
      R < g.distinct_weights.length → st.final_weights.length = g.all_edges.length →
      (∀ fuel, F0 ≤ fuel → solve g fuel nodes (L : Int) (R : Int) st = some st1) →
      ∃ log F, (∀ fuel, F ≤ fuel → solve_splits g fuel nodes (L : Int) (R : Int) = some log) ∧
        TracePost g nodes L R st1 log := by
  intro n
  induction n using Nat.strong_induction_on with
  | _ n ih =>
    intro nodes L R st st1 F0 hn hsub hLR hR hst hsolve
    by_cases hne : nodes = []
    · subst hne
      refine ⟨[], 1, fun fuel hf => ?_, ⟨fun r hr => absurd hr (List.not_mem_nil _), rfl,
        fun i hi => absurd hi (List.not_mem_nil _)⟩⟩
      obtain ⟨f, rfl⟩ : ∃ f, fuel = f + 1 := ⟨fuel - 1, by omega⟩
      exact solve_splits_nil g f _ _
    · by_cases hEq : L = R
      · subst hEq
        refine ⟨[], 1, fun fuel hf => ?_, ⟨fun r hr => absurd hr (List.not_mem_nil _), ?_,
          fun i _ k j h1 h2 _ _ _ => ?_⟩⟩
        · obtain ⟨f, rfl⟩ : ∃ f, fuel = f + 1 := ⟨fuel - 1, by omega⟩
          simp only [solve_splits]
          rw [if_neg (by simpa using hne), if_pos trivial]
        · symm
          exact sum_map_eq_zero _ _ (fun _ _ => rfl)
        · have hk : k = L := by omega
          subst hk
          have hc : against_count g [] i = 0 := rfl
          have hcl : clampIdx j k k = k := by
            simp only [clampIdx, Nat.max_def, Nat.min_def]
            split_ifs <;> omega
          rw [hc, hcl]
          exact ⟨by simp [idxDist], by simp⟩
      · have hlt : L < R := by omega
        obtain ⟨flow, hi, stL, st1', F, hrun, _, hflow, _, post1, post2⟩ :=
          solve_decompose g hg nodes L R st hsub hne hlt hR hst
        have hst1 : st1' = st1 := by
          have h1 := (hrun (max F F0) (le_max_left _ _)).2.2.2
          rw [hsolve (max F F0) (le_max_right _ _)] at h1
          exact (Option.some.inj h1).symm
        subst hst1
        obtain ⟨a, Fa, ha, tpa⟩ := ih ((L + R) / 2 - L) (by omega)
          (nodes.filter (fun id => !hi id)) L ((L + R) / 2) st stL F rfl
          ((List.filter_sublist _).trans hsub) (by omega) (by omega) hst
          (fun fuel hf => (hrun fuel hf).2.1)
        obtain ⟨b, Fb, hb, tpb⟩ := ih (R - ((L + R) / 2 + 1)) (by omega)
          (nodes.filter hi) ((L + R) / 2 + 1) R stL st1' F rfl
          ((List.filter_sublist _).trans hsub) (by omega) hR (by rw [post1.len]; exact hst)
          (fun fuel hf => (hrun fuel hf).2.2.1)
        refine ⟨⟨g.dw ((L + R) / 2), flow, nodes.filter (fun id => !hi id), nodes.filter hi⟩ ::
          (a ++ b), max F (max Fa Fb) + 1, fun fuel hf => ?_,
          tracePost_step g hg nodes L R hi st stL st1' flow a b hlt hR hflow post1 post2
            tpa tpb⟩
        obtain ⟨f, rfl⟩ : ∃ f, fuel = f + 1 := ⟨fuel - 1, by omega⟩
        simp only [solve_splits]
        rw [if_neg (by simpa using hne), if_neg (by omega), tdiv_mid]
        simp only [Int.toNat_natCast]
        have hs := (hrun (f + 1) (by omega)).1
        unfold Globals.dw at hs
        rw [hs]
        simp only
        rw [ha f (by omega)]
        simp only
        have hc : (((L + R) / 2 : Nat) : Int) + 1 = (((L + R) / 2 + 1 : Nat) : Int) := by
          push_cast; rfl
        rw [hc, hb f (by omega)]
        rfl

/-! ## Mispriced split steps and the total cost -/

theorem run_solve (inp : Input) (g : Globals) (st : SolveState) (fuel : Nat)
    (h : run fuel inp = some (g, st)) :
    solve g fuel (List.range g.all_edges.length) 0 ((g.distinct_weights.length : Int) - 1)
      ⟨List.replicate g.all_edges.length 0, []⟩ = some st := by
  unfold run at h
  split at h
  · exact absurd h (by simp)
  · rename_i g' ts _
    simp only at h
    split at h
    · exact absurd h (by simp)
    · rename_i st' hs
      simp only [Option.some.injEq, Prod.mk.injEq] at h
      rw [← h.1, ← h.2]
      exact hs

theorem idxDist_le_abs (g : Globals) (hg : g.Good) (k j : Nat)
    (hk : k < g.distinct_weights.length) (hj : j < g.distinct_weights.length) :
    (idxDist k j : Int) ≤ |g.dw k - g.dw j| := by
  rcases le_total k j with h | h
  · have h1 := dw_gap g hg k (j - k) (by omega)
    rw [show k + (j - k) = j by omega] at h1
    have h2 : g.dw j - g.dw k ≤ |g.dw k - g.dw j| := by
      rw [abs_sub_comm]; exact le_abs_self _
    have h3 : idxDist k j = j - k := by
      simp only [idxDist, Nat.max_def, Nat.min_def]; split_ifs <;> omega
    rw [h3]
    omega
  · have h1 := dw_gap g hg j (k - j) (by omega)
    rw [show j + (k - j) = k by omega] at h1
    have h2 : g.dw k - g.dw j ≤ |g.dw k - g.dw j| := le_abs_self _
    have h3 : idxDist k j = k - j := by
      simp only [idxDist, Nat.max_def, Nat.min_def]; split_ifs <;> omega
    rw [h3]
    omega

/-- C17 (amended): for every well-formed instance `main` terminates, and for every edge
`i` the number of split steps (on the recursion path of `i`) that place it against its
preference is at most `|final_weights[i] - w_i|` and is zero exactly when
`final_weights[i] = w_i`; the per-split `max_flow` values of the whole recursion sum to
the number of such placements over all edges, hence to at most the total cost. -/
theorem mispriced_splits_bound (inp : Input) (wf : WellFormed inp) :
    ∃ g st log F,
      (∀ fuel, F ≤ fuel → run fuel inp = some (g, st) ∧
        solve_splits g fuel (List.range g.all_edges.length) 0
          ((g.distinct_weights.length : Int) - 1) = some log) ∧
      (∀ i, i < g.all_edges.length →
        against_count g log i ≤ |st.final_weights.getD i 0 - g.weight i| ∧
        (against_count g log i = 0 ↔ st.final_weights.getD i 0 = g.weight i)) ∧
      flow_total log = ((List.range g.all_edges.length).map (against_count g log)).sum ∧
      flow_total log ≤ total_cost g.all_edges st.final_weights := by
  obtain ⟨g, st, F, hrun, post⟩ := run_spec inp wf
  have hsize : g.all_edges.length < 2 ^ 31 := by
    rw [post.edges, read_edges_length]
    exact lt_trans wf.size (by norm_num)
  have hg : g.Good := good_of_make g post.weights hsize
  by_cases hM : g.all_edges.length = 0
  · refine ⟨g, st, [], max F 1, fun fuel hf => ⟨hrun fuel (le_trans (le_max_left _ _) hf), ?_⟩,
      fun i hi => absurd hi (by omega), by rw [hM]; rfl, ?_⟩
    · obtain ⟨f, rfl⟩ : ∃ f, fuel = f + 1 :=
        ⟨fuel - 1, by have := le_trans (le_max_right F 1) hf; omega⟩
      rw [hM]
      exact solve_splits_nil g f _ _
    · rw [total_cost_eq, hM]
      exact le_refl _
  · have hpos := distinct_weights_pos g post.weights (by omega)
    have hc : ((g.distinct_weights.length - 1 : Nat) : Int) =
        (g.distinct_weights.length : Int) - 1 := by omega
    obtain ⟨log, F2, hlog, tp⟩ := solve_trace g hg _ (List.range g.all_edges.length) 0
      (g.distinct_weights.length - 1) ⟨List.replicate g.all_edges.length 0, []⟩ st F rfl
      (List.Sublist.refl _) (Nat.zero_le _) (by omega) (by simp)
      (fun fuel hf => by
        have := run_solve inp g st fuel (hrun fuel hf)
        rw [hc]
        exact this)
    have hdev : ∀ i, i < g.all_edges.length →
        against_count g log i ≤ |st.final_weights.getD i 0 - g.weight i| ∧
        (against_count g log i = 0 ↔ st.final_weights.getD i 0 = g.weight i) := by
      intro i hi
      have hv := post.values i hi
      have hw := hg.weight_mem i hi
      have hk := List.indexOf_lt_length.2 hv
      have hj := List.indexOf_lt_length.2 hw
      have ek := dw_indexOf g _ hv
      have ej := dw_indexOf g _ hw
      obtain ⟨d1, d2⟩ := tp.dev i (List.mem_range.2 hi) _ _ (Nat.zero_le _) (by omega) ek.symm
        hj ej.symm
      have hcl : clampIdx (g.distinct_weights.indexOf (g.weight i)) 0
          (g.distinct_weights.length - 1) = g.distinct_weights.indexOf (g.weight i) := by
        simp only [clampIdx, Nat.max_def, Nat.min_def]
        split_ifs <;> omega
      rw [hcl] at d1 d2
      have hle := idxDist_le_abs g hg _ _ hk hj
      rw [ek, ej] at hle
      refine ⟨le_trans d1 hle, d2.trans ⟨fun h => ?_, fun h => ?_⟩⟩
      · rw [← ek, ← ej, h]
      · exact dw_inj g hg _ _ hk hj (by rw [ek, ej, h])
    refine ⟨g, st, log, max F F2, fun fuel hf => ⟨hrun fuel (le_trans (le_max_left _ _) hf), ?_⟩,
      hdev, tp.total, ?_⟩
    · have := hlog fuel (le_trans (le_max_right _ _) hf)
      rw [hc] at this
      exact this
    · rw [tp.total, total_cost_eq]
      unfold costFw
      apply List.sum_le_sum
      intro i hi
      exact (hdev i (List.mem_range.1 hi)).1

theorem mispriced_splits_bound_witness :
    WellFormed scenario ∧
    ∃ g st log F,
      (∀ fuel, F ≤ fuel → run fuel scenario = some (g, st) ∧
        solve_splits g fuel (List.range g.all_edges.length) 0
          ((g.distinct_weights.length : Int) - 1) = some log) ∧
      (∀ i, i < g.all_edges.length →
        against_count g log i ≤ |st.final_weights.getD i 0 - g.weight i| ∧
        (against_count g log i = 0 ↔ st.final_weights.getD i 0 = g.weight i)) ∧
      flow_total log = ((List.range g.all_edges.length).map (against_count g log)).sum ∧
      flow_total log ≤ total_cost g.all_edges st.final_weights :=
  ⟨wellFormed_scenario, mispriced_splits_bound scenario wellFormed_scenario⟩

end MstSolver
